import Mathlib

/-!
# LEX editor: undo/redo action history (`src/action.c`, `src/action.h`)

Shallow embedding of the action history of the editor.

* C `int` fields that are only copied (cursor coordinates, newline kind) are
  integers.  The `dirty` counter (declared in `editor.h`, which is not part of the
  sources) is an unbounded signed integer: it is not clamped and its width is not
  modelled.
* Pointers to `EditorActionList` nodes are `Option Nat`: `none` is `NULL`, `some a`
  is the address `a` of a cell of the node store `mem`.  A cell is `none` when it
  is not allocated (never allocated, or freed).
* A node owns its `EditorAction` (`node->action` is the only pointer to it), so the
  pointee is stored in the node by value; `none` is a `NULL` action pointer.
* Dereferencing `NULL`, a dangling pointer or a `NULL` action is undefined
  behaviour in C; the embedded functions return `none` there.
* `editorDeleteText` and `editorPasteText` (`select.c`) and the row storage they
  act on are not part of the sources: they are parameters (`Primitives`).
-/

namespace LEX

/-- The `EditorCursor` struct of `action.h`. -/
structure EditorCursor where
  x : Int
  y : Int
  is_selected : Bool
  select_x : Int
  select_y : Int
deriving DecidableEq, Repr

/-- The `EditorSelectRange` struct (declared in `select.h`): the fields that
`action.c` and `output.c` read. -/
structure EditorSelectRange where
  start_x : Int
  start_y : Int
  end_x : Int
  end_y : Int
deriving DecidableEq, Repr

/-- The `EditorClipboard` struct (declared in `select.h`): an owned copy of some
lines of text, each line a sequence of bytes.  `action.c` only passes it on. -/
structure EditorClipboard where
  lines : List (List Nat)
deriving DecidableEq, Repr

/-- The `EditAction` struct of `action.h`. -/
structure EditAction where
  deleted_range : EditorSelectRange
  deleted_text : EditorClipboard
  added_range : EditorSelectRange
  added_text : EditorClipboard
  old_cursor : EditorCursor
  new_cursor : EditorCursor
deriving DecidableEq, Repr

/-- The `AttributeAction` struct of `action.h`. -/
structure AttributeAction where
  old_newline : Int
  new_newline : Int
deriving DecidableEq, Repr

/-- The `EditorAction` tagged union of `action.h`: `ACTION_EDIT` with the `edit`
member, `ACTION_ATTRI` with the `attri` member. -/
inductive EditorAction where
  | edit (e : EditAction)
  | attri (t : AttributeAction)
deriving DecidableEq, Repr

/-- The `EditorActionList` node of `action.h`. -/
structure EditorActionList where
  prev : Option Nat
  next : Option Nat
  action : Option EditorAction
deriving DecidableEq, Repr

/-- The node store: cell `a` holds the node at address `a`, if allocated. -/
abbrev Heap := List (Option EditorActionList)

/-- The document mutation primitives of `select.c`, acting on the row storage `D`:
`editorDeleteText(range)` and `editorPasteText(&clipboard, x, y)`. -/
structure Primitives (D : Type) where
  editorDeleteText : EditorSelectRange → D → D
  editorPasteText : EditorClipboard → Int → Int → D → D

/-- The fields of the current file (`gCurFile`) that `action.c` reads or writes,
together with the node store. -/
structure EditorFile (D : Type) where
  row : D
  cursor : EditorCursor
  newline : Int
  dirty : Int
  action_head : Option Nat
  action_current : Option Nat
  mem : Heap
deriving DecidableEq

/-- Read through a node pointer: `*p`. -/
def load (mem : Heap) (p : Option Nat) : Option EditorActionList :=
  match p with
  | none => none
  | some a => (mem[a]?).join

/-- Write a field through a node pointer: `*p = g (*p)`. -/
def update (mem : Heap) (p : Option Nat) (g : EditorActionList → EditorActionList) :
    Option Heap :=
  match p with
  | none => none
  | some a =>
    match (mem[a]?).join with
    | none => none
    | some n => some (mem.set a (some (g n)))

/-- `malloc_s(sizeof(EditorActionList))`: a cell that was not allocated before. -/
def malloc_s (mem : Heap) : Heap × Nat :=
  (mem ++ [some { prev := none, next := none, action := none }], mem.length)

/-- `free(temp)` for a node at address `a`. -/
def free (mem : Heap) (a : Nat) : Heap :=
  mem.set a none

/-- `editorFreeAction` releases the clipboards and the action of a node; with the
action stored by value in its node this leaves the node store as it is. -/
def editorFreeAction (mem : Heap) (_action : Option EditorAction) : Heap :=
  mem

/-- The loop of `editorFreeActionList`; `fuel` bounds the number of iterations. -/
def editorFreeActionList : Nat → Heap → Option Nat → Option Heap
  | _, mem, none => some mem
  | 0, _, some _ => none
  | fuel + 1, mem, some a =>
    match load mem (some a) with
    | none => none
    | some temp => editorFreeActionList fuel (free (editorFreeAction mem temp.action) a) temp.next

/-- The function `editorUndo` of `action.c`. -/
def editorUndo {D : Type} (P : Primitives D) (f : EditorFile D) :
    Option (Bool × EditorFile D) :=
  if f.action_current = f.action_head then some (false, f)
  else
    match load f.mem f.action_current with
    | none => none
    | some cur =>
      match cur.action with
      | none => none
      | some (EditorAction.edit edit) =>
        some (true,
          { f with
            row := P.editorPasteText edit.deleted_text edit.deleted_range.start_x
                     edit.deleted_range.start_y (P.editorDeleteText edit.added_range f.row)
            cursor := edit.old_cursor
            action_current := cur.prev
            dirty := f.dirty - 1 })
      | some (EditorAction.attri attri) =>
        some (true,
          { f with
            newline := attri.old_newline
            action_current := cur.prev
            dirty := f.dirty - 1 })

/-- The function `editorRedo` of `action.c`. -/
def editorRedo {D : Type} (P : Primitives D) (f : EditorFile D) :
    Option (Bool × EditorFile D) :=
  match load f.mem f.action_current with
  | none => none
  | some cur =>
    match cur.next with
    | none => some (false, f)
    | some nx =>
      match load f.mem (some nx) with
      | none => none
      | some node =>
        match node.action with
        | none => none
        | some (EditorAction.edit edit) =>
          some (true,
            { f with
              action_current := some nx
              row := P.editorPasteText edit.added_text edit.added_range.start_x
                       edit.added_range.start_y (P.editorDeleteText edit.deleted_range f.row)
              cursor := edit.new_cursor
              dirty := f.dirty + 1 })
        | some (EditorAction.attri attri) =>
          some (true,
            { f with
              action_current := some nx
              newline := attri.new_newline
              dirty := f.dirty + 1 })

/-- The function `editorAppendAction` of `action.c`; `action = none` is the `NULL`
argument. -/
def editorAppendAction {D : Type} (f : EditorFile D) (action : Option EditorAction) :
    Option (EditorFile D) :=
  match action with
  | none => some f
  | some a =>
    let node := (malloc_s f.mem).2
    match update (malloc_s f.mem).1 (some node)
        (fun n => { n with action := some a, next := none }) with
    | none => none
    | some mem1 =>
      match load mem1 f.action_current with
      | none => none
      | some cur =>
        match editorFreeActionList mem1.length mem1 cur.next with
        | none => none
        | some mem2 =>
          if f.action_current = f.action_head then
            match update mem2 f.action_head (fun n => { n with next := some node }) with
            | none => none
            | some mem3 =>
              match update mem3 (some node) (fun n => { n with prev := f.action_head }) with
              | none => none
              | some mem4 =>
                some { f with dirty := f.dirty + 1, mem := mem4, action_current := some node }
          else
            match update mem2 (some node) (fun n => { n with prev := f.action_current }) with
            | none => none
            | some mem3 =>
              match update mem3 f.action_current (fun n => { n with next := some node }) with
              | none => none
              | some mem4 =>
                match load mem4 f.action_current with
                | none => none
                | some cur4 =>
                  some { f with dirty := f.dirty + 1, mem := mem4, action_current := cur4.next }

/-! ## Well-formed histories -/

/-- `Seg mem prev p cs q`: following `next` from the pointer `p` visits exactly the
nodes `cs` (address and action pointer of each), in order, and the last `next` is
`q`; the `prev` of each node is the address of the node before it (`prev` for the
first one). -/
def Seg (mem : Heap) : Option Nat → Option Nat → List (Nat × Option EditorAction) →
    Option Nat → Prop
  | _, p, [], q => p = q
  | prev, p, c :: cs, q =>
    p = some c.1 ∧
      match load mem (some c.1) with
      | none => False
      | some n => n.prev = prev ∧ n.action = c.2 ∧ Seg mem (some c.1) n.next cs q

/-- The cells of a history: the sentinel at address `hd`, holding no action, then
the real nodes `nodes` (address and action of each). -/
def cells (hd : Nat) (nodes : List (Nat × EditorAction)) : List (Nat × Option EditorAction) :=
  (hd, none) :: nodes.map (fun c => (c.1, some c.2))

/-- `History f hd nodes k`: the history of `f` is a well-formed doubly linked
sequence.  It starts at the sentinel `hd = action_head`, which holds no action and
has no predecessor, continues with the real nodes `nodes`, each holding an action,
and ends with a `NULL` successor; `next` and `prev` are inverse to each other along
it; `action_current` is the node at position `k` (position 0 is the sentinel), so
the nodes after position `k` are the redo tail. -/
structure History {D : Type} (f : EditorFile D) (hd : Nat) (nodes : List (Nat × EditorAction))
    (k : Nat) : Prop where
  head_eq : f.action_head = some hd
  seg : Seg f.mem none (some hd) (cells hd nodes) none
  current_le : k ≤ nodes.length
  current_eq : f.action_current = ((cells hd nodes)[k]?).map Prod.fst

instance instDecidableSeg (mem : Heap) :
    ∀ (prev p : Option Nat) (cs : List (Nat × Option EditorAction)) (q : Option Nat),
      Decidable (Seg mem prev p cs q)
  | _, p, [], q => by unfold Seg; infer_instance
  | prev, p, c :: cs, q => by
    unfold Seg
    cases h : load mem (some c.1) with
    | none => simp only []; infer_instance
    | some n =>
      simp only []
      have := instDecidableSeg mem (some c.1) n.next cs q
      infer_instance

instance instDecidableHistory {D : Type} (f : EditorFile D) (hd : Nat)
    (nodes : List (Nat × EditorAction)) (k : Nat) : Decidable (History f hd nodes k) :=
  decidable_of_iff
    (f.action_head = some hd ∧ Seg f.mem none (some hd) (cells hd nodes) none ∧
      k ≤ nodes.length ∧ f.action_current = ((cells hd nodes)[k]?).map Prod.fst)
    ⟨fun h => ⟨h.1, h.2.1, h.2.2.1, h.2.2.2⟩, fun h => ⟨h.1, h.2, h.3, h.4⟩⟩

/-- The address of the last node of a segment (`prev` for the empty segment). -/
def lastPtr (prev : Option Nat) (cs : List (Nat × Option EditorAction)) : Option Nat :=
  match cs.getLast? with
  | none => prev
  | some c => some c.1

/-- The pointer to the node at position `i` of a list of cells. -/
def ptrAt (cs : List (Nat × Option EditorAction)) (i : Nat) : Option Nat :=
  (cs[i]?).map Prod.fst

/-! ## A concrete instance, used to evaluate the functions -/

/-- A one-row document store: `editorDeleteText` removes the columns
`start_x .. end_x - 1`, `editorPasteText` inserts the first clipboard line at
column `x`. -/
def rowPrimitives : Primitives (List Nat) where
  editorDeleteText := fun r d =>
    d.take r.start_x.toNat ++ d.drop r.end_x.toNat
  editorPasteText := fun c x _ d =>
    d.take x.toNat ++ c.lines.headD [] ++ d.drop x.toNat

/-- A cursor at column `x` of row 0 without selection. -/
def cursorAt (x : Int) : EditorCursor :=
  { x := x, y := 0, is_selected := false, select_x := 0, select_y := 0 }

/-- The edit that replaces columns `1 .. 2` (`[20, 30]`) of `[10, 20, 30, 40]` with
`[7, 8, 9]`. -/
def sampleEdit : EditAction where
  deleted_range := { start_x := 1, start_y := 0, end_x := 3, end_y := 0 }
  deleted_text := { lines := [[20, 30]] }
  added_range := { start_x := 1, start_y := 0, end_x := 4, end_y := 0 }
  added_text := { lines := [[7, 8, 9]] }
  old_cursor := cursorAt 3
  new_cursor := cursorAt 4

/-- The attribute change from newline kind 0 to newline kind 1. -/
def sampleAttri : AttributeAction where
  old_newline := 0
  new_newline := 1

/-- A file with an empty history: only the sentinel, at address 0. -/
def emptyFile : EditorFile (List Nat) where
  row := [10, 20, 30, 40]
  cursor := cursorAt 3
  newline := 0
  dirty := 0
  action_head := some 0
  action_current := some 0
  mem := [some { prev := none, next := none, action := none }]

/-! ## Specification vocabulary -/

/-- What the `switch` of `editorUndo` does to the document for the action `a`:
an edit has its added range deleted, its deleted text pasted back and the old
cursor restored; an attribute change has the old newline kind restored. -/
def revert {D : Type} (P : Primitives D) (a : EditorAction) (f : EditorFile D) :
    EditorFile D :=
  match a with
  | EditorAction.edit e =>
    { f with
      row := P.editorPasteText e.deleted_text e.deleted_range.start_x e.deleted_range.start_y
               (P.editorDeleteText e.added_range f.row)
      cursor := e.old_cursor }
  | EditorAction.attri t => { f with newline := t.old_newline }

/-- What the `switch` of `editorRedo` does to the document for the action `a`. -/
def replay {D : Type} (P : Primitives D) (a : EditorAction) (f : EditorFile D) :
    EditorFile D :=
  match a with
  | EditorAction.edit e =>
    { f with
      row := P.editorPasteText e.added_text e.added_range.start_x e.added_range.start_y
               (P.editorDeleteText e.deleted_range f.row)
      cursor := e.new_cursor }
  | EditorAction.attri t => { f with newline := t.new_newline }

/-- A caller that issues `n` successive `editorUndo` calls and collects the
returned values. -/
def undoTimes {D : Type} (P : Primitives D) : Nat → EditorFile D →
    Option (List Bool × EditorFile D)
  | 0, f => some ([], f)
  | n + 1, f =>
    match editorUndo P f with
    | none => none
    | some (b, f1) =>
      match undoTimes P n f1 with
      | none => none
      | some (bs, f2) => some (b :: bs, f2)

/-- The node store after `free` of the cells at the addresses `as`, in order. -/
def freeAll (mem : Heap) (as : List Nat) : Heap :=
  as.foldl free mem

/-- The row storage after the edit `e` is carried out on `pre` with the primitives:
`deleted_range` is deleted and `added_text` is pasted at the start of
`added_range`. -/
def editedRow {D : Type} (P : Primitives D) (e : EditAction) (pre : D) : D :=
  P.editorPasteText e.added_text e.added_range.start_x e.added_range.start_y
    (P.editorDeleteText e.deleted_range pre)

/-- The primitives are exact inverses for the record `e` on the content `pre`:
pasting `deleted_text` at the start of `deleted_range` undoes the deletion of
`deleted_range` from `pre`, and deleting `added_range` undoes the paste of
`added_text` at the start of `added_range`. -/
def ExactInverse {D : Type} (P : Primitives D) (e : EditAction) (pre : D) : Prop :=
  P.editorPasteText e.deleted_text e.deleted_range.start_x e.deleted_range.start_y
      (P.editorDeleteText e.deleted_range pre) = pre ∧
    P.editorDeleteText e.added_range (editedRow P e pre) = P.editorDeleteText e.deleted_range pre

/-- The file `f` is in the post-action state of `a`: for an edit, the cursor is
`new_cursor` and the content is the edit carried out on some content on which the
primitives are exact inverses; for an attribute change, the newline kind is
`new_newline`. -/
def PostState {D : Type} (P : Primitives D) (a : EditorAction) (f : EditorFile D) : Prop :=
  match a with
  | EditorAction.edit e =>
    f.cursor = e.new_cursor ∧ ∃ pre, ExactInverse P e pre ∧ f.row = editedRow P e pre
  | EditorAction.attri t => f.newline = t.new_newline

/-- The action `a` is applied to the document of `f`, giving `g`, and is a faithful
record of that step.  An edit records the cursor of `f` as `old_cursor`, the
primitives are exact inverses for it on the content of `f`, the content of `g` is
the edit carried out on the content of `f`, and the newline kind is kept.  An
attribute change records the newline kind of `f` as `old_newline` and keeps content
and cursor.  The history and `dirty` are those of `f`. -/
def Applied {D : Type} (P : Primitives D) (a : EditorAction) (f g : EditorFile D) : Prop :=
  g.mem = f.mem ∧ g.action_head = f.action_head ∧ g.action_current = f.action_current ∧
    g.dirty = f.dirty ∧
    match a with
    | EditorAction.edit e =>
      e.old_cursor = f.cursor ∧ g.newline = f.newline ∧ ExactInverse P e f.row ∧
        g.row = editedRow P e f.row
    | EditorAction.attri t =>
      t.old_newline = f.newline ∧ g.row = f.row ∧ g.cursor = f.cursor

/-- An editing session from `f` to `fN`: for each step `(a, g)` in turn, the
action `a` is applied to the document, giving `g`, and then appended with
`editorAppendAction`. -/
def Edited {D : Type} (P : Primitives D) :
    EditorFile D → List (EditorAction × EditorFile D) → EditorFile D → Prop
  | f, [], fN => fN = f
  | f, s :: steps, fN =>
    Applied P s.1 f s.2 ∧
      match editorAppendAction s.2 (some s.1) with
      | none => False
      | some f1 => Edited P f1 steps fN

instance instDecidableExactInverse {D : Type} [DecidableEq D] (P : Primitives D)
    (e : EditAction) (pre : D) : Decidable (ExactInverse P e pre) := by
  unfold ExactInverse; infer_instance

instance instDecidableApplied {D : Type} [DecidableEq D] (P : Primitives D)
    (a : EditorAction) (f g : EditorFile D) : Decidable (Applied P a f g) := by
  unfold Applied
  cases a <;> simp only [] <;> infer_instance

instance instDecidableEdited {D : Type} [DecidableEq D] (P : Primitives D) :
    ∀ (f : EditorFile D) (steps : List (EditorAction × EditorFile D)) (fN : EditorFile D),
      Decidable (Edited P f steps fN)
  | f, [], fN => by unfold Edited; infer_instance
  | f, s :: steps, fN => by
    unfold Edited
    cases h : editorAppendAction s.2 (some s.1) with
    | none => simp only []; infer_instance
    | some f1 =>
      simp only []
      have := instDecidableEdited P f1 steps fN
      infer_instance

/-- A file in the post-action state of `sampleEdit`: the sentinel at address 0, the
node of `sampleEdit` at address 1 (the current node) and a redo tail of one node,
holding `sampleAttri`, at address 2. -/
def sampleFile : EditorFile (List Nat) where
  row := [10, 7, 8, 9, 40]
  cursor := cursorAt 4
  newline := 0
  dirty := 1
  action_head := some 0
  action_current := some 1
  mem := [some { prev := none, next := some 1, action := none },
          some { prev := some 0, next := some 2, action := some (EditorAction.edit sampleEdit) },
          some { prev := some 1, next := none, action := some (EditorAction.attri sampleAttri) }]

/-- The real nodes of `sampleFile`. -/
def sampleNodes : List (Nat × EditorAction) :=
  [(1, EditorAction.edit sampleEdit), (2, EditorAction.attri sampleAttri)]

/-- The file `sampleFile` after a redo: the current node is the last one, holding
`sampleAttri`. -/
def sampleFileLast : EditorFile (List Nat) :=
  { sampleFile with newline := 1, dirty := 2, action_current := some 2 }

/-- The file `sampleFile` after an undo: `current` is the sentinel and both nodes
are in the redo tail. -/
def sampleFileFirst : EditorFile (List Nat) :=
  { sampleFile with
    row := [10, 20, 30, 40], cursor := cursorAt 3, dirty := 0, action_current := some 0 }

/-- An editing session of two steps from `emptyFile` to `sampleFileLast`:
`sampleEdit` is carried out and appended, then `sampleAttri`. -/
def sampleSteps : List (EditorAction × EditorFile (List Nat)) :=
  [(EditorAction.edit sampleEdit,
      { emptyFile with row := [10, 7, 8, 9, 40], cursor := cursorAt 4 }),
   (EditorAction.attri sampleAttri,
      { row := [10, 7, 8, 9, 40]
        cursor := cursorAt 4
        newline := 1
        dirty := 1
        action_head := some 0
        action_current := some 1
        mem := [some { prev := none, next := some 1, action := none },
                some { prev := some 0, next := none,
                       action := some (EditorAction.edit sampleEdit) }] })]

/-- One call into the action history: `editorAppendAction(action)` (with `none` for
a `NULL` action), `editorUndo()` or `editorRedo()`. -/
inductive HistoryOp where
  | append (action : Option EditorAction)
  | undo
  | redo
deriving DecidableEq, Repr

/-- The call `op` on the file `f`: the returned value and the file afterwards.
`editorAppendAction` returns nothing; `true` stands for its return. -/
def runOp {D : Type} (P : Primitives D) (op : HistoryOp) (f : EditorFile D) :
    Option (Bool × EditorFile D) :=
  match op with
  | HistoryOp.append action =>
    match editorAppendAction f action with
    | none => none
    | some f2 => some (true, f2)
  | HistoryOp.undo => editorUndo P f
  | HistoryOp.redo => editorRedo P f

/-- A caller that issues the calls `ops` in turn and collects the returned values. -/
def runOps {D : Type} (P : Primitives D) : List HistoryOp → EditorFile D →
    Option (List Bool × EditorFile D)
  | [], f => some ([], f)
  | op :: ops, f =>
    match runOp P op f with
    | none => none
    | some (b, f1) =>
      match runOps P ops f1 with
      | none => none
      | some (bs, f2) => some (b :: bs, f2)

/-- The change of `dirty` that the dirty counter invariant assigns to a call with
returned value `b`: `+1` for an append of a non-null action and for a successful
redo, `-1` for a successful undo, `0` otherwise. -/
def dirtyDelta (op : HistoryOp) (b : Bool) : Int :=
  match op with
  | HistoryOp.append (some _) => 1
  | HistoryOp.append none => 0
  | HistoryOp.undo => if b then -1 else 0
  | HistoryOp.redo => if b then 1 else 0

/-- The sum of the changes of `dirty` assigned to a sequence of calls and their
returned values. -/
def dirtyDeltas : List HistoryOp → List Bool → Int
  | op :: ops, b :: bs => dirtyDelta op b + dirtyDeltas ops bs
  | _, _ => 0

/-- The links of a doubly linked sequence with sentinel `hd`, real nodes `nodes` and
`current` at position `k`, spelled out: `current` is one of the nodes; the node at
position `i` holds no action exactly when `i = 0`; only the sentinel has a `NULL`
`prev` and only the last node a `NULL` `next`; the `next` of a node is the node one
position later, whose `prev` points back; the `prev` of a node is the node one
position earlier, whose `next` points back. -/
def Linked {D : Type} (f : EditorFile D) (hd : Nat) (nodes : List (Nat × EditorAction))
    (k : Nat) : Prop :=
  (∃ c, (cells hd nodes)[k]? = some c ∧ f.action_current = some c.1) ∧
  ∀ i c, (cells hd nodes)[i]? = some c →
    ∃ n, load f.mem (some c.1) = some n ∧ (n.action = none ↔ i = 0) ∧
      (n.prev = none ↔ i = 0) ∧ (n.next = none ↔ i = nodes.length) ∧
      (∀ b, n.next = some b →
        ∃ m, load f.mem (some b) = some m ∧ m.prev = some c.1 ∧
          ptrAt (cells hd nodes) (i + 1) = some b) ∧
      (∀ b, n.prev = some b →
        ∃ m, load f.mem (some b) = some m ∧ m.next = some c.1 ∧
          ptrAt (cells hd nodes) (i - 1) = some b)

/-- A sequence of calls on `sampleFile`: undo, a failed undo, redo, redo, a failed
redo, undo, an append and a null append. -/
def sampleOps : List HistoryOp :=
  [HistoryOp.undo, HistoryOp.undo, HistoryOp.redo, HistoryOp.redo, HistoryOp.redo,
   HistoryOp.undo, HistoryOp.append (some (EditorAction.attri sampleAttri)),
   HistoryOp.append none]

/-! # Syntax highlighting (`src/highlight.c`, `src/highlight.h`)

Shallow embedding of the highlight engine and of the selection of a rule.

* Text is a list of bytes; a C string is the list of its bytes before the
  terminating NUL, so `strlen` is the length of the list.
* A row is its `data` (`size` is the length of `data`), its class array `hl` and
  `hl_open_comment`.  A `NULL` class array is the empty list.
* Writes to the class array are checked: a write outside the array is undefined
  behaviour in C and gives `none` here (`Flow.fault` inside the scan loop).  Reads
  of the text go through `data[i]?`; a read outside the text that the code does not
  guard gives `none` as well.
* `isSeparator`, `isSpace`, `isNonIdentifierChar`, `strCaseCmp`, `strCaseStr`
  (`utils.c`) and the configuration variable `syntax` (`config.c`) are not part of
  the sources: they are parameters (`Externals`).
* The rule database `gEditor.HLDB`, a singly linked list that is only ever extended
  at its front, is the list of its rules in link order.
-/

namespace Highlight

/-- The macro `HL_FG_MASK` of `highlight.h`. -/
def HL_FG_MASK : Nat := 0x0F

/-- The macro `HL_BG_MASK` of `highlight.h`. -/
def HL_BG_MASK : Nat := 0xF0

/-- The macro `HL_FG_BITS` of `highlight.h`. -/
def HL_FG_BITS : Nat := 4

/-- The macro `HL_HIGHLIGHT_NUMBERS` of `highlight.h`. -/
def HL_HIGHLIGHT_NUMBERS : Nat := 1 <<< 0

/-- The macro `HL_HIGHLIGHT_STRINGS` of `highlight.h`. -/
def HL_HIGHLIGHT_STRINGS : Nat := 1 <<< 1

/-- The enumerator `HL_NORMAL` of `enum EditorHighlightFg`. -/
def HL_NORMAL : Nat := 0

/-- The enumerator `HL_COMMENT` of `enum EditorHighlightFg`. -/
def HL_COMMENT : Nat := 1

/-- The enumerator `HL_KEYWORD1` of `enum EditorHighlightFg`. -/
def HL_KEYWORD1 : Nat := 2

/-- The enumerator `HL_KEYWORD2` of `enum EditorHighlightFg`. -/
def HL_KEYWORD2 : Nat := 3

/-- The enumerator `HL_KEYWORD3` of `enum EditorHighlightFg`. -/
def HL_KEYWORD3 : Nat := 4

/-- The enumerator `HL_STRING` of `enum EditorHighlightFg`. -/
def HL_STRING : Nat := 5

/-- The enumerator `HL_NUMBER` of `enum EditorHighlightFg`. -/
def HL_NUMBER : Nat := 6

/-- The enumerator `HL_SPACE` of `enum EditorHighlightFg`. -/
def HL_SPACE : Nat := 7

/-- The enumerator `HL_BG_NORMAL` of `enum EditorHighlightBg`. -/
def HL_BG_NORMAL : Nat := 0

/-- The enumerator `HL_BG_MATCH` of `enum EditorHighlightBg`. -/
def HL_BG_MATCH : Nat := 1

/-- The enumerator `HL_BG_SELECT` of `enum EditorHighlightBg`. -/
def HL_BG_SELECT : Nat := 2

/-- The enumerator `HL_BG_TRAILING` of `enum EditorHighlightBg`. -/
def HL_BG_TRAILING : Nat := 3

/-- The `EditorSyntax` struct of `highlight.h` without its `next` link and its JSON
value.  `keywords` is the array `keywords[3]`: the code reads the entries 0, 1, 2,
and a missing entry is an empty vector. -/
structure EditorSyntax where
  file_type : Option (List Nat)
  singleline_comment_start : Option (List Nat)
  multiline_comment_start : Option (List Nat)
  multiline_comment_end : Option (List Nat)
  file_exts : List (List Nat)
  keywords : List (List (List Nat))
  flags : Nat
deriving DecidableEq, Repr

/-- The fields of the `EditorRow` struct (declared in `row.h`) that `highlight.c`
reads or writes; `size` is `data.length`. -/
structure EditorRow where
  data : List Nat
  hl : List Nat
  hl_open_comment : Bool
deriving DecidableEq, Repr

/-- The fields of the `EditorFile` struct that `highlight.c` reads or writes;
`num_rows` is `row.length`, `syntaxDef` is the field `syntax`. -/
structure EditorFile where
  filename : Option (List Nat)
  row : List EditorRow
  syntaxDef : Option EditorSyntax
deriving DecidableEq, Repr

/-- What `highlight.c` takes from `utils.c` and `config.c`: the character classes,
the case-insensitive string functions (`strCaseCmp` returns 0 for equal strings,
`strCaseStr` returns a non-null pointer, here `true`, when it finds the pattern) and
the value of `CONVAR_GETINT(syntax)`. -/
structure Externals where
  isSeparator : Nat → Bool
  isSpace : Nat → Bool
  isNonIdentifierChar : Nat → Bool
  strCaseCmp : List Nat → List Nat → Int
  strCaseStr : List Nat → List Nat → Bool
  syntax_convar : Int

/-- The call `memset(&hl[start], v, len)`; `none` when it leaves the array. -/
def memset (hl : List Nat) (start v len : Nat) : Option (List Nat) :=
  if start + len ≤ hl.length then
    some (hl.take start ++ List.replicate len v ++ hl.drop (start + len))
  else none

/-- The comparison `strncmp(&data[i], tok, strlen(tok)) == 0`. -/
def strncmpEq (data : List Nat) (i : Nat) (tok : List Nat) : Bool :=
  (data.drop i).take tok.length == tok

/-- The length `x ? strlen(x) : 0` of an optional comment token. -/
def tokLen (tok : Option (List Nat)) : Nat :=
  match tok with
  | none => 0
  | some t => t.length

/-- The test `i + len <= row->size && strncmp(&row->data[i], tok, len) == 0` for an
optional comment token of length `len`. -/
def tokAt (data : List Nat) (i : Nat) (tok : Option (List Nat)) : Bool :=
  match tok with
  | none => false
  | some t => decide (i + t.length ≤ data.length) && strncmpEq data i t

/-- The test `isdigit((uint8_t) c)`. -/
def isdigit (c : Nat) : Bool :=
  decide (48 ≤ c) && decide (c ≤ 57)

/-- The test of the hexadecimal loop: a digit, `a`..`f` or `A`..`F`. -/
def isHexChar (c : Nat) : Bool :=
  isdigit c || (decide (97 ≤ c) && decide (c ≤ 102)) || (decide (65 ≤ c) && decide (c ≤ 70))

/-- The test of the octal loop: `0`..`7`. -/
def isOctChar (c : Nat) : Bool :=
  decide (48 ≤ c) && decide (c ≤ 55)

/-- The loop `while (i < row->size && p(row->data[i])) i++`: the value of `i` after
it. -/
def scanWhile (p : Nat → Bool) (data : List Nat) (i : Nat) : Nat :=
  i + ((data.drop i).takeWhile p).length

/-- The local state of the scan loop of `editorUpdateSyntax`.  `in_string` is 0
outside a string and the opening quote inside one. -/
structure ScanState where
  i : Nat
  prev_sep : Bool
  in_string : Nat
  in_comment : Bool
  hl : List Nat
deriving DecidableEq, Repr

/-- How a part of the loop body ends: `next` is `continue` (or the end of the body)
with the new state, `stop` is `break`, `pass` falls through to the next part of the
body, `fault` is undefined behaviour. -/
inductive Flow where
  | next (st : ScanState)
  | stop (st : ScanState)
  | pass
  | fault
deriving DecidableEq, Repr

/-- The part "Handle single-line comments" of the loop body. -/
def lineComment (s : EditorSyntax) (data : List Nat) (st : ScanState) : Flow :=
  if tokLen s.singleline_comment_start ≠ 0 ∧ st.in_string = 0 ∧ st.in_comment = false then
    if tokAt data st.i s.singleline_comment_start then
      match memset st.hl st.i HL_COMMENT (data.length - st.i) with
      | none => Flow.fault
      | some hl => Flow.stop { st with hl := hl }
    else Flow.pass
  else Flow.pass

/-- The part "Handle multi-line comments" of the loop body. -/
def blockComment (s : EditorSyntax) (data : List Nat) (st : ScanState) : Flow :=
  if tokLen s.multiline_comment_start ≠ 0 ∧ tokLen s.multiline_comment_end ≠ 0 ∧
      st.in_string = 0 then
    if st.in_comment then
      match memset st.hl st.i HL_COMMENT 1 with
      | none => Flow.fault
      | some hl1 =>
        if tokAt data st.i s.multiline_comment_end then
          match memset hl1 st.i HL_COMMENT (tokLen s.multiline_comment_end) with
          | none => Flow.fault
          | some hl2 =>
            Flow.next
              { st with
                hl := hl2
                i := st.i + tokLen s.multiline_comment_end + 1
                in_comment := false
                prev_sep := true }
        else Flow.next { st with hl := hl1, i := st.i + 1 }
    else if tokAt data st.i s.multiline_comment_start then
      match memset st.hl st.i HL_COMMENT (tokLen s.multiline_comment_start) with
      | none => Flow.fault
      | some hl =>
        Flow.next
          { st with hl := hl, i := st.i + tokLen s.multiline_comment_start, in_comment := true }
    else Flow.pass
  else Flow.pass

/-- The part "Handle string literals" of the loop body; `c` is `row->data[i]`. -/
def stringLiteral (s : EditorSyntax) (data : List Nat) (st : ScanState) (c : Nat) : Flow :=
  if s.flags &&& HL_HIGHLIGHT_STRINGS ≠ 0 then
    if st.in_string ≠ 0 then
      match memset st.hl st.i HL_STRING 1 with
      | none => Flow.fault
      | some hl1 =>
        if c = 92 ∧ st.i + 1 < data.length then
          match memset hl1 (st.i + 1) HL_STRING 1 with
          | none => Flow.fault
          | some hl2 => Flow.next { st with hl := hl2, i := st.i + 2 }
        else
          Flow.next
            { st with
              hl := hl1
              in_string := if c = st.in_string then 0 else st.in_string
              i := st.i + 1
              prev_sep := true }
    else if c = 34 ∨ c = 39 then
      match memset st.hl st.i HL_STRING 1 with
      | none => Flow.fault
      | some hl => Flow.next { st with in_string := c, hl := hl, i := st.i + 1 }
    else Flow.pass
  else Flow.pass

/-- The value of `i` after the digits of a number that starts at `start` with the
character `c` (the part from `i++` to the end of the `if (c == '0') ... else ...`
statement). -/
def numberEnd (data : List Nat) (start : Nat) (c : Nat) : Nat :=
  if c = 48 then
    match data[start + 1]? with
    | none => start + 1
    | some d =>
      if d = 120 ∨ d = 88 then scanWhile isHexChar data (start + 2)
      else if 48 ≤ d ∧ d ≤ 55 then scanWhile isOctChar data (start + 2)
      else if d = 46 then scanWhile isdigit data (start + 2)
      else start + 1
  else
    let j := scanWhile isdigit data (start + 1)
    if c ≠ 46 ∧ data[j]? = some 46 then scanWhile isdigit data (j + 1) else j

/-- The part "Handle number literals" of the loop body; `c` is `row->data[i]`. -/
def numberLiteral (env : Externals) (s : EditorSyntax) (data : List Nat) (st : ScanState)
    (c : Nat) : Flow :=
  if s.flags &&& HL_HIGHLIGHT_NUMBERS ≠ 0 then
    if (isdigit c || c == 46) && st.prev_sep then
      let start := st.i
      let i := numberEnd data start c
      if c = 46 ∧ i - start = 1 then Flow.next { st with i := i }
      else
        let i :=
          match data[i]? with
          | some d => if d = 102 ∨ d = 70 then i + 1 else i
          | none => i
        if i = data.length then
          match memset st.hl start HL_NUMBER (i - start) with
          | none => Flow.fault
          | some hl => Flow.next { st with hl := hl, i := i, prev_sep := false }
        else
          match data[i]? with
          | none => Flow.fault
          | some d =>
            if env.isSeparator d || env.isSpace d then
              match memset st.hl start HL_NUMBER (i - start) with
              | none => Flow.fault
              | some hl => Flow.next { st with hl := hl, i := i, prev_sep := false }
            else Flow.next { st with i := i, prev_sep := false }
    else Flow.pass
  else Flow.pass

/-- The test of the keyword loop for the keyword `k` at position `i`:
`klen <= row->size - i && strncmp(&row->data[i], k, klen) == 0 &&
(i + klen == row->size || isNonIdentifierChar(row->data[i + klen]))`; `none` when
the last read leaves the text. -/
def keywordAt (env : Externals) (data : List Nat) (i : Nat) (k : List Nat) : Option Bool :=
  if k.length ≤ data.length - i ∧ strncmpEq data i k = true then
    if i + k.length = data.length then some true
    else
      match data[i + k.length]? with
      | none => none
      | some d => some (env.isNonIdentifierChar d)
  else some false

/-- The inner keyword loop over one category: the length of the first keyword that
passes the test, if any; the outer `none` is undefined behaviour. -/
def findKeyword (env : Externals) (data : List Nat) (i : Nat) :
    List (List Nat) → Option (Option Nat)
  | [] => some none
  | k :: ks =>
    match keywordAt env data i k with
    | none => none
    | some true => some (some k.length)
    | some false => findKeyword env data i ks

/-- The outer keyword loop `for (kw = 0; kw < 3; kw++)`, written for the categories
`kw, kw + 1, ...` with `n` categories left: the category and the length of the
first keyword that passes the test, if any. -/
def findKeywordFrom (env : Externals) (s : EditorSyntax) (data : List Nat) (i : Nat) :
    Nat → Nat → Option (Option (Nat × Nat))
  | 0, _ => some none
  | n + 1, kw =>
    match findKeyword env data i (s.keywords.getD kw []) with
    | none => none
    | some (some klen) => some (some (kw, klen))
    | some none => findKeywordFrom env s data i n (kw + 1)

/-- The part "Handle keywords" of the loop body. -/
def keyword (env : Externals) (s : EditorSyntax) (data : List Nat) (st : ScanState) : Flow :=
  if st.prev_sep then
    match findKeywordFrom env s data st.i 3 0 with
    | none => Flow.fault
    | some none => Flow.pass
    | some (some (kw, klen)) =>
      match memset st.hl st.i (HL_KEYWORD1 + kw) klen with
      | none => Flow.fault
      | some hl => Flow.next { st with hl := hl, i := st.i + klen, prev_sep := false }
  else Flow.pass

/-- The body of the scan loop `while (i < row->size)` of `editorUpdateSyntax`. -/
def scanBody (env : Externals) (s : EditorSyntax) (data : List Nat) (st : ScanState) : Flow :=
  match data[st.i]? with
  | none => Flow.fault
  | some c =>
    match lineComment s data st with
    | Flow.pass =>
      match blockComment s data st with
      | Flow.pass =>
        match stringLiteral s data st c with
        | Flow.pass =>
          match numberLiteral env s data st c with
          | Flow.pass =>
            match keyword env s data st with
            | Flow.pass =>
              Flow.next { st with prev_sep := env.isNonIdentifierChar c, i := st.i + 1 }
            | r => r
          | r => r
        | r => r
      | r => r
    | r => r

/-- The scan loop `while (i < row->size)` of `editorUpdateSyntax`; `fuel` bounds the
number of iterations, and running out of it gives `none`. -/
def scanLoop (env : Externals) (s : EditorSyntax) (data : List Nat) :
    Nat → ScanState → Option ScanState
  | 0, st => if st.i < data.length then none else some st
  | fuel + 1, st =>
    if st.i < data.length then
      match scanBody env s data st with
      | Flow.next st2 => scanLoop env s data fuel st2
      | Flow.stop st2 => some st2
      | Flow.pass => none
      | Flow.fault => none
    else some st

/-- The loop `for (i = row->size - 1; i >= 0; i--)` after the label
`update_trailing`, with `n = i + 1` positions left. -/
def updateTrailing (data : List Nat) : Nat → List Nat → Option (List Nat)
  | 0, hl => some hl
  | i + 1, hl =>
    match data[i]? with
    | none => none
    | some c =>
      if c = 32 ∨ c = 9 then
        match memset hl i (HL_BG_TRAILING <<< HL_FG_BITS) 1 with
        | none => none
        | some hl2 => updateTrailing data i hl2
      else some hl

/-- The statement `if (row->hl) memset(row->hl, HL_NORMAL, row->size)`. -/
def resetHl (row : EditorRow) : Option (List Nat) :=
  if row.hl = [] then some row.hl else memset row.hl 0 HL_NORMAL row.data.length

/-- The function `editorUpdateSyntax` of `highlight.c` for the row at index
`row_index` of the file; `fuel` bounds the depth of the recursion on the next
row. -/
def editorUpdateSyntax (env : Externals) : Nat → EditorFile → Nat → Option EditorFile
  | fuel, file, row_index =>
    match file.row[row_index]? with
    | none => none
    | some row =>
      match resetHl row with
      | none => none
      | some hl0 =>
        match (if env.syntax_convar = 0 then none else file.syntaxDef) with
        | none =>
          match updateTrailing row.data row.data.length hl0 with
          | none => none
          | some hl => some { file with row := file.row.set row_index { row with hl := hl } }
        | some s =>
          let in_comment :=
            decide (row_index > 0) &&
              (match file.row[row_index - 1]? with
               | some prev => prev.hl_open_comment
               | none => false)
          match scanLoop env s row.data (2 * row.data.length + 1)
              { i := 0, prev_sep := true, in_string := 0, in_comment := in_comment, hl := hl0 } with
          | none => none
          | some st =>
            let changed := row.hl_open_comment != st.in_comment
            let file1 :=
              { file with
                row := file.row.set row_index
                  { row with hl := st.hl, hl_open_comment := st.in_comment } }
            let after :=
              if changed ∧ row_index + 1 < file.row.length then
                match fuel with
                | 0 => none
                | fuel + 1 => editorUpdateSyntax env fuel file1 (row_index + 1)
              else some file1
            match after with
            | none => none
            | some file2 =>
              match file2.row[row_index]? with
              | none => none
              | some row2 =>
                match updateTrailing row2.data row2.data.length row2.hl with
                | none => none
                | some hl =>
                  some { file2 with row := file2.row.set row_index { row2 with hl := hl } }

/-- The loop `for (i = 0; i < file->num_rows; i++) editorUpdateSyntax(file,
&file->row[i])` of `editorSetSyntaxHighlight`, from row `i` on with `n` rows left. -/
def updateAllFrom (env : Externals) : Nat → Nat → EditorFile → Option EditorFile
  | 0, _, file => some file
  | n + 1, i, file =>
    match editorUpdateSyntax env file.row.length file i with
    | none => none
    | some file2 => updateAllFrom env n (i + 1) file2

/-- The function `editorSetSyntaxHighlight` of `highlight.c`. -/
def editorSetSyntaxHighlight (env : Externals) (file : EditorFile)
    (syntaxDef : Option EditorSyntax) : Option EditorFile :=
  updateAllFrom env file.row.length 0 { file with syntaxDef := syntaxDef }

/-- The call `strrchr(filename, '.')`: the text from the last `.` on, if any. -/
def strrchrDot : List Nat → Option (List Nat)
  | [] => none
  | c :: cs =>
    match strrchrDot cs with
    | some r => some r
    | none => if c = 46 then some (c :: cs) else none

/-- The test of `editorSelectSyntaxHighlight` for one pattern of a rule. -/
def patternMatches (env : Externals) (filename : List Nat) (pat : List Nat) : Bool :=
  let is_ext := decide (pat.head? = some 46)
  (is_ext &&
      (match strrchrDot filename with
       | some ext => decide (env.strCaseCmp ext pat = 0)
       | none => false)) ||
    (!is_ext && env.strCaseStr filename pat)

/-- The loop of `editorSelectSyntaxHighlight` over the rule database: the first rule
with a pattern that passes the test. -/
def findSyntax (env : Externals) (filename : List Nat) : List EditorSyntax → Option EditorSyntax
  | [] => none
  | s :: rest =>
    if s.file_exts.any (patternMatches env filename) then some s
    else findSyntax env filename rest

/-- The function `editorSelectSyntaxHighlight` of `highlight.c`; `HLDB` is
`gEditor.HLDB`. -/
def editorSelectSyntaxHighlight (env : Externals) (HLDB : List EditorSyntax)
    (file : EditorFile) : Option EditorFile :=
  let file0 := { file with syntaxDef := none }
  match file.filename with
  | none => some file0
  | some filename =>
    match findSyntax env filename HLDB with
    | some s => editorSetSyntaxHighlight env file0 (some s)
    | none => some file0

/-! ## Loading rule definitions -/

/-- A JSON value as `highlight.c` reads it through `json.h`: the tag `type` with the
payloads `string`, `array` (its `data`, `size` is the length) and `object`.  The
type `O` is `JsonObject`, which `highlight.c` only hands to `json_object_find`;
`other` is every tag that `highlight.c` does not name. -/
inductive JsonValue (O : Type) where
  | null : JsonValue O
  | string (s : List Nat) : JsonValue O
  | array (data : List (JsonValue O)) : JsonValue O
  | object (object : O) : JsonValue O
  | other : JsonValue O

/-- What `highlight.c` takes from `json.h`: `json_parse` (on the arena
`hldb_arena`) and `json_object_find`, which returns `NULL`, here `none`, when the
object has no such key. -/
structure JsonLib (O : Type) where
  json_parse : List Nat → JsonValue O
  json_object_find : O → List Nat → Option (JsonValue O)

/-- What `editorLoadHLDB` takes from the file system: `openFile path "rb"` is `none`
when the file cannot be opened and the bytes of the file otherwise; `readError`
tells whether reading those bytes fails. -/
structure FileSystem where
  openFile : List Nat → Option (List Nat)
  readError : List Nat → Bool

/-- The key `"name"`. -/
def KEY_NAME : List Nat := [110, 97, 109, 101]

/-- The key `"extensions"`. -/
def KEY_EXTENSIONS : List Nat := [101, 120, 116, 101, 110, 115, 105, 111, 110, 115]

/-- The key `"comment"`. -/
def KEY_COMMENT : List Nat := [99, 111, 109, 109, 101, 110, 116]

/-- The key `"multiline-comment"`. -/
def KEY_MULTILINE_COMMENT : List Nat :=
  [109, 117, 108, 116, 105, 108, 105, 110, 101, 45, 99, 111, 109, 109, 101, 110, 116]

/-- The array `kw_fields` of `editorLoadJsonHLDB`: `"keywords1"`, `"keywords2"`,
`"keywords3"`. -/
def kw_fields : List (List Nat) :=
  [[107, 101, 121, 119, 111, 114, 100, 115, 49], [107, 101, 121, 119, 111, 114, 100, 115, 50],
   [107, 101, 121, 119, 111, 114, 100, 115, 51]]

/-- A rule as `calloc_s(1, sizeof(EditorSyntax))` returns it: all pointers `NULL`,
all vectors empty, `flags` zero. -/
def callocSyntax : EditorSyntax where
  file_type := none
  singleline_comment_start := none
  multiline_comment_start := none
  multiline_comment_end := none
  file_exts := []
  keywords := [[], [], []]
  flags := 0

/-- The loops of `editorLoadJsonHLDB` over a JSON array: each item passes
`CHECK(item->type == JSON_STRING)` and is pushed on the vector.  The result is
whether the loop ran to its end, and the vector as the loop left it. -/
def pushStrings {O : Type} : List (JsonValue O) → List (List Nat) → Bool × List (List Nat)
  | [], vec => (true, vec)
  | item :: rest, vec =>
    match item with
    | .string s => pushStrings rest (vec ++ [s])
    | _ => (false, vec)

/-- The write `syntax->keywords[i] = vec` on the array of three vectors. -/
def setKeywords (keywords : List (List (List Nat))) (i : Nat) (vec : List (List Nat)) :
    List (List (List Nat)) :=
  (keywords ++ List.replicate (3 - keywords.length) []).set i vec

/-- The part of `editorLoadJsonHLDB` for the key `"comment"`. -/
def loadComment {O : Type} (lib : JsonLib O) (object : O) (s : EditorSyntax) :
    Bool × EditorSyntax :=
  match lib.json_object_find object KEY_COMMENT with
  | none => (true, { s with singleline_comment_start := none })
  | some .null => (true, { s with singleline_comment_start := none })
  | some (.string c) => (true, { s with singleline_comment_start := some c })
  | some _ => (false, s)

/-- The part of `editorLoadJsonHLDB` for the key `"multiline-comment"`. -/
def loadMultilineComment {O : Type} (lib : JsonLib O) (object : O) (s : EditorSyntax) :
    Bool × EditorSyntax :=
  match lib.json_object_find object KEY_MULTILINE_COMMENT with
  | none => (true, { s with multiline_comment_start := none, multiline_comment_end := none })
  | some .null =>
    (true, { s with multiline_comment_start := none, multiline_comment_end := none })
  | some (.array data) =>
    if data.length = 2 then
      match data.get? 0 with
      | some (.string mcs) =>
        let s1 := { s with multiline_comment_start := some mcs }
        match data.get? 1 with
        | some (.string mce) => (true, { s1 with multiline_comment_end := some mce })
        | _ => (false, s1)
      | _ => (false, s)
    else (false, s)
  | some _ => (false, s)

/-- The body of the loop of `editorLoadJsonHLDB` over the three keyword keys, for the
category `i` and its key. -/
def loadKeywordField {O : Type} (lib : JsonLib O) (object : O) (i : Nat) (key : List Nat)
    (s : EditorSyntax) : Bool × EditorSyntax :=
  match lib.json_object_find object key with
  | none => (true, s)
  | some .null => (true, s)
  | some (.array data) =>
    let r := pushStrings data (s.keywords.getD i [])
    (r.1, { s with keywords := setKeywords s.keywords i r.2 })
  | some _ => (false, s)

/-- The loop of `editorLoadJsonHLDB` over the three keyword keys, from the category
`i` on. -/
def loadKeywords {O : Type} (lib : JsonLib O) (object : O) :
    List (List Nat) → Nat → EditorSyntax → Bool × EditorSyntax
  | [], _, s => (true, s)
  | key :: rest, i, s =>
    let r := loadKeywordField lib object i key s
    if r.1 then loadKeywords lib object rest (i + 1) r.2 else r

/-- The function `editorLoadJsonHLDB` of `highlight.c`: the returned boolean, and the
rule `syntax` as the function leaves it (on `false` it holds what was stored before
the failing `CHECK`). -/
def editorLoadJsonHLDB {O : Type} (lib : JsonLib O) (json : List Nat) (s0 : EditorSyntax) :
    Bool × EditorSyntax :=
  match lib.json_parse json with
  | .object object =>
    match lib.json_object_find object KEY_NAME with
    | some (.string name) =>
      let s1 := { s0 with file_type := some name }
      match lib.json_object_find object KEY_EXTENSIONS with
      | some (.array data) =>
        let e := pushStrings data s1.file_exts
        let s2 := { s1 with file_exts := e.2 }
        if e.1 then
          let c := loadComment lib object s2
          if c.1 then
            let m := loadMultilineComment lib object c.2
            if m.1 then
              let k := loadKeywords lib object kw_fields 0 m.2
              if k.1 then
                (true, { k.2 with flags := HL_HIGHLIGHT_NUMBERS ||| HL_HIGHLIGHT_STRINGS })
              else k
            else m
          else c
        else (false, s2)
      | _ => (false, s1)
    | _ => (false, s0)
  | _ => (false, s0)

/-- The function `editorLoadBundledHLDB` of `highlight.c`; `bundle` is the array of
bundled definitions, `HLDB` is `gEditor.HLDB`, and the result is the new
`gEditor.HLDB`. -/
def editorLoadBundledHLDB {O : Type} (lib : JsonLib O) :
    List (List Nat) → List EditorSyntax → List EditorSyntax
  | [], HLDB => HLDB
  | json :: rest, HLDB =>
    let r := editorLoadJsonHLDB lib json callocSyntax
    editorLoadBundledHLDB lib rest (if r.1 then r.2 :: HLDB else HLDB)

/-- The function `editorLoadHLDB` of `highlight.c`: the returned boolean and the new
`gEditor.HLDB`.  The call `fread(buffer, size, 1, fp)` returns 1 only when `size` is
not zero and the read does not fail; the buffer is read as a C string, up to its
first NUL. -/
def editorLoadHLDB {O : Type} (lib : JsonLib O) (fs : FileSystem) (path : List Nat)
    (HLDB : List EditorSyntax) : Bool × List EditorSyntax :=
  match fs.openFile path with
  | none => (false, HLDB)
  | some content =>
    if content.length = 0 ∨ fs.readError path = true then (false, HLDB)
    else
      let buffer := content.takeWhile (fun c => c ≠ 0)
      let r := editorLoadJsonHLDB lib buffer callocSyntax
      (true, if r.1 then r.2 :: HLDB else HLDB)

/-! ## Specification vocabulary for the highlight engine -/

/-- The class array of the row has one byte per character of its text. -/
def EditorRow.Valid (row : EditorRow) : Prop :=
  row.hl.length = row.data.length

instance instDecidableRowValid (row : EditorRow) : Decidable row.Valid := by
  unfold EditorRow.Valid; infer_instance

/-- The number of iterations the scan loop may still need: twice the number of
characters left, plus one while `prev_sep` is set. -/
def scanMeasure (data : List Nat) (st : ScanState) : Nat :=
  2 * (data.length - st.i) + (if st.prev_sep then 1 else 0)

/-- The result `r` of a part of the loop body on the state `st` is sound: it is no
fault, the class array keeps its length, every byte is an old byte or one of the
foreground classes comment, keyword 1 to 3, string, number, and a `continue`
decreases the measure of the loop. -/
def Flow.Sound (data : List Nat) (st : ScanState) (r : Flow) : Prop :=
  match r with
  | Flow.next st2 =>
    st2.hl.length = st.hl.length ∧ scanMeasure data st2 < scanMeasure data st ∧
      ∀ b ∈ st2.hl, b ∈ st.hl ∨ (1 ≤ b ∧ b ≤ 6)
  | Flow.stop st2 =>
    st2.hl.length = st.hl.length ∧ ∀ b ∈ st2.hl, b ∈ st.hl ∨ (1 ≤ b ∧ b ≤ 6)
  | Flow.pass => True
  | Flow.fault => False

/-- The scan loop of `editorUpdateSyntax` on the text `data` with the incoming
block-comment state `ic`, started on a class array that was reset to `HL_NORMAL`. -/
def scanRow (env : Externals) (s : EditorSyntax) (data : List Nat) (ic : Bool) :
    Option ScanState :=
  scanLoop env s data (2 * data.length + 1)
    { i := 0, prev_sep := true, in_string := 0, in_comment := ic,
      hl := List.replicate data.length HL_NORMAL }

/-- The row that `editorUpdateSyntax` leaves for the text `data` under the rule `s`
with the incoming block-comment state `ic`: the classes of the scan with the
trailing whitespace marked, and the outgoing block-comment state. -/
def freshRow (env : Externals) (s : EditorSyntax) (data : List Nat) (ic : Bool) : EditorRow :=
  match scanRow env s data ic with
  | none => { data := data, hl := [], hl_open_comment := false }
  | some st =>
    { data := data
      hl := (updateTrailing data data.length st.hl).getD []
      hl_open_comment := st.in_comment }

/-- The row that `editorUpdateSyntax` leaves without an active rule: every class is
`HL_NORMAL` with the trailing whitespace marked; `hl_open_comment` is kept. -/
def plainRow (row : EditorRow) : EditorRow :=
  { row with
    hl := (updateTrailing row.data row.data.length
      (List.replicate row.data.length HL_NORMAL)).getD [] }

/-- The `hl_open_comment` of the last of the rows, `false` when there is none: the
incoming block-comment state of the row that follows them. -/
def lastOpen (rows : List EditorRow) : Bool :=
  match rows.getLast? with
  | some p => p.hl_open_comment
  | none => false

/-- The rows from the updated row on after `editorUpdateSyntax` with the rule `s`:
the first row is rescanned with the incoming state `ic`, and the next rows are
rescanned in the same way as long as the outgoing state of the row before changed. -/
def cascade (env : Externals) (s : EditorSyntax) : Bool → List EditorRow → List EditorRow
  | _, [] => []
  | ic, row :: rest =>
    freshRow env s row.data ic ::
      (if row.hl_open_comment != (freshRow env s row.data ic).hl_open_comment then
        cascade env s (freshRow env s row.data ic).hl_open_comment rest
      else rest)

/-- The rows of a full rescan of the texts `datas` under the rule `s`, the first row
with the incoming state `ic` and each later row with the outgoing state of the row
before it. -/
def rescan (env : Externals) (s : EditorSyntax) : Bool → List (List Nat) → List EditorRow
  | _, [] => []
  | ic, data :: rest =>
    freshRow env s data ic :: rescan env s (freshRow env s data ic).hl_open_comment rest

/-- The rule that `editorUpdateSyntax` scans with: none when the configuration
variable `syntax` is 0 or the file has no rule. -/
def activeRule (env : Externals) (sd : Option EditorSyntax) : Option EditorSyntax :=
  if env.syntax_convar = 0 then none else sd

/-- The rows of a file after `editorUpdateSyntax` on the row at index `r`. -/
def updatedRows (env : Externals) (sd : Option EditorSyntax) (rows : List EditorRow)
    (r : Nat) : List EditorRow :=
  match activeRule env sd with
  | none =>
    rows.take r ++
      (match rows.drop r with
       | [] => []
       | row :: rest => plainRow row :: rest)
  | some s => rows.take r ++ cascade env s (lastOpen (rows.take r)) (rows.drop r)

/-- The rows of a file after a full pass of `editorUpdateSyntax` over all rows. -/
def fullRows (env : Externals) (sd : Option EditorSyntax) (rows : List EditorRow) :
    List EditorRow :=
  match activeRule env sd with
  | none => rows.map plainRow
  | some s => rescan env s false (rows.map EditorRow.data)

/-! ## Concrete instances, used to evaluate the functions -/

/-- The ASCII lower-case form of a byte. -/
def toLowerByte (c : Nat) : Nat :=
  if 65 ≤ c ∧ c ≤ 90 then c + 32 else c

/-- Two texts are equal up to the case of ASCII letters. -/
def CaseEq (a b : List Nat) : Prop :=
  a.map toLowerByte = b.map toLowerByte

/-- The pattern occurs in the text as a substring, up to the case of ASCII
letters. -/
def CaseInfix (pat text : List Nat) : Prop :=
  ∃ pre mid post, text = pre ++ mid ++ post ∧ CaseEq mid pat

/-- The case-insensitive string functions behave as their names say: `strCaseCmp`
returns 0 exactly on texts equal up to case, `strCaseStr` finds the pattern exactly
when it occurs in the text up to case. -/
def FaithfulCase (env : Externals) : Prop :=
  (∀ a b, env.strCaseCmp a b = 0 ↔ CaseEq a b) ∧
  (∀ text pat, env.strCaseStr text pat = true ↔ CaseInfix pat text)

/-- The pattern test in the words of the specification: a pattern beginning with
`.` matches when the file name contains a `.` and the text from its last `.` to
its end equals the pattern up to case; any other pattern matches when it occurs in
the file name up to case. -/
def SpecPatternMatches (filename pat : List Nat) : Prop :=
  if pat.head? = some 46 then
    ∃ stem ext, filename = stem ++ 46 :: ext ∧ 46 ∉ ext ∧ CaseEq (46 :: ext) pat
  else CaseInfix pat filename

/-- Some pattern of the rule matches the file name, in the words of the
specification. -/
def SpecRuleMatches (filename : List Nat) (s : EditorSyntax) : Prop :=
  ∃ pat ∈ s.file_exts, SpecPatternMatches filename pat

/-- The text `int x = 10; // comment` of the scenario, 22 characters. -/
def scenarioData : List Nat :=
  [105, 110, 116, 32, 120, 32, 61, 32, 49, 48, 59, 32, 47, 47, 32, 99, 111, 109, 109, 101,
   110, 116]

/-- The rule of the scenario: `keywords1 = ["int"]`, line comment `//`, no block
comment, numbers and strings enabled; name and patterns are left open. -/
def scenarioRule (file_type : Option (List Nat)) (file_exts : List (List Nat)) : EditorSyntax where
  file_type := file_type
  singleline_comment_start := some [47, 47]
  multiline_comment_start := none
  multiline_comment_end := none
  file_exts := file_exts
  keywords := [[[105, 110, 116]], [], []]
  flags := HL_HIGHLIGHT_NUMBERS ||| HL_HIGHLIGHT_STRINGS

/-- The punctuation characters that the sample character classes treat as
separators. -/
def sampleSeparators : List Nat :=
  [96, 126, 33, 64, 35, 36, 37, 94, 38, 42, 40, 41, 45, 61, 43, 91, 123, 93, 125, 92, 124,
   59, 58, 39, 34, 44, 46, 60, 62, 47, 63]

/-- A sample of the functions that `highlight.c` takes from `utils.c` and
`config.c`: punctuation is a separator, space and tab are spaces, whitespace, NUL
and separators are the non-identifier characters, the string functions compare
ASCII lower-case forms, and the configuration variable `syntax` is 1. -/
def sampleEnv : Externals where
  isSeparator := fun c => sampleSeparators.contains c
  isSpace := fun c => c == 32 || c == 9
  isNonIdentifierChar := fun c =>
    c == 32 || c == 9 || c == 10 || c == 13 || c == 0 || sampleSeparators.contains c
  strCaseCmp := fun a b => if a.map toLowerByte = b.map toLowerByte then 0 else 1
  strCaseStr := fun text pat => decide (pat.map toLowerByte <:+: text.map toLowerByte)
  syntax_convar := 1

/-- A file with the single row of the scenario, not yet highlighted. -/
def scenarioFile : EditorFile where
  filename := none
  row := [{ data := scenarioData, hl := List.replicate 22 HL_NORMAL, hl_open_comment := false }]
  syntaxDef := some (scenarioRule (some [67]) [[46, 99]])

/-- A rule with the line comment `//`, the block comment `/*` ... `*/` and the
keyword `int`, for the pattern `.c`. -/
def sampleRule : EditorSyntax where
  file_type := some [67]
  singleline_comment_start := some [47, 47]
  multiline_comment_start := some [47, 42]
  multiline_comment_end := some [42, 47]
  file_exts := [[46, 99]]
  keywords := [[[105, 110, 116]], [], []]
  flags := HL_HIGHLIGHT_NUMBERS ||| HL_HIGHLIGHT_STRINGS

/-- A file of three rows `a /*`, `b */ ` and `c`, not yet highlighted. -/
def sampleText : EditorFile where
  filename := some [109, 46, 99]
  row :=
    [{ data := [97, 32, 47, 42], hl := [0, 0, 0, 0], hl_open_comment := false },
     { data := [98, 32, 42, 47, 32], hl := [0, 0, 0, 0, 0], hl_open_comment := false },
     { data := [99], hl := [0], hl_open_comment := false }]
  syntaxDef := some sampleRule

/-- The file `sampleText` after a full highlight pass with `sampleRule`. -/
def sampleTextDone : EditorFile where
  filename := some [109, 46, 99]
  row :=
    [{ data := [97, 32, 47, 42], hl := [0, 0, 1, 1], hl_open_comment := true },
     { data := [98, 32, 42, 47, 32], hl := [1, 1, 1, 1, 48], hl_open_comment := false },
     { data := [99], hl := [0], hl_open_comment := false }]
  syntaxDef := some sampleRule

/-- The row `a //` that replaces the first row of `sampleTextDone`; its class array
is not yet computed. -/
def sampleNewRow : EditorRow where
  data := [97, 32, 47, 47]
  hl := [7, 7, 7, 7]
  hl_open_comment := true

/-- The pattern `.foo`. -/
def dotFoo : List Nat := [46, 102, 111, 111]

/-- A sample of `json.h`: the text `A` parses to the object 0, the text `B` to the
object 1, every other text to no object; both objects have the `extensions`
`[".foo"]`, the object 0 has the `name` `A`, the object 1 the `name` `B`, and they
have no other key. -/
def sampleJson : JsonLib Nat where
  json_parse := fun text =>
    if text = [65] then .object 0 else if text = [66] then .object 1 else .other
  json_object_find := fun object key =>
    if key = KEY_EXTENSIONS ∧ object ≤ 1 then some (.array [.string dotFoo])
    else if key = KEY_NAME ∧ object ≤ 1 then some (.string [65 + object])
    else none

/-- A sample file system: the file `a` holds the text `A`, the file `b` the text
`B`, no other file can be opened and no read fails. -/
def sampleFiles : FileSystem where
  openFile := fun path =>
    if path = [97] then some [65] else if path = [98] then some [66] else none
  readError := fun _ => false

/-- The rule that the sample definitions `A` (`n = 0`) and `B` (`n = 1`) parse
to. -/
def sampleFooRule (n : Nat) : EditorSyntax where
  file_type := some [65 + n]
  singleline_comment_start := none
  multiline_comment_start := none
  multiline_comment_end := none
  file_exts := [dotFoo]
  keywords := [[], [], []]
  flags := HL_HIGHLIGHT_NUMBERS ||| HL_HIGHLIGHT_STRINGS

/-- A file named `m.foo` with the one row `c`. -/
def sampleFooFile : EditorFile where
  filename := some [109, 46, 102, 111, 111]
  row := [{ data := [99], hl := [0], hl_open_comment := false }]
  syntaxDef := none

/-- A rule database: a rule for the pattern `Makefile`, then `sampleRule`, then a
rule for the patterns `.h` and `.C`. -/
def sampleHLDB : List EditorSyntax :=
  [scenarioRule (some [77]) [[77, 97, 107, 101, 102, 105, 108, 101]], sampleRule,
   scenarioRule (some [72]) [[46, 104], [46, 67]]]

end Highlight

namespace Highlight

/-! ## The rule of the configuration files, and the definition schema -/

/-- What `loadEditorConfigHLDB` takes from `editor.h` and `config.h`: the strings
`EDITOR_NAME`, `EDITOR_RC_FILE` and `EDITOR_CONFIG_EXT`, the list `gEditor.cvars` in
list order, each entry with its `name` and `has_callback`, and the labels
`color_element_map[i].label` for `i < EDITOR_COLOR_COUNT`. -/
structure ConfigNames where
  EDITOR_NAME : List Nat
  EDITOR_RC_FILE : List Nat
  EDITOR_CONFIG_EXT : List Nat
  cvars : List (List Nat × Bool)
  color_labels : List (List Nat)

/-- The loop of `loadEditorConfigHLDB` over `gEditor.cvars`: a command goes to
`keywords[0]`, a variable to `keywords[1]`. -/
def pushCvars : List (List Nat × Bool) → EditorSyntax → EditorSyntax
  | [], s => s
  | curr :: rest, s =>
    let i := if curr.2 then 0 else 1
    pushCvars rest { s with keywords := setKeywords s.keywords i (s.keywords.getD i [] ++ [curr.1]) }

/-- The loop of `loadEditorConfigHLDB` over the color element names, pushed on
`keywords[2]`. -/
def pushColors : List (List Nat) → EditorSyntax → EditorSyntax
  | [], s => s
  | label :: rest, s =>
    pushColors rest { s with keywords := setKeywords s.keywords 2 (s.keywords.getD 2 [] ++ [label]) }

/-- The rule that `loadEditorConfigHLDB` builds before it links it in. -/
def configSyntax (cfg : ConfigNames) : EditorSyntax :=
  let s0 := callocSyntax
  let s1 := { s0 with file_type := some cfg.EDITOR_NAME }
  let s2 := { s1 with file_exts := s1.file_exts ++ [cfg.EDITOR_RC_FILE] }
  let s3 := { s2 with file_exts := s2.file_exts ++ [cfg.EDITOR_CONFIG_EXT] }
  let s4 :=
    { s3 with
      singleline_comment_start := some [35]
      multiline_comment_start := none
      multiline_comment_end := none }
  let s5 := pushCvars cfg.cvars s4
  let s6 := pushColors cfg.color_labels s5
  { s6 with flags := HL_HIGHLIGHT_STRINGS }

/-- The function `loadEditorConfigHLDB` of `highlight.c`: the new `gEditor.HLDB`. -/
def loadEditorConfigHLDB (cfg : ConfigNames) (HLDB : List EditorSyntax) : List EditorSyntax :=
  configSyntax cfg :: HLDB

/-- The text of a JSON value that is a string. -/
def asString {O : Type} (v : JsonValue O) : Option (List Nat) :=
  match v with
  | .string s => some s
  | _ => none

/-- The strings of a JSON array whose items are all strings, in their order; `none`
when some item is not a string. -/
def stringItems {O : Type} : List (JsonValue O) → Option (List (List Nat))
  | [] => some []
  | item :: rest =>
    (asString item).bind fun s => (stringItems rest).map fun strs => s :: strs

/-- The field `name` in the words of the specification: a string, required. -/
def specNameField {O : Type} (v : Option (JsonValue O)) : Option (List Nat) :=
  match v with
  | some (.string name) => some name
  | _ => none

/-- The field `extensions` in the words of the specification: an array of strings,
required. -/
def specExtensionsField {O : Type} (v : Option (JsonValue O)) : Option (List (List Nat)) :=
  match v with
  | some (.array data) => stringItems data
  | _ => none

/-- The field `comment` in the words of the specification: absent or null (no
token), or a string; anything else is invalid. -/
def specCommentField {O : Type} (v : Option (JsonValue O)) : Option (Option (List Nat)) :=
  match v with
  | none => some none
  | some .null => some none
  | some (.string c) => some (some c)
  | some _ => none

/-- The field `multiline-comment` in the words of the specification: absent or null
(no tokens), or an array of exactly two strings; anything else is invalid. -/
def specMultilineField {O : Type} (v : Option (JsonValue O)) :
    Option (Option (List Nat) × Option (List Nat)) :=
  match v with
  | none => some (none, none)
  | some .null => some (none, none)
  | some (.array [.string mcs, .string mce]) => some (some mcs, some mce)
  | some _ => none

/-- A field `keywords1`, `keywords2` or `keywords3` in the words of the
specification: absent or null (no keywords), or an array of strings; anything else
is invalid. -/
def specKeywordsField {O : Type} (v : Option (JsonValue O)) : Option (List (List Nat)) :=
  match v with
  | none => some []
  | some .null => some []
  | some (.array data) => stringItems data
  | some _ => none

/-- The rule of a definition in the words of the specification: `none` when the
parsed value is not an object or some field is invalid; otherwise the rule with the
name, the patterns, the comment tokens and the three keyword categories of the
definition, numbers and strings enabled. -/
def specDefinition {O : Type} (lib : JsonLib O) (json : List Nat) : Option EditorSyntax :=
  match lib.json_parse json with
  | .object object =>
    (specNameField (lib.json_object_find object KEY_NAME)).bind fun name =>
    (specExtensionsField (lib.json_object_find object KEY_EXTENSIONS)).bind fun exts =>
    (specCommentField (lib.json_object_find object KEY_COMMENT)).bind fun scs =>
    (specMultilineField (lib.json_object_find object KEY_MULTILINE_COMMENT)).bind fun mc =>
    (specKeywordsField (lib.json_object_find object (kw_fields.getD 0 []))).bind fun k1 =>
    (specKeywordsField (lib.json_object_find object (kw_fields.getD 1 []))).bind fun k2 =>
    (specKeywordsField (lib.json_object_find object (kw_fields.getD 2 []))).bind fun k3 =>
    some
      { file_type := some name
        singleline_comment_start := scs
        multiline_comment_start := mc.1
        multiline_comment_end := mc.2
        file_exts := exts
        keywords := [k1, k2, k3]
        flags := HL_HIGHLIGHT_NUMBERS ||| HL_HIGHLIGHT_STRINGS }
  | _ => none

end Highlight

namespace Highlight

/-- The rule of the definition in the file `path`, in the words of the
specification: none when the file cannot be opened or read, or when its content is
no valid definition. -/
def fileDefinition {O : Type} (lib : JsonLib O) (fs : FileSystem) (path : List Nat) :
    Option EditorSyntax :=
  match fs.openFile path with
  | none => none
  | some content =>
    if content = [] ∨ fs.readError path = true then none
    else specDefinition lib (content.takeWhile (fun c => c ≠ 0))

/-- A sample file system with the one file `c`, which holds the text `C`. -/
def sampleOtherFiles : FileSystem where
  openFile := fun path => if path = [99] then some [67] else none
  readError := fun _ => false

/-- A sample of `json.h` in which every text parses to the same object: its `name`
is `C`, its `extensions` are `[".c"]`, its `keywords1` are `["if", null]`, and it
has no other key. -/
def samplePartialJson : JsonLib Unit where
  json_parse := fun _ => .object ()
  json_object_find := fun _ key =>
    if key = KEY_NAME then some (.string [67])
    else if key = KEY_EXTENSIONS then some (.array [.string [46, 99]])
    else if key = kw_fields.getD 0 [] then some (.array [.string [105, 102], .null])
    else none

end Highlight

namespace Highlight

/-! ## Class bytes -/

/-- The foreground class of a class byte, as `editorDrawRows` of `output.c` decodes
it: `hl[j] & HL_FG_MASK`. -/
def fgClass (b : Nat) : Nat :=
  b &&& HL_FG_MASK

/-- The background class of a class byte, as `editorDrawRows` of `output.c` decodes
it: `hl[j] >> HL_FG_BITS`. -/
def bgClass (b : Nat) : Nat :=
  b >>> HL_FG_BITS

/-- The bytes that the scan loop may write under the rule `s`: comment, keyword 1
to 3, string when the rule has the flag `HL_HIGHLIGHT_STRINGS`, number when it has
the flag `HL_HIGHLIGHT_NUMBERS`. -/
def Allowed (s : EditorSyntax) (b : Nat) : Prop :=
  b = HL_COMMENT ∨ b = HL_KEYWORD1 ∨ b = HL_KEYWORD2 ∨ b = HL_KEYWORD3 ∨
    (b = HL_STRING ∧ s.flags &&& HL_HIGHLIGHT_STRINGS ≠ 0) ∨
    (b = HL_NUMBER ∧ s.flags &&& HL_HIGHLIGHT_NUMBERS ≠ 0)

/-- Every byte that a part of the loop body leaves is an old byte or a byte allowed
under the rule. -/
def Flow.Keeps (s : EditorSyntax) (st : ScanState) (r : Flow) : Prop :=
  match r with
  | Flow.next st2 => ∀ b ∈ st2.hl, b ∈ st.hl ∨ Allowed s b
  | Flow.stop st2 => ∀ b ∈ st2.hl, b ∈ st.hl ∨ Allowed s b
  | Flow.pass => True
  | Flow.fault => True

/-- The byte is `HL_NORMAL`, a byte allowed under the rule, or the byte of the
trailing whitespace. -/
def RowByte (s : EditorSyntax) (b : Nat) : Prop :=
  b = HL_NORMAL ∨ Allowed s b ∨ b = HL_BG_TRAILING <<< HL_FG_BITS

/-- The layout of a class byte: the foreground class is one of normal, comment,
keyword 1 to 3, string, number; the background class is normal or trailing
whitespace; and a byte with the trailing background has the foreground normal. -/
def Layout (b : Nat) : Prop :=
  (fgClass b = HL_NORMAL ∨ fgClass b = HL_COMMENT ∨ fgClass b = HL_KEYWORD1 ∨
    fgClass b = HL_KEYWORD2 ∨ fgClass b = HL_KEYWORD3 ∨ fgClass b = HL_STRING ∨
    fgClass b = HL_NUMBER) ∧
  (bgClass b = HL_BG_NORMAL ∨ bgClass b = HL_BG_TRAILING) ∧
  (bgClass b = HL_BG_TRAILING → fgClass b = HL_NORMAL)

instance instDecidableLayout (b : Nat) : Decidable (Layout b) := by
  unfold Layout; infer_instance

/-- A sample of the names that `loadEditorConfigHLDB` uses: the editor `lex`, the
files `.lexrc` and `.lexconfig`, the command `exec`, the variable `tabsize` and the
color element `bg`. -/
def sampleConfig : ConfigNames where
  EDITOR_NAME := [108, 101, 120]
  EDITOR_RC_FILE := [46, 108, 101, 120, 114, 99]
  EDITOR_CONFIG_EXT := [46, 108, 101, 120, 99, 111, 110, 102, 105, 103]
  cvars := [([101, 120, 101, 99], true), ([116, 97, 98, 115, 105, 122, 101], false)]
  color_labels := [[98, 103]]

end Highlight

namespace Highlight

/-! ## Positions that the scan reaches -/

/-- The state in which the scan loop of `editorUpdateSyntax` starts on the text
`data` with the incoming block-comment state `ic`. -/
def scanStart (data : List Nat) (ic : Bool) : ScanState :=
  { i := 0, prev_sep := true, in_string := 0, in_comment := ic,
    hl := List.replicate data.length HL_NORMAL }

/-- The state of the scan loop after `n` iterations from the state `st`, each of
which ended in `continue`; `none` when the loop ends before. -/
def scanSteps (env : Externals) (s : EditorSyntax) (data : List Nat) :
    Nat → ScanState → Option ScanState
  | 0, st => some st
  | n + 1, st =>
    if st.i < data.length then
      match scanBody env s data st with
      | Flow.next st2 => scanSteps env s data n st2
      | _ => none
    else none

/-- A file with the one row `a //`, not yet highlighted, under `sampleRule`. -/
def sampleLineFile : EditorFile where
  filename := none
  row := [{ data := [97, 32, 47, 47], hl := [0, 0, 0, 0], hl_open_comment := true }]
  syntaxDef := some sampleRule

/-- The text `/*a*//*b`: a block comment, and right after it the start of a second
one that is not closed in the row. -/
def sampleTwoComments : List Nat := [47, 42, 97, 42, 47, 47, 42, 98]

/-- A file with the rows `/*a*//*b` and `c`, not yet highlighted, under
`sampleRule`. -/
def sampleTwoCommentsFile : EditorFile where
  filename := none
  row :=
    [{ data := sampleTwoComments, hl := List.replicate 8 HL_NORMAL, hl_open_comment := false },
     { data := [99], hl := [0], hl_open_comment := false }]
  syntaxDef := some sampleRule

end Highlight

namespace BuildNum

/-! # Build number (`src/buildnum.c`) -/

/-- The array `mon` of `buildnum.c`: the month names `Jan` ... `Dec`. -/
def mon : List (List Nat) :=
  [[74, 97, 110], [70, 101, 98], [77, 97, 114], [65, 112, 114], [77, 97, 121], [74, 117, 110],
   [74, 117, 108], [65, 117, 103], [83, 101, 112], [79, 99, 116], [78, 111, 118],
   [68, 101, 99]]

/-- The array `mond` of `buildnum.c`: the days of each month in a year that is no
leap year. -/
def mond : List Nat := [31, 28, 31, 30, 31, 30, 31, 31, 30, 31, 30, 31]

/-- The test `isspace(c)` of the C library in the C locale. -/
def isspace (c : Nat) : Bool :=
  c == 32 || (decide (9 ≤ c) && decide (c ≤ 13))

/-- The value of the leading decimal digits of a text, after the value `acc` of the
digits before them. -/
def digitsValue : List Nat → Int → Int
  | [], acc => acc
  | c :: cs, acc =>
    if Highlight.isdigit c then digitsValue cs (acc * 10 + ((c : Int) - 48)) else acc

/-- The function `atoi` of the C library: leading white space, an optional sign, and
decimal digits up to the first other character. -/
def atoi (s : List Nat) : Int :=
  match s.dropWhile isspace with
  | 45 :: rest => - digitsValue rest 0
  | 43 :: rest => digitsValue rest 0
  | rest => digitsValue rest 0

/-- The loop `for (m = 0; m < 11; m++)` of `computeBuildNumber`, from the month
index `m` with the day count `d`, with `fuel` iterations left at most: the values of
`m` and `d` after it.  The call `strncmp(&date[0], mon[m], 3) == 0` compares the
first three characters. -/
def monthLoop (date : List Nat) : Nat → Nat → Int → Nat × Int
  | 0, m, d => (m, d)
  | fuel + 1, m, d =>
    if m < 11 then
      if date.take 3 = (mon.getD m []).take 3 then (m, d)
      else monthLoop date fuel (m + 1) (d + (mond.getD m 0 : Nat))
    else (m, d)

/-- The function `computeBuildNumber` of `buildnum.c` for the string `date` that the
macro `__DATE__` gives: the value it leaves in `build_number`.  The product
`(y - 1) * 365.25` is exact in a `double`, and the cast to `int` cuts the fraction
towards zero; the division and the remainder of C round towards zero. -/
def computeBuildNumber (date : List Nat) : Int :=
  let md := monthLoop date 11 0 0
  let m := md.1
  let d := md.2 + (atoi (date.drop 4) - 1)
  let y := atoi (date.drop 7) - 1900
  let build_number := d + Int.tdiv ((y - 1) * 1461) 4
  let build_number := if Int.tmod y 4 = 0 ∧ m > 1 then build_number + 1 else build_number
  build_number - 43720

/-- The static variables `computed` and `build_number` of `buildnum.c`. -/
structure BuildState where
  computed : Bool
  build_number : Int
deriving DecidableEq, Repr

/-- The static variables before the first call. -/
def BuildState.initial : BuildState :=
  { computed := false, build_number := 0 }

/-- The function `editorGetBuildNumber` of `buildnum.c`: the returned value and the
static variables after the call. -/
def editorGetBuildNumber (date : List Nat) (st : BuildState) : Int × BuildState :=
  let st1 :=
    if !st.computed then { computed := true, build_number := computeBuildNumber date }
    else st
  (st1.build_number, st1)

/-- A year of the Gregorian calendar is a leap year. -/
def isLeapYear (year : Nat) : Bool :=
  (decide (year % 4 = 0) && decide (year % 100 ≠ 0)) || decide (year % 400 = 0)

/-- The calendar days of the years `0 .. year - 1`. -/
def daysBeforeYear : Nat → Nat
  | 0 => 0
  | year + 1 => daysBeforeYear year + (if isLeapYear year then 366 else 365)

/-- The calendar days of the month with the index `month` (0 for January) of a
year. -/
def daysInMonth (year month : Nat) : Nat :=
  if month = 1 ∧ isLeapYear year = true then 29 else mond.getD month 0

/-- The calendar days of the months before the month with the index `month` in a
year. -/
def daysBeforeMonth (year : Nat) : Nat → Nat
  | 0 => 0
  | month + 1 => daysBeforeMonth year month + daysInMonth year month

/-- The number of the calendar day `day` of the month with the index `month` of a
year, counted from the start of the year 0. -/
def dayNumber (year month day : Nat) : Nat :=
  daysBeforeYear year + daysBeforeMonth year month + day

/-- The calendar days elapsed from Sep 13 2020 to a date. -/
def daysSinceReference (year month day : Nat) : Int :=
  (dayNumber year month day : Int) - (dayNumber 2020 8 13 : Int)

/-- The string `Mmm dd yyyy` that `__DATE__` gives for a date: the month name, the
day in two columns with a leading space below 10, and the year in four digits. -/
def dateString (year month day : Nat) : List Nat :=
  mon.getD month [] ++ [32] ++
    (if day < 10 then [32, 48 + day] else [48 + day / 10, 48 + day % 10]) ++ [32] ++
    [48 + year / 1000 % 10, 48 + year / 100 % 10, 48 + year / 10 % 10, 48 + year % 10]

end BuildNum

namespace Console

/-! # Console messages (`src/prompt.c`, `src/output.c`) -/

/-- The constants `EDITOR_CON_COUNT` and `EDITOR_CON_LENGTH` of `editor.h`: the
number of slots of `gEditor.con_msg` and the size of a slot in bytes. -/
structure ConParams where
  EDITOR_CON_COUNT : Nat
  EDITOR_CON_LENGTH : Nat

/-- The fields `con_msg`, `con_front`, `con_rear` and `con_size` of `gEditor`; a slot
of `con_msg` holds the text before its terminating NUL. -/
structure ConState where
  con_msg : List (List Nat)
  con_front : Int
  con_rear : Int
  con_size : Int
deriving DecidableEq, Repr

/-- The text that `vsnprintf(slot, sizeof(gEditor.con_msg[0]), fmt, ap)` leaves in a
slot that held `old`, when the format gives the text `text`: with a slot of size 0
nothing is written, otherwise the text is cut to the size of the slot less the
terminating NUL. -/
def vsnprintf (p : ConParams) (old text : List Nat) : List Nat :=
  if p.EDITOR_CON_LENGTH = 0 then old else text.take (p.EDITOR_CON_LENGTH - 1)

/-- The function `editorMsg` of `prompt.c`; `text` is the text that the format and
its arguments give.  `none` is a write outside `gEditor.con_msg`. -/
def editorMsg (p : ConParams) (text : List Nat) (st : ConState) : Option ConState :=
  if 0 ≤ st.con_rear ∧ st.con_rear < (st.con_msg.length : Int) then
    match st.con_msg[st.con_rear.toNat]? with
    | none => none
    | some old =>
      let st1 := { st with con_msg := st.con_msg.set st.con_rear.toNat (vsnprintf p old text) }
      let st2 :=
        if st1.con_front = st1.con_rear then
          { st1 with
            con_front := Int.tmod (st1.con_front + 1) (p.EDITOR_CON_COUNT : Int)
            con_size := st1.con_size - 1 }
        else if st1.con_front = -1 then { st1 with con_front := 0 }
        else st1
      some
        { st2 with
          con_size := st2.con_size + 1
          con_rear := Int.tmod (st2.con_rear + 1) (p.EDITOR_CON_COUNT : Int) }
  else none

/-- The function `editorMsgClear` of `prompt.c`. -/
def editorMsgClear (st : ConState) : ConState :=
  { st with con_front := -1, con_rear := 0, con_size := 0 }

/-- The loop of `editorDrawConMsg` over the slots, with `n` iterations left and the
slot index `index`: the texts `buf` that it draws, in the order of drawing.  `none`
is a read outside `gEditor.con_msg`. -/
def drawLoop (p : ConParams) (con_msg : List (List Nat)) : Nat → Int → Option (List (List Nat))
  | 0, _ => some []
  | n + 1, index =>
    if 0 ≤ index ∧ index < (con_msg.length : Int) then
      match con_msg[index.toNat]?,
        drawLoop p con_msg n (Int.tmod (index + 1) (p.EDITOR_CON_COUNT : Int)) with
      | some buf, some rest => some (buf :: rest)
      | _, _ => none
    else none

/-- The texts that the function `editorDrawConMsg` of `output.c` draws, in the order
of drawing: none when `con_size` is 0, otherwise `con_size` slots from `con_front`
on. -/
def editorDrawConMsg (p : ConParams) (st : ConState) : Option (List (List Nat)) :=
  if st.con_size = 0 then some []
  else drawLoop p st.con_msg st.con_size.toNat st.con_front

/-- A sequence of calls of `editorMsg`, one for each text. -/
def editorMsgs (p : ConParams) : List (List Nat) → ConState → Option ConState
  | [], st => some st
  | text :: rest, st =>
    match editorMsg p text st with
    | none => none
    | some st2 => editorMsgs p rest st2

/-- The state of the console after `k` messages `msgs` since the last
`editorMsgClear`: the positions of the ring, and the last `EDITOR_CON_COUNT`
messages in their slots. -/
def ConInv (p : ConParams) (msgs : List (List Nat)) (st : ConState) : Prop :=
  st.con_msg.length = p.EDITOR_CON_COUNT ∧
  st.con_rear = ((msgs.length % p.EDITOR_CON_COUNT : Nat) : Int) ∧
  st.con_size = ((min msgs.length p.EDITOR_CON_COUNT : Nat) : Int) ∧
  st.con_front =
    (if msgs.length = 0 then -1
     else if msgs.length ≤ p.EDITOR_CON_COUNT then 0
     else ((msgs.length % p.EDITOR_CON_COUNT : Nat) : Int)) ∧
  ∀ j text, msgs[j]? = some text → msgs.length ≤ j + p.EDITOR_CON_COUNT →
    st.con_msg[j % p.EDITOR_CON_COUNT]? = some (text.take (p.EDITOR_CON_LENGTH - 1))

/-- Sample constants: three slots of eight bytes. -/
def sampleParams : ConParams :=
  { EDITOR_CON_COUNT := 3, EDITOR_CON_LENGTH := 8 }

/-- A sample console with three slots that hold old texts. -/
def sampleConsole : ConState :=
  { con_msg := [[120], [121], [122]], con_front := 1, con_rear := 2, con_size := 1 }

end Console

namespace Find

/-! # Incremental search (`editorFindCallback` of `src/prompt.c`) -/

/-- What `editorFindCallback` takes from outside `prompt.c`: the function
`findSubstring` of `utils.c` (the row text, the query, the column to start at,
`ignore_case`; it returns the column of the first match from there on, or a negative
number), the value of `CONVAR_GETINT(ignorecase)`, and the key codes `ESC`,
`CTRL_KEY('x')`, `MOUSE_PRESSED`, `ARROW_DOWN` and `ARROW_UP`. -/
structure FindEnv where
  findSubstring : List Nat → List Nat → Nat → Bool → Int
  ignorecase : Int
  ESC : Int
  CTRL_X : Int
  MOUSE_PRESSED : Int
  ARROW_DOWN : Int
  ARROW_UP : Int

/-- A node of the list of matches: `row` and `col`.  The list `head.next`, ... is
the list of its nodes in order; a node is named by its index in it.  `next` of the
last node is `NULL`; `prev` of a later node is the node before it, and `prev` of the
first node is the last node, by the statement `head.next->prev = tail_node`. -/
structure FindNode where
  row : Nat
  col : Nat
deriving DecidableEq, Repr

/-- The right prompt that `editorSetRightPrompt` sets: the empty text, the text
`No results`, or the text `%d of %d` for `current` and `total`. -/
inductive RightPrompt where
  | empty
  | noResults
  | position (current total : Int)
deriving DecidableEq, Repr

/-- The static variables of `editorFindCallback`, and the right prompt.
`saved_hl` holds `saved_hl_pos`, as a row and a column, with the saved bytes. -/
structure FindState where
  prev_query : Option (List Nat)
  nodes : List FindNode
  match_node : Option Nat
  saved_hl : Option (Nat × Nat × List Nat)
  total : Int
  current : Int
  right_prompt : RightPrompt
deriving DecidableEq, Repr

/-- The fields of `gCurFile` that `editorFindCallback` reads or writes: the rows and
the cursor. -/
structure FindFile where
  row : List Highlight.EditorRow
  cursor_x : Nat
  cursor_y : Nat
deriving DecidableEq, Repr

/-- The static variables before the first call. -/
def FindState.initial : FindState :=
  { prev_query := none, nodes := [], match_node := none, saved_hl := none, total := 0,
    current := 0, right_prompt := RightPrompt.empty }

/-- The call `memcpy(&row[r].hl[c], bytes, len)`; `none` when it leaves the class
array. -/
def writeHl (rows : List Highlight.EditorRow) (r c : Nat) (bytes : List Nat) :
    Option (List Highlight.EditorRow) :=
  match rows[r]? with
  | none => none
  | some row =>
    if c + bytes.length ≤ row.hl.length then
      some (rows.set r
        { row with hl := row.hl.take c ++ bytes ++ row.hl.drop (c + bytes.length) })
    else none

/-- The test `isupper((unsigned char) c)` in the C locale. -/
def isupper (c : Nat) : Bool :=
  decide (65 ≤ c) && decide (c ≤ 90)

/-- The value of `ignore_case` for the query. -/
def ignoreCase (env : FindEnv) (query : List Nat) : Bool :=
  if env.ignorecase = 1 then true
  else if env.ignorecase = 2 then !(query.any isupper)
  else false

/-- The values that the search loops of `editorFindCallback` carry: the nodes found
so far, `match_node`, `total` and `current`. -/
structure SearchAcc where
  nodes : List FindNode
  match_node : Option Nat
  total : Int
  current : Int
deriving DecidableEq, Repr

/-- The loop `while (col < row_len)` over the matches of the row `i`, with `fuel`
iterations left at most; `none` when the fuel runs out. -/
def searchRow (env : FindEnv) (file : FindFile) (query : List Nat) (ic : Bool) (i : Nat)
    (data : List Nat) : Nat → Nat → SearchAcc → Option SearchAcc
  | 0, col, acc => if col < data.length then none else some acc
  | fuel + 1, col, acc =>
    if col < data.length then
      let match_idx := env.findSubstring data query col ic
      if match_idx < 0 then some acc
      else
        let col := match_idx.toNat
        let nodes := acc.nodes ++ [{ row := i, col := col }]
        let acc1 := { acc with nodes := nodes, total := acc.total + 1 }
        let acc2 :=
          match acc1.match_node with
          | some _ => acc1
          | none =>
            let acc3 := { acc1 with current := acc1.current + 1 }
            if (i = file.cursor_y ∧ col ≥ file.cursor_x) ∨ i > file.cursor_y then
              { acc3 with match_node := some (nodes.length - 1) }
            else acc3
        searchRow env file query ic i data fuel (col + query.length) acc2
    else some acc

/-- The loop `for (int i = 0; i < gCurFile->num_rows; i++)` of the search, from the
row `i` on, over the rows that are left. -/
def searchRows (env : FindEnv) (file : FindFile) (query : List Nat) (ic : Bool) :
    List Highlight.EditorRow → Nat → SearchAcc → Option SearchAcc
  | [], _, acc => some acc
  | row :: rest, i, acc =>
    match searchRow env file query ic i row.data (row.data.length + 1) 0 acc with
    | none => none
    | some acc2 => searchRows env file query ic rest (i + 1) acc2

/-- The byte `(b & ~HL_BG_MASK) | (HL_BG_MATCH << HL_FG_BITS)` of a matched
character. -/
def matchByte (b : Nat) : Nat :=
  (b &&& (255 - Highlight.HL_BG_MASK)) ||| (Highlight.HL_BG_MATCH <<< Highlight.HL_FG_BITS)

/-- The end of `editorFindCallback`, from "Show match count" on: the right prompt,
the cursor on the current match, and the highlight of the match with its old bytes
saved. -/
def showMatch (st : FindState) (file : FindFile) (len : Nat) : Option (FindState × FindFile) :=
  match st.match_node with
  | none => none
  | some k =>
    match st.nodes[k]? with
    | none => none
    | some node =>
      match file.row[node.row]? with
      | none => none
      | some row =>
        if node.col + len ≤ row.hl.length then
          let saved := (row.hl.drop node.col).take len
          match writeHl file.row node.row node.col (saved.map matchByte) with
          | none => none
          | some rows =>
            some
              ({ st with
                 right_prompt := RightPrompt.position st.current st.total
                 saved_hl := some (node.row, node.col, saved) },
               { file with row := rows, cursor_x := node.col, cursor_y := node.row })
        else none

/-- The part "Navigate between matches" of `editorFindCallback`. -/
def navigate (env : FindEnv) (key : Int) (st : FindState) : Option FindState :=
  if key = env.ARROW_DOWN then
    match st.match_node with
    | none => none
    | some k =>
      if k + 1 < st.nodes.length then
        some { st with match_node := some (k + 1), current := st.current + 1 }
      else some { st with match_node := some 0, current := 1 }
  else if key = env.ARROW_UP then
    match st.match_node with
    | none => none
    | some k =>
      let prev := if k = 0 then st.nodes.length - 1 else k - 1
      some
        { st with
          match_node := some prev
          current := if st.current = 1 then st.total else st.current - 1 }
  else some st

/-- The end of `editorFindCallback`, from "Navigate between matches" on. -/
def finishFind (env : FindEnv) (key : Int) (st : FindState) (file : FindFile) (len : Nat) :
    Option (FindState × FindFile) :=
  match navigate env key st with
  | none => none
  | some st2 => showMatch st2 file len

/-- The statement "Restore previous highlight" at the start of
`editorFindCallback`. -/
def restoreHl (st : FindState) (file : FindFile) : Option (FindState × FindFile) :=
  match st.saved_hl with
  | none => some (st, file)
  | some (r, c, bytes) =>
    match writeHl file.row r c bytes with
    | none => none
    | some rows => some ({ st with saved_hl := none }, { file with row := rows })

/-- The function `editorFindCallback` of `prompt.c`: the static variables, the right
prompt and the file after the call.  `none` is undefined behaviour, or a search
that does not end. -/
def editorFindCallback (env : FindEnv) (query : List Nat) (key : Int) (st0 : FindState)
    (file0 : FindFile) : Option (FindState × FindFile) :=
  match restoreHl st0 file0 with
  | none => none
  | some (st, file) =>
    if key = env.ESC ∨ key = env.CTRL_X ∨ key = 13 ∨ key = env.MOUSE_PRESSED then
      some ({ st with prev_query := none, saved_hl := none, nodes := [],
                      right_prompt := RightPrompt.empty }, file)
    else if query.length = 0 then
      some ({ st with right_prompt := RightPrompt.empty }, file)
    else if st.nodes = [] ∨ st.prev_query = none ∨ st.prev_query ≠ some query then
      match searchRows env file query (ignoreCase env query) file.row 0
          { nodes := [], match_node := none, total := 0, current := 0 } with
      | none => none
      | some acc =>
        let st1 :=
          { st with
            total := acc.total, current := acc.current, match_node := acc.match_node
            nodes := acc.nodes, prev_query := some query }
        if st1.nodes = [] then
          some ({ st1 with right_prompt := RightPrompt.noResults }, file)
        else
          let st2 :=
            match st1.match_node with
            | none => { st1 with match_node := some 0 }
            | some _ => st1
          finishFind env key st2 file query.length
    else finishFind env key st file query.length

/-- A sample of `findSubstring`, from the column `col` on with `fuel` columns left
to try: the first column at which the query stands in the text, compared as given or
in ASCII lower case, and -1 when there is none. -/
def sampleFindFrom (data query : List Nat) (ic : Bool) : Nat → Nat → Int
  | 0, _ => -1
  | fuel + 1, col =>
    let lower := fun (l : List Nat) => if ic then l.map Highlight.toLowerByte else l
    if col + query.length ≤ data.length ∧
        lower ((data.drop col).take query.length) = lower query then (col : Int)
    else sampleFindFrom data query ic fuel (col + 1)

/-- A sample of what `editorFindCallback` takes from outside: a search that
compares as given, and sample key codes. -/
def sampleFindEnv : FindEnv where
  findSubstring := fun data query col ic => sampleFindFrom data query ic (data.length + 1) col
  ignorecase := 0
  ESC := 27
  CTRL_X := 24
  MOUSE_PRESSED := 1000
  ARROW_DOWN := 1001
  ARROW_UP := 1002

/-- A file with the one row `ab ab`; the cursor stands in the column 4, behind the
start of the last match of `ab`. -/
def sampleFindFile : FindFile where
  row := [{ data := [97, 98, 32, 97, 98], hl := [0, 0, 0, 0, 0], hl_open_comment := false }]
  cursor_x := 4
  cursor_y := 0

end Find

namespace Highlight

/-! ## Rows with a closed block comment -/

/-- The text `/*c*/int`: a block comment, and right after its end token the word
`int`. -/
def sampleCommentInt : List Nat := [47, 42, 99, 42, 47, 105, 110, 116]

/-- A file with the one row `/*c*/int`, not yet highlighted, under `sampleRule`. -/
def sampleCommentIntFile : EditorFile where
  filename := none
  row := [{ data := sampleCommentInt, hl := List.replicate 8 HL_NORMAL, hl_open_comment := false }]
  syntaxDef := some sampleRule

/-- The text `/*c*/xint`: a block comment, the identifier character `x` and the
word `int`. -/
def sampleCommentXint : List Nat := [47, 42, 99, 42, 47, 120, 105, 110, 116]

/-- A file with the one row `/*c*/xint`, not yet highlighted, under `sampleRule`. -/
def sampleCommentXintFile : EditorFile where
  filename := none
  row := [{ data := sampleCommentXint, hl := List.replicate 9 HL_NORMAL, hl_open_comment := false }]
  syntaxDef := some sampleRule

end Highlight

namespace Highlight

/-! ## Rules with empty tokens -/

/-- A rule whose comment tokens are empty strings and whose only keyword is the
empty string; numbers and strings are disabled. -/
def sampleEmptyRule : EditorSyntax where
  file_type := some [69]
  singleline_comment_start := some []
  multiline_comment_start := some []
  multiline_comment_end := some []
  file_exts := [[46, 101]]
  keywords := [[[]], [], []]
  flags := 0

/-- A file with the rows ` a` and `b`, not yet highlighted, under
`sampleEmptyRule`. -/
def sampleEmptyFile : EditorFile where
  filename := none
  row :=
    [{ data := [32, 97], hl := [0, 0], hl_open_comment := true },
     { data := [98], hl := [0], hl_open_comment := false }]
  syntaxDef := some sampleEmptyRule

end Highlight

namespace Highlight

/-! ## The positions that an iteration writes -/

/-- The result `r` of a part of the loop body on the state `st` writes only between
the old and the new position: a `continue` does not move the position backward and
leaves every byte before the old position and every byte from the new position on
as it was; a `break` leaves the position, the states and every byte before the
position as they were. -/
def Flow.Frame (st : ScanState) (r : Flow) : Prop :=
  match r with
  | Flow.next st2 =>
    st.i ≤ st2.i ∧ ∀ j, j < st.i ∨ st2.i ≤ j → st2.hl[j]? = st.hl[j]?
  | Flow.stop st2 =>
    st2.i = st.i ∧ st2.in_comment = st.in_comment ∧ st2.in_string = st.in_string ∧
      ∀ j, j < st.i → st2.hl[j]? = st.hl[j]?
  | Flow.pass => True
  | Flow.fault => True

end Highlight

namespace Highlight

/-- The value of `i` after the statement
`if (i < row->size && (row->data[i] == 'f' || row->data[i] == 'F')) i++` of the
number part. -/
def floatSuffix (data : List Nat) (i : Nat) : Nat :=
  match data[i]? with
  | some d => if d = 102 ∨ d = 70 then i + 1 else i
  | none => i

/-- The test `i == row->size || isSeparator(row->data[i]) || isSpace(row->data[i])`
of the number part: the character at the position `i` is absent, a separator or
whitespace. -/
def numberCommits (env : Externals) (data : List Nat) (i : Nat) : Bool :=
  match data[i]? with
  | none => true
  | some d => env.isSeparator d || env.isSpace d

end Highlight

namespace Highlight

/-! ## A line-comment token that starts the block-comment token -/

/-- A rule with the line comment `--` and the block comment `--[[` ... `]]`. -/
def sampleDashRule : EditorSyntax where
  file_type := some [76]
  singleline_comment_start := some [45, 45]
  multiline_comment_start := some [45, 45, 91, 91]
  multiline_comment_end := some [93, 93]
  file_exts := [[46, 108]]
  keywords := [[], [], []]
  flags := HL_HIGHLIGHT_NUMBERS ||| HL_HIGHLIGHT_STRINGS

/-- A file with the rows `--[[ a` and `b`; the stored state of the second row is
`true`. -/
def sampleDashFile : EditorFile where
  filename := none
  row :=
    [{ data := [45, 45, 91, 91, 32, 97], hl := [0, 0, 0, 0, 0, 0], hl_open_comment := false },
     { data := [98], hl := [1], hl_open_comment := true }]
  syntaxDef := none

/-- A file whose first row is a double quote and the letter `a`, a string that is
not closed, and whose second row is `int`, with stale class bytes and a stale stored
state; the rule is `sampleRule`. -/
def sampleStringFile : EditorFile where
  filename := none
  row :=
    [{ data := [34, 97], hl := [5, 5], hl_open_comment := false },
     { data := [105, 110, 116], hl := [7, 7, 7], hl_open_comment := true }]
  syntaxDef := some sampleRule

/-- A file with the rows `b`, `int` and `c`, not yet highlighted, under
`sampleRule`. -/
def samplePlainFile : EditorFile where
  filename := some [109, 46, 99]
  row :=
    [{ data := [98], hl := [0], hl_open_comment := false },
     { data := [105, 110, 116], hl := [0, 0, 0], hl_open_comment := false },
     { data := [99], hl := [0], hl_open_comment := false }]
  syntaxDef := some sampleRule

end Highlight

namespace Highlight

/-! ## The forms of a number -/

/-- The forms of a number without its suffix, in the words of the specification:
`0` then `x` or `X` then hex digits; `0` then one or more octal digits; `0.` then
decimal digits; a lone `0`; a non-zero digit, decimal digits, optionally `.` and
decimal digits; `.` followed by at least one decimal digit.  Where the number of
digits is not given, there may be none. -/
def SpecNumberBody (b : List Nat) : Prop :=
  (∃ x hs, b = 48 :: x :: hs ∧ (x = 120 ∨ x = 88) ∧ ∀ h ∈ hs, isHexChar h = true) ∨
  (∃ os, b = 48 :: os ∧ os ≠ [] ∧ ∀ o ∈ os, isOctChar o = true) ∨
  (∃ ds, b = 48 :: 46 :: ds ∧ ∀ d ∈ ds, isdigit d = true) ∨
  b = [48] ∨
  (∃ d ds tail, b = d :: (ds ++ tail) ∧ isdigit d = true ∧ d ≠ 48 ∧
    (∀ x ∈ ds, isdigit x = true) ∧
    (tail = [] ∨ ∃ es, tail = 46 :: es ∧ ∀ x ∈ es, isdigit x = true)) ∨
  (∃ ds, b = 46 :: ds ∧ ds ≠ [] ∧ ∀ d ∈ ds, isdigit d = true)

/-- The forms of a number in the words of the specification: one of the forms of
`SpecNumberBody`, followed by at most one suffix `f` or `F`. -/
def SpecNumberForm (w : List Nat) : Prop :=
  SpecNumberBody w ∨ ∃ b f, w = b ++ [f] ∧ (f = 102 ∨ f = 70) ∧ SpecNumberBody b

end Highlight

namespace Highlight

/-! ## Rows with numbers -/

/-- The text `1.5f;`: a number with a fraction and a suffix, then a separator. -/
def sampleNumber : List Nat := [49, 46, 53, 102, 59]

/-- A file with the one row `1.5f;`, not yet highlighted, under `sampleRule`. -/
def sampleNumberFile : EditorFile where
  filename := none
  row := [{ data := sampleNumber, hl := List.replicate 5 HL_NORMAL, hl_open_comment := false }]
  syntaxDef := some sampleRule

end Highlight

namespace Highlight

/-- The text `.f`: a `.` that no digit follows. -/
def sampleDotF : List Nat := [46, 102]

/-- The text `1.`: a digit and a `.` at the end of the row. -/
def sampleOneDot : List Nat := [49, 46]

/-- A file with the one row `1.`, not yet highlighted, under `sampleRule`. -/
def sampleOneDotFile : EditorFile where
  filename := none
  row := [{ data := sampleOneDot, hl := [0, 0], hl_open_comment := false }]
  syntaxDef := some sampleRule

end Highlight

namespace Highlight

/-! ## The span of a string -/

/-- The character at the position `j` is an escaping backslash of the string opened
at the position `p`: it stands after `p`, it is a backslash with a character after
it, and the character before it is not itself an escaping backslash of the string. -/
def escaping (data : List Nat) (p : Nat) : Nat → Bool
  | 0 => false
  | j + 1 =>
    decide (p ≤ j) && (data[j + 1]? == some 92) && decide (j + 2 < data.length) &&
      !(escaping data p j)

/-- The string opened at the position `p` by the quote character `q` can close at
the position `j`: the position is after `p`, holds `q`, and is not immediately
preceded by an escaping backslash. -/
def StringCloses (data : List Nat) (p q j : Nat) : Prop :=
  p < j ∧ data[j]? = some q ∧ escaping data p (j - 1) = false

instance instDecidableStringCloses (data : List Nat) (p q j : Nat) :
    Decidable (StringCloses data p q j) := by
  unfold StringCloses; infer_instance

/-- The span of the string opened at the position `p` by the quote character `q`
is `p .. e - 1`, and `fin` is the value of `in_string` after it: either the string
closes first at the position `e - 1`, and `fin` is 0, or it can close nowhere in the
row, `e` is the end of the row and `fin` is `q`. -/
def StringSpan (data : List Nat) (p q e fin : Nat) : Prop :=
  (∃ k, e = k + 1 ∧ fin = 0 ∧ StringCloses data p q k ∧
    ∀ j, j < k → ¬ StringCloses data p q j) ∨
  (e = data.length ∧ fin = q ∧ ∀ j, j < data.length → ¬ StringCloses data p q j)

instance instDecidableStringSpan (data : List Nat) (p q e fin : Nat) :
    Decidable (StringSpan data p q e fin) :=
  decidable_of_iff
    ((0 < e ∧ fin = 0 ∧ StringCloses data p q (e - 1) ∧
        ∀ j, j < e - 1 → ¬ StringCloses data p q j) ∨
      (e = data.length ∧ fin = q ∧ ∀ j, j < data.length → ¬ StringCloses data p q j))
    (by
      unfold StringSpan
      constructor
      · rintro (⟨h0, h1, h2, h3⟩ | h)
        · exact Or.inl ⟨e - 1, by omega, h1, h2, h3⟩
        · exact Or.inr h
      · rintro (⟨k, hk, h1, h2, h3⟩ | h)
        · subst hk
          exact Or.inl ⟨by omega, h1, h2, h3⟩
        · exact Or.inr h)

/-- The text of a double quote, the letter `a` and a space: a string that is not
closed in the row and ends in a space. -/
def sampleOpenString : List Nat := [34, 97, 32]

/-- A file with the one row `sampleOpenString`, not yet highlighted, under
`sampleRule`. -/
def sampleOpenStringFile : EditorFile where
  filename := none
  row := [{ data := sampleOpenString, hl := [0, 0, 0], hl_open_comment := false }]
  syntaxDef := some sampleRule

/-- The text of a double quote, the block-comment start token `/*`, a backslash, a
double quote, the line-comment token `//` and a space: a string that holds both
comment tokens and an escaped quote, is not closed in the row and ends in a space. -/
def sampleLongString : List Nat := [34, 47, 42, 92, 34, 47, 47, 32]

/-- A file with the one row `sampleLongString`, not yet highlighted, under
`sampleRule`. -/
def sampleLongStringFile : EditorFile where
  filename := none
  row :=
    [{ data := sampleLongString, hl := List.replicate 8 HL_NORMAL, hl_open_comment := false }]
  syntaxDef := some sampleRule

end Highlight

/-! # Theorems -/

/-! ## The node store -/

theorem load_lt {mem : Heap} {a : Nat} {n : EditorActionList}
    (h : load mem (some a) = some n) : a < mem.length := by
  by_contra hlt
  have : mem[a]? = none := List.getElem?_eq_none (by omega)
  simp [load, this] at h

theorem load_set_ne (mem : Heap) {a b : Nat} (v : Option EditorActionList) (h : a ≠ b) :
    load (mem.set a v) (some b) = load mem (some b) := by
  simp [load, List.getElem?_set_ne h]

theorem load_set_eq {mem : Heap} {a : Nat} (v : Option EditorActionList)
    (h : a < mem.length) : load (mem.set a v) (some a) = v := by
  simp [load, List.getElem?_set, h]

theorem load_append_left {mem : Heap} {a : Nat} (l : Heap) (h : a < mem.length) :
    load (mem ++ l) (some a) = load mem (some a) := by
  simp [load, List.getElem?_append_left h]

theorem load_append_new (mem : Heap) (v : Option EditorActionList) :
    load (mem ++ [v]) (some mem.length) = v := by
  simp [load]

theorem update_of_load {mem : Heap} {a : Nat} {n : EditorActionList}
    (g : EditorActionList → EditorActionList) (h : load mem (some a) = some n) :
    update mem (some a) g = some (mem.set a (some (g n))) := by
  simp only [load] at h
  simp only [update, h]

/-! ## Segments -/

theorem seg_cons_iff (mem : Heap) (prev p : Option Nat) (c : Nat × Option EditorAction)
    (cs : List (Nat × Option EditorAction)) (q : Option Nat) :
    Seg mem prev p (c :: cs) q ↔
      p = some c.1 ∧ ∃ n, load mem (some c.1) = some n ∧ n.prev = prev ∧ n.action = c.2 ∧
        Seg mem (some c.1) n.next cs q := by
  rw [Seg]
  cases h : load mem (some c.1) with
  | none => simp
  | some n => simp

/-- A segment only depends on the cells of its nodes. -/
theorem seg_congr {mem mem2 : Heap} :
    ∀ (cs : List (Nat × Option EditorAction)) (prev p q : Option Nat),
      (∀ c ∈ cs, load mem2 (some c.1) = load mem (some c.1)) →
      Seg mem prev p cs q → Seg mem2 prev p cs q
  | [], _, _, _, _, h => by simpa [Seg] using h
  | c :: cs, prev, p, q, hc, h => by
    rw [seg_cons_iff] at h ⊢
    obtain ⟨hp, n, hn, h1, h2, h3⟩ := h
    refine ⟨hp, n, ?_, h1, h2, ?_⟩
    · rw [hc c (List.mem_cons_self _ _)]; exact hn
    · exact seg_congr cs _ _ _ (fun d hd => hc d (List.mem_cons_of_mem _ hd)) h3

theorem lastPtr_cons (prev : Option Nat) (c : Nat × Option EditorAction)
    (cs : List (Nat × Option EditorAction)) :
    lastPtr prev (c :: cs) = lastPtr (some c.1) cs := by
  cases cs with
  | nil => simp [lastPtr]
  | cons d ds =>
    simp only [lastPtr, List.getLast?_cons_cons]
    cases h : (d :: ds).getLast? with
    | none => simp at h
    | some x => rfl

theorem seg_append (mem : Heap) :
    ∀ (l1 l2 : List (Nat × Option EditorAction)) (prev p q : Option Nat),
      Seg mem prev p (l1 ++ l2) q ↔
        ∃ m, Seg mem prev p l1 m ∧ Seg mem (lastPtr prev l1) m l2 q
  | [], l2, prev, p, q => by
    simp [Seg, lastPtr]
  | c :: l1, l2, prev, p, q => by
    simp only [List.cons_append, seg_cons_iff, lastPtr_cons]
    constructor
    · rintro ⟨hp, n, hn, h1, h2, h3⟩
      obtain ⟨m, hm1, hm2⟩ := (seg_append mem l1 l2 _ _ _).1 h3
      exact ⟨m, ⟨hp, n, hn, h1, h2, hm1⟩, hm2⟩
    · rintro ⟨m, ⟨hp, n, hn, h1, h2, hm1⟩, hm2⟩
      exact ⟨hp, n, hn, h1, h2, (seg_append mem l1 l2 _ _ _).2 ⟨m, hm1, hm2⟩⟩

/-- Two closed segments from the same pointer have the same length. -/
theorem seg_length_unique (mem : Heap) :
    ∀ (cs ds : List (Nat × Option EditorAction)) (prev prev2 p : Option Nat),
      Seg mem prev p cs none → Seg mem prev2 p ds none → cs.length = ds.length
  | [], [], _, _, _, _, _ => rfl
  | [], d :: ds, _, _, p, h1, h2 => by
    rw [seg_cons_iff] at h2
    simp only [Seg] at h1
    rw [h1] at h2
    exact absurd h2.1 (by simp)
  | c :: cs, [], _, _, p, h1, h2 => by
    rw [seg_cons_iff] at h1
    simp only [Seg] at h2
    rw [h2] at h1
    exact absurd h1.1 (by simp)
  | c :: cs, d :: ds, _, _, p, h1, h2 => by
    rw [seg_cons_iff] at h1 h2
    obtain ⟨hp1, n1, hn1, -, -, t1⟩ := h1
    obtain ⟨hp2, n2, hn2, -, -, t2⟩ := h2
    have hcd : c.1 = d.1 := by
      rw [hp1] at hp2
      exact Option.some.inj hp2
    rw [← hcd, hn1] at hn2
    have hn : n1 = n2 := Option.some.inj hn2
    subst hn
    rw [← hcd] at t2
    simp [seg_length_unique mem cs ds _ _ _ t1 t2]

/-- The nodes of a closed segment are pairwise distinct. -/
theorem seg_nodup (mem : Heap) :
    ∀ (cs : List (Nat × Option EditorAction)) (prev p : Option Nat),
      Seg mem prev p cs none → (cs.map Prod.fst).Nodup
  | [], _, _, _ => by simp
  | c :: cs, prev, p, h => by
    have h0 := h
    rw [seg_cons_iff] at h
    obtain ⟨hp, n, hn, -, -, t⟩ := h
    rw [List.map_cons, List.nodup_cons]
    refine ⟨?_, seg_nodup mem cs _ _ t⟩
    intro hmem
    obtain ⟨d, hd, hdc⟩ := List.mem_map.1 hmem
    obtain ⟨l1, l2, hl⟩ := List.append_of_mem hd
    rw [hl] at t
    obtain ⟨m, -, hm2⟩ := (seg_append mem l1 (d :: l2) _ _ _).1 t
    have hm : m = p := by
      rw [seg_cons_iff] at hm2
      rw [hm2.1, hp, hdc]
    rw [hm] at hm2
    have := seg_length_unique mem _ _ _ _ _ h0 hm2
    rw [hl] at this
    simp at this
    omega

/-- The node at position `i` of a segment: its cell, action, `prev` and `next`. -/
theorem seg_get (mem : Heap) :
    ∀ (cs : List (Nat × Option EditorAction)) (prev p q : Option Nat) (i : Nat)
      (c : Nat × Option EditorAction),
      Seg mem prev p cs q → cs[i]? = some c →
      ∃ n, load mem (some c.1) = some n ∧ n.action = c.2 ∧
        n.prev = (if i = 0 then prev else ptrAt cs (i - 1)) ∧
        n.next = (if i + 1 < cs.length then ptrAt cs (i + 1) else q)
  | [], _, _, _, i, c, _, hi => by simp at hi
  | c0 :: cs, prev, p, q, 0, c, h, hi => by
    rw [seg_cons_iff] at h
    obtain ⟨-, n, hn, h1, h2, t⟩ := h
    simp only [List.getElem?_cons_zero, Option.some.injEq] at hi
    subst hi
    refine ⟨n, hn, h2, by simp [h1], ?_⟩
    cases cs with
    | nil => simpa [Seg] using t
    | cons d ds =>
      rw [seg_cons_iff] at t
      simp [ptrAt, t.1]
  | c0 :: cs, prev, p, q, i + 1, c, h, hi => by
    rw [seg_cons_iff] at h
    obtain ⟨-, n0, -, -, -, t⟩ := h
    simp only [List.getElem?_cons_succ] at hi
    obtain ⟨n, hn, h2, h3, h4⟩ := seg_get mem cs _ _ _ i c t hi
    refine ⟨n, hn, h2, ?_, ?_⟩
    · rw [h3]
      cases i with
      | zero => simp [ptrAt]
      | succ j => simp [ptrAt]
    · rw [h4]
      simp [ptrAt]

/-! ## Histories -/

theorem cells_length (hd : Nat) (nodes : List (Nat × EditorAction)) :
    (cells hd nodes).length = nodes.length + 1 := by
  simp [cells]

theorem cells_succ (hd : Nat) (nodes : List (Nat × EditorAction)) (k : Nat) :
    (cells hd nodes)[k + 1]? = (nodes[k]?).map (fun c => (c.1, some c.2)) := by
  simp [cells]

theorem ptrAt_cells_zero (hd : Nat) (nodes : List (Nat × EditorAction)) :
    ptrAt (cells hd nodes) 0 = some hd := by
  simp [ptrAt, cells]

theorem ptrAt_cells_succ (hd : Nat) (nodes : List (Nat × EditorAction)) (k : Nat) :
    ptrAt (cells hd nodes) (k + 1) = (nodes[k]?).map Prod.fst := by
  simp only [ptrAt, cells_succ, Option.map_map]
  rfl

/-- The addresses of the nodes of a history are pairwise distinct. -/
theorem History.nodup {D : Type} {f : EditorFile D} {hd : Nat}
    {nodes : List (Nat × EditorAction)} {k : Nat} (h : History f hd nodes k) :
    (hd :: nodes.map Prod.fst).Nodup := by
  have := seg_nodup f.mem _ _ _ h.seg
  simpa [cells, Function.comp_def] using this

/-- The current node of a history is the cell at position `k`. -/
theorem History.current_ptr {D : Type} {f : EditorFile D} {hd : Nat}
    {nodes : List (Nat × EditorAction)} {k : Nat} (h : History f hd nodes k) :
    f.action_current = ptrAt (cells hd nodes) k :=
  h.current_eq

/-- In a history, `current` is the sentinel exactly at position 0. -/
theorem History.current_eq_head_iff {D : Type} {f : EditorFile D} {hd : Nat}
    {nodes : List (Nat × EditorAction)} {k : Nat} (h : History f hd nodes k) :
    f.action_current = f.action_head ↔ k = 0 := by
  rw [h.current_ptr, h.head_eq]
  constructor
  · intro he
    cases k with
    | zero => rfl
    | succ j =>
      exfalso
      rw [ptrAt_cells_succ] at he
      have hj : j < nodes.length := h.current_le
      rw [List.getElem?_eq_getElem hj] at he
      simp only [Option.map_some', Option.some.injEq] at he
      have hn := h.nodup
      rw [List.nodup_cons] at hn
      apply hn.1
      rw [← he]
      exact List.mem_map_of_mem _ (List.getElem_mem hj)
  · intro hk
    rw [hk, ptrAt_cells_zero]

/-- The cell of a real node of a history. -/
theorem History.load_node {D : Type} {f : EditorFile D} {hd : Nat}
    {nodes : List (Nat × EditorAction)} {k : Nat} (h : History f hd nodes k)
    {i : Nat} {addr : Nat} {a : EditorAction} (hi : nodes[i]? = some (addr, a)) :
    ∃ n, load f.mem (some addr) = some n ∧ n.action = some a ∧
      n.prev = ptrAt (cells hd nodes) i ∧
      n.next = (nodes[i + 1]?).map Prod.fst := by
  have hc : (cells hd nodes)[i + 1]? = some (addr, some a) := by
    rw [cells_succ, hi]; rfl
  obtain ⟨n, hn, h1, h2, h3⟩ := seg_get f.mem _ _ _ _ _ _ h.seg hc
  refine ⟨n, hn, h1, by simpa using h2, ?_⟩
  rw [h3, cells_length]
  by_cases hlt : i + 1 < nodes.length
  · rw [if_pos (by omega), ptrAt_cells_succ]
  · rw [if_neg (by omega), List.getElem?_eq_none (by omega)]
    rfl

/-- The cell of the sentinel of a history. -/
theorem History.load_head {D : Type} {f : EditorFile D} {hd : Nat}
    {nodes : List (Nat × EditorAction)} {k : Nat} (h : History f hd nodes k) :
    ∃ n, load f.mem (some hd) = some n ∧ n.action = none ∧ n.prev = none ∧
      n.next = (nodes[0]?).map Prod.fst := by
  have hc : (cells hd nodes)[0]? = some (hd, none) := by simp [cells]
  obtain ⟨n, hn, h1, h2, h3⟩ := seg_get f.mem _ _ _ _ _ _ h.seg hc
  refine ⟨n, hn, h1, by simpa using h2, ?_⟩
  rw [h3, cells_length]
  by_cases hlt : 0 < nodes.length
  · rw [if_pos (by omega), ptrAt_cells_succ]
  · rw [if_neg (by omega), List.getElem?_eq_none (by omega)]
    rfl

/-! ## One step of undo and redo on a history -/

/-- The position reached by an undo is again a position of the history. -/
theorem History.pred {D : Type} {f g : EditorFile D} {hd : Nat}
    {nodes : List (Nat × EditorAction)} {k : Nat} (h : History f hd nodes (k + 1))
    (hm : g.mem = f.mem) (hh : g.action_head = f.action_head)
    (hc : g.action_current = ptrAt (cells hd nodes) k) : History g hd nodes k where
  head_eq := by rw [hh]; exact h.head_eq
  seg := by rw [hm]; exact h.seg
  current_le := Nat.le_of_succ_le h.current_le
  current_eq := hc

/-- An undo at a real node: the result of `editorUndo` in full. -/
theorem undo_step {D : Type} (P : Primitives D) {f : EditorFile D} {hd : Nat}
    {nodes : List (Nat × EditorAction)} {k : Nat} (h : History f hd nodes (k + 1))
    {addr : Nat} {a : EditorAction} (hk : nodes[k]? = some (addr, a)) :
    editorUndo P f = some (true,
      { revert P a f with
        action_current := ptrAt (cells hd nodes) k
        dirty := f.dirty - 1 }) := by
  obtain ⟨n, hn, ha, hp, -⟩ := h.load_node hk
  have hcur : f.action_current = some addr := by
    rw [h.current_ptr, ptrAt_cells_succ, hk]; rfl
  have hne : ¬ f.action_current = f.action_head := by
    rw [h.current_eq_head_iff]; omega
  unfold editorUndo
  rw [if_neg hne, hcur]
  simp only [hn, ha]
  cases a with
  | edit e => simp only [revert, hp]
  | attri t => simp only [revert, hp]

/-- An undo at the sentinel. -/
theorem undo_head {D : Type} (P : Primitives D) {f : EditorFile D}
    (h : f.action_current = f.action_head) : editorUndo P f = some (false, f) := by
  unfold editorUndo
  rw [if_pos h]

/-- The cell of the current node of a history. -/
theorem History.load_current {D : Type} {f : EditorFile D} {hd : Nat}
    {nodes : List (Nat × EditorAction)} {k : Nat} (h : History f hd nodes k) :
    ∃ n, load f.mem f.action_current = some n ∧ n.next = (nodes[k]?).map Prod.fst := by
  cases k with
  | zero =>
    obtain ⟨n, hn, -, -, hx⟩ := h.load_head
    refine ⟨n, ?_, hx⟩
    rw [h.current_ptr, ptrAt_cells_zero]; exact hn
  | succ j =>
    have hj : j < nodes.length := h.current_le
    have hk : nodes[j]? = some (nodes[j].1, nodes[j].2) := by
      rw [List.getElem?_eq_getElem hj]
    obtain ⟨n, hn, -, -, hx⟩ := h.load_node hk
    refine ⟨n, ?_, hx⟩
    rw [h.current_ptr, ptrAt_cells_succ, hk]; exact hn

/-- A redo with a successor: the result of `editorRedo` in full. -/
theorem redo_step {D : Type} (P : Primitives D) {f : EditorFile D} {hd : Nat}
    {nodes : List (Nat × EditorAction)} {k : Nat} (h : History f hd nodes k)
    {addr : Nat} {a : EditorAction} (hk : nodes[k]? = some (addr, a)) :
    editorRedo P f = some (true,
      { replay P a f with
        action_current := some addr
        dirty := f.dirty + 1 }) := by
  obtain ⟨cur, hcur, hnx⟩ := h.load_current
  obtain ⟨n, hn, ha, -, -⟩ := h.load_node hk
  rw [hk] at hnx
  simp only [Option.map_some'] at hnx
  unfold editorRedo
  simp only [hcur, hnx, hn, ha]
  cases a with
  | edit e => simp only [replay]
  | attri t => simp only [replay]

/-- A redo at the last node of a history. -/
theorem redo_last {D : Type} (P : Primitives D) {f : EditorFile D} {hd : Nat}
    {nodes : List (Nat × EditorAction)} {k : Nat} (h : History f hd nodes k)
    (hk : k = nodes.length) : editorRedo P f = some (false, f) := by
  obtain ⟨cur, hcur, hnx⟩ := h.load_current
  rw [List.getElem?_eq_none (by omega)] at hnx
  simp only [Option.map_none'] at hnx
  unfold editorRedo
  simp only [hcur, hnx]

/-- The position reached by a redo is again a position of the history. -/
theorem History.succ {D : Type} {f g : EditorFile D} {hd : Nat}
    {nodes : List (Nat × EditorAction)} {k : Nat} (h : History f hd nodes k)
    (hk : k < nodes.length)
    (hm : g.mem = f.mem) (hh : g.action_head = f.action_head)
    (hc : g.action_current = ptrAt (cells hd nodes) (k + 1)) : History g hd nodes (k + 1) where
  head_eq := by rw [hh]; exact h.head_eq
  seg := by rw [hm]; exact h.seg
  current_le := hk
  current_eq := hc

/-! ## Freeing the redo tail -/

theorem editorFreeActionList_null (fuel : Nat) (mem : Heap) :
    editorFreeActionList fuel mem none = some mem := by
  cases fuel <;> rfl

theorem load_free_ne (mem : Heap) {a b : Nat} (h : a ≠ b) :
    load (free mem a) (some b) = load mem (some b) :=
  load_set_ne mem none h

theorem load_free_eq (mem : Heap) (a : Nat) : load (free mem a) (some a) = none := by
  by_cases h : a < mem.length
  · exact load_set_eq none h
  · simp [load, free, List.getElem?_eq_none (show (mem.set a none).length ≤ a by simp; omega)]

theorem load_freeAll_of_not_mem :
    ∀ (as : List Nat) (mem : Heap) (b : Nat), b ∉ as →
      load (freeAll mem as) (some b) = load mem (some b)
  | [], _, _, _ => rfl
  | a :: as, mem, b, h => by
    rw [List.mem_cons, not_or] at h
    show load (freeAll (free mem a) as) (some b) = _
    rw [load_freeAll_of_not_mem as _ b h.2, load_free_ne mem (Ne.symm h.1)]

theorem load_freeAll_none :
    ∀ (as : List Nat) (mem : Heap) (b : Nat), load mem (some b) = none →
      load (freeAll mem as) (some b) = none
  | [], _, _, h => h
  | a :: as, mem, b, h => by
    show load (freeAll (free mem a) as) (some b) = none
    apply load_freeAll_none as
    by_cases hab : a = b
    · rw [hab]; exact load_free_eq mem b
    · rw [load_free_ne mem hab]; exact h

theorem load_freeAll_of_mem :
    ∀ (as : List Nat) (mem : Heap) (b : Nat), b ∈ as →
      load (freeAll mem as) (some b) = none
  | a :: as, mem, b, h => by
    show load (freeAll (free mem a) as) (some b) = none
    by_cases hab : a = b
    · apply load_freeAll_none
      rw [hab]; exact load_free_eq mem b
    · rw [List.mem_cons] at h
      rcases h with h | h
      · exact absurd h.symm hab
      · exact load_freeAll_of_mem as _ b h

/-- On a closed segment the loop of `editorFreeActionList` frees exactly the nodes
of the segment, whenever the fuel is at least the length of the segment. -/
theorem editorFreeActionList_seg :
    ∀ (cs : List (Nat × Option EditorAction)) (mem : Heap) (prev p : Option Nat) (fuel : Nat),
      Seg mem prev p cs none → cs.length ≤ fuel →
      editorFreeActionList fuel mem p = some (freeAll mem (cs.map Prod.fst))
  | [], mem, _, p, fuel, h, _ => by
    simp only [Seg] at h
    rw [h, editorFreeActionList_null]
    rfl
  | c :: cs, mem, prev, p, fuel, h, hf => by
    have hnd := seg_nodup mem _ _ _ h
    rw [List.map_cons, List.nodup_cons] at hnd
    rw [seg_cons_iff] at h
    obtain ⟨hp, n, hn, -, -, t⟩ := h
    cases fuel with
    | zero => simp at hf
    | succ fuel =>
      rw [hp]
      show (match load mem (some c.1) with
        | none => none
        | some temp =>
          editorFreeActionList fuel (free (editorFreeAction mem temp.action) c.1) temp.next) = _
      rw [hn]
      show editorFreeActionList fuel (free mem c.1) n.next = _
      have t2 : Seg (free mem c.1) (some c.1) n.next cs none := by
        refine seg_congr cs _ _ _ (fun d hd => load_free_ne mem ?_) t
        intro he
        exact hnd.1 (he ▸ List.mem_map_of_mem _ hd)
      rw [editorFreeActionList_seg cs _ _ _ fuel t2 (by simpa using hf)]
      rfl

/-- A list of distinct addresses of allocated cells is no longer than the store. -/
theorem length_le_of_nodup_lt {as : List Nat} {n : Nat} (hnd : as.Nodup)
    (hlt : ∀ a ∈ as, a < n) : as.length ≤ n := by
  have hsub : as ⊆ List.range n := fun a ha => List.mem_range.2 (hlt a ha)
  have := (List.subperm_of_subset hnd hsub).length_le
  simpa using this

/-! ## Appending to a history -/

theorem cells_take_drop (hd : Nat) (nodes : List (Nat × EditorAction)) (k : Nat) :
    cells hd nodes =
      cells hd (nodes.take k) ++ (nodes.drop k).map (fun c => (c.1, some c.2)) := by
  simp only [cells, List.cons_append, ← List.map_append, List.take_append_drop]

theorem cells_concat (hd : Nat) (nodes : List (Nat × EditorAction)) (c : Nat × EditorAction) :
    cells hd (nodes ++ [c]) = cells hd nodes ++ [(c.1, some c.2)] := by
  simp [cells]

theorem lastPtr_concat (prev : Option Nat) (l : List (Nat × Option EditorAction))
    (c : Nat × Option EditorAction) : lastPtr prev (l ++ [c]) = some c.1 := by
  simp [lastPtr]

/-- Every node of a segment is allocated. -/
theorem seg_load (mem : Heap) {cs : List (Nat × Option EditorAction)} {prev p q : Option Nat}
    (h : Seg mem prev p cs q) {c : Nat × Option EditorAction} (hc : c ∈ cs) :
    ∃ n, load mem (some c.1) = some n := by
  obtain ⟨i, hi⟩ := List.getElem?_of_mem hc
  obtain ⟨n, hn, -⟩ := seg_get mem _ _ _ _ _ _ h hi
  exact ⟨n, hn⟩

/-- A history splits at `current`: the nodes before it, the current node `ck` with
its cell `cur`, and the redo tail, which starts at `cur.next`. -/
theorem History.split {D : Type} {f : EditorFile D} {hd : Nat}
    {nodes : List (Nat × EditorAction)} {k : Nat} (h : History f hd nodes k) :
    ∃ l0 ck cur, cells hd (nodes.take k) = l0 ++ [ck] ∧
      f.action_current = some ck.1 ∧ load f.mem (some ck.1) = some cur ∧
      Seg f.mem none (some hd) (l0 ++ [ck]) cur.next ∧
      Seg f.mem (some ck.1) cur.next ((nodes.drop k).map (fun c => (c.1, some c.2))) none ∧
      ck.1 ∉ l0.map Prod.fst ∧
      (∀ d ∈ nodes.drop k, d.1 ≠ ck.1 ∧ d.1 ∉ l0.map Prod.fst) := by
  have hne : cells hd (nodes.take k) ≠ [] := by simp [cells]
  have hlen : (cells hd (nodes.take k)).length = k + 1 := by
    rw [cells_length, List.length_take, Nat.min_eq_left h.current_le]
  obtain ⟨l0, ck, hl⟩ : ∃ l0 ck, cells hd (nodes.take k) = l0 ++ [ck] :=
    ⟨_, _, (List.dropLast_append_getLast hne).symm⟩
  have hl0 : l0.length = k := by
    rw [hl] at hlen
    simpa using hlen
  have hsplit := cells_take_drop hd nodes k
  rw [hl] at hsplit
  have hsg := h.seg
  have hnd := seg_nodup _ _ _ _ hsg
  rw [hsplit] at hsg hnd
  obtain ⟨m, hs1, hs2⟩ := (seg_append _ _ _ _ _ _).1 hsg
  obtain ⟨m0, hs0, hsk⟩ := (seg_append _ _ _ _ _ _).1 hs1
  rw [seg_cons_iff] at hsk
  obtain ⟨-, cur, hcur, -, -, hnx⟩ := hsk
  simp only [Seg] at hnx
  rw [lastPtr_concat] at hs2
  refine ⟨l0, ck, cur, hl, ?_, hcur, ?_, ?_, ?_, ?_⟩
  · rw [h.current_ptr, ptrAt, hsplit, List.append_assoc,
      List.getElem?_append_right (by omega), hl0, Nat.sub_self]
    simp
  · rw [hnx]; exact hs1
  · rw [hnx]; exact hs2
  · simp only [List.map_append, List.map_cons, List.map_nil, List.append_assoc] at hnd
    have := (List.nodup_append.1 hnd).2.2
    intro hmem
    exact this hmem (List.mem_append_left _ (List.mem_singleton_self _))
  · intro d hd2
    simp only [List.map_append, List.map_cons, List.map_nil, List.map_map] at hnd
    have hdis := (List.nodup_append.1 hnd).2.2
    have hdm : d.1 ∈ List.map (Prod.fst ∘ fun c : Nat × EditorAction => (c.1, some c.2))
        (List.drop k nodes) := by
      exact List.mem_map.2 ⟨d, hd2, rfl⟩
    constructor
    · intro he
      exact hdis (List.mem_append_right _ (List.mem_singleton.2 rfl)) (he ▸ hdm)
    · intro hm
      exact hdis (List.mem_append_left _ hm) hdm

/-- Relinking the last node of a segment: if only the `next` of the last node
changes, the segment ends at the new `next`. -/
theorem seg_relink {mem mem2 : Heap} (l0 : List (Nat × Option EditorAction))
    (c : Nat × Option EditorAction) (prev p q q2 : Option Nat) (n : EditorActionList)
    (h : Seg mem prev p (l0 ++ [c]) q)
    (hn : load mem (some c.1) = some n)
    (hc : load mem2 (some c.1) = some { n with next := q2 })
    (h0 : ∀ d ∈ l0, load mem2 (some d.1) = load mem (some d.1)) :
    Seg mem2 prev p (l0 ++ [c]) q2 := by
  obtain ⟨m, hs0, hsk⟩ := (seg_append _ _ _ _ _ _).1 h
  refine (seg_append _ _ _ _ _ _).2 ⟨m, seg_congr l0 _ _ _ h0 hs0, ?_⟩
  rw [seg_cons_iff] at hsk ⊢
  obtain ⟨hm, n2, hn2, hp, ha, -⟩ := hsk
  rw [hn] at hn2
  have he : n = n2 := Option.some.inj hn2
  subst he
  exact ⟨hm, _, hc, hp, ha, by simp [Seg]⟩

/-- The history after linking a new node behind `current`: the nodes up to
`current` followed by the new node, which is the new `current`. -/
theorem History.append {D : Type} {f f2 : EditorFile D} {hd : Nat}
    {nodes : List (Nat × EditorAction)} {k : Nat} (h : History f hd nodes k)
    (a : EditorAction) (node : Nat) (cur : EditorActionList)
    (hcur : load f.mem f.action_current = some cur)
    (hh : f2.action_head = f.action_head)
    (hc : f2.action_current = some node)
    (h1 : load f2.mem (some node) =
      some { prev := f.action_current, next := none, action := some a })
    (h2 : load f2.mem f.action_current = some { cur with next := some node })
    (h3 : ∀ c ∈ cells hd (nodes.take k), some c.1 ≠ f.action_current →
      load f2.mem (some c.1) = load f.mem (some c.1)) :
    History f2 hd (nodes.take k ++ [(node, a)]) (k + 1) := by
  obtain ⟨l0, ck, cur2, hl, hck, hcur2, hs1, -, hnin, -⟩ := h.split
  rw [hck] at hcur h2 h1 h3
  rw [hcur] at hcur2
  have he : cur = cur2 := Option.some.inj hcur2
  subst he
  have hlen : (nodes.take k).length = k := by
    rw [List.length_take, Nat.min_eq_left h.current_le]
  refine ⟨by rw [hh]; exact h.head_eq, ?_, ?_, ?_⟩
  · rw [cells_concat, hl]
    refine (seg_append _ _ _ _ _ _).2 ⟨some node, ?_, ?_⟩
    · refine seg_relink l0 ck _ _ _ _ cur hs1 hcur h2 ?_
      intro d hd2
      apply h3 d (by rw [hl]; exact List.mem_append_left _ hd2)
      intro he
      apply hnin
      rw [← Option.some.inj he]
      exact List.mem_map_of_mem _ hd2
    · rw [lastPtr_concat, seg_cons_iff]
      exact ⟨rfl, _, h1, rfl, rfl, by simp [Seg]⟩
  · simp [hlen]
  · rw [hc, cells_succ, List.getElem?_append_right (by omega), hlen, Nat.sub_self]
    rfl

theorem freeAll_length : ∀ (as : List Nat) (mem : Heap), (freeAll mem as).length = mem.length
  | [], _ => rfl
  | a :: as, mem => by
    show (freeAll (free mem a) as).length = _
    rw [freeAll_length as]
    simp [free]

theorem load_set_set (mem : Heap) {x y : Nat} (vx vy : Option EditorActionList)
    (hx : x < mem.length) (hy : y < mem.length) (hxy : x ≠ y) :
    load ((mem.set x vx).set y vy) (some x) = vx ∧
    load ((mem.set x vx).set y vy) (some y) = vy ∧
    ∀ b, b ≠ x → b ≠ y → load ((mem.set x vx).set y vy) (some b) = load mem (some b) := by
  refine ⟨?_, ?_, ?_⟩
  · rw [load_set_ne _ _ (Ne.symm hxy), load_set_eq _ hx]
  · rw [load_set_eq _ (by simpa using hy)]
  · intro b hbx hby
    rw [load_set_ne _ _ (Ne.symm hby), load_set_ne _ _ (Ne.symm hbx)]

/-- The node store when `editorAppendAction` has allocated and initialised the new
node and freed the redo tail. -/
theorem append_freed {D : Type} {f : EditorFile D} {hd : Nat}
    {nodes : List (Nat × EditorAction)} {k : Nat} (h : History f hd nodes k)
    (a : EditorAction) :
    ∃ mem1 mem2 cur,
      update (malloc_s f.mem).1 (some (malloc_s f.mem).2)
        (fun n => { n with action := some a, next := none }) = some mem1 ∧
      load mem1 f.action_current = some cur ∧
      load f.mem f.action_current = some cur ∧
      editorFreeActionList mem1.length mem1 cur.next = some mem2 ∧
      mem2.length = f.mem.length + 1 ∧
      load mem2 f.action_current = some cur ∧
      load mem2 (some f.mem.length) =
        some { prev := none, next := none, action := some a } ∧
      (∀ c ∈ cells hd (nodes.take k), c.1 < f.mem.length ∧
        load mem2 (some c.1) = load f.mem (some c.1)) ∧
      (∀ c ∈ nodes.drop k, c.1 < f.mem.length ∧ some c.1 ≠ f.action_current ∧
        load mem2 (some c.1) = none) := by
  obtain ⟨l0, ck, cur, hl, hck, hcur, hs1, hs2, hnin, hdis⟩ := h.split
  have hu1 := update_of_load
    (fun n : EditorActionList => { n with action := some a, next := none })
    (load_append_new f.mem
      (some ({ prev := none, next := none, action := none } : EditorActionList)))
  obtain ⟨mem1, hmem1⟩ : ∃ mem1 : Heap, mem1 =
      (f.mem ++ [some ({ prev := none, next := none, action := none } : EditorActionList)]).set
        f.mem.length
        (some ({ prev := none, next := none, action := some a } : EditorActionList)) := ⟨_, rfl⟩
  have hu : update (malloc_s f.mem).1 (some (malloc_s f.mem).2)
      (fun n => { n with action := some a, next := none }) = some mem1 := by
    rw [hmem1]; exact hu1
  have hlen1 : mem1.length = f.mem.length + 1 := by
    rw [hmem1]; simp
  have hnew : load mem1 (some f.mem.length) =
      some { prev := none, next := none, action := some a } := by
    rw [hmem1]; exact load_set_eq _ (by simp)
  have hold : ∀ (b : Nat) (n : EditorActionList), load f.mem (some b) = some n →
      load mem1 (some b) = some n := by
    intro b n hb
    have hlt := load_lt hb
    rw [hmem1, load_set_ne _ _ (by omega), load_append_left _ hlt, hb]
  have htail1 : Seg mem1 (some ck.1) cur.next
      ((nodes.drop k).map (fun c => (c.1, some c.2))) none :=
    seg_congr _ _ _ _
      (fun c hc => by
        obtain ⟨n, hn⟩ := seg_load f.mem hs2 hc
        rw [hn]; exact hold _ _ hn) hs2
  have hfuel : ((nodes.drop k).map (fun c : Nat × EditorAction => (c.1, some c.2))).length ≤
      mem1.length := by
    have := length_le_of_nodup_lt (seg_nodup _ _ _ _ htail1) (fun b hb => by
      obtain ⟨c, hc, rfl⟩ := List.mem_map.1 hb
      obtain ⟨n, hn⟩ := seg_load _ htail1 hc
      exact load_lt hn)
    simpa using this
  have hfree := editorFreeActionList_seg _ _ _ _ _ htail1 hfuel
  have htl : ∀ c ∈ nodes.drop k, c.1 < f.mem.length := by
    intro c hc
    obtain ⟨n, hn⟩ := seg_load f.mem hs2
      (List.mem_map_of_mem (fun c : Nat × EditorAction => (c.1, some c.2)) hc)
    exact load_lt hn
  have hmemt : ∀ b, b ∈ ((nodes.drop k).map (fun c : Nat × EditorAction => (c.1, some c.2))).map
      Prod.fst ↔ ∃ c ∈ nodes.drop k, c.1 = b := by
    intro b
    constructor
    · intro hb
      obtain ⟨c2, hc2, rfl⟩ := List.mem_map.1 hb
      obtain ⟨c, hc, rfl⟩ := List.mem_map.1 hc2
      exact ⟨c, hc, rfl⟩
    · rintro ⟨c, hc, rfl⟩
      exact List.mem_map.2 ⟨_, List.mem_map_of_mem _ hc, rfl⟩
  refine ⟨mem1, _, cur, hu, ?_, ?_, hfree, ?_, ?_, ?_, ?_, ?_⟩
  · rw [hck]; exact hold _ _ hcur
  · rw [hck]; exact hcur
  · rw [freeAll_length, hlen1]
  · rw [hck, load_freeAll_of_not_mem]
    · exact hold _ _ hcur
    · rw [hmemt]
      rintro ⟨c, hc, he⟩
      exact (hdis c hc).1 he
  · rw [load_freeAll_of_not_mem]
    · exact hnew
    · rw [hmemt]
      rintro ⟨c, hc, he⟩
      have := htl c hc
      omega
  · intro c hc
    rw [hl] at hc
    obtain ⟨n, hn⟩ := seg_load f.mem hs1 hc
    refine ⟨load_lt hn, ?_⟩
    rw [load_freeAll_of_not_mem, hn]
    · exact hold _ _ hn
    · rw [hmemt]
      rintro ⟨d, hd2, he⟩
      rcases List.mem_append.1 hc with hc0 | hc1
      · exact (hdis d hd2).2 (he ▸ List.mem_map_of_mem _ hc0)
      · rw [List.mem_singleton] at hc1
        exact (hdis d hd2).1 (by rw [he, hc1])
  · intro c hc
    refine ⟨htl c hc, ?_, ?_⟩
    · rw [hck]
      intro he
      exact (hdis c hc).1 (Option.some.inj he)
    · apply load_freeAll_of_mem
      rw [hmemt]
      exact ⟨c, hc, rfl⟩

/-- The function `editorAppendAction` on a history, for a non-null action: it returns,
the new history keeps the nodes up to `current` and ends with the new node (at the
address `f.mem.length`), which is the new `current`; `dirty` grows by one; row,
cursor and newline kind are as before; the nodes of the old redo tail are freed. -/
theorem append_spec {D : Type} {f : EditorFile D} {hd : Nat}
    {nodes : List (Nat × EditorAction)} {k : Nat} (h : History f hd nodes k)
    (a : EditorAction) :
    ∃ f2, editorAppendAction f (some a) = some f2 ∧
      History f2 hd (nodes.take k ++ [(f.mem.length, a)]) (k + 1) ∧
      f2.row = f.row ∧ f2.cursor = f.cursor ∧ f2.newline = f.newline ∧
      f2.dirty = f.dirty + 1 ∧ f2.action_head = f.action_head ∧
      (∀ c ∈ nodes.drop k, load f2.mem (some c.1) = none) := by
  obtain ⟨mem1, mem2, cur, hu, hcur1, hcur, hfree, hlen2, hcur2, hnew2, hkeep, htail⟩ :=
    append_freed h a
  obtain ⟨x, hx⟩ : ∃ x, f.action_current = some x := by
    cases hc : f.action_current with
    | none => rw [hc] at hcur; simp [load] at hcur
    | some x => exact ⟨x, rfl⟩
  have hxlt : x < f.mem.length := by
    rw [hx] at hcur
    exact load_lt hcur
  rw [hx] at hcur2
  have hxn : x ≠ f.mem.length := by omega
  unfold editorAppendAction
  simp only [hu, hcur1, hfree]
  simp only [show (malloc_s f.mem).2 = f.mem.length from rfl]
  by_cases hch : f.action_current = f.action_head
  · have hhd : f.action_head = some x := by rw [← hch, hx]
    rw [if_pos hch]
    simp only [hhd]
    rw [update_of_load _ hcur2]
    have hn3 : load (mem2.set x (some { cur with next := some f.mem.length }))
        (some f.mem.length) = some { prev := none, next := none, action := some a } := by
      rw [load_set_ne _ _ hxn]; exact hnew2
    simp only []
    rw [update_of_load _ hn3]
    obtain ⟨e1, e2, e3⟩ := load_set_set mem2
      (some { cur with next := some f.mem.length })
      (some { prev := some x, next := none, action := some a })
      (show x < mem2.length by omega) (show f.mem.length < mem2.length by omega) hxn
    refine ⟨_, rfl, ?_, rfl, rfl, rfl, rfl, rfl, ?_⟩
    · refine History.append h a f.mem.length cur hcur hhd.symm rfl ?_ ?_ ?_
      · rw [hx]; exact e2
      · rw [hx]; exact e1
      · intro c hc hne
        rw [hx] at hne
        have hc2 := hkeep c hc
        rw [← hc2.2]
        exact e3 c.1 (fun he => hne (by rw [he])) (by omega)
    · intro c hc
      obtain ⟨h1, h2, h3⟩ := htail c hc
      rw [hx] at h2
      rw [← h3]
      exact e3 c.1 (fun he => h2 (by rw [he])) (by omega)
  · rw [if_neg hch, update_of_load _ hnew2]
    simp only [hx]
    have hc3 : load (mem2.set f.mem.length
        (some { prev := some x, next := none, action := some a }))
        (some x) = some cur := by
      rw [load_set_ne _ _ (Ne.symm hxn)]; exact hcur2
    rw [update_of_load _ hc3]
    obtain ⟨e1, e2, e3⟩ := load_set_set mem2
      (some { prev := some x, next := none, action := some a })
      (some { cur with next := some f.mem.length })
      (show f.mem.length < mem2.length by omega) (show x < mem2.length by omega) (Ne.symm hxn)
    simp only [e2]
    refine ⟨_, rfl, ?_, rfl, rfl, rfl, rfl, rfl, ?_⟩
    · refine History.append h a f.mem.length cur hcur rfl rfl ?_ ?_ ?_
      · rw [hx]; exact e1
      · rw [hx]; exact e2
      · intro c hc hne
        rw [hx] at hne
        have hc2 := hkeep c hc
        rw [← hc2.2]
        exact e3 c.1 (by omega) (fun he => hne (by rw [he]))
    · intro c hc
      obtain ⟨h1, h2, h3⟩ := htail c hc
      rw [hx] at h2
      rw [← h3]
      exact e3 c.1 (by omega) (fun he => h2 (by rw [he]))

/-! ## Repeated undo -/

/-- An undo at a real node, as a step of the history. -/
theorem undo_step_history {D : Type} (P : Primitives D) {f : EditorFile D} {hd : Nat}
    {nodes : List (Nat × EditorAction)} {k : Nat} (h : History f hd nodes (k + 1))
    {addr : Nat} {a : EditorAction} (hk : nodes[k]? = some (addr, a)) :
    ∃ f1, editorUndo P f = some (true, f1) ∧ History f1 hd nodes k ∧
      f1.mem = f.mem ∧ f1.action_head = f.action_head ∧ f1.dirty = f.dirty - 1 ∧
      f1.row = (revert P a f).row ∧ f1.cursor = (revert P a f).cursor ∧
      f1.newline = (revert P a f).newline := by
  refine ⟨_, undo_step P h hk, ?_, ?_, ?_, rfl, rfl, rfl, rfl⟩
  · exact History.pred h (by cases a <;> rfl) (by cases a <;> rfl) rfl
  · cases a <;> rfl
  · cases a <;> rfl

/-- On a history at position `k`, `j ≤ k` successive undos all return `true` and
lead to position `k - j` of the same history. -/
theorem undoTimes_history {D : Type} (P : Primitives D) {hd : Nat}
    {nodes : List (Nat × EditorAction)} :
    ∀ (j : Nat) (f : EditorFile D) (k : Nat), History f hd nodes k → j ≤ k →
      ∃ g, undoTimes P j f = some (List.replicate j true, g) ∧ History g hd nodes (k - j) ∧
        g.mem = f.mem ∧ g.action_head = f.action_head ∧ g.dirty = f.dirty - j
  | 0, f, k, h, _ => ⟨f, rfl, h, rfl, rfl, by simp⟩
  | j + 1, f, k, h, hj => by
    obtain ⟨k2, rfl⟩ : ∃ k2, k = k2 + 1 := ⟨k - 1, by omega⟩
    have hk2 : k2 < nodes.length := h.current_le
    have hk : nodes[k2]? = some (nodes[k2].1, nodes[k2].2) := List.getElem?_eq_getElem hk2
    obtain ⟨f1, hstep, h1, hm1, hh1, hd1, -⟩ := undo_step_history P h hk
    obtain ⟨g, hg, hh, hm, hhd, hdy⟩ := undoTimes_history P j f1 k2 h1 (by omega)
    refine ⟨g, ?_, ?_, ?_, ?_, ?_⟩
    · simp only [undoTimes, hstep, hg, List.replicate_succ]
    · rw [Nat.add_sub_add_right]; exact hh
    · rw [hm, hm1]
    · rw [hhd, hh1]
    · rw [hdy, hd1]
      push_cast
      ring

/-- If `j` successive undos on a history at position `k` all return `true`, then
`j ≤ k`. -/
theorem undoTimes_le {D : Type} (P : Primitives D) {hd : Nat}
    {nodes : List (Nat × EditorAction)} :
    ∀ (j : Nat) (f g : EditorFile D) (k : Nat), History f hd nodes k →
      undoTimes P j f = some (List.replicate j true, g) → j ≤ k
  | 0, _, _, _, _, _ => Nat.zero_le _
  | j + 1, f, g, k, h, hu => by
    cases k with
    | zero =>
      exfalso
      have h0 := undo_head P (h.current_eq_head_iff.2 rfl)
      simp only [undoTimes, h0] at hu
      cases hj : undoTimes P j f with
      | none => simp [hj] at hu
      | some r => simp [hj, List.replicate_succ] at hu
    | succ k2 =>
      have hk2 : k2 < nodes.length := h.current_le
      have hk : nodes[k2]? = some (nodes[k2].1, nodes[k2].2) := List.getElem?_eq_getElem hk2
      obtain ⟨f1, hstep, h1, -⟩ := undo_step_history P h hk
      simp only [undoTimes, hstep] at hu
      cases hj : undoTimes P j f1 with
      | none => simp [hj] at hu
      | some r =>
        obtain ⟨bs, g2⟩ := r
        simp only [hj, List.replicate_succ, Option.some.injEq, Prod.mk.injEq,
          List.cons.injEq, true_and] at hu
        have := undoTimes_le P j f1 g2 k2 h1 (by rw [hj, hu.1])
        omega

/-- The last of `n + 1` successive undos. -/
theorem undoTimes_succ_last {D : Type} (P : Primitives D) :
    ∀ (n : Nat) (f : EditorFile D),
      undoTimes P (n + 1) f =
        match undoTimes P n f with
        | none => none
        | some (bs, f2) =>
          match editorUndo P f2 with
          | none => none
          | some (b, f3) => some (bs ++ [b], f3)
  | 0, f => by
    simp only [undoTimes]
    cases editorUndo P f with
    | none => rfl
    | some r => rfl
  | n + 1, f => by
    rw [undoTimes]
    conv_rhs => rw [undoTimes]
    cases h1 : editorUndo P f with
    | none => rfl
    | some r =>
      obtain ⟨b, f1⟩ := r
      simp only []
      rw [undoTimes_succ_last P n f1]
      cases h2 : undoTimes P n f1 with
      | none => rfl
      | some r2 =>
        obtain ⟨bs, f2⟩ := r2
        simp only []
        cases h3 : editorUndo P f2 with
        | none => rfl
        | some r3 => rfl

/-! ## Editing sessions -/

/-- Applying an action to the document does not touch the history. -/
theorem History.applied {D : Type} {P : Primitives D} {a : EditorAction}
    {f g : EditorFile D} {hd : Nat} {nodes : List (Nat × EditorAction)} {k : Nat}
    (h : History f hd nodes k) (ha : Applied P a f g) : History g hd nodes k where
  head_eq := by rw [ha.2.1]; exact h.head_eq
  seg := by rw [ha.1]; exact h.seg
  current_le := h.current_le
  current_eq := by rw [ha.2.2.1]; exact h.current_eq

/-- Reverting a faithfully recorded action on the document it was applied to gives
the document before. -/
theorem revert_applied {D : Type} {P : Primitives D} {a : EditorAction}
    {f g : EditorFile D} (g2 : EditorFile D) (ha : Applied P a f g)
    (hr : g2.row = g.row) (hc : g2.cursor = g.cursor) (hn : g2.newline = g.newline) :
    (revert P a g2).row = f.row ∧ (revert P a g2).cursor = f.cursor ∧
      (revert P a g2).newline = f.newline := by
  obtain ⟨-, -, -, -, hact⟩ := ha
  cases a with
  | edit e =>
    obtain ⟨h1, h2, h3, h4⟩ := hact
    refine ⟨?_, h1, ?_⟩
    · show P.editorPasteText e.deleted_text e.deleted_range.start_x e.deleted_range.start_y
        (P.editorDeleteText e.added_range g2.row) = f.row
      rw [hr, h4, h3.2, h3.1]
    · show g2.newline = f.newline
      rw [hn, h2]
  | attri t =>
    obtain ⟨h1, h2, h3⟩ := hact
    refine ⟨?_, ?_, h1⟩
    · show g2.row = f.row
      rw [hr, h2]
    · show g2.cursor = f.cursor
      rw [hc, h3]

/-- After an editing session of `n` steps from position `k` of a history, `n`
successive undos all return `true` and lead back to position `k`, with the row
storage, cursor, newline kind and `dirty` of the start. -/
theorem round_trip_from {D : Type} (P : Primitives D) {hd : Nat} :
    ∀ (steps : List (EditorAction × EditorFile D)) (f fN : EditorFile D)
      (nodes : List (Nat × EditorAction)) (k : Nat),
      History f hd nodes k → Edited P f steps fN →
      ∃ nodes2 g, nodes2.take k = nodes.take k ∧
        undoTimes P steps.length fN = some (List.replicate steps.length true, g) ∧
        History g hd nodes2 k ∧
        g.row = f.row ∧ g.cursor = f.cursor ∧ g.newline = f.newline ∧ g.dirty = f.dirty
  | [], f, fN, nodes, k, h, hs => by
    simp only [Edited] at hs
    subst hs
    exact ⟨nodes, fN, rfl, rfl, h, rfl, rfl, rfl, rfl⟩
  | s :: steps, f, fN, nodes, k, h, hs => by
    obtain ⟨a, g0⟩ := s
    simp only [Edited] at hs
    obtain ⟨happ, hrest⟩ := hs
    have hg0 : History g0 hd nodes k := h.applied happ
    obtain ⟨f1, hf1, hh1, hr1, hc1, hn1, hd1, -, -⟩ := append_spec hg0 a
    rw [hf1] at hrest
    simp only [] at hrest
    obtain ⟨nodes2, g1, htake, hundo, hhg1, hgr, hgc, hgn, hgd⟩ :=
      round_trip_from P steps f1 fN _ (k + 1) hh1 hrest
    have hlen : (nodes.take k).length = k := by
      rw [List.length_take, Nat.min_eq_left h.current_le]
    have hk2 : nodes2[k]? = some (g0.mem.length, a) := by
      have h1 : (nodes2.take (k + 1))[k]? = nodes2[k]? := by
        rw [List.getElem?_take]; simp
      rw [← h1, htake, List.getElem?_take, if_pos (by omega),
        List.getElem?_append_right (by omega), hlen, Nat.sub_self]
      rfl
    have htk : nodes2.take k = nodes.take k := by
      have h1 : (nodes2.take (k + 1)).take k = nodes2.take k := by
        rw [List.take_take, Nat.min_eq_left (by omega)]
      rw [← h1, htake, List.take_take, Nat.min_eq_left (by omega),
        List.take_append_of_le_length (by omega), List.take_take, Nat.min_self]
    obtain ⟨g, hu, hhg, -, -, hdg, hrg, hcg, hng⟩ := undo_step_history P hhg1 hk2
    obtain ⟨e1, e2, e3⟩ := revert_applied g1 happ
      (by rw [hgr, hr1]) (by rw [hgc, hc1]) (by rw [hgn, hn1])
    refine ⟨nodes2, g, htk, ?_, hhg, ?_, ?_, ?_, ?_⟩
    · rw [List.length_cons, undoTimes_succ_last, hundo]
      simp only [hu, List.replicate_succ']
    · rw [hrg, e1]
    · rw [hcg, e2]
    · rw [hng, e3]
    · rw [hdg, hgd, hd1, happ.2.2.2.1]
      ring

/-! ## Results on `editorUndo`, `editorRedo` and `editorAppendAction` -/

/-- C5: on every well-formed history `editorUndo` returns, and it returns `false`
if and only if `current` is the sentinel `action_head`; when it returns `false` the
file (row storage, cursor, newline kind, `current`, `dirty`, node store) is exactly
as before. -/
theorem editorUndo_false_iff_head {D : Type} (P : Primitives D) (f : EditorFile D)
    (hd : Nat) (nodes : List (Nat × EditorAction)) (k : Nat) (h : History f hd nodes k) :
    ∃ b f2, editorUndo P f = some (b, f2) ∧
      (b = false ↔ f.action_current = f.action_head) ∧ (b = false → f2 = f) := by
  cases k with
  | zero =>
    have hc := h.current_eq_head_iff.2 rfl
    exact ⟨false, f, undo_head P hc, by simp [hc], fun _ => rfl⟩
  | succ j =>
    have hj : j < nodes.length := h.current_le
    have hk : nodes[j]? = some (nodes[j].1, nodes[j].2) := List.getElem?_eq_getElem hj
    have hne : ¬ f.action_current = f.action_head := by
      rw [h.current_eq_head_iff]; omega
    exact ⟨true, _, undo_step P h hk, by simp [hne], by simp⟩

theorem editorUndo_false_iff_head_witness :
    ∃ b f2, editorUndo rowPrimitives sampleFile = some (b, f2) ∧
      (b = false ↔ sampleFile.action_current = sampleFile.action_head) ∧
      (b = false → f2 = sampleFile) :=
  editorUndo_false_iff_head rowPrimitives sampleFile 0 sampleNodes 1 (by decide)

/-- C6: on every well-formed history `editorRedo` returns, and it returns `false`
if and only if the current node has no successor (`current->next` is `NULL`); when
it returns `false` the file (row storage, cursor, newline kind, `current`, `dirty`,
node store) is exactly as before. -/
theorem editorRedo_false_iff_no_successor {D : Type} (P : Primitives D) (f : EditorFile D)
    (hd : Nat) (nodes : List (Nat × EditorAction)) (k : Nat) (h : History f hd nodes k) :
    ∃ cur b f2, load f.mem f.action_current = some cur ∧ editorRedo P f = some (b, f2) ∧
      (b = false ↔ cur.next = none) ∧ (b = false → f2 = f) := by
  obtain ⟨cur, hcur, hnx⟩ := h.load_current
  by_cases hk : k < nodes.length
  · have hkk : nodes[k]? = some (nodes[k].1, nodes[k].2) := List.getElem?_eq_getElem hk
    refine ⟨cur, true, _, hcur, redo_step P h hkk, ?_, by simp⟩
    rw [hnx, hkk]
    simp
  · have hkl : k = nodes.length := Nat.le_antisymm h.current_le (Nat.le_of_not_lt hk)
    refine ⟨cur, false, f, hcur, redo_last P h hkl, ?_, fun _ => rfl⟩
    rw [hnx, List.getElem?_eq_none (by omega)]
    simp

theorem editorRedo_false_iff_no_successor_witness :
    ∃ cur b f2, load sampleFileLast.mem sampleFileLast.action_current = some cur ∧
      editorRedo rowPrimitives sampleFileLast = some (b, f2) ∧
      (b = false ↔ cur.next = none) ∧ (b = false → f2 = sampleFileLast) :=
  editorRedo_false_iff_no_successor rowPrimitives sampleFileLast 0 sampleNodes 2 (by decide)

/-- C7: when the current node of a well-formed history holds the Edit action `e`,
`editorUndo` returns `true`; the row storage is the old one with `added_range`
deleted and then `deleted_text` pasted at `(deleted_range.start_x,
deleted_range.start_y)`, the cursor is `old_cursor`, `current` is the `prev` of the
old current node, which is the node one position before it, and `dirty` is one
less; nothing else changes. -/
theorem editorUndo_edit {D : Type} (P : Primitives D) (f : EditorFile D)
    (hd : Nat) (nodes : List (Nat × EditorAction)) (k : Nat) (addr : Nat) (e : EditAction)
    (h : History f hd nodes (k + 1)) (hk : nodes[k]? = some (addr, EditorAction.edit e)) :
    ∃ cur, load f.mem f.action_current = some cur ∧
      cur.action = some (EditorAction.edit e) ∧
      cur.prev = ptrAt (cells hd nodes) k ∧
      editorUndo P f = some (true,
        { f with
          row := P.editorPasteText e.deleted_text e.deleted_range.start_x
                   e.deleted_range.start_y (P.editorDeleteText e.added_range f.row)
          cursor := e.old_cursor
          action_current := cur.prev
          dirty := f.dirty - 1 }) := by
  obtain ⟨n, hn, ha, hp, -⟩ := h.load_node hk
  have hcur : f.action_current = some addr := by
    rw [h.current_ptr, ptrAt_cells_succ, hk]; rfl
  refine ⟨n, by rw [hcur]; exact hn, ha, hp, ?_⟩
  rw [undo_step P h hk, hp]
  rfl

theorem editorUndo_edit_witness :
    ∃ cur, load sampleFile.mem sampleFile.action_current = some cur ∧
      cur.action = some (EditorAction.edit sampleEdit) ∧
      cur.prev = ptrAt (cells 0 sampleNodes) 0 ∧
      editorUndo rowPrimitives sampleFile = some (true,
        { sampleFile with
          row := rowPrimitives.editorPasteText sampleEdit.deleted_text
                   sampleEdit.deleted_range.start_x sampleEdit.deleted_range.start_y
                   (rowPrimitives.editorDeleteText sampleEdit.added_range sampleFile.row)
          cursor := sampleEdit.old_cursor
          action_current := cur.prev
          dirty := sampleFile.dirty - 1 }) :=
  editorUndo_edit rowPrimitives sampleFile 0 sampleNodes 0 1 sampleEdit (by decide) (by decide)

/-- C8: when the current node of a well-formed history has a successor holding the
Edit action `e`, `editorRedo` returns `true`; `current` is that successor, the row
storage is the old one with the successor's `deleted_range` deleted and then its
`added_text` pasted at `(added_range.start_x, added_range.start_y)`, the cursor is
its `new_cursor`, and `dirty` is one more; nothing else changes. -/
theorem editorRedo_edit {D : Type} (P : Primitives D) (f : EditorFile D)
    (hd : Nat) (nodes : List (Nat × EditorAction)) (k : Nat) (addr : Nat) (e : EditAction)
    (h : History f hd nodes k) (hk : nodes[k]? = some (addr, EditorAction.edit e)) :
    ∃ cur node, load f.mem f.action_current = some cur ∧ cur.next = some addr ∧
      load f.mem (some addr) = some node ∧ node.action = some (EditorAction.edit e) ∧
      editorRedo P f = some (true,
        { f with
          action_current := some addr
          row := P.editorPasteText e.added_text e.added_range.start_x
                   e.added_range.start_y (P.editorDeleteText e.deleted_range f.row)
          cursor := e.new_cursor
          dirty := f.dirty + 1 }) := by
  obtain ⟨cur, hcur, hnx⟩ := h.load_current
  obtain ⟨n, hn, ha, -, -⟩ := h.load_node hk
  refine ⟨cur, n, hcur, by rw [hnx, hk]; rfl, hn, ha, ?_⟩
  rw [redo_step P h hk]
  rfl

theorem editorRedo_edit_witness :
    ∃ cur node, load sampleFileFirst.mem sampleFileFirst.action_current = some cur ∧
      cur.next = some 1 ∧
      load sampleFileFirst.mem (some 1) = some node ∧
      node.action = some (EditorAction.edit sampleEdit) ∧
      editorRedo rowPrimitives sampleFileFirst = some (true,
        { sampleFileFirst with
          action_current := some 1
          row := rowPrimitives.editorPasteText sampleEdit.added_text
                   sampleEdit.added_range.start_x sampleEdit.added_range.start_y
                   (rowPrimitives.editorDeleteText sampleEdit.deleted_range sampleFileFirst.row)
          cursor := sampleEdit.new_cursor
          dirty := sampleFileFirst.dirty + 1 }) :=
  editorRedo_edit rowPrimitives sampleFileFirst 0 sampleNodes 0 1 sampleEdit
    (by decide) (by decide)

/-- C9: on a well-formed history, for an Attribute action `editorUndo` sets the
newline kind to `old_newline` and `editorRedo` sets it to `new_newline`, and neither
changes the row storage or the cursor; for an Edit action neither `editorUndo` nor
`editorRedo` changes the newline kind.  (The undone action is the one of the current
node, the redone action the one of its successor.) -/
theorem attribute_and_edit_frame {D : Type} (P : Primitives D) (f : EditorFile D)
    (hd : Nat) (nodes : List (Nat × EditorAction)) (k : Nat) (h : History f hd nodes k) :
    (∀ j addr t, k = j + 1 → nodes[j]? = some (addr, EditorAction.attri t) →
      ∃ f2, editorUndo P f = some (true, f2) ∧ f2.newline = t.old_newline ∧
        f2.row = f.row ∧ f2.cursor = f.cursor) ∧
    (∀ addr t, nodes[k]? = some (addr, EditorAction.attri t) →
      ∃ f2, editorRedo P f = some (true, f2) ∧ f2.newline = t.new_newline ∧
        f2.row = f.row ∧ f2.cursor = f.cursor) ∧
    (∀ j addr e, k = j + 1 → nodes[j]? = some (addr, EditorAction.edit e) →
      ∃ f2, editorUndo P f = some (true, f2) ∧ f2.newline = f.newline) ∧
    (∀ addr e, nodes[k]? = some (addr, EditorAction.edit e) →
      ∃ f2, editorRedo P f = some (true, f2) ∧ f2.newline = f.newline) := by
  refine ⟨?_, ?_, ?_, ?_⟩
  · intro j addr t hj hk
    subst hj
    exact ⟨_, undo_step P h hk, rfl, rfl, rfl⟩
  · intro addr t hk
    exact ⟨_, redo_step P h hk, rfl, rfl, rfl⟩
  · intro j addr e hj hk
    subst hj
    exact ⟨_, undo_step P h hk, rfl⟩
  · intro addr e hk
    exact ⟨_, redo_step P h hk, rfl⟩

theorem attribute_and_edit_frame_witness :
    (∃ f2, editorUndo rowPrimitives sampleFileLast = some (true, f2) ∧
        f2.newline = sampleAttri.old_newline ∧
        f2.row = sampleFileLast.row ∧ f2.cursor = sampleFileLast.cursor) ∧
    (∃ f2, editorRedo rowPrimitives sampleFile = some (true, f2) ∧
        f2.newline = sampleAttri.new_newline ∧
        f2.row = sampleFile.row ∧ f2.cursor = sampleFile.cursor) ∧
    (∃ f2, editorUndo rowPrimitives sampleFile = some (true, f2) ∧
        f2.newline = sampleFile.newline) ∧
    (∃ f2, editorRedo rowPrimitives sampleFileFirst = some (true, f2) ∧
        f2.newline = sampleFileFirst.newline) :=
  ⟨(attribute_and_edit_frame rowPrimitives sampleFileLast 0 sampleNodes 2 (by decide)).1
      1 2 sampleAttri rfl (by decide),
   (attribute_and_edit_frame rowPrimitives sampleFile 0 sampleNodes 1 (by decide)).2.1
      2 sampleAttri (by decide),
   (attribute_and_edit_frame rowPrimitives sampleFile 0 sampleNodes 1 (by decide)).2.2.1
      0 1 sampleEdit rfl (by decide),
   (attribute_and_edit_frame rowPrimitives sampleFileFirst 0 sampleNodes 0 (by decide)).2.2.2
      1 sampleEdit (by decide)⟩

/-- C10: on a well-formed history, `editorAppendAction` of a non-null action `a`
returns; the new history consists of the sentinel and the real nodes up to and
including the old `current` (same addresses, same actions, in order) followed by one
new node holding `a`; `current` is that new node, which is the last one; `dirty` is
one more; row storage, cursor and newline kind are as before. -/
theorem editorAppendAction_spec {D : Type} (f : EditorFile D)
    (hd : Nat) (nodes : List (Nat × EditorAction)) (k : Nat) (a : EditorAction)
    (h : History f hd nodes k) :
    ∃ f2 node, editorAppendAction f (some a) = some f2 ∧
      History f2 hd (nodes.take k ++ [(node, a)]) (k + 1) ∧
      (nodes.take k ++ [(node, a)]).length = k + 1 ∧
      f2.action_current = some node ∧
      f2.dirty = f.dirty + 1 ∧
      f2.row = f.row ∧ f2.cursor = f.cursor ∧ f2.newline = f.newline := by
  obtain ⟨f2, hf2, hh, hr, hc, hn, hdy, -, -⟩ := append_spec h a
  refine ⟨f2, f.mem.length, hf2, hh, ?_, ?_, hdy, hr, hc, hn⟩
  · rw [List.length_append, List.length_take, Nat.min_eq_left h.current_le]
    rfl
  · rw [hh.current_ptr, ptrAt_cells_succ,
      List.getElem?_append_right (by rw [List.length_take]; omega),
      List.length_take, Nat.min_eq_left h.current_le, Nat.sub_self]
    rfl

theorem editorAppendAction_spec_witness :
    ∃ f2 node, editorAppendAction sampleFile (some (EditorAction.attri sampleAttri)) = some f2 ∧
      History f2 0 (sampleNodes.take 1 ++ [(node, EditorAction.attri sampleAttri)]) (1 + 1) ∧
      (sampleNodes.take 1 ++ [(node, EditorAction.attri sampleAttri)]).length = 1 + 1 ∧
      f2.action_current = some node ∧
      f2.dirty = sampleFile.dirty + 1 ∧
      f2.row = sampleFile.row ∧ f2.cursor = sampleFile.cursor ∧
      f2.newline = sampleFile.newline :=
  editorAppendAction_spec sampleFile 0 sampleNodes 1 (EditorAction.attri sampleAttri)
    (by decide)

/-- C4: scenario.  On a history whose `current` is the sentinel, with `dirty = 0`,
`editorUndo` returns `false` and leaves the file, so `dirty`, unchanged;
`editorAppendAction` of one Edit action then gives `dirty = 1`; the next
`editorUndo` returns `true` and gives `dirty = 0`; a following `editorUndo` returns
`false`. -/
theorem scenario_empty_history {D : Type} (P : Primitives D) (f : EditorFile D)
    (hd : Nat) (nodes : List (Nat × EditorAction)) (e : EditAction)
    (h : History f hd nodes 0) (hdirty : f.dirty = 0) :
    editorUndo P f = some (false, f) ∧
    ∃ f1, editorAppendAction f (some (EditorAction.edit e)) = some f1 ∧ f1.dirty = 1 ∧
      ∃ f2, editorUndo P f1 = some (true, f2) ∧ f2.dirty = 0 ∧
        editorUndo P f2 = some (false, f2) := by
  refine ⟨undo_head P (h.current_eq_head_iff.2 rfl), ?_⟩
  obtain ⟨f1, hf1, hh, -, -, -, hdy, -, -⟩ := append_spec h (EditorAction.edit e)
  have hk : (nodes.take 0 ++ [(f.mem.length, EditorAction.edit e)])[0]? =
      some (f.mem.length, EditorAction.edit e) := by simp
  refine ⟨f1, hf1, by rw [hdy, hdirty]; rfl, _, undo_step P hh hk, ?_, ?_⟩
  · show f1.dirty - 1 = 0
    rw [hdy, hdirty]; rfl
  · apply undo_head
    have h2 : History ({ revert P (EditorAction.edit e) f1 with
        action_current := ptrAt (cells hd (nodes.take 0 ++ [(f.mem.length, EditorAction.edit e)])) 0
        dirty := f1.dirty - 1 } : EditorFile D) hd
        (nodes.take 0 ++ [(f.mem.length, EditorAction.edit e)]) 0 :=
      History.pred hh rfl rfl rfl
    exact h2.current_eq_head_iff.2 rfl

theorem scenario_empty_history_witness :
    editorUndo rowPrimitives emptyFile = some (false, emptyFile) ∧
    ∃ f1, editorAppendAction emptyFile (some (EditorAction.edit sampleEdit)) = some f1 ∧
      f1.dirty = 1 ∧
      ∃ f2, editorUndo rowPrimitives f1 = some (true, f2) ∧ f2.dirty = 0 ∧
        editorUndo rowPrimitives f2 = some (false, f2) :=
  scenario_empty_history rowPrimitives emptyFile 0 [] sampleEdit (by decide) rfl

/-- C3: redo truncation.  On a well-formed history at position `k`, after `j`
successive `editorUndo` calls that all returned `true` (any `j`, in particular
`j ≥ 1`; then `j ≤ k`), `editorAppendAction` of a
non-null action `a` returns; the new sequence is the sentinel, the first `k - j`
real nodes and one new node holding `a`, which is `current`, is the last node and
has no successor; every node from position `k - j` on (the `j` undone nodes and
the older redo tail) is freed and is not a node of the new sequence; and an
immediately following `editorRedo` returns `false` and changes nothing. -/
theorem redo_truncation {D : Type} (P : Primitives D) (f f1 : EditorFile D)
    (hd : Nat) (nodes : List (Nat × EditorAction)) (k j : Nat) (a : EditorAction)
    (h : History f hd nodes k)
    (hundo : undoTimes P j f = some (List.replicate j true, f1)) :
    ∃ f2 node last, editorAppendAction f1 (some a) = some f2 ∧
      j ≤ k ∧
      History f2 hd (nodes.take (k - j) ++ [(node, a)]) (k - j + 1) ∧
      (nodes.take (k - j) ++ [(node, a)]).length = k - j + 1 ∧
      f2.action_current = some node ∧
      load f2.mem (some node) = some last ∧ last.next = none ∧ last.action = some a ∧
      (∀ i c, k - j ≤ i → nodes[i]? = some c →
        load f2.mem (some c.1) = none ∧
        c.1 ∉ (cells hd (nodes.take (k - j) ++ [(node, a)])).map Prod.fst) ∧
      editorRedo P f2 = some (false, f2) := by
  have hle := undoTimes_le P j f f1 k h hundo
  obtain ⟨g, hg, hh, -⟩ := undoTimes_history P j f k h hle
  rw [hundo] at hg
  obtain rfl : f1 = g := by
    simp only [Option.some.injEq, Prod.mk.injEq, true_and] at hg
    exact hg
  obtain ⟨f2, hf2, hh2, -, -, -, -, -, hfreed⟩ := append_spec hh a
  have hkj : k - j ≤ nodes.length := hh.current_le
  have hlen : (nodes.take (k - j) ++ [(f1.mem.length, a)]).length = k - j + 1 := by
    rw [List.length_append, List.length_take, Nat.min_eq_left hkj]
    rfl
  have hnew : (nodes.take (k - j) ++ [(f1.mem.length, a)])[k - j]? =
      some (f1.mem.length, a) := by
    rw [List.getElem?_append_right (by rw [List.length_take]; omega),
      List.length_take, Nat.min_eq_left hkj, Nat.sub_self]
    rfl
  obtain ⟨last, hl1, hl2, -, hl4⟩ := hh2.load_node hnew
  refine ⟨f2, f1.mem.length, last, hf2, hle, hh2, hlen, ?_, hl1, ?_, hl2, ?_,
    redo_last P hh2 hlen.symm⟩
  · rw [hh2.current_ptr, ptrAt_cells_succ, hnew]
    rfl
  · rw [hl4, List.getElem?_eq_none (by omega)]
    rfl
  · intro i c hi hc
    have hmem : c ∈ nodes.drop (k - j) := by
      have : (nodes.drop (k - j))[i - (k - j)]? = some c := by
        rw [List.getElem?_drop]
        rw [show k - j + (i - (k - j)) = i by omega]
        exact hc
      exact List.getElem?_mem this
    have hnone := hfreed c hmem
    refine ⟨hnone, ?_⟩
    intro hin
    obtain ⟨d, hd2, hdc⟩ := List.mem_map.1 hin
    obtain ⟨n, hn⟩ := seg_load _ hh2.seg hd2
    rw [hdc, hnone] at hn
    exact absurd hn (by simp)

theorem redo_truncation_witness :
    ∃ f2 node last,
      editorAppendAction sampleFileFirst (some (EditorAction.attri sampleAttri)) = some f2 ∧
      1 ≤ 1 ∧
      History f2 0 (sampleNodes.take (1 - 1) ++ [(node, EditorAction.attri sampleAttri)])
        (1 - 1 + 1) ∧
      (sampleNodes.take (1 - 1) ++ [(node, EditorAction.attri sampleAttri)]).length = 1 - 1 + 1 ∧
      f2.action_current = some node ∧
      load f2.mem (some node) = some last ∧ last.next = none ∧
      last.action = some (EditorAction.attri sampleAttri) ∧
      (∀ i c, 1 - 1 ≤ i → sampleNodes[i]? = some c →
        load f2.mem (some c.1) = none ∧
        c.1 ∉ (cells 0 (sampleNodes.take (1 - 1) ++
          [(node, EditorAction.attri sampleAttri)])).map Prod.fst) ∧
      editorRedo rowPrimitives f2 = some (false, f2) :=
  redo_truncation rowPrimitives sampleFile sampleFileFirst 0 sampleNodes 1 1
    (EditorAction.attri sampleAttri) (by decide) (by decide)

/-- C2: undo/redo symmetry.  When the current node of a well-formed history is a
real node holding the action `a`, `editorUndo` and then `editorRedo` both return
`true`; afterwards `current`, `action_head`, `dirty` and the node store (so the
recorded action sequence) are as before the undo; for an Edit the cursor is
`new_cursor`, the newline kind is as before, and the content is as before whenever
it is the edit carried out on a content on which the primitives are exact inverses;
for an Attribute the newline kind is `new_newline` and content and cursor are as
before.  So from the post-action state of `a`, the file after undo and redo is
exactly the file before. -/
theorem undo_redo_symmetry {D : Type} (P : Primitives D) (f : EditorFile D)
    (hd : Nat) (nodes : List (Nat × EditorAction)) (k : Nat) (addr : Nat) (a : EditorAction)
    (h : History f hd nodes (k + 1)) (hk : nodes[k]? = some (addr, a)) :
    ∃ f1 f2, editorUndo P f = some (true, f1) ∧ editorRedo P f1 = some (true, f2) ∧
      f2.action_current = f.action_current ∧ f2.action_head = f.action_head ∧
      f2.dirty = f.dirty ∧ f2.mem = f.mem ∧ History f2 hd nodes (k + 1) ∧
      (∀ e, a = EditorAction.edit e →
        f2.cursor = e.new_cursor ∧ f2.newline = f.newline ∧
        ∀ pre, ExactInverse P e pre → f.row = editedRow P e pre → f2.row = f.row) ∧
      (∀ t, a = EditorAction.attri t →
        f2.newline = t.new_newline ∧ f2.row = f.row ∧ f2.cursor = f.cursor) ∧
      (PostState P a f → f2 = f) := by
  obtain ⟨f1, hu, h1, hm1, hh1, hd1, hr1, hc1, hn1⟩ := undo_step_history P h hk
  have hr := redo_step P h1 hk
  have hcur : f.action_current = some addr := by
    rw [h.current_ptr, ptrAt_cells_succ, hk]; rfl
  have hdirty : f1.dirty + 1 = f.dirty := by rw [hd1]; ring
  have hedit : ∀ e, a = EditorAction.edit e → ∀ pre, ExactInverse P e pre →
      f.row = editedRow P e pre → (replay P a f1).row = f.row := by
    intro e he pre hinv hpost
    subst he
    have h1r : f1.row = pre := by
      rw [hr1]
      show P.editorPasteText e.deleted_text e.deleted_range.start_x e.deleted_range.start_y
        (P.editorDeleteText e.added_range f.row) = pre
      rw [hpost, hinv.2, hinv.1]
    show P.editorPasteText e.added_text e.added_range.start_x e.added_range.start_y
      (P.editorDeleteText e.deleted_range f1.row) = f.row
    rw [h1r, hpost]
    rfl
  refine ⟨f1, _, hu, hr, hcur.symm, ?_, hdirty, ?_, ?_, ?_, ?_, ?_⟩
  · show (replay P a f1).action_head = f.action_head
    rw [← hh1]; cases a <;> rfl
  · show (replay P a f1).mem = f.mem
    rw [← hm1]; cases a <;> rfl
  · refine History.succ h1 h.current_le ?_ ?_ ?_
    · show (replay P a f1).mem = f1.mem
      cases a <;> rfl
    · show (replay P a f1).action_head = f1.action_head
      cases a <;> rfl
    · show some addr = _
      rw [ptrAt_cells_succ, hk]; rfl
  · intro e he
    refine ⟨by subst he; rfl, ?_, hedit e he⟩
    subst he
    show f1.newline = f.newline
    rw [hn1]; rfl
  · intro t ht
    subst ht
    refine ⟨rfl, ?_, ?_⟩
    · show f1.row = f.row
      rw [hr1]; rfl
    · show f1.cursor = f.cursor
      rw [hc1]; rfl
  · intro hpost
    have hhd : (replay P a f1).action_head = f.action_head := by
      rw [← hh1]; cases a <;> rfl
    have hmm : (replay P a f1).mem = f.mem := by
      rw [← hm1]; cases a <;> rfl
    have hrow : (replay P a f1).row = f.row := by
      cases a with
      | edit e =>
        obtain ⟨-, pre, hinv, hp⟩ := hpost
        exact hedit e rfl pre hinv hp
      | attri t =>
        show f1.row = f.row
        rw [hr1]; rfl
    have hcu : (replay P a f1).cursor = f.cursor := by
      cases a with
      | edit e => exact hpost.1.symm
      | attri t =>
        show f1.cursor = f.cursor
        rw [hc1]; rfl
    have hnl : (replay P a f1).newline = f.newline := by
      cases a with
      | edit e =>
        show f1.newline = f.newline
        rw [hn1]; rfl
      | attri t => exact hpost.symm
    cases f
    simp only [EditorFile.mk.injEq]
    exact ⟨hrow, hcu, hnl, hdirty, hhd, hcur.symm, hmm⟩

theorem undo_redo_symmetry_witness :
    ∃ f1 f2, editorUndo rowPrimitives sampleFile = some (true, f1) ∧
      editorRedo rowPrimitives f1 = some (true, f2) ∧ f2 = sampleFile := by
  obtain ⟨f1, f2, h1, h2, -, -, -, -, -, -, -, hpost⟩ :=
    undo_redo_symmetry rowPrimitives sampleFile 0 sampleNodes 0 1
      (EditorAction.edit sampleEdit) (by decide) (by decide)
  exact ⟨f1, f2, h1, h2, hpost ⟨by decide, [10, 20, 30, 40], by decide, by decide⟩⟩

/-- C1: round trip.  Start from a well-formed history whose `current` is the
sentinel.  If `N` actions are each applied to the document and appended with
`editorAppendAction`, each a faithful record of its step with the delete and paste
primitives exact inverses for it, then `N` successive `editorUndo` calls all return
`true` and restore the row storage, the cursor, the newline kind and `dirty` to
their values before the sequence, and the `(N + 1)`-th `editorUndo` returns `false`
and changes nothing. -/
theorem round_trip {D : Type} (P : Primitives D) (f0 fN : EditorFile D)
    (hd : Nat) (nodes : List (Nat × EditorAction))
    (steps : List (EditorAction × EditorFile D))
    (h0 : History f0 hd nodes 0) (hs : Edited P f0 steps fN) :
    ∃ g, undoTimes P steps.length fN = some (List.replicate steps.length true, g) ∧
      g.row = f0.row ∧ g.cursor = f0.cursor ∧ g.dirty = f0.dirty ∧
      g.newline = f0.newline ∧ editorUndo P g = some (false, g) := by
  obtain ⟨nodes2, g, -, hu, hh, hr, hc, hn, hdy⟩ := round_trip_from P steps f0 fN nodes 0 h0 hs
  exact ⟨g, hu, hr, hc, hdy, hn, undo_head P (hh.current_eq_head_iff.2 rfl)⟩

theorem round_trip_witness :
    ∃ g, undoTimes rowPrimitives sampleSteps.length sampleFileLast =
        some (List.replicate sampleSteps.length true, g) ∧
      g.row = emptyFile.row ∧ g.cursor = emptyFile.cursor ∧ g.dirty = emptyFile.dirty ∧
      g.newline = emptyFile.newline ∧ editorUndo rowPrimitives g = some (false, g) :=
  round_trip rowPrimitives emptyFile sampleFileLast 0 [] sampleSteps (by decide) (by decide)

/-! ## Sequences of calls -/

/-- A redo with a successor, as a step of the history. -/
theorem redo_step_history {D : Type} (P : Primitives D) {f : EditorFile D} {hd : Nat}
    {nodes : List (Nat × EditorAction)} {k : Nat} (h : History f hd nodes k)
    {addr : Nat} {a : EditorAction} (hk : nodes[k]? = some (addr, a)) :
    ∃ f1, editorRedo P f = some (true, f1) ∧ History f1 hd nodes (k + 1) ∧
      f1.mem = f.mem ∧ f1.action_head = f.action_head ∧ f1.dirty = f.dirty + 1 := by
  have hlt : k < nodes.length := by
    by_contra hge
    rw [List.getElem?_eq_none (by omega)] at hk
    exact absurd hk (by simp)
  refine ⟨_, redo_step P h hk, ?_, ?_, ?_, rfl⟩
  · refine History.succ h hlt ?_ ?_ ?_
    · cases a <;> rfl
    · cases a <;> rfl
    · show some addr = _
      rw [ptrAt_cells_succ, hk]; rfl
  · cases a <;> rfl
  · cases a <;> rfl

/-- Every call on a well-formed history returns, leaves a well-formed history with
the same sentinel, changes `dirty` by the amount the dirty counter invariant assigns
to it, and keeps `dirty` minus the position of `current` constant. -/
theorem runOp_history {D : Type} (P : Primitives D) (op : HistoryOp) {f : EditorFile D}
    {hd : Nat} {nodes : List (Nat × EditorAction)} {k : Nat} (h : History f hd nodes k) :
    ∃ b f2 nodes2 k2, runOp P op f = some (b, f2) ∧ History f2 hd nodes2 k2 ∧
      f2.dirty = f.dirty + dirtyDelta op b ∧ f2.dirty - k2 = f.dirty - k := by
  cases op with
  | append action =>
    cases action with
    | none =>
      exact ⟨true, f, nodes, k, rfl, h, by simp [dirtyDelta], rfl⟩
    | some a =>
      obtain ⟨f2, hf2, hh, -, -, -, hdy, -, -⟩ := append_spec h a
      refine ⟨true, f2, _, k + 1, by simp only [runOp, hf2], hh, by rw [hdy]; rfl, ?_⟩
      rw [hdy]; push_cast; ring
  | undo =>
    cases k with
    | zero =>
      refine ⟨false, f, nodes, 0, undo_head P (h.current_eq_head_iff.2 rfl), h, ?_, rfl⟩
      simp [dirtyDelta]
    | succ j =>
      have hj : j < nodes.length := h.current_le
      have hk : nodes[j]? = some (nodes[j].1, nodes[j].2) := List.getElem?_eq_getElem hj
      obtain ⟨f1, hu, h1, -, -, hd1, -⟩ := undo_step_history P h hk
      refine ⟨true, f1, nodes, j, hu, h1, ?_, ?_⟩
      · rw [hd1]; simp [dirtyDelta]; ring
      · rw [hd1]; push_cast; ring
  | redo =>
    by_cases hk : k < nodes.length
    · have hkk : nodes[k]? = some (nodes[k].1, nodes[k].2) := List.getElem?_eq_getElem hk
      obtain ⟨f1, hr, h1, -, -, hd1⟩ := redo_step_history P h hkk
      refine ⟨true, f1, nodes, k + 1, hr, h1, ?_, ?_⟩
      · rw [hd1]; simp [dirtyDelta]
      · rw [hd1]; push_cast; ring
    · have hkl : k = nodes.length := Nat.le_antisymm h.current_le (Nat.le_of_not_lt hk)
      refine ⟨false, f, nodes, k, redo_last P h hkl, h, ?_, rfl⟩
      simp [dirtyDelta]

/-- Every sequence of calls on a well-formed history returns, leaves a well-formed
history with the same sentinel, changes `dirty` by the sum of the amounts assigned
to the calls, and keeps `dirty` minus the position of `current` constant. -/
theorem runOps_history {D : Type} (P : Primitives D) {hd : Nat} :
    ∀ (ops : List HistoryOp) (f : EditorFile D) (nodes : List (Nat × EditorAction)) (k : Nat),
      History f hd nodes k →
      ∃ bs f2 nodes2 k2, runOps P ops f = some (bs, f2) ∧ History f2 hd nodes2 k2 ∧
        f2.dirty = f.dirty + dirtyDeltas ops bs ∧ f2.dirty - k2 = f.dirty - k
  | [], f, nodes, k, h => ⟨[], f, nodes, k, rfl, h, by simp [dirtyDeltas], rfl⟩
  | op :: ops, f, nodes, k, h => by
    obtain ⟨b, f1, nodes1, k1, hr, h1, hd1, hi1⟩ := runOp_history P op h
    obtain ⟨bs, f2, nodes2, k2, hrs, h2, hd2, hi2⟩ := runOps_history P ops f1 nodes1 k1 h1
    refine ⟨b :: bs, f2, nodes2, k2, by simp only [runOps, hr, hrs], h2, ?_, ?_⟩
    · rw [hd2, hd1]; simp only [dirtyDeltas]; ring
    · rw [hi2, hi1]

/-- A well-formed history is linked as a doubly linked sequence. -/
theorem History.links {D : Type} {f : EditorFile D} {hd : Nat}
    {nodes : List (Nat × EditorAction)} {k : Nat} (h : History f hd nodes k) :
    Linked f hd nodes k := by
  unfold Linked
  have hlen := cells_length hd nodes
  constructor
  · have hk : k < (cells hd nodes).length := by rw [hlen]; exact Nat.lt_succ_of_le h.current_le
    refine ⟨(cells hd nodes)[k], List.getElem?_eq_getElem hk, ?_⟩
    rw [h.current_ptr, ptrAt, List.getElem?_eq_getElem hk]
    rfl
  · intro i c hi
    have hil : i < (cells hd nodes).length := by
      by_contra hge
      rw [List.getElem?_eq_none (by omega)] at hi
      exact absurd hi (by simp)
    obtain ⟨n, hn, ha, hp, hx⟩ := seg_get f.mem _ _ _ _ _ _ h.seg hi
    have hact : c.2 = none ↔ i = 0 := by
      cases i with
      | zero =>
        simp only [cells, List.getElem?_cons_zero, Option.some.injEq] at hi
        rw [← hi]; simp
      | succ j =>
        rw [cells_succ] at hi
        cases hj : nodes[j]? with
        | none => rw [hj] at hi; simp at hi
        | some d =>
          rw [hj] at hi
          simp only [Option.map_some', Option.some.injEq] at hi
          rw [← hi]; simp
    have hptr : ∀ j, j < (cells hd nodes).length →
        ∃ d, (cells hd nodes)[j]? = some d ∧ ptrAt (cells hd nodes) j = some d.1 := by
      intro j hj
      exact ⟨_, List.getElem?_eq_getElem hj, by rw [ptrAt, List.getElem?_eq_getElem hj]; rfl⟩
    refine ⟨n, hn, by rw [ha]; exact hact, ?_, ?_, ?_, ?_⟩
    · rw [hp]
      by_cases h0 : i = 0
      · simp [h0]
      · rw [if_neg h0]
        obtain ⟨d, -, hd2⟩ := hptr (i - 1) (by omega)
        rw [hd2]; simp [h0]
    · rw [hx]
      by_cases hl : i + 1 < (cells hd nodes).length
      · rw [if_pos hl]
        obtain ⟨d, -, hd2⟩ := hptr (i + 1) hl
        rw [hd2]
        simp only [reduceCtorEq, false_iff]
        omega
      · rw [if_neg hl]
        simp only [true_iff]
        omega
    · intro b hb
      rw [hx] at hb
      by_cases hl : i + 1 < (cells hd nodes).length
      · rw [if_pos hl] at hb
        obtain ⟨d, hd1, hd2⟩ := hptr (i + 1) hl
        rw [hd2] at hb
        have hbd : d.1 = b := Option.some.inj hb
        obtain ⟨m, hm, -, hmp, -⟩ := seg_get f.mem _ _ _ _ _ _ h.seg hd1
        refine ⟨m, by rw [← hbd]; exact hm, ?_, by rw [hd2, hbd]⟩
        rw [hmp, if_neg (by omega), Nat.add_sub_cancel, ptrAt, hi]
        rfl
      · rw [if_neg hl] at hb
        exact absurd hb (by simp)
    · intro b hb
      rw [hp] at hb
      by_cases h0 : i = 0
      · rw [if_pos h0] at hb
        exact absurd hb (by simp)
      · rw [if_neg h0] at hb
        obtain ⟨d, hd1, hd2⟩ := hptr (i - 1) (by omega)
        rw [hd2] at hb
        have hbd : d.1 = b := Option.some.inj hb
        obtain ⟨m, hm, -, -, hmx⟩ := seg_get f.mem _ _ _ _ _ _ h.seg hd1
        refine ⟨m, by rw [← hbd]; exact hm, ?_, by rw [hd2, hbd]⟩
        rw [hmx, if_pos (by omega), show i - 1 + 1 = i by omega, ptrAt, hi]
        rfl

theorem runOps_length {D : Type} (P : Primitives D) :
    ∀ (ops : List HistoryOp) (f f2 : EditorFile D) (bs : List Bool),
      runOps P ops f = some (bs, f2) → bs.length = ops.length
  | [], f, f2, bs, h => by
    simp only [runOps, Option.some.injEq, Prod.mk.injEq] at h
    rw [← h.1]
    rfl
  | op :: ops, f, f2, bs, h => by
    simp only [runOps] at h
    cases h1 : runOp P op f with
    | none => simp [h1] at h
    | some r =>
      obtain ⟨b, f1⟩ := r
      simp only [h1] at h
      cases h2 : runOps P ops f1 with
      | none => simp [h2] at h
      | some r2 =>
        obtain ⟨bs2, f3⟩ := r2
        simp only [h2, Option.some.injEq, Prod.mk.injEq] at h
        rw [← h.1, List.length_cons, List.length_cons, runOps_length P ops f1 f3 bs2 h2]

/-- C11: dirty counter invariant.  Every sequence of `editorAppendAction`,
`editorUndo` and `editorRedo` calls on a well-formed history returns; `dirty`
changes by `+1` on each append of a non-null action and each successful redo, by
`-1` on each successful undo and by `0` on a failed undo or redo (and on a null
append), so `dirty` minus the position of `current` (the number of real nodes from
the sentinel to `current`) is constant.  The counter is not clamped: an undo at
`current != head` with `dirty = 0` gives `dirty = -1`. -/
theorem dirty_counter_invariant {D : Type} (P : Primitives D) (f : EditorFile D)
    (hd : Nat) (nodes : List (Nat × EditorAction)) (k : Nat) (ops : List HistoryOp)
    (h : History f hd nodes k) :
    (∃ bs f2 nodes2 k2, runOps P ops f = some (bs, f2) ∧ bs.length = ops.length ∧
      History f2 hd nodes2 k2 ∧
      f2.dirty = f.dirty + dirtyDeltas ops bs ∧ f2.dirty - k2 = f.dirty - k) ∧
    (f.action_current ≠ f.action_head → f.dirty = 0 →
      ∃ f2, editorUndo P f = some (true, f2) ∧ f2.dirty = -1) := by
  constructor
  · obtain ⟨bs, f2, nodes2, k2, hr, hh, hd2, hi⟩ := runOps_history P ops f nodes k h
    exact ⟨bs, f2, nodes2, k2, hr, runOps_length P ops f f2 bs hr, hh, hd2, hi⟩
  · intro hne hz
    cases k with
    | zero => exact absurd (h.current_eq_head_iff.2 rfl) hne
    | succ j =>
      have hj : j < nodes.length := h.current_le
      have hk : nodes[j]? = some (nodes[j].1, nodes[j].2) := List.getElem?_eq_getElem hj
      obtain ⟨f1, hu, -, -, -, hd1, -⟩ := undo_step_history P h hk
      exact ⟨f1, hu, by rw [hd1, hz]; rfl⟩

theorem dirty_counter_invariant_witness :
    (∃ bs f2 nodes2 k2, runOps rowPrimitives sampleOps sampleFile = some (bs, f2) ∧
      bs.length = sampleOps.length ∧ History f2 0 nodes2 k2 ∧
      f2.dirty = sampleFile.dirty + dirtyDeltas sampleOps bs ∧
      f2.dirty - k2 = sampleFile.dirty - (1 : Nat)) ∧
    (sampleFile.action_current ≠ sampleFile.action_head → sampleFile.dirty = 0 →
      ∃ f2, editorUndo rowPrimitives sampleFile = some (true, f2) ∧ f2.dirty = -1) :=
  dirty_counter_invariant rowPrimitives sampleFile 0 sampleNodes 1 sampleOps (by decide)

/-- C12: history structure invariant.  If the history is a well-formed doubly
linked sequence (one action-less sentinel at its start, `next` and `prev` pointing
back to each other along it, `current` one of its nodes), then every sequence of
`editorAppendAction`, `editorUndo` and `editorRedo` calls returns and leaves such a
sequence with the same sentinel, with `current` the sentinel or a real node. -/
theorem history_structure_invariant {D : Type} (P : Primitives D) (f : EditorFile D)
    (hd : Nat) (nodes : List (Nat × EditorAction)) (k : Nat) (ops : List HistoryOp)
    (h : History f hd nodes k) :
    ∃ bs f2 nodes2 k2, runOps P ops f = some (bs, f2) ∧
      f2.action_head = some hd ∧ History f2 hd nodes2 k2 ∧ Linked f2 hd nodes2 k2 ∧
      k2 ≤ nodes2.length := by
  obtain ⟨bs, f2, nodes2, k2, hr, hh, -, -⟩ := runOps_history P ops f nodes k h
  exact ⟨bs, f2, nodes2, k2, hr, hh.head_eq, hh, hh.links, hh.current_le⟩

theorem history_structure_invariant_witness :
    ∃ bs f2 nodes2 k2, runOps rowPrimitives sampleOps sampleFile = some (bs, f2) ∧
      f2.action_head = some 0 ∧ History f2 0 nodes2 k2 ∧ Linked f2 0 nodes2 k2 ∧
      k2 ≤ nodes2.length :=
  history_structure_invariant rowPrimitives sampleFile 0 sampleNodes 1 sampleOps (by decide)

namespace Highlight

/-! ## Writes to the class array -/

theorem memset_some {hl : List Nat} {start len : Nat} (v : Nat)
    (h : start + len ≤ hl.length) :
    memset hl start v len =
      some (hl.take start ++ List.replicate len v ++ hl.drop (start + len)) := by
  unfold memset
  rw [if_pos h]

theorem memset_le {hl hl2 : List Nat} {start v len : Nat}
    (h : memset hl start v len = some hl2) : start + len ≤ hl.length := by
  unfold memset at h
  by_contra hn
  rw [if_neg hn] at h
  exact absurd h (by simp)

theorem memset_eq {hl hl2 : List Nat} {start v len : Nat}
    (h : memset hl start v len = some hl2) :
    hl2 = hl.take start ++ List.replicate len v ++ hl.drop (start + len) := by
  have hle := memset_le h
  rw [memset_some v hle] at h
  exact (Option.some.inj h).symm

theorem memset_length {hl hl2 : List Nat} {start v len : Nat}
    (h : memset hl start v len = some hl2) : hl2.length = hl.length := by
  have hle := memset_le h
  rw [memset_eq h]
  simp only [List.length_append, List.length_take, List.length_replicate, List.length_drop]
  omega

theorem memset_mem {hl hl2 : List Nat} {start v len : Nat}
    (h : memset hl start v len = some hl2) {b : Nat} (hb : b ∈ hl2) : b ∈ hl ∨ b = v := by
  rw [memset_eq h] at hb
  rcases List.mem_append.1 hb with hb1 | hb1
  · rcases List.mem_append.1 hb1 with hb2 | hb2
    · exact Or.inl (List.mem_of_mem_take hb2)
    · exact Or.inr (List.eq_of_mem_replicate hb2)
  · exact Or.inl (List.mem_of_mem_drop hb1)

theorem memset_getElem? {hl hl2 : List Nat} {start v len : Nat}
    (h : memset hl start v len = some hl2) (j : Nat) :
    hl2[j]? = if start ≤ j ∧ j < start + len then some v else hl[j]? := by
  have hle := memset_le h
  rw [memset_eq h]
  by_cases h1 : j < start
  · rw [if_neg (by omega), List.append_assoc, List.getElem?_append_left
      (by rw [List.length_take]; omega), List.getElem?_take, if_pos h1]
  · by_cases h2 : j < start + len
    · rw [if_pos ⟨by omega, h2⟩, List.append_assoc, List.getElem?_append_right
        (by rw [List.length_take]; omega), List.length_take, Nat.min_eq_left (by omega),
        List.getElem?_append_left (by rw [List.length_replicate]; omega),
        List.getElem?_replicate, if_pos (by omega)]
    · rw [if_neg (by omega), List.getElem?_append_right
        (by simp only [List.length_append, List.length_take, List.length_replicate]; omega)]
      simp only [List.length_append, List.length_take, List.length_replicate,
        Nat.min_eq_left (show start ≤ hl.length by omega), List.getElem?_drop]
      congr 1
      omega

/-! ## The inner loops of the number scan -/

theorem scanWhile_ge (p : Nat → Bool) (data : List Nat) (i : Nat) : i ≤ scanWhile p data i := by
  unfold scanWhile; omega

theorem scanWhile_le (p : Nat → Bool) (data : List Nat) {i : Nat} (h : i ≤ data.length) :
    scanWhile p data i ≤ data.length := by
  unfold scanWhile
  have h1 : ((data.drop i).takeWhile p).length ≤ (data.drop i).length :=
    (List.takeWhile_sublist p).length_le
  rw [List.length_drop] at h1
  omega

theorem getElem?_lt {data : List Nat} {i d : Nat} (h : data[i]? = some d) : i < data.length := by
  by_contra hn
  rw [List.getElem?_eq_none (by omega)] at h
  exact absurd h (by simp)

theorem getElem?_lt2 {α : Type} {l : List α} {i : Nat} {d : α} (h : l[i]? = some d) :
    i < l.length := by
  by_contra hn
  rw [List.getElem?_eq_none (by omega)] at h
  exact absurd h (by simp)

theorem numberEnd_bounds (data : List Nat) (start c : Nat) (h : start < data.length) :
    start + 1 ≤ numberEnd data start c ∧ numberEnd data start c ≤ data.length := by
  unfold numberEnd
  split
  · split
    · omega
    · rename_i d hd
      have hlt := getElem?_lt hd
      split
      · exact ⟨by have := scanWhile_ge isHexChar data (start + 2); omega,
          scanWhile_le _ _ (by omega)⟩
      · split
        · exact ⟨by have := scanWhile_ge isOctChar data (start + 2); omega,
            scanWhile_le _ _ (by omega)⟩
        · split
          · exact ⟨by have := scanWhile_ge isdigit data (start + 2); omega,
              scanWhile_le _ _ (by omega)⟩
          · omega
  · have h1 := scanWhile_ge isdigit data (start + 1)
    have h2 := scanWhile_le isdigit data (show start + 1 ≤ data.length by omega)
    simp only []
    split
    · rename_i hc
      have hlt := getElem?_lt hc.2
      exact ⟨by have := scanWhile_ge isdigit data (scanWhile isdigit data (start + 1) + 1); omega,
        scanWhile_le _ _ (by omega)⟩
    · omega

/-! ## The parts of the loop body are sound -/

theorem memset_sound (hl : List Nat) (start len v : Nat)
    (hle : start + len ≤ hl.length) (hv : 1 ≤ v ∧ v ≤ 6) :
    ∃ hl2, memset hl start v len = some hl2 ∧ hl2.length = hl.length ∧
      ∀ b ∈ hl2, b ∈ hl ∨ (1 ≤ b ∧ b ≤ 6) := by
  refine ⟨_, memset_some v hle, memset_length (memset_some v hle), ?_⟩
  intro b hb
  rcases memset_mem (memset_some v hle) hb with h | h
  · exact Or.inl h
  · exact Or.inr (by rw [h]; exact hv)

theorem tokAt_le {data : List Nat} {i : Nat} {tok : Option (List Nat)}
    (h : tokAt data i tok = true) : i + tokLen tok ≤ data.length := by
  cases tok with
  | none => simp [tokAt] at h
  | some t =>
    simp only [tokAt, Bool.and_eq_true, decide_eq_true_eq] at h
    exact h.1

theorem lineComment_sound (s : EditorSyntax) (data : List Nat) (st : ScanState)
    (hi : st.i < data.length) (hl : st.hl.length = data.length) :
    Flow.Sound data st (lineComment s data st) := by
  unfold lineComment
  split
  · split
    · obtain ⟨hl2, hm, hlen, hb⟩ := memset_sound st.hl st.i (data.length - st.i) HL_COMMENT
        (by omega) (by decide)
      rw [hm]
      exact ⟨hlen, hb⟩
    · trivial
  · trivial

theorem blockComment_sound (s : EditorSyntax) (data : List Nat) (st : ScanState)
    (hi : st.i < data.length) (hl : st.hl.length = data.length) :
    Flow.Sound data st (blockComment s data st) := by
  unfold blockComment
  split
  · rename_i hc
    split
    · obtain ⟨hl1, hm1, hlen1, hb1⟩ := memset_sound st.hl st.i 1 HL_COMMENT
        (by omega) (by decide)
      rw [hm1]
      simp only []
      split
      · rename_i ht
        have hle := tokAt_le ht
        obtain ⟨hl2, hm2, hlen2, hb2⟩ := memset_sound hl1 st.i
          (tokLen s.multiline_comment_end) HL_COMMENT (by omega) (by decide)
        rw [hm2]
        refine ⟨by rw [hlen2, hlen1], ?_, ?_⟩
        · cases hp : st.prev_sep <;> simp [scanMeasure, hp] <;> omega
        · intro b hb
          rcases hb2 b hb with h | h
          · exact hb1 b h
          · exact Or.inr h
      · refine ⟨hlen1, ?_, hb1⟩
        cases hp : st.prev_sep <;> simp [scanMeasure, hp] <;> omega
    · split
      · rename_i ht
        have hle := tokAt_le ht
        obtain ⟨hl2, hm2, hlen2, hb2⟩ := memset_sound st.hl st.i
          (tokLen s.multiline_comment_start) HL_COMMENT (by omega) (by decide)
        rw [hm2]
        refine ⟨hlen2, ?_, hb2⟩
        have := hc.1
        cases hp : st.prev_sep <;> simp [scanMeasure, hp] <;> omega
      · trivial
  · trivial

theorem stringLiteral_sound (s : EditorSyntax) (data : List Nat) (st : ScanState) (c : Nat)
    (hi : st.i < data.length) (hl : st.hl.length = data.length) :
    Flow.Sound data st (stringLiteral s data st c) := by
  unfold stringLiteral
  obtain ⟨hl1, hm1, hlen1, hb1⟩ := memset_sound st.hl st.i 1 HL_STRING (by omega) (by decide)
  split
  · split
    · rw [hm1]
      simp only []
      split
      · rename_i he
        obtain ⟨hl2, hm2, hlen2, hb2⟩ := memset_sound hl1 (st.i + 1) 1 HL_STRING
          (by omega) (by decide)
        rw [hm2]
        refine ⟨by rw [hlen2, hlen1], ?_, ?_⟩
        · cases hp : st.prev_sep <;> simp [scanMeasure, hp] <;> omega
        · intro b hb
          rcases hb2 b hb with h | h
          · exact hb1 b h
          · exact Or.inr h
      · refine ⟨hlen1, ?_, hb1⟩
        cases hp : st.prev_sep <;> simp [scanMeasure, hp] <;> omega
    · split
      · rw [hm1]
        refine ⟨hlen1, ?_, hb1⟩
        cases hp : st.prev_sep <;> simp [scanMeasure, hp] <;> omega
      · trivial
  · trivial

theorem numberLiteral_sound (env : Externals) (s : EditorSyntax) (data : List Nat)
    (st : ScanState) (c : Nat)
    (hi : st.i < data.length) (hl : st.hl.length = data.length) :
    Flow.Sound data st (numberLiteral env s data st c) := by
  unfold numberLiteral
  obtain ⟨hn1, hn2⟩ := numberEnd_bounds data st.i c hi
  simp only []
  generalize numberEnd data st.i c = j at hn1 hn2 ⊢
  split
  · split
    · rename_i hps
      have hp : st.prev_sep = true := by
        simp only [Bool.and_eq_true] at hps
        exact hps.2
      split
      · refine ⟨rfl, ?_, fun b hb => Or.inl hb⟩
        simp [scanMeasure, hp]; omega
      · obtain ⟨i2, hi2, hi2a, hi2b⟩ : ∃ i2, (match data[j]? with
            | some d => if d = 102 ∨ d = 70 then j + 1 else j
            | none => j) = i2 ∧ st.i + 1 ≤ i2 ∧ i2 ≤ data.length := by
          cases hd : data[j]? with
          | none => exact ⟨j, rfl, hn1, hn2⟩
          | some d =>
            have := getElem?_lt hd
            by_cases hf : d = 102 ∨ d = 70
            · exact ⟨j + 1, by simp only [if_pos hf], by omega, by omega⟩
            · exact ⟨j, by simp only [if_neg hf], hn1, hn2⟩
        rw [hi2]
        obtain ⟨hl2, hm, hlen, hb⟩ := memset_sound st.hl st.i (i2 - st.i) HL_NUMBER
          (by omega) (by decide)
        split
        · rw [hm]
          refine ⟨hlen, ?_, hb⟩
          simp [scanMeasure, hp]; omega
        · rename_i hne
          have hlt : i2 < data.length := by omega
          rw [List.getElem?_eq_getElem hlt]
          simp only []
          split
          · rw [hm]
            refine ⟨hlen, ?_, hb⟩
            simp [scanMeasure, hp]; omega
          · refine ⟨rfl, ?_, fun b hb => Or.inl hb⟩
            simp [scanMeasure, hp]; omega
    · trivial
  · trivial

/-! ## Keywords -/

theorem keywordAt_ne_none (env : Externals) (data : List Nat) (i : Nat) (k : List Nat)
    (hi : i ≤ data.length) : keywordAt env data i k ≠ none := by
  unfold keywordAt
  split
  · rename_i hk
    split
    · simp
    · rename_i hne
      have hlt : i + k.length < data.length := by omega
      rw [List.getElem?_eq_getElem hlt]
      simp
  · simp

theorem keywordAt_le {env : Externals} {data : List Nat} {i : Nat} {k : List Nat}
    (h : keywordAt env data i k = some true) : k.length ≤ data.length - i := by
  unfold keywordAt at h
  split at h
  · rename_i hk
    exact hk.1
  · simp at h

/-- The inner keyword loop returns, and the keyword it finds is the first one of the
category that passes the test. -/
theorem findKeyword_spec (env : Externals) (data : List Nat) (i : Nat) (hi : i ≤ data.length) :
    ∀ ks : List (List Nat),
      (findKeyword env data i ks = some none ∧
        ∀ k ∈ ks, keywordAt env data i k = some false) ∨
      ∃ pre k post, ks = pre ++ k :: post ∧
        findKeyword env data i ks = some (some k.length) ∧
        keywordAt env data i k = some true ∧
        ∀ k2 ∈ pre, keywordAt env data i k2 = some false
  | [] => Or.inl ⟨rfl, by simp⟩
  | k :: ks => by
    cases hk : keywordAt env data i k with
    | none => exact absurd hk (keywordAt_ne_none env data i k hi)
    | some b =>
      cases b with
      | true =>
        refine Or.inr ⟨[], k, ks, rfl, ?_, hk, by simp⟩
        simp only [findKeyword, hk]
      | false =>
        rcases findKeyword_spec env data i hi ks with ⟨h1, h2⟩ | ⟨pre, k2, post, h1, h2, h3, h4⟩
        · refine Or.inl ⟨by simp only [findKeyword, hk, h1], ?_⟩
          intro k3 hk3
          rcases List.mem_cons.1 hk3 with h | h
          · rw [h]; exact hk
          · exact h2 k3 h
        · refine Or.inr ⟨k :: pre, k2, post, by rw [h1]; rfl, ?_, h3, ?_⟩
          · simp only [findKeyword, hk, h2]
          · intro k3 hk3
            rcases List.mem_cons.1 hk3 with h | h
            · rw [h]; exact hk
            · exact h4 k3 h

/-- The outer keyword loop returns; a keyword it finds is in one of the categories
it looks at and fits into the row. -/
theorem findKeywordFrom_spec (env : Externals) (s : EditorSyntax) (data : List Nat) (i : Nat)
    (hi : i ≤ data.length) :
    ∀ (n kw : Nat),
      findKeywordFrom env s data i n kw = some none ∨
      ∃ kw2 klen, findKeywordFrom env s data i n kw = some (some (kw2, klen)) ∧
        kw ≤ kw2 ∧ kw2 < kw + n ∧ klen ≤ data.length - i
  | 0, _ => Or.inl rfl
  | n + 1, kw => by
    rcases findKeyword_spec env data i hi (s.keywords.getD kw []) with
      ⟨h1, -⟩ | ⟨pre, k, post, -, h2, h3, -⟩
    · rcases findKeywordFrom_spec env s data i hi n (kw + 1) with h | ⟨kw2, klen, h, ha, hb, hc⟩
      · exact Or.inl (by simp only [findKeywordFrom, h1, h])
      · exact Or.inr ⟨kw2, klen, by simp only [findKeywordFrom, h1, h], by omega, by omega, hc⟩
    · exact Or.inr ⟨kw, k.length, by simp only [findKeywordFrom, h2], Nat.le_refl _, by omega,
        keywordAt_le h3⟩

theorem keyword_sound (env : Externals) (s : EditorSyntax) (data : List Nat) (st : ScanState)
    (hi : st.i < data.length) (hl : st.hl.length = data.length) :
    Flow.Sound data st (keyword env s data st) := by
  unfold keyword
  split
  · rename_i hp
    rcases findKeywordFrom_spec env s data st.i (Nat.le_of_lt hi) 3 0 with
      h | ⟨kw, klen, h, -, hkw, hle⟩
    · rw [h]
      trivial
    · rw [h]
      obtain ⟨hl2, hm, hlen, hb⟩ := memset_sound st.hl st.i klen (HL_KEYWORD1 + kw)
        (by omega) (by unfold HL_KEYWORD1; omega)
      simp only [hm]
      refine ⟨hlen, ?_, hb⟩
      simp [scanMeasure, hp]; omega
  · trivial

/-! ## The loop body and the loop -/

/-- The body of the scan loop is sound and ends in `continue` or `break`. -/
theorem scanBody_sound (env : Externals) (s : EditorSyntax) (data : List Nat) (st : ScanState)
    (hi : st.i < data.length) (hl : st.hl.length = data.length) :
    Flow.Sound data st (scanBody env s data st) ∧ scanBody env s data st ≠ Flow.pass := by
  unfold scanBody
  rw [List.getElem?_eq_getElem hi]
  simp only []
  have h1 := lineComment_sound s data st hi hl
  cases hc1 : lineComment s data st with
  | next st2 => rw [hc1] at h1; exact ⟨h1, by simp⟩
  | stop st2 => rw [hc1] at h1; exact ⟨h1, by simp⟩
  | fault => rw [hc1] at h1; exact absurd h1 (by simp [Flow.Sound])
  | pass =>
    simp only []
    have h2 := blockComment_sound s data st hi hl
    cases hc2 : blockComment s data st with
    | next st2 => rw [hc2] at h2; exact ⟨h2, by simp⟩
    | stop st2 => rw [hc2] at h2; exact ⟨h2, by simp⟩
    | fault => rw [hc2] at h2; exact absurd h2 (by simp [Flow.Sound])
    | pass =>
      simp only []
      have h3 := stringLiteral_sound s data st data[st.i] hi hl
      cases hc3 : stringLiteral s data st data[st.i] with
      | next st2 => rw [hc3] at h3; exact ⟨h3, by simp⟩
      | stop st2 => rw [hc3] at h3; exact ⟨h3, by simp⟩
      | fault => rw [hc3] at h3; exact absurd h3 (by simp [Flow.Sound])
      | pass =>
        simp only []
        have h4 := numberLiteral_sound env s data st data[st.i] hi hl
        cases hc4 : numberLiteral env s data st data[st.i] with
        | next st2 => rw [hc4] at h4; exact ⟨h4, by simp⟩
        | stop st2 => rw [hc4] at h4; exact ⟨h4, by simp⟩
        | fault => rw [hc4] at h4; exact absurd h4 (by simp [Flow.Sound])
        | pass =>
          simp only []
          have h5 := keyword_sound env s data st hi hl
          cases hc5 : keyword env s data st with
          | next st2 => rw [hc5] at h5; exact ⟨h5, by simp⟩
          | stop st2 => rw [hc5] at h5; exact ⟨h5, by simp⟩
          | fault => rw [hc5] at h5; exact absurd h5 (by simp [Flow.Sound])
          | pass =>
            simp only []
            refine ⟨⟨rfl, ?_, fun b hb => Or.inl hb⟩, by simp⟩
            cases hp : st.prev_sep <;> cases hq : env.isNonIdentifierChar data[st.i] <;>
              simp [scanMeasure, hp, hq] <;> omega

/-- The scan loop returns whenever its fuel is at least the measure of the state;
the class array keeps its length, and every byte is an old byte or one of the
foreground classes comment, keyword 1 to 3, string, number. -/
theorem scanLoop_sound (env : Externals) (s : EditorSyntax) (data : List Nat) :
    ∀ (fuel : Nat) (st : ScanState), scanMeasure data st ≤ fuel →
      st.hl.length = data.length →
      ∃ st2, scanLoop env s data fuel st = some st2 ∧ st2.hl.length = data.length ∧
        ∀ b ∈ st2.hl, b ∈ st.hl ∨ (1 ≤ b ∧ b ≤ 6)
  | 0, st, hm, hl => by
    have hge : ¬ st.i < data.length := by
      intro hlt
      unfold scanMeasure at hm
      omega
    exact ⟨st, by simp only [scanLoop, if_neg hge], hl, fun b hb => Or.inl hb⟩
  | fuel + 1, st, hm, hl => by
    by_cases hlt : st.i < data.length
    · obtain ⟨hs, hnp⟩ := scanBody_sound env s data st hlt hl
      simp only [scanLoop, if_pos hlt]
      cases hb : scanBody env s data st with
      | next st2 =>
        rw [hb] at hs
        obtain ⟨h1, h2, h3⟩ := hs
        obtain ⟨st3, hr, hl3, hb3⟩ := scanLoop_sound env s data fuel st2 (by omega)
          (by rw [h1, hl])
        refine ⟨st3, hr, hl3, ?_⟩
        intro b hb4
        rcases hb3 b hb4 with h | h
        · exact h3 b h
        · exact Or.inr h
      | stop st2 =>
        rw [hb] at hs
        exact ⟨st2, rfl, by rw [hs.1, hl], hs.2⟩
      | pass => exact absurd hb hnp
      | fault => rw [hb] at hs; exact absurd hs (by simp [Flow.Sound])
    · exact ⟨st, by simp only [scanLoop, if_neg hlt], hl, fun b hb => Or.inl hb⟩

/-! ## The trailing whitespace pass -/

/-- The trailing whitespace pass over the first `n` positions: when `t` is the start
of the maximal run of spaces and tabs that ends at position `n`, the pass writes the
trailing byte at the positions `t .. n - 1` and nothing else. -/
theorem updateTrailing_eq (data : List Nat) :
    ∀ (n : Nat) (hl : List Nat) (t : Nat), n ≤ data.length → hl.length = data.length →
      t ≤ n → (∀ j, t ≤ j → j < n → data[j]? = some 32 ∨ data[j]? = some 9) →
      (t = 0 ∨ (data[t - 1]? ≠ some 32 ∧ data[t - 1]? ≠ some 9)) →
      updateTrailing data n hl =
        some (hl.take t ++ List.replicate (n - t) (HL_BG_TRAILING <<< HL_FG_BITS) ++ hl.drop n)
  | 0, hl, t, _, _, ht, _, _ => by
    have : t = 0 := by omega
    subst this
    simp [updateTrailing]
  | n + 1, hl, t, hn, hlen, ht, hblank, hmax => by
    have hlt : n < data.length := by omega
    simp only [updateTrailing, List.getElem?_eq_getElem hlt]
    by_cases htn : t = n + 1
    · subst htn
      have hnb : ¬ (data[n] = 32 ∨ data[n] = 9) := by
        rcases hmax with h | h
        · omega
        · simp only [Nat.add_sub_cancel, List.getElem?_eq_getElem hlt, ne_eq,
            Option.some.injEq] at h
          intro hc
          rcases hc with hc | hc
          · exact h.1 hc
          · exact h.2 hc
      rw [if_neg hnb]
      simp
    · have hb : data[n] = 32 ∨ data[n] = 9 := by
        have := hblank n (by omega) (by omega)
        simpa [List.getElem?_eq_getElem hlt] using this
      rw [if_pos hb, memset_some _ (show n + 1 ≤ hl.length by omega)]
      simp only []
      rw [updateTrailing_eq data n _ t (by omega) (by simp; omega) (by omega)
        (fun j h1 h2 => hblank j h1 (by omega)) hmax]
      congr 1
      have h1 : (hl.take n ++ List.replicate 1 (HL_BG_TRAILING <<< HL_FG_BITS) ++
          hl.drop (n + 1)).take t = hl.take t := by
        rw [List.append_assoc, List.take_append_of_le_length (by simp; omega),
          List.take_take, Nat.min_eq_left (by omega)]
      have h2 : (hl.take n ++ List.replicate 1 (HL_BG_TRAILING <<< HL_FG_BITS) ++
          hl.drop (n + 1)).drop n =
          List.replicate 1 (HL_BG_TRAILING <<< HL_FG_BITS) ++ hl.drop (n + 1) := by
        rw [List.append_assoc, List.drop_append_of_le_length (by simp; omega)]
        rw [List.drop_eq_nil_of_le (by simp)]
        rfl
      rw [h1, h2, show n + 1 - t = (n - t) + 1 by omega, List.replicate_add]
      simp only [List.append_assoc]

/-- The trailing whitespace pass returns and keeps the length of the class array. -/
theorem updateTrailing_some (data : List Nat) :
    ∀ (n : Nat) (hl : List Nat), n ≤ data.length → hl.length = data.length →
      ∃ hl2, updateTrailing data n hl = some hl2 ∧ hl2.length = data.length
  | 0, hl, _, hlen => ⟨hl, rfl, hlen⟩
  | n + 1, hl, hn, hlen => by
    have hlt : n < data.length := by omega
    simp only [updateTrailing, List.getElem?_eq_getElem hlt]
    by_cases hb : data[n] = 32 ∨ data[n] = 9
    · rw [if_pos hb, memset_some _ (show n + 1 ≤ hl.length by omega)]
      exact updateTrailing_some data n _ (by omega)
        (by rw [memset_length (memset_some _ (show n + 1 ≤ hl.length by omega)), hlen])
    · rw [if_neg hb]
      exact ⟨hl, rfl, hlen⟩

/-! ## One row -/

/-- On a row whose class array has one byte per character, the reset of the class
array gives `HL_NORMAL` everywhere. -/
theorem resetHl_valid {row : EditorRow} (hv : row.Valid) :
    resetHl row = some (List.replicate row.data.length HL_NORMAL) := by
  unfold EditorRow.Valid at hv
  unfold resetHl
  by_cases he : row.hl = []
  · rw [if_pos he]
    rw [he] at hv
    rw [he, ← hv]
    rfl
  · rw [if_neg he, memset_some _ (show 0 + row.data.length ≤ row.hl.length by omega)]
    rw [List.drop_eq_nil_of_le (by omega)]
    simp

/-- The scan of a row returns; the class array has one byte per character, every
byte is `HL_NORMAL` or one of the foreground classes comment, keyword 1 to 3, string,
number. -/
theorem scanRow_some (env : Externals) (s : EditorSyntax) (data : List Nat) (ic : Bool) :
    ∃ st, scanRow env s data ic = some st ∧ st.hl.length = data.length ∧
      ∀ b ∈ st.hl, b ≤ 6 := by
  obtain ⟨st, h1, h2, h3⟩ := scanLoop_sound env s data (2 * data.length + 1)
    { i := 0, prev_sep := true, in_string := 0, in_comment := ic,
      hl := List.replicate data.length HL_NORMAL }
    (by simp [scanMeasure]) (by simp)
  refine ⟨st, h1, h2, ?_⟩
  intro b hb
  rcases h3 b hb with h | h
  · have := List.eq_of_mem_replicate h
    rw [this]; decide
  · exact h.2

/-- The row `freshRow` in terms of the scan and the trailing whitespace pass. -/
theorem freshRow_eq (env : Externals) (s : EditorSyntax) (data : List Nat) (ic : Bool) :
    ∃ st hl, scanRow env s data ic = some st ∧ st.hl.length = data.length ∧
      updateTrailing data data.length st.hl = some hl ∧ hl.length = data.length ∧
      freshRow env s data ic = { data := data, hl := hl, hl_open_comment := st.in_comment } := by
  obtain ⟨st, h1, h2, -⟩ := scanRow_some env s data ic
  obtain ⟨hl, h3, h4⟩ := updateTrailing_some data data.length st.hl (Nat.le_refl _) h2
  refine ⟨st, hl, h1, h2, h3, h4, ?_⟩
  simp only [freshRow, h1, h3, Option.getD_some]

theorem freshRow_data (env : Externals) (s : EditorSyntax) (data : List Nat) (ic : Bool) :
    (freshRow env s data ic).data = data := by
  obtain ⟨st, hl, -, -, -, -, h⟩ := freshRow_eq env s data ic
  rw [h]

theorem freshRow_valid (env : Externals) (s : EditorSyntax) (data : List Nat) (ic : Bool) :
    (freshRow env s data ic).Valid := by
  obtain ⟨st, hl, -, -, -, h4, h⟩ := freshRow_eq env s data ic
  rw [h]
  exact h4

/-- The row `plainRow` in terms of the trailing whitespace pass. -/
theorem plainRow_eq (row : EditorRow) :
    ∃ hl, updateTrailing row.data row.data.length
        (List.replicate row.data.length HL_NORMAL) = some hl ∧ hl.length = row.data.length ∧
      plainRow row = { row with hl := hl } := by
  obtain ⟨hl, h3, h4⟩ := updateTrailing_some row.data row.data.length
    (List.replicate row.data.length HL_NORMAL) (Nat.le_refl _) (by simp)
  refine ⟨hl, h3, h4, ?_⟩
  simp only [plainRow, h3, Option.getD_some]

/-! ## Rows of a file -/

theorem getElem?_append_cons {α : Type} (pre : List α) (x : α) (rest : List α) :
    (pre ++ x :: rest)[pre.length]? = some x := by
  rw [List.getElem?_append_right (Nat.le_refl _), Nat.sub_self, List.getElem?_cons_zero]

theorem set_append_cons {α : Type} (pre : List α) (x y : α) (rest : List α) :
    (pre ++ x :: rest).set pre.length y = pre ++ y :: rest := by
  induction pre with
  | nil => rfl
  | cons a pre ih => simp only [List.cons_append, List.length_cons, List.set_cons_succ, ih]

/-- The incoming block-comment state that `editorUpdateSyntax` reads for the row
after the rows `pre`. -/
theorem in_comment_eq (pre : List EditorRow) (x : EditorRow) (rest : List EditorRow) :
    (decide (pre.length > 0) &&
      (match (pre ++ x :: rest)[pre.length - 1]? with
       | some prev => prev.hl_open_comment
       | none => false)) = lastOpen pre := by
  rcases List.eq_nil_or_concat pre with h | ⟨p, b, h⟩
  · subst h
    rfl
  · subst h
    have h1 : (p.concat b ++ x :: rest)[(p.concat b).length - 1]? = some b := by
      simp only [List.concat_eq_append, List.length_append, List.length_singleton,
        Nat.add_sub_cancel, List.append_assoc]
      rw [List.getElem?_append_right (Nat.le_refl _), Nat.sub_self, List.cons_append,
        List.getElem?_cons_zero]
    rw [h1]
    simp [lastOpen]

/-- The function `editorUpdateSyntax` without an active rule (no rule, or the
configuration variable `syntax` is 0): only the updated row changes, to its plain
form. -/
theorem update_inactive (env : Externals) (fuel : Nat) (fn : Option (List Nat))
    (pre : List EditorRow) (row : EditorRow) (rest : List EditorRow)
    (sd : Option EditorSyntax) (hin : env.syntax_convar = 0 ∨ sd = none) (hv : row.Valid) :
    editorUpdateSyntax env fuel { filename := fn, row := pre ++ row :: rest, syntaxDef := sd }
        pre.length =
      some { filename := fn, row := pre ++ plainRow row :: rest, syntaxDef := sd } := by
  obtain ⟨hl, h1, -, h3⟩ := plainRow_eq row
  have hs : (if env.syntax_convar = 0 then none else sd) = none := by
    rcases hin with h | h
    · rw [if_pos h]
    · rw [h]; simp
  unfold editorUpdateSyntax
  simp only [getElem?_append_cons, resetHl_valid hv, hs, h1, set_append_cons, h3]

/-- The function `editorUpdateSyntax` with the active rule `s`, on the row after the
rows `pre`: it returns whenever the fuel is at least the number of rows after the
updated one; the rows before are kept, and the rows from the updated one on are
those of `cascade`. -/
theorem update_active (env : Externals) (s : EditorSyntax) (fn : Option (List Nat))
    (hconv : env.syntax_convar ≠ 0) :
    ∀ (rest : List EditorRow) (pre : List EditorRow) (row : EditorRow) (fuel : Nat),
      row.Valid → (∀ x ∈ rest, x.Valid) → rest.length ≤ fuel →
      editorUpdateSyntax env fuel
          { filename := fn, row := pre ++ row :: rest, syntaxDef := some s } pre.length =
        some { filename := fn, row := pre ++ cascade env s (lastOpen pre) (row :: rest),
               syntaxDef := some s }
  | [], pre, row, fuel, hv, _, _ => by
    obtain ⟨st, hl, h1, h2, h3, h4, h5⟩ := freshRow_eq env s row.data (lastOpen pre)
    unfold scanRow at h1
    unfold editorUpdateSyntax
    simp only [getElem?_append_cons, resetHl_valid hv, if_neg hconv, in_comment_eq, h1,
      set_append_cons, List.length_append, List.length_cons, List.length_nil,
      Nat.lt_irrefl, and_false, if_false, h3, cascade, h5]
    simp
  | x :: rest, pre, row, fuel, hv, hrest, hfuel => by
    obtain ⟨st, hl, h1, h2, h3, h4, h5⟩ := freshRow_eq env s row.data (lastOpen pre)
    unfold scanRow at h1
    obtain ⟨fuel2, rfl⟩ : ∃ fuel2, fuel = fuel2 + 1 :=
      ⟨fuel - 1, by simp only [List.length_cons] at hfuel; omega⟩
    have hlen : pre.length + 1 < (pre ++ row :: x :: rest).length := by
      simp only [List.length_append, List.length_cons]; omega
    have hih := update_active env s fn hconv rest
      (pre ++ [{ row with hl := st.hl, hl_open_comment := st.in_comment }]) x fuel2
      (hrest x (List.mem_cons_self _ _))
      (fun y hy => hrest y (List.mem_cons_of_mem _ hy))
      (by simp only [List.length_cons] at hfuel; omega)
    have hlo : lastOpen (pre ++ [{ row with hl := st.hl, hl_open_comment := st.in_comment }]) =
        st.in_comment := by
      simp [lastOpen]
    rw [hlo] at hih
    simp only [List.append_assoc, List.singleton_append, List.length_append,
      List.length_singleton] at hih
    unfold editorUpdateSyntax
    simp only [getElem?_append_cons, resetHl_valid hv, if_neg hconv, in_comment_eq, h1,
      set_append_cons, hlen, and_true]
    by_cases hch : (row.hl_open_comment != st.in_comment) = true
    · rw [if_pos hch]
      simp only [hih, getElem?_append_cons, h3, set_append_cons]
      conv_rhs => rw [cascade]
      rw [h5]
      simp only [hch, if_true]
    · rw [if_neg hch]
      simp only [getElem?_append_cons, h3, set_append_cons]
      conv_rhs => rw [cascade]
      rw [h5]
      simp only [hch, if_false]
      simp

/-! ## The cascade -/

theorem cascade_length (env : Externals) (s : EditorSyntax) :
    ∀ (rows : List EditorRow) (ic : Bool), (cascade env s ic rows).length = rows.length
  | [], _ => rfl
  | row :: rest, ic => by
    simp only [cascade, List.length_cons]
    split
    · rw [cascade_length env s rest]
    · rfl

theorem cascade_data (env : Externals) (s : EditorSyntax) :
    ∀ (rows : List EditorRow) (ic : Bool),
      (cascade env s ic rows).map EditorRow.data = rows.map EditorRow.data
  | [], _ => rfl
  | row :: rest, ic => by
    simp only [cascade, List.map_cons, freshRow_data]
    split
    · rw [cascade_data env s rest]
    · rfl

theorem cascade_valid (env : Externals) (s : EditorSyntax) :
    ∀ (rows : List EditorRow) (ic : Bool), (∀ x ∈ rows, x.Valid) →
      ∀ y ∈ cascade env s ic rows, y.Valid
  | [], _, _, y, hy => by simp [cascade] at hy
  | row :: rest, ic, hv, y, hy => by
    simp only [cascade, List.mem_cons] at hy
    rcases hy with h | h
    · rw [h]; exact freshRow_valid env s row.data ic
    · split at h
      · exact cascade_valid env s rest _ (fun x hx => hv x (List.mem_cons_of_mem _ hx)) y h
      · exact hv y (List.mem_cons_of_mem _ h)

/-- The cascade stops at the first row whose outgoing block-comment state does not
change: when the state of the row at position `m` is as before, every row after it
is as before. -/
theorem cascade_stops (env : Externals) (s : EditorSyntax) :
    ∀ (rows : List EditorRow) (ic : Bool) (m j : Nat), m < j →
      ((cascade env s ic rows)[m]?).map EditorRow.hl_open_comment =
        (rows[m]?).map EditorRow.hl_open_comment →
      (cascade env s ic rows)[j]? = rows[j]?
  | [], _, _, _, _, _ => rfl
  | row :: rest, ic, 0, j + 1, _, h => by
    simp only [cascade, List.getElem?_cons_zero, Option.map_some', Option.some.injEq] at h
    simp only [cascade, List.getElem?_cons_succ]
    rw [if_neg (by simp [h])]
  | row :: rest, ic, m + 1, j + 1, hmj, h => by
    simp only [cascade, List.getElem?_cons_succ] at h ⊢
    split
    · rename_i hc
      rw [if_pos hc] at h
      exact cascade_stops env s rest _ m j (by omega) h
    · rfl

/-! ## A full rescan -/

theorem rescan_length (env : Externals) (s : EditorSyntax) :
    ∀ (datas : List (List Nat)) (ic : Bool), (rescan env s ic datas).length = datas.length
  | [], _ => rfl
  | d :: rest, ic => by
    simp only [rescan, List.length_cons, rescan_length env s rest]

theorem rescan_data (env : Externals) (s : EditorSyntax) :
    ∀ (datas : List (List Nat)) (ic : Bool),
      (rescan env s ic datas).map EditorRow.data = datas
  | [], _ => rfl
  | d :: rest, ic => by
    simp only [rescan, List.map_cons, freshRow_data, rescan_data env s rest]

/-- On rows that are the result of a full rescan with some incoming state, the
cascade with the incoming state `ic` gives the full rescan with `ic`. -/
theorem cascade_of_rescan (env : Externals) (s : EditorSyntax) :
    ∀ (datas : List (List Nat)) (ic0 ic : Bool),
      cascade env s ic (rescan env s ic0 datas) = rescan env s ic datas
  | [], _, _ => rfl
  | d :: rest, ic0, ic => by
    simp only [rescan, cascade, freshRow_data]
    congr 1
    split
    · exact cascade_of_rescan env s rest _ _
    · rename_i hc
      have : (freshRow env s d ic0).hl_open_comment = (freshRow env s d ic).hl_open_comment := by
        simpa using hc
      rw [this]

/-! ## The functions on a file -/

theorem rows_split (rows : List EditorRow) (r : Nat) (hr : r < rows.length) :
    rows = rows.take r ++ rows[r] :: rows.drop (r + 1) ∧ (rows.take r).length = r ∧
      rows.drop r = rows[r] :: rows.drop (r + 1) := by
  refine ⟨?_, ?_, ?_⟩
  · conv_lhs => rw [← List.take_append_drop r rows]
    rw [List.drop_eq_getElem_cons hr]
  · rw [List.length_take]; omega
  · exact List.drop_eq_getElem_cons hr

/-- The function `editorUpdateSyntax` on the row at index `r` of a file whose class
arrays have one byte per character: it returns whenever the fuel is at least the
number of rows after `r`, and the rows afterwards are `updatedRows`. -/
theorem update_spec (env : Externals) (file : EditorFile) (r fuel : Nat)
    (hr : r < file.row.length) (hv : ∀ x ∈ file.row, x.Valid)
    (hf : file.row.length ≤ r + 1 + fuel) :
    editorUpdateSyntax env fuel file r =
      some { file with row := updatedRows env file.syntaxDef file.row r } := by
  obtain ⟨fn, rows, sd⟩ := file
  simp only at hr hv hf ⊢
  obtain ⟨hsplit, hpre, hdrop⟩ := rows_split rows r hr
  have hvr : rows[r].Valid := hv _ (List.getElem_mem hr)
  have hvrest : ∀ x ∈ rows.drop (r + 1), x.Valid := fun x hx => hv x (List.mem_of_mem_drop hx)
  unfold updatedRows
  cases ha : activeRule env sd with
  | none =>
    have hin : env.syntax_convar = 0 ∨ sd = none := by
      unfold activeRule at ha
      by_cases hc : env.syntax_convar = 0
      · exact Or.inl hc
      · rw [if_neg hc] at ha
        exact Or.inr ha
    have h := update_inactive env fuel fn (rows.take r) rows[r] (rows.drop (r + 1)) sd hin hvr
    rw [← hsplit, hpre] at h
    rw [h, hdrop]
  | some s =>
    have hc : env.syntax_convar ≠ 0 ∧ sd = some s := by
      unfold activeRule at ha
      by_cases hc : env.syntax_convar = 0
      · rw [if_pos hc] at ha
        exact absurd ha (by simp)
      · rw [if_neg hc] at ha
        exact ⟨hc, ha⟩
    have h := update_active env s fn hc.1 (rows.drop (r + 1)) (rows.take r) rows[r] fuel hvr
      hvrest (by rw [List.length_drop]; omega)
    rw [← hsplit, hpre] at h
    rw [hc.2, h, hdrop]

theorem plainRow_valid (row : EditorRow) : (plainRow row).Valid := by
  obtain ⟨hl, -, h2, h3⟩ := plainRow_eq row
  rw [h3]
  exact h2

/-- The loop of `editorSetSyntaxHighlight` without an active rule. -/
theorem updateAll_inactive (env : Externals) (fn : Option (List Nat))
    (sd : Option EditorSyntax) (hin : env.syntax_convar = 0 ∨ sd = none) :
    ∀ (todo done : List EditorRow), (∀ x ∈ todo, x.Valid) →
      updateAllFrom env todo.length done.length
          { filename := fn, row := done ++ todo, syntaxDef := sd } =
        some { filename := fn, row := done ++ todo.map plainRow, syntaxDef := sd }
  | [], done, _ => rfl
  | row :: rest, done, hv => by
    simp only [List.length_cons, updateAllFrom,
      update_inactive env _ fn done row rest sd hin (hv row (List.mem_cons_self _ _))]
    have h := updateAll_inactive env fn sd hin rest (done ++ [plainRow row])
      (fun x hx => hv x (List.mem_cons_of_mem _ hx))
    simp only [List.length_append, List.length_singleton, List.append_assoc,
      List.singleton_append] at h
    rw [h]
    simp

/-- The loop of `editorSetSyntaxHighlight` with the active rule `s`. -/
theorem updateAll_active (env : Externals) (s : EditorSyntax) (fn : Option (List Nat))
    (hconv : env.syntax_convar ≠ 0) :
    ∀ (n : Nat) (todo done : List EditorRow), todo.length = n → (∀ x ∈ todo, x.Valid) →
      updateAllFrom env n done.length
          { filename := fn, row := done ++ todo, syntaxDef := some s } =
        some { filename := fn,
               row := done ++ rescan env s (lastOpen done) (todo.map EditorRow.data),
               syntaxDef := some s }
  | 0, todo, done, hn, _ => by
    have : todo = [] := List.eq_nil_of_length_eq_zero hn
    subst this
    rfl
  | n + 1, todo, done, hn, hv => by
    cases todo with
    | nil => simp at hn
    | cons row rest =>
      simp only [List.length_cons, Nat.add_right_cancel_iff] at hn
      have hu := update_active env s fn hconv rest done row (done ++ row :: rest).length
        (hv row (List.mem_cons_self _ _)) (fun x hx => hv x (List.mem_cons_of_mem _ hx))
        (by simp only [List.length_append, List.length_cons]; omega)
      simp only [updateAllFrom, hu]
      have hcv : ∀ x ∈ (if row.hl_open_comment !=
            (freshRow env s row.data (lastOpen done)).hl_open_comment then
          cascade env s (freshRow env s row.data (lastOpen done)).hl_open_comment rest
          else rest), x.Valid := by
        intro x hx
        split at hx
        · exact cascade_valid env s rest _ (fun y hy => hv y (List.mem_cons_of_mem _ hy)) x hx
        · exact hv x (List.mem_cons_of_mem _ hx)
      have hlen : (if row.hl_open_comment !=
            (freshRow env s row.data (lastOpen done)).hl_open_comment then
          cascade env s (freshRow env s row.data (lastOpen done)).hl_open_comment rest
          else rest).length = n := by
        split
        · rw [cascade_length, hn]
        · exact hn
      have hdata : (if row.hl_open_comment !=
            (freshRow env s row.data (lastOpen done)).hl_open_comment then
          cascade env s (freshRow env s row.data (lastOpen done)).hl_open_comment rest
          else rest).map EditorRow.data = rest.map EditorRow.data := by
        split
        · rw [cascade_data]
        · rfl
      have h := updateAll_active env s fn hconv n _
        (done ++ [freshRow env s row.data (lastOpen done)]) hlen hcv
      simp only [List.length_append, List.length_singleton, List.append_assoc,
        List.singleton_append] at h
      simp only [cascade]
      rw [h, hdata]
      simp [lastOpen, rescan]

/-- The function `editorSetSyntaxHighlight` on a file whose class arrays have one
byte per character: it returns, and the rows afterwards are `fullRows`. -/
theorem set_spec (env : Externals) (file : EditorFile) (sd : Option EditorSyntax)
    (hv : ∀ x ∈ file.row, x.Valid) :
    editorSetSyntaxHighlight env file sd =
      some { file with syntaxDef := sd, row := fullRows env sd file.row } := by
  obtain ⟨fn, rows, sd0⟩ := file
  simp only at hv ⊢
  unfold editorSetSyntaxHighlight fullRows
  cases ha : activeRule env sd with
  | none =>
    have hin : env.syntax_convar = 0 ∨ sd = none := by
      unfold activeRule at ha
      by_cases hc : env.syntax_convar = 0
      · exact Or.inl hc
      · rw [if_neg hc] at ha
        exact Or.inr ha
    have h := updateAll_inactive env fn sd hin rows [] hv
    simpa using h
  | some s =>
    have hc : env.syntax_convar ≠ 0 ∧ sd = some s := by
      unfold activeRule at ha
      by_cases hc : env.syntax_convar = 0
      · rw [if_pos hc] at ha
        exact absurd ha (by simp)
      · rw [if_neg hc] at ha
        exact ⟨hc, ha⟩
    have h := updateAll_active env s fn hc.1 rows.length rows [] rfl hv
    rw [hc.2]
    simpa [lastOpen] using h

/-! ## The rows after an update -/

theorem updatedRows_length (env : Externals) (sd : Option EditorSyntax)
    (rows : List EditorRow) (r : Nat) :
    (updatedRows env sd rows r).length = rows.length := by
  unfold updatedRows
  split
  · rw [List.length_append]
    cases hdr : rows.drop r with
    | nil =>
      have : (rows.drop r).length = 0 := by rw [hdr]; rfl
      rw [List.length_drop] at this
      simp only [List.length_take, List.length_nil]
      omega
    | cons row rest =>
      have : (rows.drop r).length = rest.length + 1 := by rw [hdr]; rfl
      rw [List.length_drop] at this
      simp only [List.length_take, List.length_cons]
      omega
  · rw [List.length_append, cascade_length, List.length_take, List.length_drop]
    omega

theorem updatedRows_data (env : Externals) (sd : Option EditorSyntax)
    (rows : List EditorRow) (r : Nat) :
    (updatedRows env sd rows r).map EditorRow.data = rows.map EditorRow.data := by
  unfold updatedRows
  split
  · cases hdr : rows.drop r with
    | nil =>
      simp only [List.append_nil]
      conv_rhs => rw [← List.take_append_drop r rows, hdr, List.append_nil]
    | cons row rest =>
      conv_rhs => rw [← List.take_append_drop r rows, hdr]
      simp only [List.map_append, List.map_cons]
      obtain ⟨hl, -, -, h3⟩ := plainRow_eq row
      rw [h3]
  · conv_rhs => rw [← List.take_append_drop r rows]
    rw [List.map_append, List.map_append, cascade_data]

theorem updatedRows_valid (env : Externals) (sd : Option EditorSyntax)
    (rows : List EditorRow) (r : Nat) (hv : ∀ x ∈ rows, x.Valid) :
    ∀ y ∈ updatedRows env sd rows r, y.Valid := by
  intro y hy
  unfold updatedRows at hy
  split at hy
  · rcases List.mem_append.1 hy with h | h
    · exact hv y (List.mem_of_mem_take h)
    · cases hdr : rows.drop r with
      | nil => rw [hdr] at h; simp at h
      | cons row rest =>
        rw [hdr] at h
        rcases List.mem_cons.1 h with h2 | h2
        · rw [h2]; exact plainRow_valid row
        · exact hv y (List.mem_of_mem_drop (hdr ▸ List.mem_cons_of_mem _ h2))
  · rename_i s hs
    rcases List.mem_append.1 hy with h | h
    · exact hv y (List.mem_of_mem_take h)
    · exact cascade_valid env s _ _ (fun x hx => hv x (List.mem_of_mem_drop hx)) y h

/-- The rows before the updated row are kept. -/
theorem updatedRows_before (env : Externals) (sd : Option EditorSyntax)
    (rows : List EditorRow) (r j : Nat) (hj : j < r) (hr : r ≤ rows.length) :
    (updatedRows env sd rows r)[j]? = rows[j]? := by
  have hlt : j < (rows.take r).length := by rw [List.length_take]; omega
  unfold updatedRows
  split
  · rw [List.getElem?_append_left hlt, List.getElem?_take, if_pos hj]
  · rw [List.getElem?_append_left hlt, List.getElem?_take, if_pos hj]

/-- The updated row itself: the plain row without an active rule, the freshly
scanned row with one. -/
theorem updatedRows_get (env : Externals) (sd : Option EditorSyntax)
    (rows : List EditorRow) (r : Nat) (hr : r < rows.length) :
    (updatedRows env sd rows r)[r]? =
      some (match activeRule env sd with
        | none => plainRow rows[r]
        | some s => freshRow env s rows[r].data (lastOpen (rows.take r))) := by
  obtain ⟨-, hpre, hdrop⟩ := rows_split rows r hr
  unfold updatedRows
  split
  · rw [List.getElem?_append_right (by omega), hpre, Nat.sub_self, hdrop]
    simp only [List.getElem?_cons_zero]
  · rw [List.getElem?_append_right (by omega), hpre, Nat.sub_self, hdrop]
    simp only [cascade, List.getElem?_cons_zero]

/-- The rows after the first row, at or after the updated one, whose outgoing
block-comment state is as before are kept. -/
theorem updatedRows_stops (env : Externals) (sd : Option EditorSyntax)
    (rows : List EditorRow) (r m j : Nat) (hr : r < rows.length) (hrm : r ≤ m) (hmj : m < j)
    (h : ((updatedRows env sd rows r)[m]?).map EditorRow.hl_open_comment =
      (rows[m]?).map EditorRow.hl_open_comment) :
    (updatedRows env sd rows r)[j]? = rows[j]? := by
  obtain ⟨-, hpre, hdrop⟩ := rows_split rows r hr
  have hj : rows[j]? = (rows.drop r)[j - r]? := by
    rw [List.getElem?_drop]; congr 1; omega
  have hm : rows[m]? = (rows.drop r)[m - r]? := by
    rw [List.getElem?_drop]; congr 1; omega
  unfold updatedRows at h ⊢
  split
  · rw [List.getElem?_append_right (by omega), hpre, hj, hdrop]
    obtain ⟨i, hi⟩ : ∃ i, j - r = i + 1 := ⟨j - r - 1, by omega⟩
    rw [hi]
    rfl
  · rename_i s hs
    rw [hs] at h
    simp only at h
    rw [List.getElem?_append_right (by omega), hpre, hm] at h
    rw [List.getElem?_append_right (by omega), hpre, hj]
    exact cascade_stops env s _ _ (m - r) (j - r) (by omega) h

/-! ## Incremental update and full rescan -/

/-- A full rescan of two runs of texts: the second run starts with the outgoing
state of the last row of the first. -/
theorem rescan_append (env : Externals) (s : EditorSyntax) :
    ∀ (d1 d2 : List (List Nat)) (ic : Bool),
      rescan env s ic (d1 ++ d2) =
        rescan env s ic d1 ++
          rescan env s
            (match (rescan env s ic d1).getLast? with
             | some p => p.hl_open_comment
             | none => ic) d2
  | [], _, _ => rfl
  | d :: rest, d2, ic => by
    rw [List.cons_append, rescan, rescan]
    rw [rescan_append env s rest d2]
    congr 2
    cases hr : rescan env s (freshRow env s d ic).hl_open_comment rest with
    | nil => rfl
    | cons x xs =>
      have hg : (x :: xs).getLast? = some ((x :: xs).getLast (List.cons_ne_nil _ _)) :=
        List.getLast?_eq_getLast _ _
      rw [List.getLast?_cons_cons, hg]

/-- The parts of a file that is its own full rescan. -/
theorem rescan_parts (env : Externals) (s : EditorSyntax) (pre : List EditorRow)
    (old : EditorRow) (rest : List EditorRow)
    (h : pre ++ old :: rest = rescan env s false ((pre ++ old :: rest).map EditorRow.data)) :
    pre = rescan env s false (pre.map EditorRow.data) ∧
      old = freshRow env s old.data (lastOpen pre) ∧
      rest = rescan env s old.hl_open_comment (rest.map EditorRow.data) := by
  rw [List.map_append, rescan_append] at h
  have hlen : pre.length = (rescan env s false (pre.map EditorRow.data)).length := by
    rw [rescan_length, List.length_map]
  obtain ⟨h1, h2⟩ := List.append_inj h hlen
  have hlo : (match (rescan env s false (pre.map EditorRow.data)).getLast? with
      | some p => p.hl_open_comment
      | none => false) = lastOpen pre := by
    rw [← h1]; rfl
  rw [hlo] at h2
  simp only [List.map_cons, rescan, List.cons.injEq] at h2
  refine ⟨h1, h2.1, ?_⟩
  have h3 := h2.2
  rw [← h2.1] at h3
  exact h3

/-! ## Rule selection and loading -/

theorem strrchrDot_none (filename : List Nat) :
    strrchrDot filename = none ↔ 46 ∉ filename := by
  induction filename with
  | nil => simp [strrchrDot]
  | cons c cs ih =>
    unfold strrchrDot
    cases h : strrchrDot cs with
    | some r =>
      have : ¬ (46 ∉ cs) := fun hn => by rw [ih.mpr hn] at h; exact absurd h (by simp)
      simp only [List.mem_cons, not_or]
      constructor
      · intro h2; exact absurd h2 (by simp)
      · intro h2; exact absurd h2.2 this
    | none =>
      have h46 := ih.mp h
      by_cases hc : c = 46
      · simp [hc]
      · simp only [if_neg hc, List.mem_cons, not_or, true_iff]
        exact ⟨fun h2 => hc h2.symm, h46⟩

theorem strrchrDot_append (stem ext : List Nat) (hext : 46 ∉ ext) :
    strrchrDot (stem ++ 46 :: ext) = some (46 :: ext) := by
  induction stem with
  | nil =>
    rw [List.nil_append, strrchrDot, (strrchrDot_none ext).mpr hext]
    simp
  | cons c cs ih =>
    rw [List.cons_append, strrchrDot, ih]

theorem strrchrDot_some (filename r : List Nat) (h : strrchrDot filename = some r) :
    ∃ stem ext, filename = stem ++ 46 :: ext ∧ 46 ∉ ext ∧ r = 46 :: ext := by
  induction filename with
  | nil => simp [strrchrDot] at h
  | cons c cs ih =>
    unfold strrchrDot at h
    cases h2 : strrchrDot cs with
    | some r2 =>
      rw [h2] at h
      obtain ⟨stem, ext, h3, h4, h5⟩ := ih (h2.trans h)
      exact ⟨c :: stem, ext, by rw [h3, List.cons_append], h4, h5⟩
    | none =>
      rw [h2] at h
      by_cases hc : c = 46
      · rw [if_pos hc] at h
        refine ⟨[], cs, by rw [hc, List.nil_append], (strrchrDot_none cs).mp h2, ?_⟩
        rw [← Option.some.inj h, hc]
      · rw [if_neg hc] at h
        exact absurd h (by simp)

theorem dot_suffix_unique (stem1 ext1 stem2 ext2 : List Nat)
    (h : stem1 ++ 46 :: ext1 = stem2 ++ 46 :: ext2) (h1 : 46 ∉ ext1) (h2 : 46 ∉ ext2) :
    ext1 = ext2 := by
  have e1 := strrchrDot_append stem1 ext1 h1
  have e2 := strrchrDot_append stem2 ext2 h2
  rw [h, e2] at e1
  exact (List.cons.inj (Option.some.inj e1)).2.symm

theorem patternMatches_iff (env : Externals) (hcase : FaithfulCase env)
    (filename pat : List Nat) :
    patternMatches env filename pat = true ↔ SpecPatternMatches filename pat := by
  unfold patternMatches SpecPatternMatches
  by_cases hp : pat.head? = some 46
  · simp only [hp, decide_True, Bool.true_and, Bool.not_true, Bool.false_and, Bool.or_false,
      if_true]
    cases hs : strrchrDot filename with
    | none =>
      have h46 := (strrchrDot_none filename).mp hs
      constructor
      · intro h; exact absurd h (by simp)
      · rintro ⟨stem, ext, h1, -, -⟩
        exact absurd (by rw [h1]; simp) h46
    | some r =>
      obtain ⟨stem, ext, h1, h2, h3⟩ := strrchrDot_some filename r hs
      simp only [decide_eq_true_eq]
      rw [hcase.1, h3]
      constructor
      · intro h; exact ⟨stem, ext, h1, h2, h⟩
      · rintro ⟨stem2, ext2, h4, h5, h6⟩
        rw [dot_suffix_unique stem ext stem2 ext2 (h1.symm.trans h4) h2 h5]
        exact h6
  · simp only [hp, decide_False, Bool.false_and, Bool.not_false, Bool.true_and, Bool.false_or,
      if_false]
    exact hcase.2 filename pat

theorem any_patternMatches_iff (env : Externals) (hcase : FaithfulCase env)
    (filename : List Nat) (s : EditorSyntax) :
    s.file_exts.any (patternMatches env filename) = true ↔ SpecRuleMatches filename s := by
  unfold SpecRuleMatches
  rw [List.any_eq_true]
  constructor
  · rintro ⟨pat, h1, h2⟩
    exact ⟨pat, h1, (patternMatches_iff env hcase filename pat).mp h2⟩
  · rintro ⟨pat, h1, h2⟩
    exact ⟨pat, h1, (patternMatches_iff env hcase filename pat).mpr h2⟩

theorem findSyntax_first (env : Externals) (filename : List Nat) (s : EditorSyntax) :
    ∀ (pre post : List EditorSyntax),
      (∀ x ∈ pre, x.file_exts.any (patternMatches env filename) = false) →
      s.file_exts.any (patternMatches env filename) = true →
      findSyntax env filename (pre ++ s :: post) = some s
  | [], post, _, hs => by
    rw [List.nil_append, findSyntax, if_pos hs]
  | x :: pre, post, hpre, hs => by
    rw [List.cons_append, findSyntax, if_neg (by rw [hpre x (List.mem_cons_self _ _)]; simp)]
    exact findSyntax_first env filename s pre post
      (fun y hy => hpre y (List.mem_cons_of_mem _ hy)) hs

theorem findSyntax_none (env : Externals) (filename : List Nat) :
    ∀ (HLDB : List EditorSyntax),
      (∀ x ∈ HLDB, x.file_exts.any (patternMatches env filename) = false) →
      findSyntax env filename HLDB = none
  | [], _ => rfl
  | x :: rest, h => by
    rw [findSyntax, if_neg (by rw [h x (List.mem_cons_self _ _)]; simp)]
    exact findSyntax_none env filename rest (fun y hy => h y (List.mem_cons_of_mem _ hy))

theorem select_rule (env : Externals) (HLDB : List EditorSyntax) (file : EditorFile)
    (filename : List Nat) (s : EditorSyntax) (hname : file.filename = some filename)
    (hfind : findSyntax env filename HLDB = some s) (hv : ∀ x ∈ file.row, x.Valid) :
    editorSelectSyntaxHighlight env HLDB file =
      some { file with syntaxDef := some s, row := fullRows env (some s) file.row } := by
  cases file with
  | mk fn row sd =>
    simp only at hname
    subst hname
    simp only [editorSelectSyntaxHighlight, hfind]
    exact set_spec env _ (some s) hv

theorem select_no_rule (env : Externals) (HLDB : List EditorSyntax) (file : EditorFile)
    (filename : List Nat) (hname : file.filename = some filename)
    (hfind : findSyntax env filename HLDB = none) :
    editorSelectSyntaxHighlight env HLDB file = some { file with syntaxDef := none } := by
  unfold editorSelectSyntaxHighlight
  simp only [hname, hfind]

theorem caseInfix_iff (pat text : List Nat) :
    CaseInfix pat text ↔ pat.map toLowerByte <:+: text.map toLowerByte := by
  unfold CaseInfix CaseEq
  constructor
  · rintro ⟨pre, mid, post, h1, h2⟩
    refine ⟨pre.map toLowerByte, post.map toLowerByte, ?_⟩
    rw [h1, ← h2, List.map_append, List.map_append]
  · rintro ⟨a, b, h⟩
    obtain ⟨l1, post, h1, h2, h3⟩ := List.map_eq_append_iff.mp h.symm
    obtain ⟨pre, mid, h4, h5, h6⟩ := List.map_eq_append_iff.mp h2
    exact ⟨pre, mid, post, by rw [h1, h4], h6⟩

theorem sampleEnv_faithful : FaithfulCase sampleEnv := by
  constructor
  · intro a b
    unfold CaseEq
    show (if a.map toLowerByte = b.map toLowerByte then (0 : Int) else 1) = 0 ↔ _
    by_cases h : a.map toLowerByte = b.map toLowerByte
    · simp [h]
    · simp [h]
  · intro text pat
    rw [caseInfix_iff]
    show decide (pat.map toLowerByte <:+: text.map toLowerByte) = true ↔ _
    rw [decide_eq_true_eq]

theorem loadBundled_one {O : Type} (lib : JsonLib O) (json : List Nat) (s : EditorSyntax)
    (HLDB : List EditorSyntax) (h : editorLoadJsonHLDB lib json callocSyntax = (true, s)) :
    editorLoadBundledHLDB lib [json] HLDB = s :: HLDB := by
  simp only [editorLoadBundledHLDB, h, if_true]

theorem loadBundled_append {O : Type} (lib : JsonLib O) :
    ∀ (b1 b2 : List (List Nat)) (HLDB : List EditorSyntax),
      editorLoadBundledHLDB lib (b1 ++ b2) HLDB =
        editorLoadBundledHLDB lib b2 (editorLoadBundledHLDB lib b1 HLDB)
  | [], b2, HLDB => rfl
  | json :: b1, b2, HLDB => by
    rw [List.cons_append, editorLoadBundledHLDB, editorLoadBundledHLDB]
    exact loadBundled_append lib b1 b2 _

theorem loadFile_ok {O : Type} (lib : JsonLib O) (fs : FileSystem) (path content : List Nat)
    (s : EditorSyntax) (HLDB : List EditorSyntax) (hopen : fs.openFile path = some content)
    (hsize : content ≠ []) (hread : fs.readError path = false)
    (h : editorLoadJsonHLDB lib (content.takeWhile (fun c => c ≠ 0)) callocSyntax = (true, s)) :
    editorLoadHLDB lib fs path HLDB = (true, s :: HLDB) := by
  unfold editorLoadHLDB
  have hlen : ¬ (content.length = 0 ∨ fs.readError path = true) := by
    rw [hread]
    simp [hsize]
  simp only [hopen, if_neg hlen, h, if_true]

end Highlight

namespace Highlight

/-! ## Results on `editorUpdateSyntax` and `editorSetSyntaxHighlight` -/

/-- The scan of the scenario row: keyword 1 on `int`, number on `10`, comment from
`//` to the end of the row, normal elsewhere; the loop stops at the comment. -/
theorem scanRow_scenario (env : Externals) (ft : Option (List Nat)) (exts : List (List Nat))
    (hsp : env.isNonIdentifierChar 32 = true)
    (hsemi : (env.isSeparator 59 || env.isSpace 59) = true) :
    scanRow env (scenarioRule ft exts) scenarioData false =
      some { i := 12, prev_sep := true, in_string := 0, in_comment := false,
             hl := [2, 2, 2, 0, 0, 0, 0, 0, 6, 6, 0, 0, 1, 1, 1, 1, 1, 1, 1, 1, 1, 1] } := by
  cases h120 : env.isNonIdentifierChar 120 <;> cases h61 : env.isNonIdentifierChar 61 <;>
    cases h59 : env.isNonIdentifierChar 59 <;>
    simp [scanRow, scanLoop, scanBody, lineComment, blockComment, stringLiteral, numberLiteral,
      keyword, findKeywordFrom, findKeyword, keywordAt, memset, tokAt, strncmpEq, tokLen,
      numberEnd, scanWhile, isdigit, scenarioData, scenarioRule, hsp, hsemi, h120, h61, h59,
      HL_HIGHLIGHT_NUMBERS, HL_HIGHLIGHT_STRINGS, HL_COMMENT, HL_NORMAL, HL_KEYWORD1, HL_NUMBER,
      HL_STRING]

/-- C13: scenario.  With a rule having `keywords1 = ["int"]`, line comment `//`, no
block comment, numbers and strings enabled, and with the configuration variable
`syntax` on, `editorUpdateSyntax` on the first row of a file, holding the 22
characters `int x = 10; // comment`, returns and leaves in that row the class keyword
1 at the indices 0-2, number at 8-9, comment at 12-21 and normal at every other
index, with an outgoing state `false`.  The character classes of `utils.c` enter
through two facts: the space is a non-identifier character, and `;` is a separator
or a space. -/
theorem scenario_int_row (env : Externals) (ft : Option (List Nat)) (exts : List (List Nat))
    (file : EditorFile) (fuel : Nat)
    (hconv : env.syntax_convar ≠ 0)
    (hsp : env.isNonIdentifierChar 32 = true)
    (hsemi : (env.isSeparator 59 || env.isSpace 59) = true)
    (hrule : file.syntaxDef = some (scenarioRule ft exts))
    (hrow : (file.row[0]?).map EditorRow.data = some scenarioData)
    (hv : ∀ x ∈ file.row, x.Valid) (hf : file.row.length ≤ 1 + fuel) :
    ∃ f1, editorUpdateSyntax env fuel file 0 = some f1 ∧
      f1.row[0]? = some
        { data := scenarioData
          hl := List.replicate 3 HL_KEYWORD1 ++ List.replicate 5 HL_NORMAL ++
            List.replicate 2 HL_NUMBER ++ List.replicate 2 HL_NORMAL ++
            List.replicate 10 HL_COMMENT
          hl_open_comment := false } := by
  have hr : 0 < file.row.length := by
    by_contra hn
    rw [List.getElem?_eq_none (by omega)] at hrow
    simp at hrow
  have hd : file.row[0].data = scenarioData := by
    rw [List.getElem?_eq_getElem hr] at hrow
    simpa using hrow
  refine ⟨_, update_spec env file 0 fuel hr hv (by omega), ?_⟩
  have hact : activeRule env file.syntaxDef = some (scenarioRule ft exts) := by
    rw [activeRule, if_neg hconv, hrule]
  simp only [updatedRows_get env file.syntaxDef file.row 0 hr, hact, hd, List.take_zero]
  have hlo : lastOpen [] = false := rfl
  rw [hlo]
  simp only [freshRow, scanRow_scenario env ft exts hsp hsemi]
  rfl

theorem scenario_int_row_witness :
    ∃ f1, editorUpdateSyntax sampleEnv 1 scenarioFile 0 = some f1 ∧
      f1.row[0]? = some
        { data := scenarioData
          hl := List.replicate 3 HL_KEYWORD1 ++ List.replicate 5 HL_NORMAL ++
            List.replicate 2 HL_NUMBER ++ List.replicate 2 HL_NORMAL ++
            List.replicate 10 HL_COMMENT
          hl_open_comment := false } :=
  scenario_int_row sampleEnv (some [67]) [[46, 99]] scenarioFile 1 (by decide) (by decide) (by decide)
    rfl (by decide) (by decide) (by decide)

/-- C14: highlight idempotence.  On a file whose class arrays have one byte per
character, `editorUpdateSyntax` on a row returns, and a second call on the same row
right after it returns the same file: the class array of the row and the highlight
state of every row are as after the first call. -/
theorem highlight_idempotent (env : Externals) (file : EditorFile) (r fuel : Nat)
    (hr : r < file.row.length) (hv : ∀ x ∈ file.row, x.Valid)
    (hf : file.row.length ≤ r + 1 + fuel) :
    ∃ f1, editorUpdateSyntax env fuel file r = some f1 ∧
      editorUpdateSyntax env fuel f1 r = some f1 := by
  refine ⟨_, update_spec env file r fuel hr hv hf, ?_⟩
  have hlen := updatedRows_length env file.syntaxDef file.row r
  rw [update_spec env _ r fuel (by simp only [hlen]; exact hr)
    (updatedRows_valid env file.syntaxDef file.row r hv) (by simp only [hlen]; exact hf)]
  simp only
  congr 2
  obtain ⟨hsplit, hpre, hdrop⟩ := rows_split file.row r hr
  unfold updatedRows
  cases ha : activeRule env file.syntaxDef with
  | none =>
    simp only [hdrop]
    rw [List.take_left' hpre, List.drop_left' hpre]
    simp only
    congr 2
  | some s =>
    simp only [hdrop, cascade]
    rw [List.take_left' hpre, List.drop_left' hpre]
    simp only [cascade, freshRow_data, bne_self_eq_false, Bool.false_eq_true, if_false]

theorem highlight_idempotent_witness :
    ∃ f1, editorUpdateSyntax sampleEnv 3 sampleText 0 = some f1 ∧
      editorUpdateSyntax sampleEnv 3 f1 0 = some f1 :=
  highlight_idempotent sampleEnv sampleText 0 3 (by decide) (by decide) (by decide)

/-- C15: cascade bound.  On a file whose class arrays have one byte per character,
`editorUpdateSyntax` on the row `r` returns; no text, no rule and no row count
changes; every row before `r` is untouched; and whenever a row `m` at or after `r`
has the same `hl_open_comment` as before the call, every row after `m` is untouched.
So the rows that change are among `r .. m` for the first such `m`, and if the
outgoing state of row `r` itself is unchanged no other row is modified. -/
theorem cascade_bound (env : Externals) (file : EditorFile) (r fuel : Nat)
    (hr : r < file.row.length) (hv : ∀ x ∈ file.row, x.Valid)
    (hf : file.row.length ≤ r + 1 + fuel) :
    ∃ f1, editorUpdateSyntax env fuel file r = some f1 ∧
      f1.filename = file.filename ∧ f1.syntaxDef = file.syntaxDef ∧
      f1.row.length = file.row.length ∧
      f1.row.map EditorRow.data = file.row.map EditorRow.data ∧
      (∀ j, j < r → f1.row[j]? = file.row[j]?) ∧
      (∀ m j, r ≤ m → m < j →
        (f1.row[m]?).map EditorRow.hl_open_comment =
          (file.row[m]?).map EditorRow.hl_open_comment →
        f1.row[j]? = file.row[j]?) ∧
      ((f1.row[r]?).map EditorRow.hl_open_comment =
          (file.row[r]?).map EditorRow.hl_open_comment →
        ∀ j, j ≠ r → f1.row[j]? = file.row[j]?) := by
  refine ⟨_, update_spec env file r fuel hr hv hf, rfl, rfl,
    updatedRows_length env _ _ r, updatedRows_data env _ _ r, ?_, ?_, ?_⟩
  · intro j hj
    exact updatedRows_before env _ _ r j hj (Nat.le_of_lt hr)
  · intro m j hrm hmj h
    exact updatedRows_stops env _ _ r m j hr hrm hmj h
  · intro h j hj
    rcases Nat.lt_or_gt_of_ne hj with h1 | h1
    · exact updatedRows_before env _ _ r j h1 (Nat.le_of_lt hr)
    · exact updatedRows_stops env _ _ r r j hr (Nat.le_refl _) h1 h

theorem cascade_bound_witness :
    ∃ f1, editorUpdateSyntax sampleEnv 3 sampleText 0 = some f1 ∧
      f1.filename = sampleText.filename ∧ f1.syntaxDef = sampleText.syntaxDef ∧
      f1.row.length = sampleText.row.length ∧
      f1.row.map EditorRow.data = sampleText.row.map EditorRow.data ∧
      (∀ j, j < 0 → f1.row[j]? = sampleText.row[j]?) ∧
      (∀ m j, 0 ≤ m → m < j →
        (f1.row[m]?).map EditorRow.hl_open_comment =
          (sampleText.row[m]?).map EditorRow.hl_open_comment →
        f1.row[j]? = sampleText.row[j]?) ∧
      ((f1.row[0]?).map EditorRow.hl_open_comment =
          (sampleText.row[0]?).map EditorRow.hl_open_comment →
        ∀ j, j ≠ 0 → f1.row[j]? = sampleText.row[j]?) :=
  cascade_bound sampleEnv sampleText 0 3 (by decide) (by decide) (by decide)

/-- C16: incremental equals full rescan.  Let the class arrays of a file have one
byte per character and let its highlight state be consistent: a full
`editorSetSyntaxHighlight` pass with its rule returns the file itself.  If the row
`r` is replaced by a row with a new text (and a class array of the new size, the old
`hl_open_comment`), then `editorUpdateSyntax` on the row `r` returns, and a full
`editorSetSyntaxHighlight` pass over the edited file returns the same file. -/
theorem incremental_eq_full (env : Externals) (file : EditorFile) (r fuel : Nat)
    (newrow : EditorRow)
    (hv : ∀ x ∈ file.row, x.Valid)
    (hcons : editorSetSyntaxHighlight env file file.syntaxDef = some file)
    (hr : r < file.row.length) (hnew : newrow.Valid)
    (hopen : (file.row[r]?).map EditorRow.hl_open_comment = some newrow.hl_open_comment)
    (hf : file.row.length ≤ r + 1 + fuel) :
    ∃ f1, editorUpdateSyntax env fuel { file with row := file.row.set r newrow } r = some f1 ∧
      editorSetSyntaxHighlight env { file with row := file.row.set r newrow } file.syntaxDef =
        some f1 := by
  obtain ⟨fn, rows, sd⟩ := file
  simp only at hv hcons hr hopen hf ⊢
  obtain ⟨hsplit, hpre, hdrop⟩ := rows_split rows r hr
  have hset : rows.set r newrow = rows.take r ++ newrow :: rows.drop (r + 1) := by
    conv_lhs => rw [hsplit]
    have := set_append_cons (rows.take r) rows[r] newrow (rows.drop (r + 1))
    rw [hpre] at this
    exact this
  have hv2 : ∀ x ∈ rows.set r newrow, x.Valid := by
    intro x hx
    rw [hset] at hx
    rcases List.mem_append.1 hx with h | h
    · exact hv x (List.mem_of_mem_take h)
    · rcases List.mem_cons.1 h with h2 | h2
      · rw [h2]; exact hnew
      · exact hv x (List.mem_of_mem_drop h2)
  rw [set_spec env _ sd hv] at hcons
  have hfix : fullRows env sd rows = rows := by
    simp only [Option.some.injEq, EditorFile.mk.injEq, true_and, and_true] at hcons
    exact hcons
  have hout : rows[r].hl_open_comment = newrow.hl_open_comment := by
    rw [List.getElem?_eq_getElem hr] at hopen
    simpa using hopen
  refine ⟨_, update_spec env _ r fuel (by simp only [List.length_set]; exact hr) hv2
    (by simp only [List.length_set]; exact hf), ?_⟩
  rw [set_spec env _ sd hv2]
  simp only
  congr 2
  unfold fullRows at hfix ⊢
  unfold updatedRows
  rw [hset, List.take_left' hpre, List.drop_left' hpre]
  cases ha : activeRule env sd with
  | none =>
    rw [ha] at hfix
    simp only at hfix ⊢
    rw [hsplit, List.map_append, List.map_cons] at hfix
    obtain ⟨h1, h2⟩ := List.append_inj hfix (by simp)
    simp only [List.cons.injEq] at h2
    rw [List.map_append, List.map_cons, h1, h2.2]
  | some s =>
    rw [ha] at hfix
    simp only at hfix ⊢
    obtain ⟨h1, h2, h3⟩ := rescan_parts env s (rows.take r) rows[r] (rows.drop (r + 1))
      (by rw [← hsplit]; exact hfix.symm)
    rw [List.map_append, rescan_append, List.map_cons, ← h1]
    have hlo : (match (rows.take r).getLast? with
        | some p => p.hl_open_comment
        | none => false) = lastOpen (rows.take r) := rfl
    rw [hlo]
    simp only [cascade, rescan]
    congr 2
    rw [← hout]
    split
    · rw [h3, cascade_of_rescan, ← h3]
    · rename_i hc
      have he : rows[r].hl_open_comment =
          (freshRow env s newrow.data (lastOpen (rows.take r))).hl_open_comment := by
        simpa using hc
      rw [← he]
      exact h3.symm

theorem incremental_eq_full_witness :
    ∃ f1, editorUpdateSyntax sampleEnv 3
        { sampleTextDone with row := sampleTextDone.row.set 0 sampleNewRow } 0 = some f1 ∧
      editorSetSyntaxHighlight sampleEnv
        { sampleTextDone with row := sampleTextDone.row.set 0 sampleNewRow }
        sampleTextDone.syntaxDef = some f1 :=
  incremental_eq_full sampleEnv sampleTextDone 0 3 sampleNewRow (by decide) (by decide!)
    (by decide) (by decide) (by decide) (by decide)

/-- C17: the class array keeps one byte per character.  For every rule, every text
and every incoming block-comment state the scan loop of `editorUpdateSyntax` returns
without a fault, that is, without a write outside the class array or an unguarded
read outside the text, and the class array still has one byte per character.  So on
a file whose class arrays have one byte per character, `editorUpdateSyntax` on any
row returns, no text changes, and every class array of the file, the rows of the
cascade included, still has one byte per character. -/
theorem class_array_in_bounds (env : Externals) (file : EditorFile) (r fuel : Nat)
    (hr : r < file.row.length) (hv : ∀ x ∈ file.row, x.Valid)
    (hf : file.row.length ≤ r + 1 + fuel) :
    (∀ (s : EditorSyntax) (data : List Nat) (ic : Bool),
      ∃ st, scanRow env s data ic = some st ∧ st.hl.length = data.length) ∧
    ∃ f1, editorUpdateSyntax env fuel file r = some f1 ∧
      f1.row.map EditorRow.data = file.row.map EditorRow.data ∧
      ∀ x ∈ f1.row, x.hl.length = x.data.length := by
  constructor
  · intro s data ic
    obtain ⟨st, h1, h2, -⟩ := scanRow_some env s data ic
    exact ⟨st, h1, h2⟩
  · exact ⟨_, update_spec env file r fuel hr hv hf, updatedRows_data env _ _ r,
      updatedRows_valid env _ _ r hv⟩

theorem class_array_in_bounds_witness :
    (∀ (s : EditorSyntax) (data : List Nat) (ic : Bool),
      ∃ st, scanRow sampleEnv s data ic = some st ∧ st.hl.length = data.length) ∧
    ∃ f1, editorUpdateSyntax sampleEnv 3 sampleText 0 = some f1 ∧
      f1.row.map EditorRow.data = sampleText.row.map EditorRow.data ∧
      ∀ x ∈ f1.row, x.hl.length = x.data.length :=
  class_array_in_bounds sampleEnv sampleText 0 3 (by decide) (by decide) (by decide)

/-- C18: trailing whitespace pass.  Let `t` be the start of the maximal suffix of
spaces and tabs of the text of the row `r`.  On a file whose class arrays have one
byte per character, with or without an active rule, `editorUpdateSyntax` on the row
`r` returns; afterwards every position from `t` on holds exactly the byte
`HL_BG_TRAILING << HL_FG_BITS`, which is `0x30`, and no position before `t` has the
trailing background; without an active rule every position before `t` holds
`HL_NORMAL`. -/
theorem trailing_whitespace_pass (env : Externals) (file : EditorFile) (r fuel t : Nat)
    (row : EditorRow) (hrow : file.row[r]? = some row) (hv : ∀ x ∈ file.row, x.Valid)
    (hf : file.row.length ≤ r + 1 + fuel) (ht : t ≤ row.data.length)
    (hblank : ∀ j, t ≤ j → j < row.data.length →
      row.data[j]? = some 32 ∨ row.data[j]? = some 9)
    (hmax : t = 0 ∨ (row.data[t - 1]? ≠ some 32 ∧ row.data[t - 1]? ≠ some 9)) :
    HL_BG_TRAILING <<< HL_FG_BITS = 0x30 ∧
    ∃ f1 row2, editorUpdateSyntax env fuel file r = some f1 ∧ f1.row[r]? = some row2 ∧
      row2.data = row.data ∧ row2.hl.length = row.data.length ∧
      (∀ j, t ≤ j → j < row.data.length →
        row2.hl[j]? = some (HL_BG_TRAILING <<< HL_FG_BITS)) ∧
      (∀ j, j < t → ∃ b, row2.hl[j]? = some b ∧ b >>> HL_FG_BITS ≠ HL_BG_TRAILING) ∧
      (activeRule env file.syntaxDef = none → ∀ j, j < t → row2.hl[j]? = some HL_NORMAL) := by
  refine ⟨rfl, ?_⟩
  have hr : r < file.row.length := getElem?_lt2 hrow
  have hrr : file.row[r] = row := by
    rw [List.getElem?_eq_getElem hr] at hrow
    exact Option.some.inj hrow
  obtain ⟨base, hl2, row2, hget, hd, hbl, hb6, hut, hhl, hnone⟩ :
      ∃ base hl2 row2, (updatedRows env file.syntaxDef file.row r)[r]? = some row2 ∧
        row2.data = row.data ∧ base.length = row.data.length ∧ (∀ b ∈ base, b ≤ 6) ∧
        updateTrailing row.data row.data.length base = some hl2 ∧ row2.hl = hl2 ∧
        (activeRule env file.syntaxDef = none →
          base = List.replicate row.data.length HL_NORMAL) := by
    rw [updatedRows_get env _ _ r hr, hrr]
    cases ha : activeRule env file.syntaxDef with
    | none =>
      obtain ⟨hl, h1, -, h3⟩ := plainRow_eq row
      refine ⟨_, hl, _, rfl, by rw [h3], by simp, ?_, h1, by rw [h3], fun _ => rfl⟩
      intro b hb
      rw [List.eq_of_mem_replicate hb]
      decide
    | some s =>
      obtain ⟨st, hl, h1, h2, h3, -, h5⟩ := freshRow_eq env s row.data (lastOpen (file.row.take r))
      obtain ⟨st2, h6, -, h8⟩ := scanRow_some env s row.data (lastOpen (file.row.take r))
      rw [h1] at h6
      have hst : st = st2 := Option.some.inj h6
      subst hst
      exact ⟨st.hl, hl, _, rfl, by simp only [h5], h2, h8, h3, by simp only [h5],
        fun h => absurd h (by simp)⟩
  have heq := updateTrailing_eq row.data row.data.length base t (Nat.le_refl _) hbl ht
    hblank hmax
  rw [hut] at heq
  have hhl2 : row2.hl = base.take t ++
      List.replicate (row.data.length - t) (HL_BG_TRAILING <<< HL_FG_BITS) := by
    rw [hhl, Option.some.inj heq, List.drop_eq_nil_of_le (by omega), List.append_nil]
  have hbefore : ∀ j, j < t → row2.hl[j]? = base[j]? := by
    intro j hj
    rw [hhl2, List.getElem?_append_left (by rw [List.length_take]; omega),
      List.getElem?_take, if_pos hj]
  refine ⟨_, row2, update_spec env file r fuel hr hv hf, hget, hd, ?_, ?_, ?_, ?_⟩
  · rw [hhl2, List.length_append, List.length_take, List.length_replicate]
    omega
  · intro j h1 h2
    rw [hhl2, List.getElem?_append_right (by rw [List.length_take]; omega),
      List.length_take, Nat.min_eq_left (by omega), List.getElem?_replicate,
      if_pos (by omega)]
  · intro j hj
    have hjl : j < base.length := by omega
    refine ⟨base[j], by rw [hbefore j hj, List.getElem?_eq_getElem hjl], ?_⟩
    have h6 := hb6 _ (List.getElem_mem hjl)
    have h0 : base[j] >>> HL_FG_BITS = 0 := by
      rw [Nat.shiftRight_eq_div_pow]
      exact Nat.div_eq_of_lt (by unfold HL_FG_BITS; omega)
    rw [h0]
    decide
  · intro ha j hj
    rw [hbefore j hj, hnone ha, List.getElem?_replicate, if_pos (by omega)]

theorem trailing_whitespace_pass_witness :
    HL_BG_TRAILING <<< HL_FG_BITS = 0x30 ∧
    ∃ f1 row2, editorUpdateSyntax sampleEnv 3 sampleText 1 = some f1 ∧
      f1.row[1]? = some row2 ∧
      row2.data = [98, 32, 42, 47, 32] ∧ row2.hl.length = [98, 32, 42, 47, 32].length ∧
      (∀ j, 4 ≤ j → j < [98, 32, 42, 47, 32].length →
        row2.hl[j]? = some (HL_BG_TRAILING <<< HL_FG_BITS)) ∧
      (∀ j, j < 4 → ∃ b, row2.hl[j]? = some b ∧ b >>> HL_FG_BITS ≠ HL_BG_TRAILING) ∧
      (activeRule sampleEnv sampleText.syntaxDef = none →
        ∀ j, j < 4 → row2.hl[j]? = some HL_NORMAL) :=
  trailing_whitespace_pass sampleEnv sampleText 1 3 4
    { data := [98, 32, 42, 47, 32], hl := [0, 0, 0, 0, 0], hl_open_comment := false }
    rfl (by decide) (by decide) (by decide)
    (fun j h1 h2 => by
      have : j = 4 := by simp only [List.length_cons, List.length_nil] at h2; omega
      subst this
      exact Or.inl rfl)
    (Or.inr ⟨by decide, by decide⟩)

/-- C19: rule precedence.  Every successful load prepends its rule to the database:
when the definitions in the files `pathA` and `pathB` parse to the rules `a` and `b`,
`editorLoadHLDB` on `pathA` and then on `pathB` turns the database `HLDB` into
`a :: HLDB` and then into `b :: a :: HLDB`, and `editorLoadBundledHLDB` on the two
definitions gives the same database.  When both rules declare the pattern `.foo`
and `strCaseCmp` returns 0 on `.foo` against itself, `editorSelectSyntaxHighlight`
on a file whose name ends in `.foo` selects `a` while `a` is the last rule loaded,
and selects `b`, the rule loaded later, once `b` is loaded, whatever was loaded
between the two and whatever rules without a matching pattern were loaded after
`b`. -/
theorem rule_precedence {O : Type} (lib : JsonLib O) (fs : FileSystem) (env : Externals)
    (HLDB : List EditorSyntax) (pathA pathB contentA contentB : List Nat)
    (a b : EditorSyntax) (file : EditorFile) (stem : List Nat)
    (hopenA : fs.openFile pathA = some contentA) (hsizeA : contentA ≠ [])
    (hreadA : fs.readError pathA = false)
    (hA : editorLoadJsonHLDB lib (contentA.takeWhile (fun c => c ≠ 0)) callocSyntax = (true, a))
    (hopenB : fs.openFile pathB = some contentB) (hsizeB : contentB ≠ [])
    (hreadB : fs.readError pathB = false)
    (hB : editorLoadJsonHLDB lib (contentB.takeWhile (fun c => c ≠ 0)) callocSyntax = (true, b))
    (ha : dotFoo ∈ a.file_exts) (hb : dotFoo ∈ b.file_exts)
    (hname : file.filename = some (stem ++ dotFoo))
    (hcmp : env.strCaseCmp dotFoo dotFoo = 0)
    (hv : ∀ x ∈ file.row, x.Valid) :
    editorLoadHLDB lib fs pathA HLDB = (true, a :: HLDB) ∧
    editorLoadHLDB lib fs pathB (a :: HLDB) = (true, b :: a :: HLDB) ∧
    editorLoadBundledHLDB lib
      [contentA.takeWhile (fun c => c ≠ 0), contentB.takeWhile (fun c => c ≠ 0)] HLDB =
        b :: a :: HLDB ∧
    editorSelectSyntaxHighlight env (a :: HLDB) file =
      some { file with syntaxDef := some a, row := fullRows env (some a) file.row } ∧
    ∀ newer between : List EditorSyntax,
      (∀ x ∈ newer, x.file_exts.any (patternMatches env (stem ++ dotFoo)) = false) →
      editorSelectSyntaxHighlight env (newer ++ b :: (between ++ a :: HLDB)) file =
        some { file with syntaxDef := some b, row := fullRows env (some b) file.row } := by
  have hpat : patternMatches env (stem ++ dotFoo) dotFoo = true := by
    have hs : strrchrDot (stem ++ dotFoo) = some dotFoo :=
      strrchrDot_append stem [102, 111, 111] (by decide)
    unfold patternMatches
    rw [hs]
    have hhead : dotFoo.head? = some 46 := rfl
    simp only [hhead, hcmp, decide_True, Bool.and_self, Bool.true_or]
  have hany : ∀ s : EditorSyntax, dotFoo ∈ s.file_exts →
      s.file_exts.any (patternMatches env (stem ++ dotFoo)) = true :=
    fun s hs => List.any_eq_true.mpr ⟨dotFoo, hs, hpat⟩
  refine ⟨loadFile_ok lib fs pathA contentA a HLDB hopenA hsizeA hreadA hA,
    loadFile_ok lib fs pathB contentB b (a :: HLDB) hopenB hsizeB hreadB hB, ?_, ?_, ?_⟩
  · simp only [editorLoadBundledHLDB, hA, hB, if_true]
  · exact select_rule env (a :: HLDB) file _ a hname
      (findSyntax_first env _ a [] HLDB (fun x hx => absurd hx (List.not_mem_nil x))
        (hany a ha)) hv
  · intro newer between hnewer
    exact select_rule env _ file _ b hname
      (findSyntax_first env _ b newer _ hnewer (hany b hb)) hv

theorem rule_precedence_witness :
    editorLoadHLDB sampleJson sampleFiles [97] [sampleRule] =
      (true, sampleFooRule 0 :: [sampleRule]) ∧
    editorLoadHLDB sampleJson sampleFiles [98] (sampleFooRule 0 :: [sampleRule]) =
      (true, sampleFooRule 1 :: sampleFooRule 0 :: [sampleRule]) ∧
    editorLoadBundledHLDB sampleJson
      [[65].takeWhile (fun c => c ≠ 0), [66].takeWhile (fun c => c ≠ 0)] [sampleRule] =
        sampleFooRule 1 :: sampleFooRule 0 :: [sampleRule] ∧
    editorSelectSyntaxHighlight sampleEnv (sampleFooRule 0 :: [sampleRule]) sampleFooFile =
      some { sampleFooFile with
        syntaxDef := some (sampleFooRule 0),
        row := fullRows sampleEnv (some (sampleFooRule 0)) sampleFooFile.row } ∧
    ∀ newer between : List EditorSyntax,
      (∀ x ∈ newer, x.file_exts.any (patternMatches sampleEnv ([109] ++ dotFoo)) = false) →
      editorSelectSyntaxHighlight sampleEnv
          (newer ++ sampleFooRule 1 :: (between ++ sampleFooRule 0 :: [sampleRule]))
          sampleFooFile =
        some { sampleFooFile with
          syntaxDef := some (sampleFooRule 1),
          row := fullRows sampleEnv (some (sampleFooRule 1)) sampleFooFile.row } :=
  rule_precedence sampleJson sampleFiles sampleEnv [sampleRule] [97] [98] [65] [66]
    (sampleFooRule 0) (sampleFooRule 1) sampleFooFile [109] rfl (by decide) rfl (by decide)
    rfl (by decide) rfl (by decide) (by decide) (by decide) rfl (by decide) (by decide)

/-- C20: rule selection.  When `strCaseCmp` and `strCaseStr` compare up to case, the
pattern test of `editorSelectSyntaxHighlight` is the test of the specification: a
pattern beginning with `.` matches exactly when the file name contains a `.` and
the text from its last `.` to its end equals the pattern up to case, any other
pattern matches exactly when it occurs in the file name up to case.  On a file whose
class arrays have one byte per character the function returns: with a file name it
selects the first rule in database order that has a matching pattern and highlights
every row with it; with no file name, or with no rule that has a matching pattern,
the file ends with `syntax = NULL` and its rows are left as they were. -/
theorem rule_selection (env : Externals) (HLDB : List EditorSyntax) (file : EditorFile)
    (hcase : FaithfulCase env) (hv : ∀ x ∈ file.row, x.Valid) :
    (∀ filename pat,
      patternMatches env filename pat = true ↔ SpecPatternMatches filename pat) ∧
    (file.filename = none →
      editorSelectSyntaxHighlight env HLDB file = some { file with syntaxDef := none }) ∧
    ∀ filename, file.filename = some filename →
      (∀ before s after, HLDB = before ++ s :: after →
        (∀ x ∈ before, ¬ SpecRuleMatches filename x) → SpecRuleMatches filename s →
        editorSelectSyntaxHighlight env HLDB file =
          some { file with syntaxDef := some s, row := fullRows env (some s) file.row }) ∧
      ((∀ x ∈ HLDB, ¬ SpecRuleMatches filename x) →
        editorSelectSyntaxHighlight env HLDB file = some { file with syntaxDef := none }) := by
  have hno : ∀ (filename : List Nat) (x : EditorSyntax), ¬ SpecRuleMatches filename x →
      x.file_exts.any (patternMatches env filename) = false := by
    intro filename x hx
    cases h : x.file_exts.any (patternMatches env filename) with
    | false => rfl
    | true => exact absurd ((any_patternMatches_iff env hcase filename x).mp h) hx
  refine ⟨patternMatches_iff env hcase, ?_, ?_⟩
  · intro hname
    unfold editorSelectSyntaxHighlight
    simp only [hname]
  · intro filename hname
    constructor
    · intro before s after hdb hbefore hs
      rw [hdb]
      exact select_rule env _ file filename s hname
        (findSyntax_first env filename s before after
          (fun x hx => hno filename x (hbefore x hx))
          ((any_patternMatches_iff env hcase filename s).mpr hs)) hv
    · intro hall
      exact select_no_rule env HLDB file filename hname
        (findSyntax_none env filename HLDB (fun x hx => hno filename x (hall x hx)))

theorem rule_selection_witness :
    (∀ filename pat,
      patternMatches sampleEnv filename pat = true ↔ SpecPatternMatches filename pat) ∧
    (sampleText.filename = none →
      editorSelectSyntaxHighlight sampleEnv sampleHLDB sampleText =
        some { sampleText with syntaxDef := none }) ∧
    ∀ filename, sampleText.filename = some filename →
      (∀ before s after, sampleHLDB = before ++ s :: after →
        (∀ x ∈ before, ¬ SpecRuleMatches filename x) → SpecRuleMatches filename s →
        editorSelectSyntaxHighlight sampleEnv sampleHLDB sampleText =
          some { sampleText with
            syntaxDef := some s, row := fullRows sampleEnv (some s) sampleText.row }) ∧
      ((∀ x ∈ sampleHLDB, ¬ SpecRuleMatches filename x) →
        editorSelectSyntaxHighlight sampleEnv sampleHLDB sampleText =
          some { sampleText with syntaxDef := none }) :=
  rule_selection sampleEnv sampleHLDB sampleText sampleEnv_faithful (by decide)

end Highlight

namespace Highlight

/-! ## Validation of a rule definition -/

theorem pushStrings_some {O : Type} :
    ∀ (data : List (JsonValue O)) (vec strs : List (List Nat)),
      stringItems data = some strs → pushStrings data vec = (true, vec ++ strs)
  | [], vec, strs, h => by
    simp only [stringItems, Option.some.injEq] at h
    rw [← h, pushStrings, List.append_nil]
  | item :: rest, vec, strs, h => by
    cases item with
    | string s =>
      cases hr : stringItems rest with
      | none => simp [stringItems, asString, hr] at h
      | some strs2 =>
        simp only [stringItems, asString, hr, Option.some_bind, Option.map_some',
          Option.some.injEq] at h
        rw [pushStrings, pushStrings_some rest (vec ++ [s]) strs2 hr, ← h]
        simp
    | null => simp [stringItems, asString] at h
    | array d => simp [stringItems, asString] at h
    | object o => simp [stringItems, asString] at h
    | other => simp [stringItems, asString] at h

theorem pushStrings_none {O : Type} :
    ∀ (data : List (JsonValue O)) (vec : List (List Nat)),
      stringItems data = none → (pushStrings data vec).1 = false
  | [], vec, h => by simp [stringItems] at h
  | item :: rest, vec, h => by
    cases item with
    | string s =>
      cases hr : stringItems rest with
      | none =>
        rw [pushStrings]
        exact pushStrings_none rest (vec ++ [s]) hr
      | some strs2 => simp [stringItems, asString, hr] at h
    | null => rfl
    | array d => rfl
    | object o => rfl
    | other => rfl

theorem loadComment_some {O : Type} (lib : JsonLib O) (object : O) (s : EditorSyntax)
    (scs : Option (List Nat))
    (h : specCommentField (lib.json_object_find object KEY_COMMENT) = some scs) :
    loadComment lib object s = (true, { s with singleline_comment_start := scs }) := by
  unfold loadComment
  cases hv : lib.json_object_find object KEY_COMMENT with
  | none =>
    rw [hv] at h
    simp only [specCommentField, Option.some.injEq] at h
    simp only [← h]
  | some v =>
    rw [hv] at h
    cases v with
    | null =>
      simp only [specCommentField, Option.some.injEq] at h
      simp only [← h]
    | string c =>
      simp only [specCommentField, Option.some.injEq] at h
      simp only [← h]
    | array d => simp [specCommentField] at h
    | object o => simp [specCommentField] at h
    | other => simp [specCommentField] at h

theorem loadComment_none {O : Type} (lib : JsonLib O) (object : O) (s : EditorSyntax)
    (h : specCommentField (lib.json_object_find object KEY_COMMENT) = none) :
    (loadComment lib object s).1 = false := by
  unfold loadComment
  cases hv : lib.json_object_find object KEY_COMMENT with
  | none => rw [hv] at h; simp [specCommentField] at h
  | some v =>
    rw [hv] at h
    cases v with
    | null => simp [specCommentField] at h
    | string c => simp [specCommentField] at h
    | array d => rfl
    | object o => rfl
    | other => rfl

theorem loadMultilineComment_some {O : Type} (lib : JsonLib O) (object : O) (s : EditorSyntax)
    (mc : Option (List Nat) × Option (List Nat))
    (h : specMultilineField (lib.json_object_find object KEY_MULTILINE_COMMENT) = some mc) :
    loadMultilineComment lib object s =
      (true, { s with multiline_comment_start := mc.1, multiline_comment_end := mc.2 }) := by
  unfold loadMultilineComment
  cases hv : lib.json_object_find object KEY_MULTILINE_COMMENT with
  | none =>
    rw [hv] at h
    simp only [specMultilineField, Option.some.injEq] at h
    simp only [← h]
  | some v =>
    rw [hv] at h
    cases v with
    | null =>
      simp only [specMultilineField, Option.some.injEq] at h
      simp only [← h]
    | string c => simp [specMultilineField] at h
    | array d =>
      match d, h with
      | [.string mcs, .string mce], h =>
        simp only [specMultilineField, Option.some.injEq] at h
        simp [← h]
    | object o => simp [specMultilineField] at h
    | other => simp [specMultilineField] at h

theorem loadMultilineComment_none {O : Type} (lib : JsonLib O) (object : O) (s : EditorSyntax)
    (h : specMultilineField (lib.json_object_find object KEY_MULTILINE_COMMENT) = none) :
    (loadMultilineComment lib object s).1 = false := by
  unfold loadMultilineComment
  cases hv : lib.json_object_find object KEY_MULTILINE_COMMENT with
  | none => rw [hv] at h; simp [specMultilineField] at h
  | some v =>
    rw [hv] at h
    cases v with
    | null => simp [specMultilineField] at h
    | string c => rfl
    | array d =>
      simp only
      split
      · rename_i hlen
        match d, hlen, h with
        | [a, b], _, h =>
          cases a <;> cases b <;> first | rfl | (simp [specMultilineField] at h)
      · rfl
    | object o => rfl
    | other => rfl

end Highlight

namespace Highlight

theorem loadKeywordField_some {O : Type} (lib : JsonLib O) (object : O) (i : Nat)
    (key : List Nat) (s : EditorSyntax) (strs : List (List Nat))
    (hfix : setKeywords s.keywords i (s.keywords.getD i []) = s.keywords)
    (h : specKeywordsField (lib.json_object_find object key) = some strs) :
    loadKeywordField lib object i key s =
      (true, { s with keywords := setKeywords s.keywords i (s.keywords.getD i [] ++ strs) }) := by
  unfold loadKeywordField
  cases hv : lib.json_object_find object key with
  | none =>
    rw [hv] at h
    simp only [specKeywordsField, Option.some.injEq] at h
    simp only [← h, List.append_nil, hfix]
  | some v =>
    rw [hv] at h
    cases v with
    | null =>
      simp only [specKeywordsField, Option.some.injEq] at h
      simp only [← h, List.append_nil, hfix]
    | string c => simp [specKeywordsField] at h
    | array d =>
      simp only [specKeywordsField] at h
      simp only [pushStrings_some d _ strs h]
    | object o => simp [specKeywordsField] at h
    | other => simp [specKeywordsField] at h

theorem loadKeywordField_none {O : Type} (lib : JsonLib O) (object : O) (i : Nat)
    (key : List Nat) (s : EditorSyntax)
    (h : specKeywordsField (lib.json_object_find object key) = none) :
    (loadKeywordField lib object i key s).1 = false := by
  unfold loadKeywordField
  cases hv : lib.json_object_find object key with
  | none => rw [hv] at h; simp [specKeywordsField] at h
  | some v =>
    rw [hv] at h
    cases v with
    | null => simp [specKeywordsField] at h
    | string c => rfl
    | array d =>
      simp only [specKeywordsField] at h
      simp only [pushStrings_none d _ h]
    | object o => rfl
    | other => rfl

theorem loadKeywords_spec {O : Type} (lib : JsonLib O) (object : O) (s : EditorSyntax)
    (hk : s.keywords = [[], [], []]) :
    match specKeywordsField (lib.json_object_find object (kw_fields.getD 0 [])),
      specKeywordsField (lib.json_object_find object (kw_fields.getD 1 [])),
      specKeywordsField (lib.json_object_find object (kw_fields.getD 2 [])) with
    | some k1, some k2, some k3 =>
      loadKeywords lib object kw_fields 0 s = (true, { s with keywords := [k1, k2, k3] })
    | _, _, _ => (loadKeywords lib object kw_fields 0 s).1 = false := by
  obtain ⟨ft, scs, mcs, mce, exts, kws, flags⟩ := s
  simp only at hk
  subst hk
  cases h1 : specKeywordsField (lib.json_object_find object (kw_fields.getD 0 [])) with
  | none =>
    simp only
    simp only [kw_fields, List.getD_cons_zero] at h1
    simp only [kw_fields, loadKeywords, loadKeywordField_none lib object 0 _ _ h1,
      Bool.false_eq_true, if_false]
  | some k1 =>
    simp only [kw_fields, List.getD_cons_zero] at h1
    have e1 := loadKeywordField_some lib object 0 _
      { file_type := ft, singleline_comment_start := scs, multiline_comment_start := mcs,
        multiline_comment_end := mce, file_exts := exts, keywords := [[], [], []],
        flags := flags } k1 rfl h1
    cases h2 : specKeywordsField (lib.json_object_find object (kw_fields.getD 1 [])) with
    | none =>
      simp only
      simp only [kw_fields, List.getD_cons_succ, List.getD_cons_zero] at h2
      simp only [kw_fields, loadKeywords, e1, if_true,
        loadKeywordField_none lib object 1 _ _ h2, Bool.false_eq_true, if_false]
    | some k2 =>
      simp only [kw_fields, List.getD_cons_succ, List.getD_cons_zero] at h2
      have e2 := loadKeywordField_some lib object 1 _
        { file_type := ft, singleline_comment_start := scs, multiline_comment_start := mcs,
          multiline_comment_end := mce, file_exts := exts, keywords := [k1, [], []],
          flags := flags } k2 rfl h2
      cases h3 : specKeywordsField (lib.json_object_find object (kw_fields.getD 2 [])) with
      | none =>
        simp only
        simp only [kw_fields, List.getD_cons_succ, List.getD_cons_zero] at h3
        have e1b : loadKeywordField lib object 0 [107, 101, 121, 119, 111, 114, 100, 115, 49]
            { file_type := ft, singleline_comment_start := scs, multiline_comment_start := mcs,
              multiline_comment_end := mce, file_exts := exts, keywords := [[], [], []],
              flags := flags } =
            (true, { file_type := ft, singleline_comment_start := scs,
                     multiline_comment_start := mcs, multiline_comment_end := mce,
                     file_exts := exts, keywords := [k1, [], []], flags := flags }) := by
          rw [e1]; rfl
        have e2b : loadKeywordField lib object 1 [107, 101, 121, 119, 111, 114, 100, 115, 50]
            { file_type := ft, singleline_comment_start := scs, multiline_comment_start := mcs,
              multiline_comment_end := mce, file_exts := exts, keywords := [k1, [], []],
              flags := flags } =
            (true, { file_type := ft, singleline_comment_start := scs,
                     multiline_comment_start := mcs, multiline_comment_end := mce,
                     file_exts := exts, keywords := [k1, k2, []], flags := flags }) := by
          rw [e2]; rfl
        simp only [kw_fields, loadKeywords, e1b, e2b, if_true, zero_add,
          loadKeywordField_none lib object 2 _ _ h3, Bool.false_eq_true, if_false]
      | some k3 =>
        simp only [kw_fields, List.getD_cons_succ, List.getD_cons_zero] at h3
        have e3 := loadKeywordField_some lib object 2 _
          { file_type := ft, singleline_comment_start := scs, multiline_comment_start := mcs,
            multiline_comment_end := mce, file_exts := exts, keywords := [k1, k2, []],
            flags := flags } k3 rfl h3
        have e1b : loadKeywordField lib object 0 [107, 101, 121, 119, 111, 114, 100, 115, 49]
            { file_type := ft, singleline_comment_start := scs, multiline_comment_start := mcs,
              multiline_comment_end := mce, file_exts := exts, keywords := [[], [], []],
              flags := flags } =
            (true, { file_type := ft, singleline_comment_start := scs,
                     multiline_comment_start := mcs, multiline_comment_end := mce,
                     file_exts := exts, keywords := [k1, [], []], flags := flags }) := by
          rw [e1]; rfl
        have e2b : loadKeywordField lib object 1 [107, 101, 121, 119, 111, 114, 100, 115, 50]
            { file_type := ft, singleline_comment_start := scs, multiline_comment_start := mcs,
              multiline_comment_end := mce, file_exts := exts, keywords := [k1, [], []],
              flags := flags } =
            (true, { file_type := ft, singleline_comment_start := scs,
                     multiline_comment_start := mcs, multiline_comment_end := mce,
                     file_exts := exts, keywords := [k1, k2, []], flags := flags }) := by
          rw [e2]; rfl
        have e3b : loadKeywordField lib object 2 [107, 101, 121, 119, 111, 114, 100, 115, 51]
            { file_type := ft, singleline_comment_start := scs, multiline_comment_start := mcs,
              multiline_comment_end := mce, file_exts := exts, keywords := [k1, k2, []],
              flags := flags } =
            (true, { file_type := ft, singleline_comment_start := scs,
                     multiline_comment_start := mcs, multiline_comment_end := mce,
                     file_exts := exts, keywords := [k1, k2, k3], flags := flags }) := by
          rw [e3]; rfl
        simp only [kw_fields, loadKeywords, e1b, e2b, e3b, if_true, zero_add]

end Highlight

namespace Highlight

theorem loadJson_spec {O : Type} (lib : JsonLib O) (json : List Nat) :
    match specDefinition lib json with
    | some s => editorLoadJsonHLDB lib json callocSyntax = (true, s)
    | none => (editorLoadJsonHLDB lib json callocSyntax).1 = false := by
  unfold specDefinition editorLoadJsonHLDB
  cases hp : lib.json_parse json with
  | null => rfl
  | string c => rfl
  | array d => rfl
  | other => rfl
  | object object =>
    simp only
    cases hn : lib.json_object_find object KEY_NAME with
    | none => rfl
    | some vn =>
      cases vn with
      | null => rfl
      | array d => rfl
      | object o => rfl
      | other => rfl
      | string name =>
        simp only [specNameField, Option.some_bind]
        cases he : lib.json_object_find object KEY_EXTENSIONS with
        | none => rfl
        | some ve =>
          cases ve with
          | null => rfl
          | string c => rfl
          | object o => rfl
          | other => rfl
          | array data =>
            simp only [specExtensionsField]
            cases hs : stringItems data with
            | none =>
              simp only [Option.none_bind, pushStrings_none data _ hs, Bool.false_eq_true,
                if_false]
            | some exts =>
              simp only [Option.some_bind, pushStrings_some data _ exts hs, if_true,
                callocSyntax, List.nil_append]
              cases hc : specCommentField (lib.json_object_find object KEY_COMMENT) with
              | none =>
                simp only [Option.none_bind, loadComment_none lib object _ hc,
                  Bool.false_eq_true, if_false]
              | some scs =>
                simp only [Option.some_bind, loadComment_some lib object _ scs hc, if_true]
                cases hm : specMultilineField
                    (lib.json_object_find object KEY_MULTILINE_COMMENT) with
                | none =>
                  simp only [Option.none_bind, loadMultilineComment_none lib object _ hm,
                    Bool.false_eq_true, if_false]
                | some mc =>
                  simp only [Option.some_bind, loadMultilineComment_some lib object _ mc hm,
                    if_true]
                  have hk := loadKeywords_spec lib object
                    { file_type := some name, singleline_comment_start := scs,
                      multiline_comment_start := mc.1, multiline_comment_end := mc.2,
                      file_exts := exts, keywords := [[], [], []], flags := 0 } rfl
                  cases h1 : specKeywordsField
                      (lib.json_object_find object (kw_fields.getD 0 [])) with
                  | none =>
                    rw [h1] at hk
                    simp only at hk
                    simp only [Option.none_bind, hk, Bool.false_eq_true, if_false]
                  | some k1 =>
                    cases h2 : specKeywordsField
                        (lib.json_object_find object (kw_fields.getD 1 [])) with
                    | none =>
                      rw [h1, h2] at hk
                      simp only at hk
                      simp only [Option.some_bind, Option.none_bind, hk, Bool.false_eq_true,
                        if_false]
                    | some k2 =>
                      cases h3 : specKeywordsField
                          (lib.json_object_find object (kw_fields.getD 2 [])) with
                      | none =>
                        rw [h1, h2, h3] at hk
                        simp only at hk
                        simp only [Option.some_bind, Option.none_bind, hk, Bool.false_eq_true,
                          if_false]
                      | some k3 =>
                        rw [h1, h2, h3] at hk
                        simp only at hk
                        simp only [Option.some_bind, hk, if_true]

theorem loadJson_true_iff {O : Type} (lib : JsonLib O) (json : List Nat) :
    (editorLoadJsonHLDB lib json callocSyntax).1 = true ↔
      ∃ s, specDefinition lib json = some s := by
  have h := loadJson_spec lib json
  cases hs : specDefinition lib json with
  | none =>
    rw [hs] at h
    simp only at h
    simp [h]
  | some s =>
    rw [hs] at h
    simp only at h
    simp [h]

theorem loadJson_of_spec {O : Type} (lib : JsonLib O) (json : List Nat) (s : EditorSyntax)
    (hs : specDefinition lib json = some s) :
    editorLoadJsonHLDB lib json callocSyntax = (true, s) := by
  have h := loadJson_spec lib json
  rw [hs] at h
  exact h

theorem loadJson_false {O : Type} (lib : JsonLib O) (json : List Nat)
    (hs : specDefinition lib json = none) :
    (editorLoadJsonHLDB lib json callocSyntax).1 = false := by
  have h := loadJson_spec lib json
  rw [hs] at h
  exact h

theorem specDefinition_flags {O : Type} (lib : JsonLib O) (json : List Nat) (s : EditorSyntax)
    (hs : specDefinition lib json = some s) :
    s.flags = HL_HIGHLIGHT_NUMBERS ||| HL_HIGHLIGHT_STRINGS := by
  unfold specDefinition at hs
  cases hp : lib.json_parse json with
  | null => rw [hp] at hs; exact absurd hs (by simp)
  | string c => rw [hp] at hs; exact absurd hs (by simp)
  | array d => rw [hp] at hs; exact absurd hs (by simp)
  | other => rw [hp] at hs; exact absurd hs (by simp)
  | object object =>
    rw [hp] at hs
    simp only at hs
    simp only [Option.bind_eq_some] at hs
    obtain ⟨_, _, _, _, _, _, _, _, _, _, _, _, _, _, h2⟩ := hs
    rw [← Option.some.inj h2]

end Highlight

namespace Highlight

/-! ## The bytes that the scan writes -/

theorem memset_keeps {hl hl2 : List Nat} {start v len : Nat} (s : EditorSyntax)
    (h : memset hl start v len = some hl2) (hv : Allowed s v) :
    ∀ b ∈ hl2, b ∈ hl ∨ Allowed s b := by
  intro b hb
  rcases memset_mem h hb with h1 | h1
  · exact Or.inl h1
  · exact Or.inr (by rw [h1]; exact hv)

theorem keeps_trans {s : EditorSyntax} {a b c : List Nat}
    (h1 : ∀ x ∈ b, x ∈ a ∨ Allowed s x) (h2 : ∀ x ∈ c, x ∈ b ∨ Allowed s x) :
    ∀ x ∈ c, x ∈ a ∨ Allowed s x := by
  intro x hx
  rcases h2 x hx with h | h
  · exact h1 x h
  · exact Or.inr h

theorem allowed_comment (s : EditorSyntax) : Allowed s HL_COMMENT := Or.inl rfl

theorem lineComment_keeps (s : EditorSyntax) (data : List Nat) (st : ScanState) :
    Flow.Keeps s st (lineComment s data st) := by
  unfold lineComment
  split
  · split
    · cases hm : memset st.hl st.i HL_COMMENT (data.length - st.i) with
      | none => trivial
      | some hl => exact memset_keeps s hm (allowed_comment s)
    · trivial
  · trivial

theorem blockComment_keeps (s : EditorSyntax) (data : List Nat) (st : ScanState) :
    Flow.Keeps s st (blockComment s data st) := by
  unfold blockComment
  split
  · split
    · cases hm : memset st.hl st.i HL_COMMENT 1 with
      | none => trivial
      | some hl1 =>
        simp only []
        split
        · cases hm2 : memset hl1 st.i HL_COMMENT (tokLen s.multiline_comment_end) with
          | none => trivial
          | some hl2 =>
            exact keeps_trans (memset_keeps s hm (allowed_comment s))
              (memset_keeps s hm2 (allowed_comment s))
        · exact memset_keeps s hm (allowed_comment s)
    · split
      · cases hm : memset st.hl st.i HL_COMMENT (tokLen s.multiline_comment_start) with
        | none => trivial
        | some hl => exact memset_keeps s hm (allowed_comment s)
      · trivial
  · trivial

theorem stringLiteral_keeps (s : EditorSyntax) (data : List Nat) (st : ScanState) (c : Nat) :
    Flow.Keeps s st (stringLiteral s data st c) := by
  unfold stringLiteral
  split
  · rename_i hflag
    have ha : Allowed s HL_STRING := Or.inr (Or.inr (Or.inr (Or.inr (Or.inl ⟨rfl, hflag⟩))))
    split
    · cases hm : memset st.hl st.i HL_STRING 1 with
      | none => trivial
      | some hl1 =>
        simp only []
        split
        · cases hm2 : memset hl1 (st.i + 1) HL_STRING 1 with
          | none => trivial
          | some hl2 => exact keeps_trans (memset_keeps s hm ha) (memset_keeps s hm2 ha)
        · exact memset_keeps s hm ha
    · split
      · cases hm : memset st.hl st.i HL_STRING 1 with
        | none => trivial
        | some hl1 => exact memset_keeps s hm ha
      · trivial
  · trivial

theorem numberLiteral_keeps (env : Externals) (s : EditorSyntax) (data : List Nat)
    (st : ScanState) (c : Nat) :
    Flow.Keeps s st (numberLiteral env s data st c) := by
  unfold numberLiteral
  split
  · rename_i hflag
    have ha : Allowed s HL_NUMBER :=
      Or.inr (Or.inr (Or.inr (Or.inr (Or.inr ⟨rfl, hflag⟩))))
    split
    · simp only []
      split
      · exact fun b hb => Or.inl hb
      · split
        · split
          · trivial
          · rename_i hm
            exact memset_keeps s hm ha
        · split
          · trivial
          · split
            · split
              · trivial
              · rename_i hm
                exact memset_keeps s hm ha
            · exact fun b hb => Or.inl hb
    · trivial
  · trivial

theorem keyword_keeps (env : Externals) (s : EditorSyntax) (data : List Nat) (st : ScanState)
    (hi : st.i ≤ data.length) :
    Flow.Keeps s st (keyword env s data st) := by
  unfold keyword
  split
  · rcases findKeywordFrom_spec env s data st.i hi 3 0 with h | ⟨kw, klen, h, -, hkw, -⟩
    · rw [h]
      trivial
    · rw [h]
      simp only []
      cases hm : memset st.hl st.i (HL_KEYWORD1 + kw) klen with
      | none => trivial
      | some hl =>
        refine memset_keeps s hm ?_
        have : kw = 0 ∨ kw = 1 ∨ kw = 2 := by omega
        rcases this with h0 | h0 | h0
        · rw [h0]; exact Or.inr (Or.inl rfl)
        · rw [h0]; exact Or.inr (Or.inr (Or.inl rfl))
        · rw [h0]; exact Or.inr (Or.inr (Or.inr (Or.inl rfl)))
  · trivial

theorem scanBody_keeps (env : Externals) (s : EditorSyntax) (data : List Nat) (st : ScanState)
    (hi : st.i ≤ data.length) :
    Flow.Keeps s st (scanBody env s data st) := by
  unfold scanBody
  cases hd : data[st.i]? with
  | none => trivial
  | some c =>
    simp only []
    have h1 := lineComment_keeps s data st
    cases hc1 : lineComment s data st with
    | next st2 => rw [hc1] at h1; exact h1
    | stop st2 => rw [hc1] at h1; exact h1
    | fault => trivial
    | pass =>
      simp only []
      have h2 := blockComment_keeps s data st
      cases hc2 : blockComment s data st with
      | next st2 => rw [hc2] at h2; exact h2
      | stop st2 => rw [hc2] at h2; exact h2
      | fault => trivial
      | pass =>
        simp only []
        have h3 := stringLiteral_keeps s data st c
        cases hc3 : stringLiteral s data st c with
        | next st2 => rw [hc3] at h3; exact h3
        | stop st2 => rw [hc3] at h3; exact h3
        | fault => trivial
        | pass =>
          simp only []
          have h4 := numberLiteral_keeps env s data st c
          cases hc4 : numberLiteral env s data st c with
          | next st2 => rw [hc4] at h4; exact h4
          | stop st2 => rw [hc4] at h4; exact h4
          | fault => trivial
          | pass =>
            simp only []
            have h5 := keyword_keeps env s data st hi
            cases hc5 : keyword env s data st with
            | next st2 => rw [hc5] at h5; exact h5
            | stop st2 => rw [hc5] at h5; exact h5
            | fault => trivial
            | pass => exact fun b hb => Or.inl hb

theorem scanLoop_keeps (env : Externals) (s : EditorSyntax) (data : List Nat) :
    ∀ (fuel : Nat) (st st2 : ScanState), scanLoop env s data fuel st = some st2 →
      ∀ b ∈ st2.hl, b ∈ st.hl ∨ Allowed s b
  | 0, st, st2, h => by
    unfold scanLoop at h
    split at h
    · exact absurd h (by simp)
    · rw [← Option.some.inj h]
      exact fun b hb => Or.inl hb
  | fuel + 1, st, st2, h => by
    unfold scanLoop at h
    split at h
    · rename_i hlt
      have hk := scanBody_keeps env s data st (Nat.le_of_lt hlt)
      cases hb : scanBody env s data st with
      | next st3 =>
        rw [hb] at h hk
        exact keeps_trans hk (scanLoop_keeps env s data fuel st3 st2 h)
      | stop st3 =>
        rw [hb] at h hk
        rw [← Option.some.inj h]
        exact hk
      | pass => rw [hb] at h; exact absurd h (by simp)
      | fault => rw [hb] at h; exact absurd h (by simp)
    · rw [← Option.some.inj h]
      exact fun b hb => Or.inl hb

theorem updateTrailing_mem (data : List Nat) :
    ∀ (n : Nat) (hl hl2 : List Nat), updateTrailing data n hl = some hl2 →
      ∀ b ∈ hl2, b ∈ hl ∨ b = HL_BG_TRAILING <<< HL_FG_BITS
  | 0, hl, hl2, h => by
    rw [updateTrailing] at h
    rw [← Option.some.inj h]
    exact fun b hb => Or.inl hb
  | n + 1, hl, hl2, h => by
    rw [updateTrailing] at h
    cases hd : data[n]? with
    | none => rw [hd] at h; exact absurd h (by simp)
    | some c =>
      rw [hd] at h
      simp only [] at h
      split at h
      · cases hm : memset hl n (HL_BG_TRAILING <<< HL_FG_BITS) 1 with
        | none => rw [hm] at h; exact absurd h (by simp)
        | some hl3 =>
          rw [hm] at h
          intro b hb
          rcases updateTrailing_mem data n hl3 hl2 h b hb with h1 | h1
          · exact memset_mem hm h1
          · exact Or.inr h1
      · rw [← Option.some.inj h]
        exact fun b hb => Or.inl hb

/-- Every byte of a freshly classified row is normal, allowed under the rule, or the
byte of the trailing whitespace. -/
theorem freshRow_bytes (env : Externals) (s : EditorSyntax) (data : List Nat) (ic : Bool) :
    ∀ b ∈ (freshRow env s data ic).hl, RowByte s b := by
  obtain ⟨st, hl, h1, -, h3, -, h5⟩ := freshRow_eq env s data ic
  rw [h5]
  intro b hb
  rcases updateTrailing_mem data data.length st.hl hl h3 b hb with h | h
  · rcases scanLoop_keeps env s data _ _ st h1 b h with h2 | h2
    · exact Or.inl (List.eq_of_mem_replicate h2)
    · exact Or.inr (Or.inl h2)
  · exact Or.inr (Or.inr h)

theorem plainRow_bytes (row : EditorRow) :
    ∀ b ∈ (plainRow row).hl, b = HL_NORMAL ∨ b = HL_BG_TRAILING <<< HL_FG_BITS := by
  obtain ⟨hl, h1, -, h3⟩ := plainRow_eq row
  rw [h3]
  intro b hb
  rcases updateTrailing_mem row.data row.data.length _ hl h1 b hb with h | h
  · exact Or.inl (List.eq_of_mem_replicate h)
  · exact Or.inr h

theorem rowByte_layout (s : EditorSyntax) (b : Nat) (h : RowByte s b) : Layout b := by
  rcases h with h | h | h
  · rw [h]; decide
  · rcases h with h | h | h | h | h | h
    · rw [h]; decide
    · rw [h]; decide
    · rw [h]; decide
    · rw [h]; decide
    · rw [h.1]; decide
    · rw [h.1]; decide
  · rw [h]; decide

end Highlight

namespace Highlight

/-! ## The rows that `editorUpdateSyntax` leaves -/

theorem cascade_get (env : Externals) (s : EditorSyntax) :
    ∀ (rows : List EditorRow) (ic : Bool) (j : Nat) (x : EditorRow),
      (cascade env s ic rows)[j]? = some x →
      rows[j]? = some x ∨ ∃ data ic2, x = freshRow env s data ic2
  | [], ic, j, x, h => by simp [cascade] at h
  | row :: rest, ic, 0, x, h => by
    simp only [cascade, List.getElem?_cons_zero, Option.some.injEq] at h
    exact Or.inr ⟨row.data, ic, h.symm⟩
  | row :: rest, ic, j + 1, x, h => by
    simp only [cascade, List.getElem?_cons_succ] at h
    split at h
    · rcases cascade_get env s rest _ j x h with h1 | h1
      · exact Or.inl (by rw [List.getElem?_cons_succ]; exact h1)
      · exact Or.inr h1
    · exact Or.inl (by rw [List.getElem?_cons_succ]; exact h)

/-- Every row of the file after `editorUpdateSyntax` is the old row at the same
index or a freshly classified row. -/
theorem updatedRows_row (env : Externals) (sd : Option EditorSyntax) (rows : List EditorRow)
    (r j : Nat) (x : EditorRow) (h : (updatedRows env sd rows r)[j]? = some x) :
    rows[j]? = some x ∨
      (∃ s data ic, activeRule env sd = some s ∧ x = freshRow env s data ic) ∨
      (activeRule env sd = none ∧ ∃ row, x = plainRow row) := by
  have hsplit : rows = rows.take r ++ rows.drop r := (List.take_append_drop r rows).symm
  unfold updatedRows at h
  by_cases hj : j < (rows.take r).length
  · left
    have e : ∀ l : List EditorRow, (rows.take r ++ l)[j]? = (rows.take r)[j]? :=
      fun l => List.getElem?_append_left hj
    have h2 : (rows.take r)[j]? = some x := by
      cases ha : activeRule env sd with
      | none => rw [ha] at h; simp only at h; rw [e] at h; exact h
      | some s => rw [ha] at h; simp only at h; rw [e] at h; exact h
    rw [hsplit, List.getElem?_append_left hj]
    exact h2
  · have hj2 : (rows.take r).length ≤ j := Nat.le_of_not_lt hj
    have hold : rows[j]? = (rows.drop r)[j - (rows.take r).length]? := by
      conv_lhs => rw [hsplit]
      rw [List.getElem?_append_right hj2]
    cases ha : activeRule env sd with
    | none =>
      rw [ha] at h
      simp only at h
      rw [List.getElem?_append_right hj2] at h
      cases hd : rows.drop r with
      | nil => rw [hd] at h; simp at h
      | cons row rest =>
        rw [hd] at h hold
        simp only at h
        cases hk : j - (rows.take r).length with
        | zero =>
          rw [hk, List.getElem?_cons_zero] at h
          exact Or.inr (Or.inr ⟨rfl, row, (Option.some.inj h).symm⟩)
        | succ k =>
          rw [hk, List.getElem?_cons_succ] at h
          rw [hk, List.getElem?_cons_succ] at hold
          exact Or.inl (hold.trans h)
    | some s =>
      rw [ha] at h
      simp only at h
      rw [List.getElem?_append_right hj2] at h
      rcases cascade_get env s _ _ _ x h with h1 | ⟨data, ic, h1⟩
      · exact Or.inl (hold.trans h1)
      · exact Or.inr (Or.inl ⟨s, data, ic, rfl, h1⟩)

theorem rowByte_no_number (s : EditorSyntax) (b : Nat) (h : RowByte s b)
    (hflag : s.flags &&& HL_HIGHLIGHT_NUMBERS = 0) : fgClass b ≠ HL_NUMBER := by
  rcases h with h | h | h
  · rw [h]; decide
  · rcases h with h | h | h | h | h | h
    · rw [h]; decide
    · rw [h]; decide
    · rw [h]; decide
    · rw [h]; decide
    · rw [h.1]; decide
    · exact absurd hflag h.2
  · rw [h]; decide

theorem rowByte_no_string (s : EditorSyntax) (b : Nat) (h : RowByte s b)
    (hflag : s.flags &&& HL_HIGHLIGHT_STRINGS = 0) : fgClass b ≠ HL_STRING := by
  rcases h with h | h | h
  · rw [h]; decide
  · rcases h with h | h | h | h | h | h
    · rw [h]; decide
    · rw [h]; decide
    · rw [h]; decide
    · rw [h]; decide
    · exact absurd hflag h.2
    · rw [h.1]; decide
  · rw [h]; decide

theorem configSyntax_flags (cfg : ConfigNames) :
    (configSyntax cfg).flags = HL_HIGHLIGHT_STRINGS := rfl

theorem findKeyword_mem (env : Externals) (data : List Nat) (i : Nat) :
    ∀ (ks : List (List Nat)) (klen : Nat), findKeyword env data i ks = some (some klen) →
      ∃ k ∈ ks, k.length = klen ∧ keywordAt env data i k = some true
  | [], klen, h => by simp [findKeyword] at h
  | k :: ks, klen, h => by
    rw [findKeyword] at h
    cases hk : keywordAt env data i k with
    | none => rw [hk] at h; exact absurd h (by simp)
    | some b =>
      rw [hk] at h
      cases b with
      | true =>
        simp only [Option.some.injEq] at h
        exact ⟨k, List.mem_cons_self _ _, h, hk⟩
      | false =>
        simp only at h
        obtain ⟨k2, h1, h2, h3⟩ := findKeyword_mem env data i ks klen h
        exact ⟨k2, List.mem_cons_of_mem _ h1, h2, h3⟩

theorem findKeywordFrom_mem (env : Externals) (s : EditorSyntax) (data : List Nat) (i : Nat) :
    ∀ (n kw kw2 klen : Nat), findKeywordFrom env s data i n kw = some (some (kw2, klen)) →
      kw ≤ kw2 ∧ kw2 < kw + n ∧
        ∃ k ∈ s.keywords.getD kw2 [], k.length = klen ∧ keywordAt env data i k = some true
  | 0, kw, kw2, klen, h => by simp [findKeywordFrom] at h
  | n + 1, kw, kw2, klen, h => by
    rw [findKeywordFrom] at h
    cases hk : findKeyword env data i (s.keywords.getD kw []) with
    | none => rw [hk] at h; exact absurd h (by simp)
    | some o =>
      rw [hk] at h
      cases o with
      | some klen2 =>
        simp only [Option.some.injEq, Prod.mk.injEq] at h
        obtain ⟨k, h1, h2, h3⟩ := findKeyword_mem env data i _ klen2 hk
        rw [← h.1, ← h.2]
        exact ⟨Nat.le_refl _, by omega, k, h1, h2, h3⟩
      | none =>
        simp only at h
        obtain ⟨h1, h2, h3⟩ := findKeywordFrom_mem env s data i n (kw + 1) kw2 klen h
        exact ⟨by omega, by omega, h3⟩

/-- A keyword that the scan classifies lies in one of the three categories, and the
class written is `HL_KEYWORD1` plus the index of that category. -/
theorem keyword_next (env : Externals) (s : EditorSyntax) (data : List Nat)
    (st st2 : ScanState) (h : keyword env s data st = Flow.next st2) :
    ∃ kw k, kw < 3 ∧ k ∈ s.keywords.getD kw [] ∧ keywordAt env data st.i k = some true ∧
      memset st.hl st.i (HL_KEYWORD1 + kw) k.length = some st2.hl ∧
      st2.i = st.i + k.length := by
  unfold keyword at h
  split at h
  · cases hf : findKeywordFrom env s data st.i 3 0 with
    | none => rw [hf] at h; exact absurd h (by simp)
    | some o =>
      rw [hf] at h
      cases o with
      | none => exact absurd h (by simp)
      | some p =>
        obtain ⟨kw, klen⟩ := p
        simp only at h
        obtain ⟨-, h2, k, h3, h4, h5⟩ := findKeywordFrom_mem env s data st.i 3 0 kw klen hf
        cases hm : memset st.hl st.i (HL_KEYWORD1 + kw) klen with
        | none => rw [hm] at h; exact absurd h (by simp)
        | some hl =>
          rw [hm] at h
          simp only [Flow.next.injEq] at h
          refine ⟨kw, k, by omega, h3, h5, ?_, ?_⟩
          · rw [h4, hm, ← h]
          · rw [h4, ← h]
  · exact absurd h (by simp)

end Highlight

namespace Highlight

/-! ## The scan from a position that it reaches -/

theorem scanRow_eq (env : Externals) (s : EditorSyntax) (data : List Nat) (ic : Bool) :
    scanRow env s data ic = scanLoop env s data (2 * data.length + 1) (scanStart data ic) :=
  rfl

/-- The scan loop from a state continues as the scan loop from any state that it
reaches. -/
theorem scanLoop_of_steps (env : Externals) (s : EditorSyntax) (data : List Nat) :
    ∀ (n fuel : Nat) (st st2 : ScanState), scanSteps env s data n st = some st2 →
      scanMeasure data st ≤ fuel → st.hl.length = data.length →
      ∃ fuel2, scanMeasure data st2 ≤ fuel2 ∧ st2.hl.length = data.length ∧
        scanLoop env s data fuel st = scanLoop env s data fuel2 st2
  | 0, fuel, st, st2, h, hm, hl => by
    rw [scanSteps] at h
    rw [← Option.some.inj h]
    exact ⟨fuel, hm, hl, rfl⟩
  | n + 1, fuel, st, st2, h, hm, hl => by
    rw [scanSteps] at h
    split at h
    · rename_i hlt
      obtain ⟨hs, -⟩ := scanBody_sound env s data st hlt hl
      cases hb : scanBody env s data st with
      | next st3 =>
        rw [hb] at h hs
        obtain ⟨h1, h2, -⟩ := hs
        cases fuel with
        | zero => omega
        | succ f =>
          obtain ⟨fuel2, h3, h4, h5⟩ := scanLoop_of_steps env s data n f st3 st2 h
            (by omega) (by rw [h1, hl])
          refine ⟨fuel2, h3, h4, ?_⟩
          rw [← h5]
          simp only [scanLoop, if_pos hlt, hb]
      | stop st3 => rw [hb] at h; exact absurd h (by simp)
      | pass => rw [hb] at h; exact absurd h (by simp)
      | fault => rw [hb] at h; exact absurd h (by simp)
    · exact absurd h (by simp)

theorem scanStart_measure (data : List Nat) (ic : Bool) :
    scanMeasure data (scanStart data ic) ≤ 2 * data.length + 1 := by
  simp [scanMeasure, scanStart]

/-- Where the line-comment token matches outside a string and outside a block
comment, the loop writes the class comment up to the end of the row and stops. -/
theorem scanLoop_lineComment (env : Externals) (s : EditorSyntax) (data : List Nat)
    (fuel : Nat) (st : ScanState) (hm : scanMeasure data st ≤ fuel)
    (hl : st.hl.length = data.length)
    (hscs : tokLen s.singleline_comment_start ≠ 0)
    (hstr : st.in_string = 0) (hcom : st.in_comment = false)
    (htok : tokAt data st.i s.singleline_comment_start = true) :
    scanLoop env s data fuel st =
      some { st with
        hl := st.hl.take st.i ++ List.replicate (data.length - st.i) HL_COMMENT } := by
  have hle := tokAt_le htok
  have hlt : st.i < data.length := by omega
  have hmem : memset st.hl st.i HL_COMMENT (data.length - st.i) =
      some (st.hl.take st.i ++ List.replicate (data.length - st.i) HL_COMMENT) := by
    rw [memset_some HL_COMMENT (by omega), List.drop_eq_nil_of_le (by omega),
      List.append_nil]
  have hline : lineComment s data st = Flow.stop { st with
      hl := st.hl.take st.i ++ List.replicate (data.length - st.i) HL_COMMENT } := by
    unfold lineComment
    rw [if_pos ⟨hscs, hstr, hcom⟩, if_pos htok, hmem]
  cases fuel with
  | zero =>
    unfold scanMeasure at hm
    omega
  | succ f =>
    simp only [scanLoop, if_pos hlt, scanBody, List.getElem?_eq_getElem hlt, hline]

end Highlight

namespace Highlight

/-! ## A row inside a block comment -/

theorem memset_one_step (k n v w : Nat) :
    memset (List.replicate k v ++ List.replicate (n + 1) w) k v 1 =
      some (List.replicate (k + 1) v ++ List.replicate n w) := by
  have hm : memset (List.replicate k v ++ List.replicate (n + 1) w) k v 1 =
      some ((List.replicate k v ++ List.replicate (n + 1) w).take k ++ List.replicate 1 v ++
        (List.replicate k v ++ List.replicate (n + 1) w).drop (k + 1)) :=
    memset_some v (by simp only [List.length_append, List.length_replicate]; omega)
  rw [hm]
  congr 1
  apply List.ext_getElem?
  intro j
  rw [memset_getElem? hm j]
  by_cases h1 : j < k
  · rw [if_neg (by omega), List.getElem?_append_left (by rw [List.length_replicate]; exact h1),
      List.getElem?_append_left (by rw [List.length_replicate]; omega),
      List.getElem?_replicate, List.getElem?_replicate, if_pos h1, if_pos (by omega)]
  · by_cases h2 : j = k
    · rw [if_pos (by omega), List.getElem?_append_left (by rw [List.length_replicate]; omega),
        List.getElem?_replicate, if_pos (by omega)]
    · obtain ⟨d, hd⟩ : ∃ d, j = k + 1 + d := ⟨j - (k + 1), by omega⟩
      subst hd
      rw [if_neg (by omega),
        List.getElem?_append_right (by rw [List.length_replicate]; omega),
        List.getElem?_append_right (by rw [List.length_replicate]; omega),
        List.length_replicate, List.length_replicate, List.getElem?_replicate,
        List.getElem?_replicate]
      have e1 : k + 1 + d - k = d + 1 := by omega
      have e2 : k + 1 + d - (k + 1) = d := by omega
      rw [e1, e2]
      by_cases h5 : d < n
      · rw [if_pos h5, if_pos (by omega)]
      · rw [if_neg h5, if_neg (by omega)]

/-- Inside a block comment, in a text without the end token, the scan loop writes
the class comment at every position and stays inside the comment. -/
theorem scanLoop_in_comment (env : Externals) (s : EditorSyntax) (data : List Nat)
    (hmcs : tokLen s.multiline_comment_start ≠ 0) (hmce : tokLen s.multiline_comment_end ≠ 0)
    (hno : ∀ j, tokAt data j s.multiline_comment_end = false) :
    ∀ (n k fuel : Nat) (ps : Bool), k + n = data.length → n ≤ fuel →
      scanLoop env s data fuel
          { i := k, prev_sep := ps, in_string := 0, in_comment := true,
            hl := List.replicate k HL_COMMENT ++ List.replicate n HL_NORMAL } =
        some { i := data.length, prev_sep := ps, in_string := 0, in_comment := true,
               hl := List.replicate data.length HL_COMMENT }
  | 0, k, fuel, ps, hk, _ => by
    have hk2 : k = data.length := by omega
    subst hk2
    cases fuel <;> simp [scanLoop]
  | n + 1, k, 0, ps, _, hf => by omega
  | n + 1, k, fuel + 1, ps, hk, hf => by
    have hlt : k < data.length := by omega
    have hline : lineComment s data
        { i := k, prev_sep := ps, in_string := 0, in_comment := true,
          hl := List.replicate k HL_COMMENT ++ List.replicate (n + 1) HL_NORMAL } =
        Flow.pass := by
      unfold lineComment
      rw [if_neg (by simp)]
    have hblock : blockComment s data
        { i := k, prev_sep := ps, in_string := 0, in_comment := true,
          hl := List.replicate k HL_COMMENT ++ List.replicate (n + 1) HL_NORMAL } =
        Flow.next
          { i := k + 1, prev_sep := ps, in_string := 0, in_comment := true,
            hl := List.replicate (k + 1) HL_COMMENT ++ List.replicate n HL_NORMAL } := by
      unfold blockComment
      simp only [if_true, memset_one_step, hno k, Bool.false_eq_true, if_false]
      rw [if_pos ⟨hmcs, hmce, trivial⟩]
    simp only [scanLoop, if_pos hlt, scanBody, List.getElem?_eq_getElem hlt, hline, hblock]
    exact scanLoop_in_comment env s data hmcs hmce hno n (k + 1) fuel ps (by omega) (by omega)

/-- A row whose incoming state is `true` and whose text has no end token: every
position gets the class comment, whatever the text holds, and the outgoing state is
`true`. -/
theorem block_comment_continues (env : Externals) (s : EditorSyntax) (data : List Nat)
    (hmcs : tokLen s.multiline_comment_start ≠ 0) (hmce : tokLen s.multiline_comment_end ≠ 0)
    (hno : ∀ j, tokAt data j s.multiline_comment_end = false) :
    scanRow env s data true =
      some { i := data.length, prev_sep := true, in_string := 0, in_comment := true,
             hl := List.replicate data.length HL_COMMENT } ∧
    (freshRow env s data true).hl_open_comment = true := by
  have h : scanRow env s data true =
      some { i := data.length, prev_sep := true, in_string := 0, in_comment := true,
             hl := List.replicate data.length HL_COMMENT } := by
    have := scanLoop_in_comment env s data hmcs hmce hno data.length 0 (2 * data.length + 1)
      true (by omega) (by omega)
    simpa [scanRow] using this
  exact ⟨h, by simp only [freshRow, h]⟩

end Highlight

namespace Highlight

/-! ## Results on loading rule definitions -/

/-- C21: definition validation.  `editorLoadJsonHLDB`, called on a fresh rule as
both loaders do, returns `true` if and only if the definition is valid in the words
of the specification (`specDefinition`): the parsed value is an object, its `name`
is a string, its `extensions` is an array of strings, its `comment` is absent, null
or a string, its `multiline-comment` is absent, null or an array of exactly two
strings, and each of `keywords1`, `keywords2`, `keywords3` is absent, null or an
array of strings.  On success the rule it leaves is the rule of `specDefinition`:
the name, the patterns and the three keyword categories in their given order, the
comment tokens (`NULL` when absent or null) and the flags numbers and strings. -/
theorem definition_validation {O : Type} (lib : JsonLib O) (json : List Nat) :
    ((editorLoadJsonHLDB lib json callocSyntax).1 = true ↔
      ∃ s, specDefinition lib json = some s) ∧
    (∀ s, specDefinition lib json = some s →
      editorLoadJsonHLDB lib json callocSyntax = (true, s)) ∧
    (∀ s, editorLoadJsonHLDB lib json callocSyntax = (true, s) →
      specDefinition lib json = some s ∧
      s.flags = HL_HIGHLIGHT_NUMBERS ||| HL_HIGHLIGHT_STRINGS) := by
  refine ⟨loadJson_true_iff lib json, loadJson_of_spec lib json, ?_⟩
  intro s hs
  have h := loadJson_spec lib json
  cases hd : specDefinition lib json with
  | none =>
    rw [hd] at h
    simp only at h
    rw [hs] at h
    exact absurd h (by simp)
  | some s2 =>
    rw [hd] at h
    simp only at h
    rw [hs] at h
    have e : s = s2 := (Prod.mk.inj h).2
    subst e
    refine ⟨rfl, ?_⟩
    exact specDefinition_flags lib json s hd

/-- C22: registration is atomic.  `editorLoadHLDB` leaves the database with the
rule of the file's definition in front of the old database when the file holds a
valid definition, and leaves it exactly as it was when the file cannot be read or
its definition fails validation at any field.  `editorLoadBundledHLDB` does the
same for each bundled definition in turn: the valid definitions are put in front,
the last one first, and the old rules follow in their old order. -/
theorem registration_atomic {O : Type} (lib : JsonLib O) (fs : FileSystem)
    (HLDB : List EditorSyntax) (path : List Nat) (bundle : List (List Nat)) :
    (editorLoadHLDB lib fs path HLDB).2 = (fileDefinition lib fs path).toList ++ HLDB ∧
    editorLoadBundledHLDB lib bundle HLDB =
      (bundle.filterMap (specDefinition lib)).reverse ++ HLDB := by
  constructor
  · unfold editorLoadHLDB fileDefinition
    cases ho : fs.openFile path with
    | none => rfl
    | some content =>
      simp only
      by_cases hc : content.length = 0 ∨ fs.readError path = true
      · have hc2 : content = [] ∨ fs.readError path = true := by
          rcases hc with h | h
          · exact Or.inl (List.length_eq_zero.mp h)
          · exact Or.inr h
        rw [if_pos hc, if_pos hc2]
        rfl
      · have hc2 : ¬ (content = [] ∨ fs.readError path = true) := by
          intro h
          rcases h with h | h
          · exact hc (Or.inl (by rw [h]; rfl))
          · exact hc (Or.inr h)
        rw [if_neg hc, if_neg hc2]
        have h := loadJson_spec lib (content.takeWhile (fun c => c ≠ 0))
        cases hd : specDefinition lib (content.takeWhile (fun c => c ≠ 0)) with
        | none =>
          rw [hd] at h
          simp only at h
          simp only [h, Bool.false_eq_true, if_false, Option.toList, List.nil_append]
        | some s =>
          rw [hd] at h
          simp only at h
          simp only [h, if_true, Option.toList, List.singleton_append]
  · induction bundle generalizing HLDB with
    | nil => rfl
    | cons json rest ih =>
      rw [editorLoadBundledHLDB, ih]
      have h := loadJson_spec lib json
      cases hd : specDefinition lib json with
      | none =>
        rw [hd] at h
        simp only at h
        simp only [h, Bool.false_eq_true, if_false, List.filterMap_cons, hd]
      | some s =>
        rw [hd] at h
        simp only at h
        simp only [h, if_true, List.filterMap_cons, hd, List.reverse_cons, List.append_assoc,
          List.singleton_append]

/-- A definition that fails validation after its patterns and a keyword were
collected: `editorLoadJsonHLDB` returns `false` and leaves a rule with the pattern
`.c` and the keyword `if`, and `editorLoadBundledHLDB` leaves the database as it
was. -/
theorem registration_partial_example :
    editorLoadJsonHLDB samplePartialJson [] callocSyntax =
      (false, { callocSyntax with
        file_type := some [67], file_exts := [[46, 99]], keywords := [[[105, 102]], [], []] }) ∧
    editorLoadBundledHLDB samplePartialJson [[]] [sampleRule] = [sampleRule] := by
  constructor <;> decide

/-- C25: `editorLoadHLDB` returns `true` on a file that holds no valid definition.
The file `c` of the sample file system can be opened and read, its content is no
valid definition, and the call returns `true` and leaves the database as it was. -/
theorem editorLoadHLDB_true_on_invalid :
    sampleOtherFiles.openFile [99] = some [67] ∧
    specDefinition sampleJson [67] = none ∧
    editorLoadHLDB sampleJson sampleOtherFiles [99] [sampleRule] = (true, [sampleRule]) := by
  refine ⟨rfl, ?_, ?_⟩ <;> decide

end Highlight

namespace Highlight

/-! ## Results on the class bytes -/

/-- C23: feature flags gate the classes.  On a file whose class arrays have one
byte per character and whose active rule is `s`, `editorUpdateSyntax` on the row `r`
returns; in the row `r`, and in every other row that the call changed, no byte has
the foreground class number when the flags of `s` lack `HL_HIGHLIGHT_NUMBERS`, and
no byte has the foreground class string when they lack `HL_HIGHLIGHT_STRINGS`.
The rule that `loadEditorConfigHLDB` puts in front of the database has the flags
`HL_HIGHLIGHT_STRINGS` only, so a row classified with it has no byte of the class
number; and every rule that `editorLoadJsonHLDB` returns `true` on has numbers and
strings enabled. -/
theorem feature_flags_gate (env : Externals) (file : EditorFile) (r fuel : Nat)
    (s : EditorSyntax) (cfg : ConfigNames) (HLDB : List EditorSyntax)
    (hr : r < file.row.length) (hv : ∀ x ∈ file.row, x.Valid)
    (hf : file.row.length ≤ r + 1 + fuel)
    (hact : activeRule env file.syntaxDef = some s) :
    (∃ f1, editorUpdateSyntax env fuel file r = some f1 ∧
      (∃ x, f1.row[r]? = some x ∧
        (s.flags &&& HL_HIGHLIGHT_NUMBERS = 0 → ∀ b ∈ x.hl, fgClass b ≠ HL_NUMBER) ∧
        (s.flags &&& HL_HIGHLIGHT_STRINGS = 0 → ∀ b ∈ x.hl, fgClass b ≠ HL_STRING)) ∧
      ∀ (j : Nat) (x : EditorRow), f1.row[j]? = some x → file.row[j]? = some x ∨
        ((s.flags &&& HL_HIGHLIGHT_NUMBERS = 0 → ∀ b ∈ x.hl, fgClass b ≠ HL_NUMBER) ∧
         (s.flags &&& HL_HIGHLIGHT_STRINGS = 0 → ∀ b ∈ x.hl, fgClass b ≠ HL_STRING))) ∧
    (∃ s0, loadEditorConfigHLDB cfg HLDB = s0 :: HLDB ∧ s0.flags = HL_HIGHLIGHT_STRINGS ∧
      ∀ data ic, ∀ b ∈ (freshRow env s0 data ic).hl, fgClass b ≠ HL_NUMBER) ∧
    ∀ (O : Type) (lib : JsonLib O) (json : List Nat) (s2 : EditorSyntax),
      editorLoadJsonHLDB lib json callocSyntax = (true, s2) →
        s2.flags = HL_HIGHLIGHT_NUMBERS ||| HL_HIGHLIGHT_STRINGS ∧
        s2.flags &&& HL_HIGHLIGHT_NUMBERS ≠ 0 ∧ s2.flags &&& HL_HIGHLIGHT_STRINGS ≠ 0 := by
  have hfresh : ∀ (data : List Nat) (ic : Bool),
      (s.flags &&& HL_HIGHLIGHT_NUMBERS = 0 →
        ∀ b ∈ (freshRow env s data ic).hl, fgClass b ≠ HL_NUMBER) ∧
      (s.flags &&& HL_HIGHLIGHT_STRINGS = 0 →
        ∀ b ∈ (freshRow env s data ic).hl, fgClass b ≠ HL_STRING) :=
    fun data ic =>
      ⟨fun h b hb => rowByte_no_number s b (freshRow_bytes env s data ic b hb) h,
       fun h b hb => rowByte_no_string s b (freshRow_bytes env s data ic b hb) h⟩
  refine ⟨⟨_, update_spec env file r fuel hr hv hf, ?_, ?_⟩, ?_, ?_⟩
  · refine ⟨_, updatedRows_get env file.syntaxDef file.row r hr, ?_⟩
    rw [hact]
    exact hfresh _ _
  · intro j x hx
    rcases updatedRows_row env file.syntaxDef file.row r j x hx with
      h | ⟨s2, data, ic, h1, h2⟩ | ⟨h1, -⟩
    · exact Or.inl h
    · rw [hact] at h1
      rw [h2, ← Option.some.inj h1]
      exact Or.inr (hfresh data ic)
    · rw [hact] at h1
      exact absurd h1 (by simp)
  · refine ⟨configSyntax cfg, rfl, rfl, ?_⟩
    intro data ic b hb
    exact rowByte_no_number _ b (freshRow_bytes env _ data ic b hb) (by
      rw [configSyntax_flags]; decide)
  · intro O lib json s2 h
    have h2 := loadJson_spec lib json
    cases hd : specDefinition lib json with
    | none =>
      rw [hd] at h2
      simp only at h2
      rw [h] at h2
      exact absurd h2 (by simp)
    | some s3 =>
      rw [hd] at h2
      simp only at h2
      rw [h] at h2
      have e : s2 = s3 := (Prod.mk.inj h2).2
      have hfl := specDefinition_flags lib json s3 hd
      rw [e, hfl]
      decide

theorem feature_flags_gate_witness :
    (∃ f1, editorUpdateSyntax sampleEnv 3 sampleText 0 = some f1 ∧
      (∃ x, f1.row[0]? = some x ∧
        (sampleRule.flags &&& HL_HIGHLIGHT_NUMBERS = 0 → ∀ b ∈ x.hl, fgClass b ≠ HL_NUMBER) ∧
        (sampleRule.flags &&& HL_HIGHLIGHT_STRINGS = 0 → ∀ b ∈ x.hl, fgClass b ≠ HL_STRING)) ∧
      ∀ (j : Nat) (x : EditorRow), f1.row[j]? = some x → sampleText.row[j]? = some x ∨
        ((sampleRule.flags &&& HL_HIGHLIGHT_NUMBERS = 0 →
            ∀ b ∈ x.hl, fgClass b ≠ HL_NUMBER) ∧
         (sampleRule.flags &&& HL_HIGHLIGHT_STRINGS = 0 →
            ∀ b ∈ x.hl, fgClass b ≠ HL_STRING))) ∧
    (∃ s0, loadEditorConfigHLDB sampleConfig [sampleRule] = s0 :: [sampleRule] ∧
      s0.flags = HL_HIGHLIGHT_STRINGS ∧
      ∀ data ic, ∀ b ∈ (freshRow sampleEnv s0 data ic).hl, fgClass b ≠ HL_NUMBER) ∧
    ∀ (O : Type) (lib : JsonLib O) (json : List Nat) (s2 : EditorSyntax),
      editorLoadJsonHLDB lib json callocSyntax = (true, s2) →
        s2.flags = HL_HIGHLIGHT_NUMBERS ||| HL_HIGHLIGHT_STRINGS ∧
        s2.flags &&& HL_HIGHLIGHT_NUMBERS ≠ 0 ∧ s2.flags &&& HL_HIGHLIGHT_STRINGS ≠ 0 :=
  feature_flags_gate sampleEnv sampleText 0 3 sampleRule sampleConfig [sampleRule]
    (by decide) (by decide) (by decide) (by decide)

/-- C24: byte layout.  The enumerators encode the keyword category `k` (1 to 3) as
`HL_KEYWORD1 + (k - 1)`, and a keyword that the scan finds in the category with
index `kw` (0 to 2) is written as `HL_KEYWORD1 + kw`.  The byte of the trailing
whitespace has the background trailing and the foreground normal.  On a file whose
class arrays have one byte per character, `editorUpdateSyntax` on the row `r`
returns, and every byte of the row `r`, and of every other row that the call
changed, decodes with `hl & HL_FG_MASK` and `hl >> HL_FG_BITS` to a foreground class
among normal, comment, keyword 1 to 3, string, number and to a background class
normal or trailing whitespace, a byte with the trailing background having the
foreground normal. -/
theorem byte_layout (env : Externals) (file : EditorFile) (r fuel : Nat)
    (hr : r < file.row.length) (hv : ∀ x ∈ file.row, x.Valid)
    (hf : file.row.length ≤ r + 1 + fuel) :
    (HL_KEYWORD1 = HL_KEYWORD1 + (1 - 1) ∧ HL_KEYWORD2 = HL_KEYWORD1 + (2 - 1) ∧
      HL_KEYWORD3 = HL_KEYWORD1 + (3 - 1)) ∧
    (∀ (s : EditorSyntax) (data : List Nat) (st st2 : ScanState),
      keyword env s data st = Flow.next st2 →
      ∃ kw k, kw < 3 ∧ k ∈ s.keywords.getD kw [] ∧ keywordAt env data st.i k = some true ∧
        memset st.hl st.i (HL_KEYWORD1 + kw) k.length = some st2.hl) ∧
    (fgClass (HL_BG_TRAILING <<< HL_FG_BITS) = HL_NORMAL ∧
      bgClass (HL_BG_TRAILING <<< HL_FG_BITS) = HL_BG_TRAILING) ∧
    ∃ f1, editorUpdateSyntax env fuel file r = some f1 ∧
      (∃ x, f1.row[r]? = some x ∧ ∀ b ∈ x.hl, Layout b) ∧
      ∀ (j : Nat) (x : EditorRow), f1.row[j]? = some x → file.row[j]? = some x ∨ ∀ b ∈ x.hl, Layout b := by
  have hplain : ∀ row : EditorRow, ∀ b ∈ (plainRow row).hl, Layout b := by
    intro row b hb
    rcases plainRow_bytes row b hb with h | h
    · rw [h]; decide
    · rw [h]; decide
  have hfresh : ∀ (s : EditorSyntax) (data : List Nat) (ic : Bool),
      ∀ b ∈ (freshRow env s data ic).hl, Layout b :=
    fun s data ic b hb => rowByte_layout s b (freshRow_bytes env s data ic b hb)
  refine ⟨⟨rfl, rfl, rfl⟩, ?_, ⟨by decide, by decide⟩,
    _, update_spec env file r fuel hr hv hf, ?_, ?_⟩
  · intro s data st st2 h
    obtain ⟨kw, k, h1, h2, h3, h4, -⟩ := keyword_next env s data st st2 h
    exact ⟨kw, k, h1, h2, h3, h4⟩
  · refine ⟨_, updatedRows_get env file.syntaxDef file.row r hr, ?_⟩
    cases ha : activeRule env file.syntaxDef with
    | none => exact hplain _
    | some s => exact hfresh s _ _
  · intro j x hx
    rcases updatedRows_row env file.syntaxDef file.row r j x hx with
      h | ⟨s2, data, ic, -, h2⟩ | ⟨-, row, h2⟩
    · exact Or.inl h
    · rw [h2]; exact Or.inr (hfresh s2 data ic)
    · rw [h2]; exact Or.inr (hplain row)

theorem byte_layout_witness :
    (HL_KEYWORD1 = HL_KEYWORD1 + (1 - 1) ∧ HL_KEYWORD2 = HL_KEYWORD1 + (2 - 1) ∧
      HL_KEYWORD3 = HL_KEYWORD1 + (3 - 1)) ∧
    (∀ (s : EditorSyntax) (data : List Nat) (st st2 : ScanState),
      keyword sampleEnv s data st = Flow.next st2 →
      ∃ kw k, kw < 3 ∧ k ∈ s.keywords.getD kw [] ∧
        keywordAt sampleEnv data st.i k = some true ∧
        memset st.hl st.i (HL_KEYWORD1 + kw) k.length = some st2.hl) ∧
    (fgClass (HL_BG_TRAILING <<< HL_FG_BITS) = HL_NORMAL ∧
      bgClass (HL_BG_TRAILING <<< HL_FG_BITS) = HL_BG_TRAILING) ∧
    ∃ f1, editorUpdateSyntax sampleEnv 3 sampleText 1 = some f1 ∧
      (∃ x, f1.row[1]? = some x ∧ ∀ b ∈ x.hl, Layout b) ∧
      ∀ (j : Nat) (x : EditorRow), f1.row[j]? = some x → sampleText.row[j]? = some x ∨ ∀ b ∈ x.hl, Layout b :=
  byte_layout sampleEnv sampleText 1 3 (by decide) (by decide) (by decide)

end Highlight

namespace Highlight

/-! ## Results on comments -/

/-- C29: line comment.  Let the active rule have a non-empty line-comment token, and
let the scan of the row `r` reach, after `n` iterations, a state `st` outside a
string and outside a block comment at whose position the token matches.  Then the
scan stops there: it returns the state `st` with the class comment written from that
position to the end of the row, whatever the text after the position is.  So
`editorUpdateSyntax` on the row `r` returns, the outgoing state of the row is
`false`, and every position from there to the end of the row holds the class
comment, the positions from the start `t` of the trailing whitespace on holding the
byte of the trailing whitespace instead. -/
theorem line_comment_rest (env : Externals) (file : EditorFile) (r fuel n t : Nat)
    (s : EditorSyntax) (row : EditorRow) (st : ScanState)
    (hrow : file.row[r]? = some row) (hv : ∀ x ∈ file.row, x.Valid)
    (hf : file.row.length ≤ r + 1 + fuel)
    (hact : activeRule env file.syntaxDef = some s)
    (hscs : tokLen s.singleline_comment_start ≠ 0)
    (hreach : scanSteps env s row.data n (scanStart row.data (lastOpen (file.row.take r))) =
      some st)
    (hstr : st.in_string = 0) (hcom : st.in_comment = false)
    (htok : tokAt row.data st.i s.singleline_comment_start = true)
    (ht : t ≤ row.data.length)
    (hblank : ∀ j, t ≤ j → j < row.data.length →
      row.data[j]? = some 32 ∨ row.data[j]? = some 9)
    (hmax : t = 0 ∨ (row.data[t - 1]? ≠ some 32 ∧ row.data[t - 1]? ≠ some 9)) :
    scanRow env s row.data (lastOpen (file.row.take r)) =
      some { st with
        hl := st.hl.take st.i ++ List.replicate (row.data.length - st.i) HL_COMMENT } ∧
    ∃ f1 x, editorUpdateSyntax env fuel file r = some f1 ∧ f1.row[r]? = some x ∧
      x.hl_open_comment = false ∧
      ∀ j, st.i ≤ j → j < row.data.length →
        x.hl[j]? = some (if t ≤ j then HL_BG_TRAILING <<< HL_FG_BITS else HL_COMMENT) := by
  have hr : r < file.row.length := getElem?_lt2 hrow
  have hrr : file.row[r] = row := by
    rw [List.getElem?_eq_getElem hr] at hrow
    exact Option.some.inj hrow
  obtain ⟨fuel2, hm2, hl2, heq⟩ := scanLoop_of_steps env s row.data n _ _ st hreach
    (scanStart_measure row.data _) (by simp [scanStart])
  have hscan : scanRow env s row.data (lastOpen (file.row.take r)) =
      some { st with
        hl := st.hl.take st.i ++ List.replicate (row.data.length - st.i) HL_COMMENT } := by
    rw [scanRow_eq, heq]
    exact scanLoop_lineComment env s row.data fuel2 st hm2 hl2 hscs hstr hcom htok
  refine ⟨hscan, _, _, update_spec env file r fuel hr hv hf,
    updatedRows_get env file.syntaxDef file.row r hr, ?_, ?_⟩
  · rw [hact, hrr]
    simp only [freshRow, hscan]
    exact hcom
  · intro j hj1 hj2
    have hi := tokAt_le htok
    have hlen : (st.hl.take st.i ++
        List.replicate (row.data.length - st.i) HL_COMMENT).length = row.data.length := by
      rw [List.length_append, List.length_take, List.length_replicate]
      omega
    rw [hact, hrr]
    simp only [freshRow, hscan]
    rw [updateTrailing_eq row.data row.data.length _ t (Nat.le_refl _) hlen ht hblank hmax,
      Option.getD_some, List.drop_eq_nil_of_le (by omega), List.append_nil]
    by_cases htj : t ≤ j
    · rw [if_pos htj, List.getElem?_append_right (by rw [List.length_take]; omega),
        List.getElem?_replicate, if_pos (by rw [List.length_take]; omega)]
    · rw [if_neg htj, List.getElem?_append_left (by rw [List.length_take]; omega),
        List.getElem?_take, if_pos (by omega),
        List.getElem?_append_right (by rw [List.length_take]; omega),
        List.getElem?_replicate, if_pos (by rw [List.length_take]; omega)]

theorem line_comment_rest_witness :
    scanRow sampleEnv sampleRule [97, 32, 47, 47] (lastOpen (sampleLineFile.row.take 0)) =
      some { i := 2, prev_sep := true, in_string := 0, in_comment := false,
             hl := ([0, 0, 0, 0] : List Nat).take 2 ++
               List.replicate ([97, 32, 47, 47].length - 2) HL_COMMENT } ∧
    ∃ f1 x, editorUpdateSyntax sampleEnv 1 sampleLineFile 0 = some f1 ∧
      f1.row[0]? = some x ∧ x.hl_open_comment = false ∧
      ∀ j, 2 ≤ j → j < [97, 32, 47, 47].length →
        x.hl[j]? = some (if 4 ≤ j then HL_BG_TRAILING <<< HL_FG_BITS else HL_COMMENT) :=
  line_comment_rest sampleEnv sampleLineFile 0 1 2 4 sampleRule
    { data := [97, 32, 47, 47], hl := [0, 0, 0, 0], hl_open_comment := true }
    { i := 2, prev_sep := true, in_string := 0, in_comment := false, hl := [0, 0, 0, 0] }
    rfl (by decide) (by decide) (by decide) (by decide) (by decide) rfl rfl (by decide)
    (by decide)
    (fun j h1 h2 => by
      simp only [List.length_cons, List.length_nil] at h2
      omega)
    (Or.inr ⟨by decide, by decide⟩)

end Highlight

namespace Highlight

/-- C30: a block-comment start right after a block-comment end is not seen.  In the
row `/*a*//*b` under `sampleRule` (line comment `//`, block comment `/*` ... `*/`),
scanned with the incoming state `false`, the start token matches at the position 5,
outside any string and any line comment, and no end token follows it.  The scan
leaves the comment at the end token of the positions 3 and 4 and goes on at the
position 6, not 5: the positions 5 to 7 keep the class normal, and
`editorUpdateSyntax` leaves the row with the outgoing state `false` and does not
touch the next row. -/
theorem block_comment_start_skipped :
    tokAt sampleTwoComments 5 sampleRule.multiline_comment_start = true ∧
    (∀ j < 8, 5 ≤ j → tokAt sampleTwoComments j sampleRule.multiline_comment_end = false) ∧
    scanRow sampleEnv sampleRule sampleTwoComments false =
      some { i := 8, prev_sep := false, in_string := 0, in_comment := false,
             hl := [1, 1, 1, 1, 1, 0, 0, 0] } ∧
    editorUpdateSyntax sampleEnv 2 sampleTwoCommentsFile 0 =
      some { sampleTwoCommentsFile with
        row :=
          [{ data := sampleTwoComments, hl := [1, 1, 1, 1, 1, 0, 0, 0],
             hl_open_comment := false },
           { data := [99], hl := [0], hl_open_comment := false }] } := by
  refine ⟨by decide, by decide, by decide!, by decide!⟩

end Highlight

namespace BuildNum

/-! ## The build number up to the year 2100 -/

theorem daysBeforeYear_eq (year : Nat) :
    daysBeforeYear year =
      365 * year + (year + 3) / 4 - (year + 99) / 100 + (year + 399) / 400 := by
  induction year with
  | zero => rfl
  | succ y ih =>
    rw [daysBeforeYear, ih]
    unfold isLeapYear
    by_cases h4 : y % 4 = 0 <;> by_cases h100 : y % 100 = 0 <;> by_cases h400 : y % 400 = 0 <;>
      simp [h4, h100, h400] <;> omega

theorem mon_three (month : Nat) (hm : month < 12) :
    ∃ a b c, mon.getD month [] = [a, b, c] := by
  have h : month = 0 ∨ month = 1 ∨ month = 2 ∨ month = 3 ∨ month = 4 ∨ month = 5 ∨
      month = 6 ∨ month = 7 ∨ month = 8 ∨ month = 9 ∨ month = 10 ∨ month = 11 := by omega
  rcases h with h | h | h | h | h | h | h | h | h | h | h | h <;> subst h <;>
    exact ⟨_, _, _, rfl⟩

theorem monthLoop_congr (date date2 : List Nat) (h : date.take 3 = date2.take 3) :
    ∀ (fuel m : Nat) (d : Int), monthLoop date fuel m d = monthLoop date2 fuel m d
  | 0, _, _ => rfl
  | fuel + 1, m, d => by
    rw [monthLoop, monthLoop, h, monthLoop_congr date date2 h fuel]

theorem monthLoop_names :
    ∀ month < 12, monthLoop (mon.getD month []) 11 0 0 =
      (month, ((daysBeforeMonth 1 month : Nat) : Int)) := by
  decide

/-- The month loop finds the month of a date string and adds up the days of the
months before it in a year that is no leap year. -/
theorem monthLoop_date (date : List Nat) (month : Nat) (hm : month < 12)
    (h : date.take 3 = mon.getD month []) :
    monthLoop date 11 0 0 = (month, ((daysBeforeMonth 1 month : Nat) : Int)) := by
  obtain ⟨a, b, c, hmon⟩ := mon_three month hm
  rw [monthLoop_congr date (mon.getD month []) (by rw [h, hmon]; rfl)]
  exact monthLoop_names month hm

theorem digitsValue_two (a b : Nat) (rest : List Nat) (ha : a ≤ 9) (hb : b ≤ 9) :
    digitsValue ((48 + a) :: (48 + b) :: 32 :: rest) 0 = ((10 * a + b : Nat) : Int) := by
  have h1 : Highlight.isdigit (48 + a) = true := by simp [Highlight.isdigit]; omega
  have h2 : Highlight.isdigit (48 + b) = true := by simp [Highlight.isdigit]; omega
  have h3 : Highlight.isdigit 32 = false := by decide
  simp only [digitsValue, h1, h2, h3, if_true, Bool.false_eq_true, if_false]
  push_cast
  ring

theorem digitsValue_four (a b c e : Nat) (ha : a ≤ 9) (hb : b ≤ 9) (hc : c ≤ 9) (he : e ≤ 9) :
    digitsValue [48 + a, 48 + b, 48 + c, 48 + e] 0 =
      ((1000 * a + 100 * b + 10 * c + e : Nat) : Int) := by
  have h1 : Highlight.isdigit (48 + a) = true := by simp [Highlight.isdigit]; omega
  have h2 : Highlight.isdigit (48 + b) = true := by simp [Highlight.isdigit]; omega
  have h3 : Highlight.isdigit (48 + c) = true := by simp [Highlight.isdigit]; omega
  have h4 : Highlight.isdigit (48 + e) = true := by simp [Highlight.isdigit]; omega
  simp only [digitsValue, h1, h2, h3, h4, if_true]
  push_cast
  ring

theorem atoi_digit (a : Nat) (rest : List Nat) (ha : a ≤ 9) :
    atoi ((48 + a) :: rest) = digitsValue ((48 + a) :: rest) 0 := by
  have hs : isspace (48 + a) = false := by
    simp [isspace]
    omega
  have hd : List.dropWhile isspace ((48 + a) :: rest) = (48 + a) :: rest := by
    simp [List.dropWhile, hs]
  unfold atoi
  rw [hd]
  split
  · rename_i heq
    have := (List.cons.inj heq).1
    omega
  · rename_i heq
    have := (List.cons.inj heq).1
    omega
  · rfl

theorem atoi_space (rest : List Nat) : atoi (32 :: rest) = atoi rest := by
  have hd : List.dropWhile isspace (32 :: rest) = List.dropWhile isspace rest := by
    simp [List.dropWhile, isspace]
  unfold atoi
  rw [hd]

theorem digitsValue_one (a : Nat) (rest : List Nat) (ha : a ≤ 9) :
    digitsValue ((48 + a) :: 32 :: rest) 0 = (a : Int) := by
  have h1 : Highlight.isdigit (48 + a) = true := by simp [Highlight.isdigit]; omega
  have h3 : Highlight.isdigit 32 = false := by decide
  simp only [digitsValue, h1, h3, if_true, Bool.false_eq_true, if_false]
  push_cast
  ring

/-- The parts of a date string: the month name, the day and the year as `atoi`
reads them. -/
theorem dateString_parts (year month day : Nat) (hy : year < 10000) (hm : month < 12)
    (hd1 : 1 ≤ day) (hd2 : day ≤ 31) :
    (dateString year month day).take 3 = mon.getD month [] ∧
    atoi ((dateString year month day).drop 4) = (day : Int) ∧
    atoi ((dateString year month day).drop 7) = (year : Int) := by
  obtain ⟨a, b, c, hmon⟩ := mon_three month hm
  have hyear : atoi [48 + year / 1000 % 10, 48 + year / 100 % 10, 48 + year / 10 % 10,
      48 + year % 10] = (year : Int) := by
    rw [atoi_digit _ _ (by omega), digitsValue_four _ _ _ _ (by omega) (by omega) (by omega)
      (by omega)]
    congr 1
    omega
  unfold dateString
  rw [hmon]
  by_cases hlt : day < 10
  · rw [if_pos hlt]
    refine ⟨rfl, ?_, hyear⟩
    show atoi (32 :: (48 + day) :: 32 :: _) = _
    rw [atoi_space, atoi_digit _ _ (by omega), digitsValue_one _ _ (by omega)]
  · rw [if_neg hlt]
    refine ⟨rfl, ?_, hyear⟩
    show atoi ((48 + day / 10) :: (48 + day % 10) :: 32 :: _) = _
    rw [atoi_digit _ _ (by omega), digitsValue_two _ _ _ (by omega) (by omega)]
    congr 1
    omega

theorem daysInMonth_congr (y1 y2 month : Nat) (h : isLeapYear y1 = isLeapYear y2) :
    daysInMonth y1 month = daysInMonth y2 month := by
  unfold daysInMonth
  rw [h]

theorem daysBeforeMonth_congr (y1 y2 : Nat) (h : isLeapYear y1 = isLeapYear y2) :
    ∀ month, daysBeforeMonth y1 month = daysBeforeMonth y2 month
  | 0 => rfl
  | month + 1 => by
    rw [daysBeforeMonth, daysBeforeMonth, daysBeforeMonth_congr y1 y2 h month,
      daysInMonth_congr y1 y2 month h]

theorem daysBeforeMonth_leap :
    ∀ month < 12, daysBeforeMonth 4 month =
      daysBeforeMonth 1 month + (if 2 ≤ month then 1 else 0) := by
  decide

theorem daysBeforeMonth_eq (year month : Nat) (hm : month < 12) :
    daysBeforeMonth year month =
      daysBeforeMonth 1 month + (if 2 ≤ month ∧ isLeapYear year = true then 1 else 0) := by
  cases hl : isLeapYear year with
  | false =>
    rw [daysBeforeMonth_congr year 1 (by rw [hl]; rfl) month]
    simp
  | true =>
    rw [daysBeforeMonth_congr year 4 (by rw [hl]; rfl) month, daysBeforeMonth_leap month hm]
    simp

/-- From Jan 1 2020 to Feb 28 2100 the build number is the number of calendar days
elapsed since Sep 13 2020 (negative before that day). -/
theorem build_number_until_2100 (year month day : Nat)
    (h1 : 2020 ≤ year) (h2 : year ≤ 2100) (h3 : year = 2100 → month ≤ 1)
    (hm : month < 12) (hd1 : 1 ≤ day) (hd2 : day ≤ 31) :
    (editorGetBuildNumber (dateString year month day) BuildState.initial).1 =
      daysSinceReference year month day := by
  obtain ⟨p1, p2, p3⟩ := dateString_parts year month day (by omega) hm hd1 hd2
  have hloop := monthLoop_date (dateString year month day) month hm p1
  have href : dayNumber 2020 8 13 = 738047 := by
    unfold dayNumber
    rw [daysBeforeYear_eq]
    decide
  have hleap : isLeapYear year = decide (year % 4 = 0 ∧ year ≠ 2100) := by
    unfold isLeapYear
    by_cases h4 : year % 4 = 0 <;> by_cases h100 : year % 100 = 0 <;>
      by_cases h400 : year % 400 = 0 <;> simp [h4, h100, h400] <;> omega
  have hbm := daysBeforeMonth_eq year month hm
  have hby := daysBeforeYear_eq year
  have hdiv : Int.tdiv (((year : Int) - 1900 - 1) * 1461) 4 =
      (((year : Int) - 1900 - 1) * 1461) / 4 :=
    Int.tdiv_eq_ediv (by omega) (by omega)
  have hmod : Int.tmod ((year : Int) - 1900) 4 = ((year : Int) - 1900) % 4 :=
    Int.tmod_eq_emod (by omega) (by omega)
  unfold editorGetBuildNumber computeBuildNumber daysSinceReference
  simp only [BuildState.initial, Bool.not_false, if_true, hloop, p2, p3, hdiv, hmod, href]
  unfold dayNumber
  rw [hbm, hby, hleap]
  clear hbm hby hloop p1 p2 p3 hdiv hmod href hleap
  generalize daysBeforeMonth 1 month = q
  by_cases hl : year % 4 = 0 ∧ year ≠ 2100
  · have hl2 : ((year : Int) - 1900) % 4 = 0 := by omega
    have hdec : decide (year % 4 = 0 ∧ year ≠ 2100) = true := decide_eq_true hl
    by_cases hm2 : 2 ≤ month
    · rw [if_pos ⟨hl2, hm2⟩, if_pos ⟨hm2, hdec⟩]
      push_cast
      omega
    · rw [if_neg (fun h => hm2 h.2), if_neg (fun h => hm2 h.1)]
      push_cast
      omega
  · have hdec : ¬ (decide (year % 4 = 0 ∧ year ≠ 2100) = true) := by
      rw [decide_eq_true_eq]
      exact hl
    have hm3 : ¬ (((year : Int) - 1900) % 4 = 0 ∧ month > 1) := by
      rintro ⟨ha, hb⟩
      have h4 : year % 4 = 0 := by omega
      have h5 : year = 2100 := by
        by_contra hne
        exact hl ⟨h4, hne⟩
      have := h3 h5
      omega
    rw [if_neg hm3, if_neg (fun h => hdec h.2)]
    push_cast
    omega

end BuildNum

namespace BuildNum

/-! ## Results on the build number -/

/-- C26: the build number counts a day too many from Mar 1 2100 on.  The function
returns 0 for Sep 13 2020, 1 for Sep 14 2020 and 365 for Sep 13 2021, as many as the
calendar days elapsed, and a second call returns the cached value.  For the string
`Mar  1 2100` it returns 29024, while 29023 calendar days have elapsed: the year
2100 is divisible by 4 and no leap year, and `computeBuildNumber` adds a day for
it. -/
theorem build_number_mar_2100 :
    (editorGetBuildNumber (dateString 2020 8 13) BuildState.initial).1 = 0 ∧
    (editorGetBuildNumber (dateString 2020 8 14) BuildState.initial).1 = 1 ∧
    (editorGetBuildNumber (dateString 2021 8 13) BuildState.initial).1 = 365 ∧
    daysSinceReference 2021 8 13 = 365 ∧
    dateString 2100 2 1 = [77, 97, 114, 32, 32, 49, 32, 50, 49, 48, 48] ∧
    (editorGetBuildNumber (dateString 2100 2 1) BuildState.initial).1 = 29024 ∧
    daysSinceReference 2100 2 1 = 29023 ∧
    (editorGetBuildNumber (dateString 2100 2 1)
      (editorGetBuildNumber (dateString 2100 2 1) BuildState.initial).2).1 = 29024 := by
  refine ⟨by decide, by decide, by decide, by decide!, by decide, by decide, by decide!,
    by decide⟩

end BuildNum

namespace Console

/-! ## The ring of console messages -/

theorem tmod_succ_cast (a n : Nat) :
    Int.tmod ((a : Int) + 1) (n : Int) = (((a + 1) % n : Nat) : Int) := by
  rw [Int.tmod_eq_emod (by omega) (by omega)]
  push_cast
  rfl

theorem mod_succ_mod (a n : Nat) : (a % n + 1) % n = (a + 1) % n := by
  rw [Nat.add_mod, Nat.mod_mod, ← Nat.add_mod]

theorem conInv_clear (p : ConParams) (st : ConState)
    (hslots : st.con_msg.length = p.EDITOR_CON_COUNT) :
    ConInv p [] (editorMsgClear st) := by
  refine ⟨hslots, ?_, ?_, ?_, ?_⟩
  · simp [editorMsgClear]
  · simp [editorMsgClear]
  · simp [editorMsgClear]
  · intro j text h
    simp at h

theorem mod_ne_of_lt (n j k : Nat) (hjk : j < k) (hk : k < j + n) : j % n ≠ k % n := by
  intro h
  have h1 : (k - j) % n = 0 := by
    have := Nat.sub_mod_eq_zero_of_mod_eq h.symm
    exact this
  have h2 : k - j < n := by omega
  rw [Nat.mod_eq_of_lt h2] at h1
  omega

/-- One call of `editorMsg` keeps the invariant of the ring. -/
theorem conInv_msg (p : ConParams) (msgs : List (List Nat)) (text : List Nat)
    (st : ConState) (hN : 0 < p.EDITOR_CON_COUNT) (hL : 0 < p.EDITOR_CON_LENGTH)
    (h : ConInv p msgs st) :
    ∃ st2, editorMsg p text st = some st2 ∧ ConInv p (msgs ++ [text]) st2 := by
  obtain ⟨hslots, hrear, hsize, hfront, hmsg⟩ := h
  have hlt : msgs.length % p.EDITOR_CON_COUNT < p.EDITOR_CON_COUNT := Nat.mod_lt _ hN
  have hcond : 0 ≤ st.con_rear ∧ st.con_rear < (st.con_msg.length : Int) := by
    rw [hrear, hslots]
    omega
  have htoNat : st.con_rear.toNat = msgs.length % p.EDITOR_CON_COUNT := by
    rw [hrear]
    exact Int.toNat_ofNat _
  obtain ⟨old0, hget⟩ : ∃ old, st.con_msg[msgs.length % p.EDITOR_CON_COUNT]? = some old :=
    ⟨_, List.getElem?_eq_getElem (by rw [hslots]; exact hlt)⟩
  have hv : ∀ old, vsnprintf p old text = text.take (p.EDITOR_CON_LENGTH - 1) := by
    intro old
    unfold vsnprintf
    rw [if_neg (by omega)]
  have hslot : ∀ j t, (msgs ++ [text])[j]? = some t →
      (msgs ++ [text]).length ≤ j + p.EDITOR_CON_COUNT →
      (st.con_msg.set (msgs.length % p.EDITOR_CON_COUNT)
        (text.take (p.EDITOR_CON_LENGTH - 1)))[j % p.EDITOR_CON_COUNT]? =
        some (t.take (p.EDITOR_CON_LENGTH - 1)) := by
    intro j t hj hle
    rw [List.length_append, List.length_singleton] at hle
    by_cases hjk : j < msgs.length
    · rw [List.getElem?_append_left hjk] at hj
      rw [List.getElem?_set_ne (mod_ne_of_lt _ j msgs.length hjk (by omega)).symm]
      exact hmsg j t hj (by omega)
    · have hjl := Highlight.getElem?_lt2 hj
      rw [List.length_append, List.length_singleton] at hjl
      have hje : j = msgs.length := by omega
      rw [hje, List.getElem?_append_right (Nat.le_refl _), Nat.sub_self,
        List.getElem?_cons_zero] at hj
      rw [hje, List.getElem?_set_self (by rw [hslots]; exact hlt), ← Option.some.inj hj]
  unfold editorMsg
  rw [if_pos hcond, htoNat, hget]
  simp only [hv]
  refine ⟨_, rfl, ?_⟩
  by_cases hk0 : msgs.length = 0
  · have hf : st.con_front = -1 := by rw [hfront, if_pos hk0]
    have hr : st.con_rear = 0 := by rw [hrear, hk0]; simp
    rw [if_neg (by rw [hf, hr]; decide), if_pos hf]
    refine ⟨by simp [hslots], ?_, ?_, ?_, ?_⟩
    · simp only [hr, List.length_append, List.length_singleton, hk0]
      have := tmod_succ_cast 0 p.EDITOR_CON_COUNT
      simpa using this
    · simp only [hsize, List.length_append, List.length_singleton, hk0]
      have : min 1 p.EDITOR_CON_COUNT = 1 := by omega
      simp [this]
    · simp only [List.length_append, List.length_singleton, hk0]
      rw [if_neg (by omega), if_pos (by omega)]
    · simp only [hk0] at hslot
      simpa [hk0] using hslot
  · by_cases hkN : msgs.length < p.EDITOR_CON_COUNT
    · have hf : st.con_front = 0 := by rw [hfront, if_neg hk0, if_pos (by omega)]
      have hr : st.con_rear = (msgs.length : Int) := by
        rw [hrear, Nat.mod_eq_of_lt hkN]
      rw [if_neg (by rw [hf, hr]; omega), if_neg (by rw [hf]; decide)]
      refine ⟨by simp [hslots], ?_, ?_, ?_, hslot⟩
      · simp only [hr, List.length_append, List.length_singleton]
        exact tmod_succ_cast _ _
      · simp only [hsize, List.length_append, List.length_singleton]
        have h1 : min msgs.length p.EDITOR_CON_COUNT = msgs.length := by omega
        have h2 : min (msgs.length + 1) p.EDITOR_CON_COUNT = msgs.length + 1 := by omega
        rw [h1, h2]
        push_cast
        rfl
      · simp only [List.length_append, List.length_singleton]
        rw [if_neg (by omega), if_pos (by omega)]
        exact hf
    · have hf : st.con_front = ((msgs.length % p.EDITOR_CON_COUNT : Nat) : Int) := by
        rw [hfront, if_neg hk0]
        by_cases he : msgs.length ≤ p.EDITOR_CON_COUNT
        · have : msgs.length = p.EDITOR_CON_COUNT := by omega
          rw [if_pos he, this, Nat.mod_self]
          rfl
        · rw [if_neg he]
      rw [if_pos (by rw [hf, hrear])]
      refine ⟨by simp [hslots], ?_, ?_, ?_, hslot⟩
      · simp only [hrear, List.length_append, List.length_singleton]
        rw [tmod_succ_cast, mod_succ_mod]
      · simp only [hsize, List.length_append, List.length_singleton]
        have h1 : min msgs.length p.EDITOR_CON_COUNT = p.EDITOR_CON_COUNT := by omega
        have h2 : min (msgs.length + 1) p.EDITOR_CON_COUNT = p.EDITOR_CON_COUNT := by omega
        rw [h1, h2]
        omega
      · simp only [hf, List.length_append, List.length_singleton]
        rw [if_neg (by omega), if_neg (by omega), tmod_succ_cast, mod_succ_mod]

/-- A sequence of calls of `editorMsg` returns and keeps the invariant of the
ring. -/
theorem conInv_msgs (p : ConParams) (hN : 0 < p.EDITOR_CON_COUNT)
    (hL : 0 < p.EDITOR_CON_LENGTH) :
    ∀ (rest done : List (List Nat)) (st : ConState), ConInv p done st →
      ∃ st2, editorMsgs p rest st = some st2 ∧ ConInv p (done ++ rest) st2
  | [], done, st, h => ⟨st, rfl, by rw [List.append_nil]; exact h⟩
  | text :: rest, done, st, h => by
    obtain ⟨st1, h1, h2⟩ := conInv_msg p done text st hN hL h
    obtain ⟨st2, h3, h4⟩ := conInv_msgs p hN hL rest (done ++ [text]) st1 h2
    refine ⟨st2, ?_, ?_⟩
    · simp only [editorMsgs, h1, h3]
    · rw [List.append_assoc, List.singleton_append] at h4
      exact h4

/-- The loop of `editorDrawConMsg` draws the texts `out` when they are in the slots
from the index `idx` on, in ring order. -/
theorem drawLoop_spec (p : ConParams) (con_msg : List (List Nat))
    (hN : 0 < p.EDITOR_CON_COUNT) (hslots : con_msg.length = p.EDITOR_CON_COUNT) :
    ∀ (out : List (List Nat)) (idx : Nat), idx < p.EDITOR_CON_COUNT →
      (∀ i x, out[i]? = some x → con_msg[(idx + i) % p.EDITOR_CON_COUNT]? = some x) →
      drawLoop p con_msg out.length (idx : Int) = some out
  | [], _, _, _ => rfl
  | x :: out, idx, hidx, h => by
    have h0 := h 0 x (List.getElem?_cons_zero)
    rw [Nat.add_zero, Nat.mod_eq_of_lt hidx] at h0
    have hrest := drawLoop_spec p con_msg hN hslots out ((idx + 1) % p.EDITOR_CON_COUNT)
      (Nat.mod_lt _ hN) (by
        intro i y hy
        have h1 := h (i + 1) y (by rw [List.getElem?_cons_succ]; exact hy)
        rw [Nat.add_mod, Nat.mod_mod, ← Nat.add_mod]
        have e : idx + 1 + i = idx + (i + 1) := by omega
        rw [e]
        exact h1)
    rw [List.length_cons, drawLoop, if_pos ⟨by omega, by rw [hslots]; omega⟩,
      Int.toNat_ofNat, h0, tmod_succ_cast, hrest]

/-- What `editorDrawConMsg` draws in a state that satisfies the invariant of the
ring: the last `con_size` messages, oldest first, each as it was cut to the size of
a slot. -/
theorem conInv_draw (p : ConParams) (msgs : List (List Nat)) (st : ConState)
    (hN : 0 < p.EDITOR_CON_COUNT) (h : ConInv p msgs st) :
    editorDrawConMsg p st =
      some ((msgs.drop (msgs.length - min msgs.length p.EDITOR_CON_COUNT)).map
        (fun text => text.take (p.EDITOR_CON_LENGTH - 1))) := by
  obtain ⟨hslots, -, hsize, hfront, hmsg⟩ := h
  unfold editorDrawConMsg
  by_cases hk0 : msgs.length = 0
  · have hnil : msgs = [] := List.length_eq_zero.mp hk0
    rw [if_pos (by rw [hsize, hk0]; simp), hnil]
    simp
  · rw [if_neg (by rw [hsize]; omega)]
    have hlen : ((msgs.drop (msgs.length - min msgs.length p.EDITOR_CON_COUNT)).map
        (fun text => text.take (p.EDITOR_CON_LENGTH - 1))).length =
        min msgs.length p.EDITOR_CON_COUNT := by
      rw [List.length_map, List.length_drop]
      omega
    have hcount : st.con_size.toNat =
        ((msgs.drop (msgs.length - min msgs.length p.EDITOR_CON_COUNT)).map
          (fun text => text.take (p.EDITOR_CON_LENGTH - 1))).length := by
      rw [hlen, hsize]
      exact Int.toNat_ofNat _
    have hslot : ∀ (idx : Nat),
        (∀ i, i < min msgs.length p.EDITOR_CON_COUNT →
          (idx + i) % p.EDITOR_CON_COUNT =
            (msgs.length - min msgs.length p.EDITOR_CON_COUNT + i) % p.EDITOR_CON_COUNT) →
        ∀ i x, ((msgs.drop (msgs.length - min msgs.length p.EDITOR_CON_COUNT)).map
          (fun text => text.take (p.EDITOR_CON_LENGTH - 1)))[i]? = some x →
          st.con_msg[(idx + i) % p.EDITOR_CON_COUNT]? = some x := by
      intro idx hidx i x hx
      have hi := Highlight.getElem?_lt2 hx
      rw [hlen] at hi
      rw [List.getElem?_map, List.getElem?_drop] at hx
      cases ht : msgs[msgs.length - min msgs.length p.EDITOR_CON_COUNT + i]? with
      | none => rw [ht] at hx; exact absurd hx (by simp)
      | some text =>
        rw [ht] at hx
        simp only [Option.map_some', Option.some.injEq] at hx
        rw [hidx i hi, ← hx]
        exact hmsg _ text ht (by omega)
    rw [hcount]
    by_cases hkN : msgs.length ≤ p.EDITOR_CON_COUNT
    · rw [hfront, if_neg hk0, if_pos hkN]
      exact drawLoop_spec p st.con_msg hN hslots _ 0 hN (hslot 0 (by
        intro i _
        have e : msgs.length - min msgs.length p.EDITOR_CON_COUNT = 0 := by omega
        rw [e]))
    · rw [hfront, if_neg hk0, if_neg hkN]
      exact drawLoop_spec p st.con_msg hN hslots _ _ (Nat.mod_lt _ hN) (hslot _ (by
        intro i _
        have e : min msgs.length p.EDITOR_CON_COUNT = p.EDITOR_CON_COUNT := by omega
        rw [e, Nat.add_mod, Nat.mod_mod, ← Nat.add_mod]
        have e2 : msgs.length + i =
            msgs.length - p.EDITOR_CON_COUNT + i + p.EDITOR_CON_COUNT := by omega
        rw [e2, Nat.add_mod_right]))

theorem map_take_of_fit (n : Nat) :
    ∀ (msgs : List (List Nat)), (∀ text ∈ msgs, text.length < n) →
      msgs.map (fun text => text.take (n - 1)) = msgs
  | [], _ => rfl
  | text :: rest, h => by
    rw [List.map_cons, map_take_of_fit n rest (fun t ht => h t (List.mem_cons_of_mem _ ht)),
      List.take_of_length_le (by have := h text (List.mem_cons_self _ _); omega)]

end Console

namespace Console

/-! ## Results on the console messages -/

/-- C27: console message ring buffer.  With at least one slot of at least one byte,
`editorMsgClear` followed by one call of `editorMsg` for each of the `k` texts
`msgs` (`k` may be 0) returns; afterwards `con_size = min(k, EDITOR_CON_COUNT)`,
`0 <= con_rear < EDITOR_CON_COUNT`, and `editorDrawConMsg` reads, from `con_front`
on in ring order, exactly the most recent `con_size` messages, oldest first, each
as `vsnprintf` cut it to the size of a slot; so the messages themselves when they
fit into a slot. -/
theorem console_ring (p : ConParams) (st0 : ConState) (msgs : List (List Nat))
    (hN : 0 < p.EDITOR_CON_COUNT) (hL : 0 < p.EDITOR_CON_LENGTH)
    (hslots : st0.con_msg.length = p.EDITOR_CON_COUNT) :
    ∃ st, editorMsgs p msgs (editorMsgClear st0) = some st ∧
      st.con_size = ((min msgs.length p.EDITOR_CON_COUNT : Nat) : Int) ∧
      0 ≤ st.con_rear ∧ st.con_rear < (p.EDITOR_CON_COUNT : Int) ∧
      editorDrawConMsg p st =
        some ((msgs.drop (msgs.length - min msgs.length p.EDITOR_CON_COUNT)).map
          (fun text => text.take (p.EDITOR_CON_LENGTH - 1))) ∧
      ((∀ text ∈ msgs, text.length < p.EDITOR_CON_LENGTH) →
        editorDrawConMsg p st =
          some (msgs.drop (msgs.length - min msgs.length p.EDITOR_CON_COUNT))) := by
  obtain ⟨st, h1, h2⟩ := conInv_msgs p hN hL msgs [] (editorMsgClear st0)
    (conInv_clear p st0 hslots)
  rw [List.nil_append] at h2
  have hdraw := conInv_draw p msgs st hN h2
  obtain ⟨-, hrear, hsize, -, -⟩ := h2
  have hlt : msgs.length % p.EDITOR_CON_COUNT < p.EDITOR_CON_COUNT := Nat.mod_lt _ hN
  refine ⟨st, h1, hsize, by rw [hrear]; omega, by rw [hrear]; omega, hdraw, ?_⟩
  intro hfit
  rw [hdraw, map_take_of_fit p.EDITOR_CON_LENGTH _
    (fun t ht => hfit t (List.mem_of_mem_drop ht))]

theorem console_ring_witness :
    ∃ st, editorMsgs sampleParams [[97], [98], [99], [100], [101]]
        (editorMsgClear sampleConsole) = some st ∧
      st.con_size =
        ((min [[97], [98], [99], [100], [101]].length sampleParams.EDITOR_CON_COUNT : Nat) : Int) ∧
      0 ≤ st.con_rear ∧ st.con_rear < (sampleParams.EDITOR_CON_COUNT : Int) ∧
      editorDrawConMsg sampleParams st =
        some (([[97], [98], [99], [100], [101]].drop
          ([[97], [98], [99], [100], [101]].length -
            min [[97], [98], [99], [100], [101]].length sampleParams.EDITOR_CON_COUNT)).map
          (fun text => text.take (sampleParams.EDITOR_CON_LENGTH - 1))) ∧
      ((∀ text ∈ [[97], [98], [99], [100], [101]],
          text.length < sampleParams.EDITOR_CON_LENGTH) →
        editorDrawConMsg sampleParams st =
          some ([[97], [98], [99], [100], [101]].drop
            ([[97], [98], [99], [100], [101]].length -
              min [[97], [98], [99], [100], [101]].length sampleParams.EDITOR_CON_COUNT))) :=
  console_ring sampleParams sampleConsole [[97], [98], [99], [100], [101]]
    (by decide) (by decide) (by decide)

end Console

namespace Find

/-! ## Results on the incremental search -/

/-- C28: after a wrap to the first match, `current` is not the index of the match.
In the row `ab ab` with the cursor in the column 4, a first call for the query `ab`
finds the two matches at the columns 0 and 3; no match is at or after the cursor, so
the cursor goes to the first match, at the column 0, but `current` is left at 2 and
the right prompt reads `2 of 2`.  The key `ARROW_DOWN` then selects the second match
and makes `current` 3, with `total` 2. -/
theorem find_wrap_leaves_current :
    editorFindCallback sampleFindEnv [97, 98] 98 FindState.initial sampleFindFile =
      some
        ({ prev_query := some [97, 98]
           nodes := [{ row := 0, col := 0 }, { row := 0, col := 3 }]
           match_node := some 0
           saved_hl := some (0, 0, [0, 0])
           total := 2
           current := 2
           right_prompt := RightPrompt.position 2 2 },
         { row := [{ data := [97, 98, 32, 97, 98], hl := [16, 16, 0, 0, 0],
                     hl_open_comment := false }]
           cursor_x := 0
           cursor_y := 0 }) ∧
    editorFindCallback sampleFindEnv [97, 98] sampleFindEnv.ARROW_DOWN
        { prev_query := some [97, 98]
          nodes := [{ row := 0, col := 0 }, { row := 0, col := 3 }]
          match_node := some 0
          saved_hl := some (0, 0, [0, 0])
          total := 2
          current := 2
          right_prompt := RightPrompt.position 2 2 }
        { row := [{ data := [97, 98, 32, 97, 98], hl := [16, 16, 0, 0, 0],
                    hl_open_comment := false }]
          cursor_x := 0
          cursor_y := 0 } =
      some
        ({ prev_query := some [97, 98]
           nodes := [{ row := 0, col := 0 }, { row := 0, col := 3 }]
           match_node := some 1
           saved_hl := some (0, 3, [0, 0])
           total := 2
           current := 3
           right_prompt := RightPrompt.position 3 2 },
         { row := [{ data := [97, 98, 32, 97, 98], hl := [0, 0, 0, 16, 16],
                     hl_open_comment := false }]
           cursor_x := 3
           cursor_y := 0 }) := by
  constructor <;> decide

end Find

namespace Highlight

/-! ## The keyword that the scan finds -/

/-- The keyword test at a position: the text of the keyword stands in the row at the
position, and the character after it is absent or a non-identifier character. -/
theorem keywordAt_iff (env : Externals) (data : List Nat) (i : Nat) (k : List Nat)
    (hi : i ≤ data.length) :
    keywordAt env data i k = some true ↔
      (i + k.length ≤ data.length ∧ (data.drop i).take k.length = k ∧
        (i + k.length = data.length ∨
          ∃ d, data[i + k.length]? = some d ∧ env.isNonIdentifierChar d = true)) := by
  unfold keywordAt strncmpEq
  constructor
  · intro h
    split at h
    · rename_i hk
      obtain ⟨hk1, hk2⟩ := hk
      have heq : (data.drop i).take k.length = k := by simpa using hk2
      split at h
      · rename_i he
        exact ⟨by omega, heq, Or.inl he⟩
      · rename_i hne
        have hlt : i + k.length < data.length := by omega
        rw [List.getElem?_eq_getElem hlt] at h
        simp only [Option.some.injEq] at h
        exact ⟨by omega, heq, Or.inr ⟨_, List.getElem?_eq_getElem hlt, h⟩⟩
    · exact absurd h (by simp)
  · rintro ⟨h1, h2, h3⟩
    rw [if_pos ⟨by omega, by simpa using h2⟩]
    rcases h3 with h3 | ⟨d, hd, hn⟩
    · rw [if_pos h3]
    · have hlt := getElem?_lt2 hd
      rw [if_neg (by omega), hd]
      simp only [hn]

/-- The outer keyword loop finds the first keyword that passes the test, in the
order category 1, 2, 3 and within a category in the stored order: the keywords
before it in its category and all keywords of the categories before fail the test. -/
theorem findKeywordFrom_first (env : Externals) (s : EditorSyntax) (data : List Nat) (i : Nat)
    (hi : i ≤ data.length) :
    ∀ (n kw : Nat),
      (findKeywordFrom env s data i n kw = some none ∧
        ∀ kw2, kw ≤ kw2 → kw2 < kw + n → ∀ k ∈ s.keywords.getD kw2 [],
          keywordAt env data i k = some false) ∨
      ∃ kw2 pre k post, findKeywordFrom env s data i n kw = some (some (kw2, k.length)) ∧
        kw ≤ kw2 ∧ kw2 < kw + n ∧ s.keywords.getD kw2 [] = pre ++ k :: post ∧
        keywordAt env data i k = some true ∧
        (∀ k2 ∈ pre, keywordAt env data i k2 = some false) ∧
        ∀ kw3, kw ≤ kw3 → kw3 < kw2 → ∀ k2 ∈ s.keywords.getD kw3 [],
          keywordAt env data i k2 = some false
  | 0, kw => Or.inl ⟨rfl, fun kw2 h1 h2 => by omega⟩
  | n + 1, kw => by
    rcases findKeyword_spec env data i hi (s.keywords.getD kw []) with
      ⟨h1, h2⟩ | ⟨pre, k, post, h1, h2, h3, h4⟩
    · rcases findKeywordFrom_first env s data i hi n (kw + 1) with
        ⟨h, hall⟩ | ⟨kw2, pre, k, post, h, ha, hb, hc, hd, he, hf⟩
      · refine Or.inl ⟨by simp only [findKeywordFrom, h1, h], ?_⟩
        intro kw2 hk1 hk2 k hk
        by_cases hkw : kw2 = kw
        · subst hkw
          exact h2 k hk
        · exact hall kw2 (by omega) (by omega) k hk
      · refine Or.inr ⟨kw2, pre, k, post, by simp only [findKeywordFrom, h1, h], by omega,
          by omega, hc, hd, he, ?_⟩
        intro kw3 hk1 hk2 k2 hk
        by_cases hkw : kw3 = kw
        · subst hkw
          exact h2 k2 hk
        · exact hf kw3 (by omega) hk2 k2 hk
    · exact Or.inr ⟨kw, pre, k, post, by simp only [findKeywordFrom, h2], Nat.le_refl _,
        by omega, h1, h3, h4, fun kw3 hk1 hk2 => by omega⟩

/-- The keyword part of the loop body.  It is tried only with `prev_sep` set.  When
it classifies a keyword, this is the first keyword, in the order category 1, 2, 3
and within a category in the stored order, that passes the test at the position; its
characters get the class `HL_KEYWORD1` plus the index of its category, the scan goes
on after it and `prev_sep` is cleared.  When no keyword passes the test, or
`prev_sep` is not set, the part falls through. -/
theorem keyword_first (env : Externals) (s : EditorSyntax) (data : List Nat) (st : ScanState)
    (hi : st.i ≤ data.length) (hl : st.hl.length = data.length) :
    (keyword env s data st = Flow.pass ∧
      (st.prev_sep = false ∨
        ∀ kw < 3, ∀ k ∈ s.keywords.getD kw [], keywordAt env data st.i k = some false)) ∨
    ∃ kw pre k post hl2, st.prev_sep = true ∧ kw < 3 ∧
      s.keywords.getD kw [] = pre ++ k :: post ∧
      keywordAt env data st.i k = some true ∧
      (∀ k2 ∈ pre, keywordAt env data st.i k2 = some false) ∧
      (∀ kw3 < kw, ∀ k2 ∈ s.keywords.getD kw3 [], keywordAt env data st.i k2 = some false) ∧
      memset st.hl st.i (HL_KEYWORD1 + kw) k.length = some hl2 ∧
      keyword env s data st =
        Flow.next { st with hl := hl2, i := st.i + k.length, prev_sep := false } := by
  unfold keyword
  cases hp : st.prev_sep with
  | false => exact Or.inl ⟨by simp, Or.inl rfl⟩
  | true =>
    rcases findKeywordFrom_first env s data st.i hi 3 0 with
      ⟨h, hall⟩ | ⟨kw, pre, k, post, h, -, hb, hc, hd, he, hf⟩
    · refine Or.inl ⟨by simp [h], Or.inr ?_⟩
      intro kw hkw k hk
      exact hall kw (Nat.zero_le _) (by omega) k hk
    · have hle := keywordAt_le hd
      have hm : memset st.hl st.i (HL_KEYWORD1 + kw) k.length = some _ :=
        memset_some (HL_KEYWORD1 + kw) (show st.i + k.length ≤ st.hl.length by omega)
      refine Or.inr ⟨kw, pre, k, post, _, rfl, by omega, hc, hd, he, ?_, hm, ?_⟩
      · intro kw3 hk3 k2 hk2
        exact hf kw3 (Nat.zero_le _) hk3 k2 hk2
      · simp only [if_true, h, hm]

end Highlight

namespace Highlight

/-! ## The scan loop returns -/

/-- An iteration of the scan loop that ends in `continue` moves the position forward,
or keeps it and clears `prev_sep`. -/
theorem scanBody_progress (env : Externals) (s : EditorSyntax) (data : List Nat)
    (st st2 : ScanState) (hi : st.i < data.length) (hl : st.hl.length = data.length)
    (h : scanBody env s data st = Flow.next st2) :
    st.i < st2.i ∨ (st2.i = st.i ∧ st.prev_sep = true ∧ st2.prev_sep = false) := by
  obtain ⟨hs, -⟩ := scanBody_sound env s data st hi hl
  rw [h] at hs
  obtain ⟨-, hm, -⟩ := hs
  unfold scanMeasure at hm
  by_cases hlt : st.i < st2.i
  · exact Or.inl hlt
  · right
    cases hp : st.prev_sep <;> cases hq : st2.prev_sep <;>
      simp only [hp, hq, if_true, if_false, Bool.false_eq_true] at hm <;>
      first
        | omega
        | exact ⟨by omega, rfl, rfl⟩

/-- The result of the scan loop does not depend on the fuel, once the fuel is at
least the measure of the state. -/
theorem scanLoop_fuel (env : Externals) (s : EditorSyntax) (data : List Nat) :
    ∀ (fuel1 fuel2 : Nat) (st : ScanState), scanMeasure data st ≤ fuel1 →
      scanMeasure data st ≤ fuel2 → st.hl.length = data.length →
      scanLoop env s data fuel1 st = scanLoop env s data fuel2 st
  | 0, fuel2, st, h1, _, _ => by
    have hge : ¬ st.i < data.length := by
      intro hlt
      unfold scanMeasure at h1
      omega
    cases fuel2 <;> simp only [scanLoop, if_neg hge]
  | fuel1 + 1, 0, st, _, h2, _ => by
    have hge : ¬ st.i < data.length := by
      intro hlt
      unfold scanMeasure at h2
      omega
    simp only [scanLoop, if_neg hge]
  | fuel1 + 1, fuel2 + 1, st, h1, h2, hl => by
    by_cases hlt : st.i < data.length
    · obtain ⟨hs, -⟩ := scanBody_sound env s data st hlt hl
      simp only [scanLoop, if_pos hlt]
      cases hb : scanBody env s data st with
      | next st2 =>
        rw [hb] at hs
        obtain ⟨h3, h4, -⟩ := hs
        exact scanLoop_fuel env s data fuel1 fuel2 st2 (by omega) (by omega) (by rw [h3, hl])
      | stop st2 => rfl
      | pass => rfl
      | fault => rfl
    · simp only [scanLoop, if_neg hlt]

/-- With the empty string as a keyword, the keyword part matches at a non-identifier
character without moving the position, and clears `prev_sep`: the iteration after it
takes the default part and moves on. -/
theorem empty_keyword_step :
    scanBody sampleEnv sampleEmptyRule [32, 97] (scanStart [32, 97] true) =
      Flow.next { i := 0, prev_sep := false, in_string := 0, in_comment := true,
                  hl := [0, 0] } ∧
    scanBody sampleEnv sampleEmptyRule [32, 97]
        { i := 0, prev_sep := false, in_string := 0, in_comment := true, hl := [0, 0] } =
      Flow.next { i := 1, prev_sep := true, in_string := 0, in_comment := true,
                  hl := [0, 0] } ∧
    scanRow sampleEnv sampleEmptyRule [32, 97] true =
      some { i := 2, prev_sep := false, in_string := 0, in_comment := true, hl := [0, 0] } := by
  refine ⟨by decide!, by decide!, by decide!⟩

end Highlight

namespace Highlight

/-! ## The positions that an iteration writes -/

theorem memset_frame {hl hl2 : List Nat} {start v len : Nat}
    (h : memset hl start v len = some hl2) (j : Nat) (hj : j < start ∨ start + len ≤ j) :
    hl2[j]? = hl[j]? := by
  rw [memset_getElem? h j, if_neg (by omega)]

theorem lineComment_frame (s : EditorSyntax) (data : List Nat) (st : ScanState) :
    Flow.Frame st (lineComment s data st) := by
  unfold lineComment
  split
  · split
    · cases hm : memset st.hl st.i HL_COMMENT (data.length - st.i) with
      | none => trivial
      | some hl2 =>
        exact ⟨rfl, rfl, rfl, fun j hj => memset_frame hm j (Or.inl hj)⟩
    · trivial
  · trivial

theorem blockComment_frame (s : EditorSyntax) (data : List Nat) (st : ScanState) :
    Flow.Frame st (blockComment s data st) := by
  unfold blockComment
  split
  · split
    · cases hm1 : memset st.hl st.i HL_COMMENT 1 with
      | none => trivial
      | some hl1 =>
        simp only []
        split
        · cases hm2 : memset hl1 st.i HL_COMMENT (tokLen s.multiline_comment_end) with
          | none => trivial
          | some hl2 =>
            refine ⟨by simp only []; omega, ?_⟩
            intro j hj
            simp only [] at hj ⊢
            rw [memset_frame hm2 j (by omega), memset_frame hm1 j (by omega)]
        · refine ⟨by simp only []; omega, ?_⟩
          intro j hj
          simp only [] at hj ⊢
          exact memset_frame hm1 j (by omega)
    · split
      · cases hm : memset st.hl st.i HL_COMMENT (tokLen s.multiline_comment_start) with
        | none => trivial
        | some hl2 =>
          refine ⟨by simp only []; omega, ?_⟩
          intro j hj
          simp only [] at hj ⊢
          exact memset_frame hm j (by omega)
      · trivial
  · trivial

theorem stringLiteral_frame (s : EditorSyntax) (data : List Nat) (st : ScanState) (c : Nat) :
    Flow.Frame st (stringLiteral s data st c) := by
  unfold stringLiteral
  split
  · split
    · cases hm1 : memset st.hl st.i HL_STRING 1 with
      | none => trivial
      | some hl1 =>
        simp only []
        split
        · cases hm2 : memset hl1 (st.i + 1) HL_STRING 1 with
          | none => trivial
          | some hl2 =>
            refine ⟨by simp only []; omega, ?_⟩
            intro j hj
            simp only [] at hj ⊢
            rw [memset_frame hm2 j (by omega), memset_frame hm1 j (by omega)]
        · refine ⟨by simp only []; omega, ?_⟩
          intro j hj
          simp only [] at hj ⊢
          exact memset_frame hm1 j (by omega)
    · split
      · cases hm : memset st.hl st.i HL_STRING 1 with
        | none => trivial
        | some hl2 =>
          refine ⟨by simp only []; omega, ?_⟩
          intro j hj
          simp only [] at hj ⊢
          exact memset_frame hm j (by omega)
      · trivial
  · trivial

/-- The states that the string part leaves: it never changes `in_comment`. -/
theorem stringLiteral_in_comment (s : EditorSyntax) (data : List Nat) (st st2 : ScanState)
    (c : Nat) (h : stringLiteral s data st c = Flow.next st2) :
    st2.in_comment = st.in_comment := by
  unfold stringLiteral at h
  split at h
  · split at h
    · cases hm1 : memset st.hl st.i HL_STRING 1 with
      | none => rw [hm1] at h; exact absurd h (by simp)
      | some hl1 =>
        rw [hm1] at h
        simp only [] at h
        split at h
        · cases hm2 : memset hl1 (st.i + 1) HL_STRING 1 with
          | none => rw [hm2] at h; exact absurd h (by simp)
          | some hl2 =>
            rw [hm2] at h
            simp only [Flow.next.injEq] at h
            rw [← h]
        · simp only [Flow.next.injEq] at h
          rw [← h]
    · split at h
      · cases hm : memset st.hl st.i HL_STRING 1 with
        | none => rw [hm] at h; exact absurd h (by simp)
        | some hl2 =>
          rw [hm] at h
          simp only [Flow.next.injEq] at h
          rw [← h]
      · exact absurd h (by simp)
  · exact absurd h (by simp)

/-- What the number part does when it fires: the position after it is `e`, the end
of the digits with the suffix `f` or `F` if there is one; the states `in_string` and
`in_comment` are kept. -/
theorem numberLiteral_next (env : Externals) (s : EditorSyntax) (data : List Nat)
    (st st2 : ScanState) (c : Nat) (h : numberLiteral env s data st c = Flow.next st2) :
    st2.in_comment = st.in_comment ∧ st2.in_string = st.in_string ∧
      st.prev_sep = true ∧ (isdigit c = true ∨ c = 46) ∧
      s.flags &&& HL_HIGHLIGHT_NUMBERS ≠ 0 := by
  unfold numberLiteral at h
  split at h
  · rename_i hflag
    split at h
    · rename_i hc
      have hc2 : (isdigit c = true ∨ c = 46) ∧ st.prev_sep = true := by
        simpa using hc
      simp only [] at h
      split at h
      · simp only [Flow.next.injEq] at h
        rw [← h]
        exact ⟨rfl, rfl, hc2.2, hc2.1, hflag⟩
      · split at h
        · split at h
          · exact absurd h (by simp)
          · simp only [Flow.next.injEq] at h
            rw [← h]
            exact ⟨rfl, rfl, hc2.2, hc2.1, hflag⟩
        · split at h
          · exact absurd h (by simp)
          · split at h
            · split at h
              · exact absurd h (by simp)
              · simp only [Flow.next.injEq] at h
                rw [← h]
                exact ⟨rfl, rfl, hc2.2, hc2.1, hflag⟩
            · simp only [Flow.next.injEq] at h
              rw [← h]
              exact ⟨rfl, rfl, hc2.2, hc2.1, hflag⟩
    · exact absurd h (by simp)
  · exact absurd h (by simp)

end Highlight

namespace Highlight

/-! ## The number part -/

theorem floatSuffix_bounds (data : List Nat) (i : Nat) (h : i ≤ data.length) :
    i ≤ floatSuffix data i ∧ floatSuffix data i ≤ i + 1 ∧ floatSuffix data i ≤ data.length := by
  unfold floatSuffix
  cases hd : data[i]? with
  | none => simp only []; omega
  | some d =>
    have := getElem?_lt hd
    simp only []
    split <;> omega

theorem numberLiteral_unfold (env : Externals) (s : EditorSyntax) (data : List Nat)
    (st : ScanState) (c : Nat) :
    numberLiteral env s data st c =
      if s.flags &&& HL_HIGHLIGHT_NUMBERS ≠ 0 then
        if (isdigit c || c == 46) && st.prev_sep then
          if c = 46 ∧ numberEnd data st.i c - st.i = 1 then
            Flow.next { st with i := numberEnd data st.i c }
          else
            if floatSuffix data (numberEnd data st.i c) = data.length then
              match memset st.hl st.i HL_NUMBER
                  (floatSuffix data (numberEnd data st.i c) - st.i) with
              | none => Flow.fault
              | some hl =>
                Flow.next
                  { st with
                    hl := hl, i := floatSuffix data (numberEnd data st.i c), prev_sep := false }
            else
              match data[floatSuffix data (numberEnd data st.i c)]? with
              | none => Flow.fault
              | some d =>
                if env.isSeparator d || env.isSpace d then
                  match memset st.hl st.i HL_NUMBER
                      (floatSuffix data (numberEnd data st.i c) - st.i) with
                  | none => Flow.fault
                  | some hl =>
                    Flow.next
                      { st with
                        hl := hl, i := floatSuffix data (numberEnd data st.i c)
                        prev_sep := false }
                else
                  Flow.next
                    { st with
                      i := floatSuffix data (numberEnd data st.i c), prev_sep := false }
        else Flow.pass
      else Flow.pass := rfl

/-- The number part of the loop body when it fires, on a position inside the row:
with `e` the end of the digits and of the suffix, a lone `.` moves the position by
one and changes nothing else; otherwise the position moves to `e`, `prev_sep` is
cleared, and the span gets the class number exactly when the character at `e` is
absent, a separator or whitespace. -/
theorem numberLiteral_eq (env : Externals) (s : EditorSyntax) (data : List Nat)
    (st : ScanState) (c : Nat) (hi : st.i < data.length) (hl : st.hl.length = data.length)
    (hflag : s.flags &&& HL_HIGHLIGHT_NUMBERS ≠ 0)
    (hc : isdigit c = true ∨ c = 46) (hp : st.prev_sep = true) :
    numberLiteral env s data st c =
      if c = 46 ∧ numberEnd data st.i c = st.i + 1 then
        Flow.next { st with i := st.i + 1 }
      else if numberCommits env data (floatSuffix data (numberEnd data st.i c)) = true then
        Flow.next
          { st with
            hl := st.hl.take st.i ++
              List.replicate (floatSuffix data (numberEnd data st.i c) - st.i) HL_NUMBER ++
              st.hl.drop (floatSuffix data (numberEnd data st.i c))
            i := floatSuffix data (numberEnd data st.i c)
            prev_sep := false }
      else
        Flow.next
          { st with i := floatSuffix data (numberEnd data st.i c), prev_sep := false } := by
  obtain ⟨hb1, hb2⟩ := numberEnd_bounds data st.i c hi
  obtain ⟨hs1, hs2, hs3⟩ := floatSuffix_bounds data (numberEnd data st.i c) hb2
  have hcond : ((isdigit c || c == 46) && st.prev_sep) = true := by
    rw [hp]
    rcases hc with h | h
    · simp [h]
    · simp [h]
  rw [numberLiteral_unfold, if_pos hflag, if_pos hcond]
  by_cases hdot : c = 46 ∧ numberEnd data st.i c = st.i + 1
  · rw [if_pos ⟨hdot.1, by omega⟩, if_pos hdot, hdot.2]
  · rw [if_neg (by intro h; exact hdot ⟨h.1, by omega⟩), if_neg hdot]
    generalize floatSuffix data (numberEnd data st.i c) = e at hs1 hs2 hs3 ⊢
    have hm : memset st.hl st.i HL_NUMBER (e - st.i) =
        some (st.hl.take st.i ++ List.replicate (e - st.i) HL_NUMBER ++ st.hl.drop e) := by
      rw [memset_some HL_NUMBER (by omega), show st.i + (e - st.i) = e by omega]
    by_cases he : e = data.length
    · have hcm : numberCommits env data e = true := by
        unfold numberCommits
        rw [List.getElem?_eq_none (by omega)]
      rw [if_pos he, hm, if_pos hcm]
    · have hlt : e < data.length := by omega
      rw [if_neg he]
      unfold numberCommits
      rw [List.getElem?_eq_getElem hlt]
      simp only []
      by_cases hsep : (env.isSeparator data[e] || env.isSpace data[e]) = true
      · rw [if_pos hsep, if_pos hsep, hm]
      · rw [if_neg hsep, if_neg hsep]

theorem numberLiteral_frame (env : Externals) (s : EditorSyntax) (data : List Nat)
    (st : ScanState) (c : Nat) (hi : st.i < data.length) (hl : st.hl.length = data.length) :
    Flow.Frame st (numberLiteral env s data st c) := by
  by_cases hflag : s.flags &&& HL_HIGHLIGHT_NUMBERS ≠ 0
  · by_cases hcond : ((isdigit c || c == 46) && st.prev_sep) = true
    · have hc2 : (isdigit c = true ∨ c = 46) ∧ st.prev_sep = true := by
        simpa using hcond
      rw [numberLiteral_eq env s data st c hi hl hflag hc2.1 hc2.2]
      obtain ⟨hb1, hb2⟩ := numberEnd_bounds data st.i c hi
      obtain ⟨hs1, hs2, hs3⟩ := floatSuffix_bounds data (numberEnd data st.i c) hb2
      generalize floatSuffix data (numberEnd data st.i c) = e at hs1 hs2 hs3 ⊢
      split
      · exact ⟨by simp only []; omega, fun j hj => rfl⟩
      · split
        · refine ⟨by simp only []; omega, ?_⟩
          intro j hj
          simp only [] at hj ⊢
          have hm : memset st.hl st.i HL_NUMBER (e - st.i) =
              some (st.hl.take st.i ++ List.replicate (e - st.i) HL_NUMBER ++ st.hl.drop e) := by
            rw [memset_some HL_NUMBER (by omega), show st.i + (e - st.i) = e by omega]
          exact memset_frame hm j (by omega)
        · exact ⟨by simp only []; omega, fun j hj => rfl⟩
    · rw [numberLiteral_unfold, if_pos hflag, if_neg hcond]
      trivial
  · rw [numberLiteral_unfold, if_neg hflag]
    trivial

theorem keyword_frame (env : Externals) (s : EditorSyntax) (data : List Nat) (st : ScanState)
    (hi : st.i ≤ data.length) (hl : st.hl.length = data.length) :
    Flow.Frame st (keyword env s data st) ∧
      ∀ st2, keyword env s data st = Flow.next st2 →
        st2.in_comment = st.in_comment ∧ st2.in_string = st.in_string := by
  rcases keyword_first env s data st hi hl with ⟨h, -⟩ |
    ⟨kw, pre, k, post, hl2, -, -, -, -, -, -, hm, h⟩
  · rw [h]
    exact ⟨trivial, fun st2 h2 => absurd h2 (by simp)⟩
  · rw [h]
    refine ⟨⟨by simp only []; omega, ?_⟩, ?_⟩
    · intro j hj
      simp only [] at hj ⊢
      exact memset_frame hm j (by omega)
    · intro st2 h2
      simp only [Flow.next.injEq] at h2
      rw [← h2]
      exact ⟨rfl, rfl⟩

/-- The loop body writes only between the old and the new position. -/
theorem scanBody_frame (env : Externals) (s : EditorSyntax) (data : List Nat) (st : ScanState)
    (hi : st.i < data.length) (hl : st.hl.length = data.length) :
    Flow.Frame st (scanBody env s data st) := by
  unfold scanBody
  rw [List.getElem?_eq_getElem hi]
  simp only []
  have h1 := lineComment_frame s data st
  cases hc1 : lineComment s data st with
  | next st2 => rw [hc1] at h1; exact h1
  | stop st2 => rw [hc1] at h1; exact h1
  | fault => trivial
  | pass =>
    simp only []
    have h2 := blockComment_frame s data st
    cases hc2 : blockComment s data st with
    | next st2 => rw [hc2] at h2; exact h2
    | stop st2 => rw [hc2] at h2; exact h2
    | fault => trivial
    | pass =>
      simp only []
      have h3 := stringLiteral_frame s data st data[st.i]
      cases hc3 : stringLiteral s data st data[st.i] with
      | next st2 => rw [hc3] at h3; exact h3
      | stop st2 => rw [hc3] at h3; exact h3
      | fault => trivial
      | pass =>
        simp only []
        have h4 := numberLiteral_frame env s data st data[st.i] hi hl
        cases hc4 : numberLiteral env s data st data[st.i] with
        | next st2 => rw [hc4] at h4; exact h4
        | stop st2 => rw [hc4] at h4; exact h4
        | fault => trivial
        | pass =>
          simp only []
          have h5 := (keyword_frame env s data st (Nat.le_of_lt hi) hl).1
          cases hc5 : keyword env s data st with
          | next st2 => rw [hc5] at h5; exact h5
          | stop st2 => rw [hc5] at h5; exact h5
          | fault => trivial
          | pass => exact ⟨by simp only []; omega, fun j hj => rfl⟩

/-- The states that the scan reaches from a state: the position does not move
backward, and every byte before the old position and from the new position on is as
it was. -/
theorem scanSteps_frame (env : Externals) (s : EditorSyntax) (data : List Nat) :
    ∀ (n : Nat) (st st2 : ScanState), scanSteps env s data n st = some st2 →
      st.hl.length = data.length →
      st.i ≤ st2.i ∧ st2.hl.length = data.length ∧
        ∀ j, j < st.i ∨ st2.i ≤ j → st2.hl[j]? = st.hl[j]?
  | 0, st, st2, h, hl => by
    rw [scanSteps] at h
    rw [← Option.some.inj h]
    exact ⟨Nat.le_refl _, hl, fun j hj => rfl⟩
  | n + 1, st, st2, h, hl => by
    rw [scanSteps] at h
    split at h
    · rename_i hlt
      obtain ⟨hs, -⟩ := scanBody_sound env s data st hlt hl
      have hf := scanBody_frame env s data st hlt hl
      cases hb : scanBody env s data st with
      | next st3 =>
        rw [hb] at h hs hf
        obtain ⟨h1, h2, h3⟩ := scanSteps_frame env s data n st3 st2 h (by rw [hs.1, hl])
        refine ⟨Nat.le_trans hf.1 h1, h2, ?_⟩
        intro j hj
        rw [h3 j (by have := hf.1; omega), hf.2 j (by omega)]
      | stop st3 => rw [hb] at h; exact absurd h (by simp)
      | pass => rw [hb] at h; exact absurd h (by simp)
      | fault => rw [hb] at h; exact absurd h (by simp)
    · exact absurd h (by simp)

/-- The scan loop from a state leaves every byte before the position of the state as
it was. -/
theorem scanLoop_frame (env : Externals) (s : EditorSyntax) (data : List Nat) :
    ∀ (fuel : Nat) (st st2 : ScanState), scanLoop env s data fuel st = some st2 →
      st.hl.length = data.length →
      ∀ j, j < st.i → st2.hl[j]? = st.hl[j]?
  | 0, st, st2, h, hl => by
    rw [scanLoop] at h
    split at h
    · exact absurd h (by simp)
    · rw [← Option.some.inj h]
      exact fun j hj => rfl
  | fuel + 1, st, st2, h, hl => by
    rw [scanLoop] at h
    split at h
    · rename_i hlt
      obtain ⟨hs, -⟩ := scanBody_sound env s data st hlt hl
      have hf := scanBody_frame env s data st hlt hl
      cases hb : scanBody env s data st with
      | next st3 =>
        rw [hb] at h hs hf
        simp only [] at h
        intro j hj
        rw [scanLoop_frame env s data fuel st3 st2 h (by rw [hs.1, hl]) j
          (by have := hf.1; omega), hf.2 j (Or.inl hj)]
      | stop st3 =>
        rw [hb] at h hf
        simp only [Option.some.injEq] at h
        rw [← h]
        exact hf.2.2.2
      | pass => rw [hb] at h; exact absurd h (by simp)
      | fault => rw [hb] at h; exact absurd h (by simp)
    · rw [← Option.some.inj h]
      exact fun j hj => rfl

/-- In a state that the scan reaches from the start of the row, every byte from the
position on is `HL_NORMAL`. -/
theorem scanSteps_normal (env : Externals) (s : EditorSyntax) (data : List Nat) (ic : Bool)
    (n : Nat) (st : ScanState) (h : scanSteps env s data n (scanStart data ic) = some st) :
    st.hl.length = data.length ∧
      ∀ j, st.i ≤ j → j < data.length → st.hl[j]? = some HL_NORMAL := by
  obtain ⟨-, h2, h3⟩ := scanSteps_frame env s data n _ st h (by simp [scanStart])
  refine ⟨h2, ?_⟩
  intro j hj1 hj2
  rw [h3 j (Or.inr hj1)]
  simp only [scanStart, List.getElem?_replicate, if_pos hj2]

/-- The trailing whitespace pass leaves the byte of every character that is neither a
space nor a tab as it was. -/
theorem updateTrailing_keep (data : List Nat) :
    ∀ (n : Nat) (hl hl2 : List Nat) (j : Nat), updateTrailing data n hl = some hl2 →
      data[j]? ≠ some 32 → data[j]? ≠ some 9 → hl2[j]? = hl[j]?
  | 0, hl, hl2, j, h, _, _ => by
    rw [updateTrailing] at h
    rw [← Option.some.inj h]
  | n + 1, hl, hl2, j, h, h32, h9 => by
    rw [updateTrailing] at h
    cases hd : data[n]? with
    | none => rw [hd] at h; exact absurd h (by simp)
    | some c =>
      rw [hd] at h
      simp only [] at h
      split at h
      · rename_i hc
        cases hm : memset hl n (HL_BG_TRAILING <<< HL_FG_BITS) 1 with
        | none => rw [hm] at h; exact absurd h (by simp)
        | some hl3 =>
          rw [hm] at h
          simp only [] at h
          rw [updateTrailing_keep data n hl3 hl2 j h h32 h9]
          apply memset_frame hm j
          by_contra hcon
          have hjn : j = n := by omega
          rw [hjn, hd] at h32 h9
          rcases hc with hc | hc
          · exact h32 (by rw [hc])
          · exact h9 (by rw [hc])
      · rw [← Option.some.inj h]

end Highlight

namespace Highlight

/-! ## The block-comment state along a scan -/

theorem lineComment_not_next (s : EditorSyntax) (data : List Nat) (st st2 : ScanState) :
    lineComment s data st ≠ Flow.next st2 := by
  unfold lineComment
  split
  · split
    · cases memset st.hl st.i HL_COMMENT (data.length - st.i) <;> simp
    · simp
  · simp

/-- Outside a block comment, an iteration in which the block-comment part does not
fire leaves the scan outside a block comment. -/
theorem scanBody_in_comment (env : Externals) (s : EditorSyntax) (data : List Nat)
    (st : ScanState) (hi : st.i < data.length) (hl : st.hl.length = data.length)
    (hst : st.in_comment = false)
    (hpass : lineComment s data st = Flow.pass → blockComment s data st = Flow.pass) :
    (∀ st2, scanBody env s data st = Flow.next st2 → st2.in_comment = false) ∧
      ∀ st2, scanBody env s data st = Flow.stop st2 → st2.in_comment = false := by
  have hf := scanBody_frame env s data st hi hl
  refine ⟨?_, ?_⟩
  · intro st2 h
    unfold scanBody at h
    rw [List.getElem?_eq_getElem hi] at h
    simp only [] at h
    cases hc1 : lineComment s data st with
    | next st3 => exact absurd hc1 (lineComment_not_next s data st st3)
    | stop st3 => rw [hc1] at h; exact absurd h (by simp)
    | fault => rw [hc1] at h; exact absurd h (by simp)
    | pass =>
      rw [hc1, hpass hc1] at h
      simp only [] at h
      cases hc3 : stringLiteral s data st data[st.i] with
      | next st3 =>
        rw [hc3] at h
        simp only [Flow.next.injEq] at h
        rw [← h, stringLiteral_in_comment s data st st3 _ hc3, hst]
      | stop st3 => rw [hc3] at h; exact absurd h (by simp)
      | fault => rw [hc3] at h; exact absurd h (by simp)
      | pass =>
        rw [hc3] at h
        simp only [] at h
        cases hc4 : numberLiteral env s data st data[st.i] with
        | next st3 =>
          rw [hc4] at h
          simp only [Flow.next.injEq] at h
          rw [← h, (numberLiteral_next env s data st st3 _ hc4).1, hst]
        | stop st3 => rw [hc4] at h; exact absurd h (by simp)
        | fault => rw [hc4] at h; exact absurd h (by simp)
        | pass =>
          rw [hc4] at h
          simp only [] at h
          cases hc5 : keyword env s data st with
          | next st3 =>
            rw [hc5] at h
            simp only [Flow.next.injEq] at h
            rw [← h, ((keyword_frame env s data st (Nat.le_of_lt hi) hl).2 st3 hc5).1, hst]
          | stop st3 => rw [hc5] at h; exact absurd h (by simp)
          | fault => rw [hc5] at h; exact absurd h (by simp)
          | pass =>
            rw [hc5] at h
            simp only [Flow.next.injEq] at h
            rw [← h]
            exact hst
  · intro st2 h
    rw [h] at hf
    rw [hf.2.1, hst]

/-- A token matches wherever a token that it is a prefix of matches. -/
theorem tokAt_of_longer (data : List Nat) (i : Nat) (scs mcs : List Nat) (hpre : scs <+: mcs)
    (h : tokAt data i (some mcs) = true) : tokAt data i (some scs) = true := by
  have hlen : scs.length ≤ mcs.length := hpre.length_le
  simp only [tokAt, strncmpEq, Bool.and_eq_true, decide_eq_true_eq, beq_iff_eq] at h ⊢
  refine ⟨by omega, ?_⟩
  have h1 : scs = mcs.take scs.length := List.prefix_iff_eq_take.1 hpre
  conv_rhs => rw [h1, ← h.2]
  rw [List.take_take, Nat.min_eq_left hlen]

/-- Under a rule whose non-empty line-comment token is a prefix of its block-comment
start token, the block-comment part does not fire outside a block comment where the
line-comment part does not. -/
theorem shadow_pass (s : EditorSyntax) (data : List Nat) (st : ScanState)
    (scs mcs : List Nat) (h1 : s.singleline_comment_start = some scs)
    (h2 : s.multiline_comment_start = some mcs) (hne : scs ≠ []) (hpre : scs <+: mcs)
    (hst : st.in_comment = false) :
    lineComment s data st = Flow.pass → blockComment s data st = Flow.pass := by
  intro hline
  unfold blockComment
  split
  · rename_i hg
    rw [hst]
    simp only [Bool.false_eq_true, if_false]
    split
    · rename_i htok
      exfalso
      rw [h2] at htok
      have hscs := tokAt_of_longer data st.i scs mcs hpre htok
      unfold lineComment at hline
      rw [h1] at hline
      have hlen : tokLen (some scs) ≠ 0 := by
        simp only [tokLen]
        intro h0
        exact hne (List.length_eq_zero.1 h0)
      rw [if_pos ⟨hlen, hg.2.2, hst⟩, if_pos hscs] at hline
      cases hm : memset st.hl st.i HL_COMMENT (data.length - st.i) with
      | none => rw [hm] at hline; exact absurd hline (by simp)
      | some hl2 => rw [hm] at hline; exact absurd hline (by simp)
    · rfl
  · rfl

/-- Under such a rule the scan loop, started outside a block comment, ends outside a
block comment. -/
theorem scanLoop_shadow (env : Externals) (s : EditorSyntax) (data : List Nat)
    (scs mcs : List Nat) (h1 : s.singleline_comment_start = some scs)
    (h2 : s.multiline_comment_start = some mcs) (hne : scs ≠ []) (hpre : scs <+: mcs) :
    ∀ (fuel : Nat) (st st2 : ScanState), scanLoop env s data fuel st = some st2 →
      st.hl.length = data.length → st.in_comment = false → st2.in_comment = false
  | 0, st, st2, h, _, hst => by
    rw [scanLoop] at h
    split at h
    · exact absurd h (by simp)
    · rw [← Option.some.inj h]
      exact hst
  | fuel + 1, st, st2, h, hl, hst => by
    rw [scanLoop] at h
    split at h
    · rename_i hlt
      obtain ⟨hs, -⟩ := scanBody_sound env s data st hlt hl
      obtain ⟨hn, hp⟩ := scanBody_in_comment env s data st hlt hl hst
        (shadow_pass s data st scs mcs h1 h2 hne hpre hst)
      cases hb : scanBody env s data st with
      | next st3 =>
        rw [hb] at h hs
        simp only [] at h
        exact scanLoop_shadow env s data scs mcs h1 h2 hne hpre fuel st3 st2 h
          (by rw [hs.1, hl]) (hn st3 hb)
      | stop st3 =>
        rw [hb] at h
        simp only [Option.some.injEq] at h
        rw [← h]
        exact hp st3 hb
      | pass => rw [hb] at h; exact absurd h (by simp)
      | fault => rw [hb] at h; exact absurd h (by simp)
    · rw [← Option.some.inj h]
      exact hst

/-- Under such a rule no state that the scan reaches from the start of a row with the
incoming state `false` is inside a block comment. -/
theorem scanSteps_shadow (env : Externals) (s : EditorSyntax) (data : List Nat)
    (scs mcs : List Nat) (h1 : s.singleline_comment_start = some scs)
    (h2 : s.multiline_comment_start = some mcs) (hne : scs ≠ []) (hpre : scs <+: mcs) :
    ∀ (n : Nat) (st st2 : ScanState), scanSteps env s data n st = some st2 →
      st.hl.length = data.length → st.in_comment = false → st2.in_comment = false
  | 0, st, st2, h, _, hst => by
    rw [scanSteps] at h
    rw [← Option.some.inj h]
    exact hst
  | n + 1, st, st2, h, hl, hst => by
    rw [scanSteps] at h
    split at h
    · rename_i hlt
      obtain ⟨hs, -⟩ := scanBody_sound env s data st hlt hl
      obtain ⟨hn, -⟩ := scanBody_in_comment env s data st hlt hl hst
        (shadow_pass s data st scs mcs h1 h2 hne hpre hst)
      cases hb : scanBody env s data st with
      | next st3 =>
        rw [hb] at h hs
        simp only [] at h
        exact scanSteps_shadow env s data scs mcs h1 h2 hne hpre n st3 st2 h
          (by rw [hs.1, hl]) (hn st3 hb)
      | stop st3 => rw [hb] at h; exact absurd h (by simp)
      | pass => rw [hb] at h; exact absurd h (by simp)
      | fault => rw [hb] at h; exact absurd h (by simp)
    · exact absurd h (by simp)

/-- Under such a rule a row scanned with the incoming state `false` has the outgoing
state `false`. -/
theorem freshRow_shadow (env : Externals) (s : EditorSyntax) (data : List Nat)
    (scs mcs : List Nat) (h1 : s.singleline_comment_start = some scs)
    (h2 : s.multiline_comment_start = some mcs) (hne : scs ≠ []) (hpre : scs <+: mcs) :
    (freshRow env s data false).hl_open_comment = false := by
  obtain ⟨st, hl, hscan, hlen, -, -, heq⟩ := freshRow_eq env s data false
  rw [heq]
  exact scanLoop_shadow env s data scs mcs h1 h2 hne hpre _ _ st hscan (by simp) rfl

/-- Under such a rule every row of a full rescan from the incoming state `false` has
the outgoing state `false`. -/
theorem rescan_shadow (env : Externals) (s : EditorSyntax)
    (scs mcs : List Nat) (h1 : s.singleline_comment_start = some scs)
    (h2 : s.multiline_comment_start = some mcs) (hne : scs ≠ []) (hpre : scs <+: mcs) :
    ∀ (datas : List (List Nat)), ∀ x ∈ rescan env s false datas, x.hl_open_comment = false
  | [], x, hx => by simp [rescan] at hx
  | data :: rest, x, hx => by
    have hfr := freshRow_shadow env s data scs mcs h1 h2 hne hpre
    rw [rescan, hfr] at hx
    rcases List.mem_cons.1 hx with h | h
    · rw [h]; exact hfr
    · exact rescan_shadow env s scs mcs h1 h2 hne hpre rest x h

end Highlight

namespace Highlight

/-! ## Runs of characters of one class -/

theorem run_ge (p : Nat → Bool) :
    ∀ (q r : List Nat), q <+: r → (∀ x ∈ q, p x = true) →
      q.length ≤ (r.takeWhile p).length
  | [], _, _, _ => Nat.zero_le _
  | a :: q, [], h, _ => by simp at h
  | a :: q, b :: r, h, hall => by
    obtain ⟨hab, hqr⟩ := List.cons_prefix_cons.1 h
    subst hab
    have ha : p a = true := hall a (List.mem_cons_self _ _)
    rw [List.takeWhile_cons_of_pos ha]
    have := run_ge p q r hqr (fun x hx => hall x (List.mem_cons_of_mem _ hx))
    simp only [List.length_cons]
    omega

theorem run_stop (p : Nat → Bool) :
    ∀ (r : List Nat) (d : Nat), r[(r.takeWhile p).length]? = some d → p d = false
  | [], d, h => by simp at h
  | a :: r, d, h => by
    by_cases ha : p a = true
    · rw [List.takeWhile_cons_of_pos ha] at h
      simp only [List.length_cons, List.getElem?_cons_succ] at h
      exact run_stop p r d h
    · rw [List.takeWhile_cons_of_neg ha] at h
      simp only [List.length_nil, List.getElem?_cons_zero, Option.some.injEq] at h
      rw [← h]
      simpa using ha

theorem run_take (p : Nat → Bool) (r : List Nat) :
    r.take (r.takeWhile p).length = r.takeWhile p :=
  (List.prefix_iff_eq_take.1 (List.takeWhile_prefix p)).symm

theorem run_all (p : Nat → Bool) (r : List Nat) : ∀ x ∈ r.takeWhile p, p x = true :=
  fun _ hx => List.mem_takeWhile_imp hx

theorem getElem?_of_isPrefix {q r : List Nat} (h : q <+: r) {j : Nat} (hj : j < q.length) :
    r[j]? = q[j]? := by
  obtain ⟨t, ht⟩ := h
  rw [← ht, List.getElem?_append_left hj]

/-- A run that is followed in the text by a character outside the class is the
maximal run. -/
theorem run_eq (p : Nat → Bool) (q r t : List Nat) (x : Nat) (h : q ++ x :: t <+: r)
    (hall : ∀ y ∈ q, p y = true) (hx : p x = false) : (r.takeWhile p).length = q.length := by
  have h1 : q <+: r := List.IsPrefix.trans (List.prefix_append q (x :: t)) h
  have hge := run_ge p q r h1 hall
  by_contra hne
  have hlt : q.length < (r.takeWhile p).length := by omega
  have hget : r[q.length]? = some x := by
    rw [getElem?_of_isPrefix h (by simp), List.getElem?_append_right (Nat.le_refl _)]
    simp
  have hin : (r.takeWhile p)[q.length]? = some x := by
    rw [← getElem?_of_isPrefix (List.takeWhile_prefix p) hlt]
    exact hget
  have hmem : x ∈ r.takeWhile p := List.getElem?_mem hin
  have := run_all p r x hmem
  rw [hx] at this
  exact absurd this (by simp)

end Highlight

namespace Highlight

/-! ## The digits of a number, from the first character of the text -/

theorem scanWhile_zero_cons (p : Nat → Bool) (c : Nat) (rest : List Nat) :
    scanWhile p (c :: rest) 1 = 1 + (rest.takeWhile p).length := by
  simp [scanWhile]

theorem scanWhile_zero_cons2 (p : Nat → Bool) (c d : Nat) (r2 : List Nat) :
    scanWhile p (c :: d :: r2) 2 = 2 + (r2.takeWhile p).length := by
  simp [scanWhile]

/-- The end of the digits of a number that starts the text with a `0`. -/
theorem numberEnd_zero (rest : List Nat) :
    numberEnd (48 :: rest) 0 48 =
      match rest with
      | [] => 1
      | d :: r2 =>
        if d = 120 ∨ d = 88 then 2 + (r2.takeWhile isHexChar).length
        else if 48 ≤ d ∧ d ≤ 55 then 2 + (r2.takeWhile isOctChar).length
        else if d = 46 then 2 + (r2.takeWhile isdigit).length
        else 1 := by
  cases rest with
  | nil => simp [numberEnd]
  | cons d r2 =>
    simp only [numberEnd, if_true, Nat.zero_add, List.getElem?_cons_succ,
      List.getElem?_cons_zero, scanWhile_zero_cons2]

/-- The end of the digits of a number that starts the text with another character
than `0`. -/
theorem numberEnd_nonzero (c : Nat) (rest : List Nat) (hc : c ≠ 48) :
    numberEnd (c :: rest) 0 c =
      if c ≠ 46 ∧ rest[(rest.takeWhile isdigit).length]? = some 46 then
        1 + (rest.takeWhile isdigit).length + 1 +
          ((rest.drop ((rest.takeWhile isdigit).length + 1)).takeWhile isdigit).length
      else 1 + (rest.takeWhile isdigit).length := by
  simp only [numberEnd, if_neg hc, Nat.zero_add, scanWhile_zero_cons]
  have e1 : (c :: rest)[1 + (rest.takeWhile isdigit).length]? =
      rest[(rest.takeWhile isdigit).length]? := by
    rw [Nat.add_comm, List.getElem?_cons_succ]
  rw [e1]
  split
  · simp only [scanWhile]
    have e2 : (c :: rest).drop (1 + (rest.takeWhile isdigit).length + 1) =
        rest.drop ((rest.takeWhile isdigit).length + 1) := by
      rw [show 1 + (rest.takeWhile isdigit).length + 1 =
        ((rest.takeWhile isdigit).length + 1) + 1 by omega, List.drop_succ_cons]
    rw [e2]
  · rfl

end Highlight

namespace Highlight

/-! ## The digits of a number have one of the forms -/

theorem isdigit_ne_dot {c : Nat} (h : isdigit c = true) : c ≠ 46 := by
  intro hc
  rw [hc] at h
  exact absurd h (by decide)

theorem take_run_dot (rest : List Nat) (a b x : Nat) (h : rest[a]? = some x) :
    rest.take (a + 1 + b) = rest.take a ++ x :: (rest.drop (a + 1)).take b := by
  have hlt := getElem?_lt h
  have hx : rest[a] = x := by
    rw [List.getElem?_eq_getElem hlt] at h
    exact Option.some.inj h
  rw [Nat.add_assoc, List.take_add, List.drop_eq_getElem_cons hlt, hx, Nat.add_comm 1 b,
    List.take_succ_cons]

/-- The digits that the number part scans from the first character of a text have
one of the forms of the specification, unless they are a lone `.`. -/
theorem numberBody_span (c : Nat) (rest : List Nat) (hc : isdigit c = true ∨ c = 46)
    (hnl : ¬ (c = 46 ∧ numberEnd (c :: rest) 0 c = 1)) :
    SpecNumberBody ((c :: rest).take (numberEnd (c :: rest) 0 c)) := by
  by_cases h0 : c = 48
  · subst h0
    rw [numberEnd_zero]
    cases rest with
    | nil => exact Or.inr (Or.inr (Or.inr (Or.inl rfl)))
    | cons d r2 =>
      simp only []
      split
      · rename_i hx
        refine Or.inl ⟨d, r2.takeWhile isHexChar, ?_, hx, run_all _ _⟩
        rw [show 2 + (r2.takeWhile isHexChar).length = (r2.takeWhile isHexChar).length + 1 + 1
          by omega, List.take_succ_cons, List.take_succ_cons, run_take]
      · split
        · rename_i ho
          refine Or.inr (Or.inl ⟨d :: r2.takeWhile isOctChar, ?_, by simp, ?_⟩)
          · rw [show 2 + (r2.takeWhile isOctChar).length =
              (r2.takeWhile isOctChar).length + 1 + 1 by omega, List.take_succ_cons,
              List.take_succ_cons, run_take]
          · intro o hmem
            rcases List.mem_cons.1 hmem with h | h
            · rw [h]
              simp [isOctChar, ho.1, ho.2]
            · exact run_all _ _ o h
        · split
          · rename_i hd
            refine Or.inr (Or.inr (Or.inl ⟨r2.takeWhile isdigit, ?_, run_all _ _⟩))
            rw [show 2 + (r2.takeWhile isdigit).length = (r2.takeWhile isdigit).length + 1 + 1
              by omega, List.take_succ_cons, List.take_succ_cons, run_take, hd]
          · exact Or.inr (Or.inr (Or.inr (Or.inl rfl)))
  · rw [numberEnd_nonzero c rest h0] at hnl ⊢
    by_cases hdot : c = 46
    · subst hdot
      rw [if_neg (by simp)] at hnl ⊢
      refine Or.inr (Or.inr (Or.inr (Or.inr (Or.inr
        ⟨rest.takeWhile isdigit, ?_, ?_, run_all _ _⟩))))
      · rw [Nat.add_comm, List.take_succ_cons, run_take]
      · intro hnil
        apply hnl
        rw [hnil]
        exact ⟨rfl, rfl⟩
    · have hdig : isdigit c = true := by
        rcases hc with h | h
        · exact h
        · exact absurd h hdot
      by_cases hnext : rest[(rest.takeWhile isdigit).length]? = some 46
      · rw [if_pos ⟨hdot, hnext⟩]
        refine Or.inr (Or.inr (Or.inr (Or.inr (Or.inl
          ⟨c, rest.takeWhile isdigit,
            46 :: (rest.drop ((rest.takeWhile isdigit).length + 1)).takeWhile isdigit,
            ?_, hdig, h0, run_all _ _, Or.inr ⟨_, rfl, run_all _ _⟩⟩))))
        rw [show 1 + (rest.takeWhile isdigit).length + 1 +
            ((rest.drop ((rest.takeWhile isdigit).length + 1)).takeWhile isdigit).length =
          ((rest.takeWhile isdigit).length + 1 +
            ((rest.drop ((rest.takeWhile isdigit).length + 1)).takeWhile isdigit).length) + 1
          by omega, List.take_succ_cons, take_run_dot rest _ _ 46 hnext, run_take, run_take]
      · rw [if_neg (by intro h; exact hnext h.2)]
        refine Or.inr (Or.inr (Or.inr (Or.inr (Or.inl
          ⟨c, rest.takeWhile isdigit, [], ?_, hdig, h0, run_all _ _, Or.inl rfl⟩))))
        rw [Nat.add_comm, List.take_succ_cons, run_take, List.append_nil]

/-- No prefix of the text with one of the forms of the specification is longer than
the digits that the number part scans from the first character of the text; and
where such a prefix exists, the digits are not a lone `.`. -/
theorem numberBody_max (c : Nat) (rest : List Nat) (b : List Nat)
    (hb : SpecNumberBody b) (hpre : b <+: c :: rest) :
    b.length ≤ numberEnd (c :: rest) 0 c ∧ ¬ (c = 46 ∧ numberEnd (c :: rest) 0 c = 1) := by
  rcases hb with ⟨x, hs, rfl, hx, hall⟩ | ⟨os, rfl, hne, hall⟩ | ⟨ds, rfl, hall⟩ | rfl |
    ⟨d, ds, tail, rfl, hd, hd0, hall, htail⟩ | ⟨ds, rfl, hne, hall⟩
  · obtain ⟨hc, h2⟩ := List.cons_prefix_cons.1 hpre
    subst hc
    cases rest with
    | nil => simp at h2
    | cons d r2 =>
      obtain ⟨hd, h3⟩ := List.cons_prefix_cons.1 h2
      subst hd
      rw [numberEnd_zero]
      simp only [if_pos hx]
      have := run_ge isHexChar hs r2 h3 hall
      simp only [List.length_cons]
      exact ⟨by omega, by omega⟩
  · obtain ⟨hc, h2⟩ := List.cons_prefix_cons.1 hpre
    subst hc
    cases os with
    | nil => exact absurd rfl hne
    | cons o os2 =>
      cases rest with
      | nil => simp at h2
      | cons d r2 =>
        obtain ⟨hd, h3⟩ := List.cons_prefix_cons.1 h2
        subst hd
        have ho : isOctChar o = true := hall o (List.mem_cons_self _ _)
        have ho2 : 48 ≤ o ∧ o ≤ 55 := by simpa [isOctChar] using ho
        rw [numberEnd_zero]
        simp only [if_neg (show ¬ (o = 120 ∨ o = 88) by omega), if_pos ho2]
        have := run_ge isOctChar os2 r2 h3 (fun y hy => hall y (List.mem_cons_of_mem _ hy))
        simp only [List.length_cons]
        exact ⟨by omega, by omega⟩
  · obtain ⟨hc, h2⟩ := List.cons_prefix_cons.1 hpre
    subst hc
    cases rest with
    | nil => simp at h2
    | cons d r2 =>
      obtain ⟨hd, h3⟩ := List.cons_prefix_cons.1 h2
      subst hd
      rw [numberEnd_zero]
      simp only [if_neg (show ¬ (46 = 120 ∨ 46 = 88) by omega),
        if_neg (show ¬ (48 ≤ 46 ∧ 46 ≤ 55) by omega), if_true]
      have := run_ge isdigit ds r2 h3 hall
      simp only [List.length_cons]
      exact ⟨by omega, by omega⟩
  · obtain ⟨hc, -⟩ := List.cons_prefix_cons.1 hpre
    subst hc
    have := (numberEnd_bounds (48 :: rest) 0 48 (by simp)).1
    simp only [List.length_cons, List.length_nil]
    exact ⟨by omega, by omega⟩
  · obtain ⟨hc, h2⟩ := List.cons_prefix_cons.1 hpre
    subst hc
    have hd46 : d ≠ 46 := isdigit_ne_dot hd
    rw [numberEnd_nonzero d rest hd0]
    rcases htail with rfl | ⟨es, rfl, hes⟩
    · rw [List.append_nil] at h2
      have := run_ge isdigit ds rest h2 hall
      simp only [List.length_cons, List.append_nil]
      split <;> exact ⟨by omega, fun h => hd46 h.1⟩
    · have hn1 := run_eq isdigit ds rest es 46 h2 hall (by decide)
      have hget : rest[(rest.takeWhile isdigit).length]? = some 46 := by
        rw [hn1, getElem?_of_isPrefix h2 (by simp), List.getElem?_append_right (Nat.le_refl _)]
        simp
      rw [if_pos ⟨hd46, hget⟩, hn1]
      have h3 : es <+: rest.drop (ds.length + 1) := by
        obtain ⟨t, ht⟩ := h2
        refine ⟨t, ?_⟩
        rw [← ht, List.append_assoc, ← List.drop_drop, List.drop_left]
        rfl
      have := run_ge isdigit es _ h3 hes
      simp only [List.length_cons, List.length_append]
      exact ⟨by omega, fun h => hd46 h.1⟩
  · obtain ⟨hc, h2⟩ := List.cons_prefix_cons.1 hpre
    subst hc
    rw [numberEnd_nonzero 46 rest (by omega), if_neg (by simp)]
    have := run_ge isdigit ds rest h2 hall
    have hpos : 0 < ds.length := List.length_pos.2 hne
    simp only [List.length_cons]
    exact ⟨by omega, by omega⟩

end Highlight

namespace Highlight

/-! ## The span of a number -/

theorem floatSuffix_eq (data : List Nat) (i : Nat) :
    (floatSuffix data i = i ∧ ∀ f, data[i]? = some f → ¬ (f = 102 ∨ f = 70)) ∨
      (floatSuffix data i = i + 1 ∧ ∃ f, data[i]? = some f ∧ (f = 102 ∨ f = 70)) := by
  unfold floatSuffix
  cases hd : data[i]? with
  | none => exact Or.inl ⟨rfl, fun f hf => absurd hf (by simp)⟩
  | some d =>
    simp only []
    by_cases hf : d = 102 ∨ d = 70
    · rw [if_pos hf]
      exact Or.inr ⟨rfl, d, rfl, hf⟩
    · rw [if_neg hf]
      refine Or.inl ⟨rfl, ?_⟩
      intro f hfd
      rw [← Option.some.inj hfd]
      exact hf

/-- The span that the number part scans from the first character of a text, digits
and suffix, has one of the forms of the specification, unless the digits are a lone
`.`. -/
theorem numberForm_span (c : Nat) (rest : List Nat) (hc : isdigit c = true ∨ c = 46)
    (hnl : ¬ (c = 46 ∧ numberEnd (c :: rest) 0 c = 1)) :
    SpecNumberForm
      ((c :: rest).take (floatSuffix (c :: rest) (numberEnd (c :: rest) 0 c))) := by
  have hbody := numberBody_span c rest hc hnl
  rcases floatSuffix_eq (c :: rest) (numberEnd (c :: rest) 0 c) with ⟨h, -⟩ | ⟨h, f, hf, hff⟩
  · rw [h]
    exact Or.inl hbody
  · rw [h]
    refine Or.inr ⟨_, f, ?_, hff, hbody⟩
    rw [List.take_succ, hf]
    rfl

/-- No prefix of the text with one of the forms of the specification is longer than
the span that the number part scans from the first character of the text. -/
theorem numberForm_max (c : Nat) (rest : List Nat) (p : List Nat)
    (hp : SpecNumberForm p) (hpre : p <+: c :: rest) :
    p.length ≤ floatSuffix (c :: rest) (numberEnd (c :: rest) 0 c) ∧
      ¬ (c = 46 ∧ numberEnd (c :: rest) 0 c = 1) := by
  have hb := (numberEnd_bounds (c :: rest) 0 c (by simp)).2
  obtain ⟨hs1, -, -⟩ := floatSuffix_bounds (c :: rest) (numberEnd (c :: rest) 0 c) hb
  rcases hp with hbody | ⟨b, f, rfl, hff, hbody⟩
  · obtain ⟨h1, h2⟩ := numberBody_max c rest p hbody hpre
    exact ⟨by omega, h2⟩
  · have hpre2 : b <+: c :: rest := List.IsPrefix.trans (List.prefix_append b [f]) hpre
    obtain ⟨h1, h2⟩ := numberBody_max c rest b hbody hpre2
    refine ⟨?_, h2⟩
    simp only [List.length_append, List.length_cons, List.length_nil]
    by_cases hlt : b.length < numberEnd (c :: rest) 0 c
    · omega
    · have heq : b.length = numberEnd (c :: rest) 0 c := by omega
      have hget : (c :: rest)[numberEnd (c :: rest) 0 c]? = some f := by
        rw [← heq, getElem?_of_isPrefix hpre (by simp), List.getElem?_append_right (Nat.le_refl _)]
        simp
      rcases floatSuffix_eq (c :: rest) (numberEnd (c :: rest) 0 c) with ⟨-, h⟩ | ⟨h, -⟩
      · exact absurd hff (h f hget)
      · omega

theorem scanWhile_shift (p : Nat → Bool) (data : List Nat) (start k : Nat) :
    scanWhile p data (start + k) = start + scanWhile p (data.drop start) k := by
  unfold scanWhile
  rw [List.drop_drop]
  omega

/-- The end of the digits of a number at the position `start` of the text, in terms
of the text from that position on. -/
theorem numberEnd_shift (data : List Nat) (start c : Nat) :
    numberEnd data start c = start + numberEnd (data.drop start) 0 c := by
  unfold numberEnd
  simp only [Nat.zero_add]
  have e1 : (data.drop start)[1]? = data[start + 1]? := List.getElem?_drop _ _ _
  have e2 : ∀ p, scanWhile p data (start + 2) = start + scanWhile p (data.drop start) 2 :=
    fun p => scanWhile_shift p data start 2
  have e3 : scanWhile isdigit data (start + 1) = start + scanWhile isdigit (data.drop start) 1 :=
    scanWhile_shift isdigit data start 1
  split
  · rw [e1]
    cases data[start + 1]? with
    | none => rfl
    | some d =>
      simp only []
      split
      · exact e2 _
      · split
        · exact e2 _
        · split
          · exact e2 _
          · rfl
  · rw [e3]
    have e4 : data[start + scanWhile isdigit (data.drop start) 1]? =
        (data.drop start)[scanWhile isdigit (data.drop start) 1]? :=
      (List.getElem?_drop _ _ _).symm
    rw [e4]
    split
    · rw [Nat.add_assoc]
      exact scanWhile_shift _ _ _ _
    · rfl

theorem floatSuffix_shift (data : List Nat) (start k : Nat) :
    floatSuffix data (start + k) = start + floatSuffix (data.drop start) k := by
  unfold floatSuffix
  have e : (data.drop start)[k]? = data[start + k]? := List.getElem?_drop _ _ _
  rw [e]
  cases data[start + k]? with
  | none => rfl
  | some d =>
    simp only []
    split
    · omega
    · rfl

theorem drop_of_getElem? {data : List Nat} {i c : Nat} (h : data[i]? = some c) :
    data.drop i = c :: data.drop (i + 1) := by
  have hlt := getElem?_lt h
  rw [List.drop_eq_getElem_cons hlt]
  rw [List.getElem?_eq_getElem hlt] at h
  rw [Option.some.inj h]

/-- A `.` starts a number exactly when a digit follows it: the digits scanned from a
`.` are the `.` alone exactly when the next character is absent or no digit. -/
theorem numberEnd_dot (data : List Nat) (i : Nat) (h : data[i]? = some 46) :
    numberEnd data i 46 = i + 1 ↔ ∀ d, data[i + 1]? = some d → isdigit d = false := by
  rw [numberEnd_shift, drop_of_getElem? h, numberEnd_nonzero 46 _ (by omega), if_neg (by simp)]
  have e : data[i + 1]? = (data.drop (i + 1))[0]? := by
    rw [List.getElem?_drop]
  rw [e]
  generalize data.drop (i + 1) = rest
  cases rest with
  | nil => simp
  | cons a r =>
    by_cases ha : isdigit a = true
    · rw [List.takeWhile_cons_of_pos ha]
      simp only [List.length_cons, List.getElem?_cons_zero, Option.some.injEq]
      constructor
      · intro h1
        omega
      · intro h1
        have := h1 a rfl
        rw [ha] at this
        exact absurd this (by simp)
    · rw [List.takeWhile_cons_of_neg ha]
      simp only [List.length_nil, List.getElem?_cons_zero, Option.some.injEq]
      constructor
      · intro _ d hd
        rw [← hd]
        simpa using ha
      · intro _
        trivial

/-- The span of a number at a position of the text: it is not empty, it ends inside
the text, and it has one of the forms of the specification and is the longest prefix
of the text from the position with such a form, unless the digits are a lone `.`, in
which case no prefix of the text from the position has such a form. -/
theorem numberSpan_spec (data : List Nat) (i c : Nat) (h : data[i]? = some c)
    (hc : isdigit c = true ∨ c = 46) :
    i + 1 ≤ numberEnd data i c ∧
    numberEnd data i c ≤ floatSuffix data (numberEnd data i c) ∧
    floatSuffix data (numberEnd data i c) ≤ data.length ∧
    ((c = 46 ∧ numberEnd data i c = i + 1) →
      ∀ p, p <+: data.drop i → ¬ SpecNumberForm p) ∧
    (¬ (c = 46 ∧ numberEnd data i c = i + 1) →
      SpecNumberForm ((data.drop i).take (floatSuffix data (numberEnd data i c) - i)) ∧
        ∀ p, p <+: data.drop i → SpecNumberForm p →
          p.length ≤ floatSuffix data (numberEnd data i c) - i) := by
  have hlt := getElem?_lt h
  obtain ⟨hb1, hb2⟩ := numberEnd_bounds data i c hlt
  obtain ⟨hs1, -, hs3⟩ := floatSuffix_bounds data (numberEnd data i c) hb2
  have hd := drop_of_getElem? h
  have e1 : numberEnd data i c = i + numberEnd (c :: data.drop (i + 1)) 0 c := by
    rw [numberEnd_shift, hd]
  have e2 : floatSuffix data (numberEnd data i c) =
      i + floatSuffix (c :: data.drop (i + 1)) (numberEnd (c :: data.drop (i + 1)) 0 c) := by
    rw [e1, floatSuffix_shift, hd]
  refine ⟨hb1, hs1, hs3, ?_, ?_⟩
  · intro hlone p hpre hform
    rw [hd] at hpre
    exact (numberForm_max c _ p hform hpre).2 ⟨hlone.1, by omega⟩
  · intro hnl
    have hnl2 : ¬ (c = 46 ∧ numberEnd (c :: data.drop (i + 1)) 0 c = 1) := by
      intro hx
      exact hnl ⟨hx.1, by omega⟩
    refine ⟨?_, ?_⟩
    · rw [e2, hd, Nat.add_sub_cancel_left]
      exact numberForm_span c _ hc hnl2
    · intro p hpre hform
      rw [hd] at hpre
      rw [e2, Nat.add_sub_cancel_left]
      exact (numberForm_max c _ p hform hpre).1

end Highlight

namespace Highlight

/-! ## From a state that the scan reaches to the row that is left -/

theorem scanSteps_succ (env : Externals) (s : EditorSyntax) (data : List Nat) :
    ∀ (n : Nat) (a st st2 : ScanState), scanSteps env s data n a = some st →
      st.i < data.length → scanBody env s data st = Flow.next st2 →
      scanSteps env s data (n + 1) a = some st2
  | 0, a, st, st2, h, hi, hb => by
    rw [scanSteps] at h
    have ha : a = st := Option.some.inj h
    subst ha
    simp only [scanSteps, if_pos hi, hb]
  | n + 1, a, st, st2, h, hi, hb => by
    rw [scanSteps] at h
    split at h
    · rename_i hlt
      cases ha : scanBody env s data a with
      | next a2 =>
        rw [ha] at h
        simp only [] at h
        have := scanSteps_succ env s data n a2 st st2 h hi hb
        rw [scanSteps, if_pos hlt, ha]
        exact this
      | stop a2 => rw [ha] at h; exact absurd h (by simp)
      | pass => rw [ha] at h; exact absurd h (by simp)
      | fault => rw [ha] at h; exact absurd h (by simp)
    · exact absurd h (by simp)

/-- The row that `editorUpdateSyntax` leaves, in terms of a state that the scan of
the row reaches: the scan goes on from that state to its final state, which keeps
every byte before the position of the reached state; the trailing whitespace pass on
the final class array gives the class array of the row, and the final block-comment
state is the stored state of the row. -/
theorem reached_row (env : Externals) (file : EditorFile) (r depth n : Nat)
    (s : EditorSyntax) (row : EditorRow) (st2 : ScanState)
    (hrow : file.row[r]? = some row) (hv : ∀ x ∈ file.row, x.Valid)
    (hd : file.row.length ≤ r + 1 + depth)
    (hact : activeRule env file.syntaxDef = some s)
    (hreach : scanSteps env s row.data n (scanStart row.data (lastOpen (file.row.take r))) =
      some st2) :
    ∃ f1 x stf fuel2, editorUpdateSyntax env depth file r = some f1 ∧ f1.row[r]? = some x ∧
      scanRow env s row.data (lastOpen (file.row.take r)) = some stf ∧
      scanMeasure row.data st2 ≤ fuel2 ∧ st2.hl.length = row.data.length ∧
      scanLoop env s row.data fuel2 st2 = some stf ∧
      stf.hl.length = row.data.length ∧
      (∀ j, j < st2.i → stf.hl[j]? = st2.hl[j]?) ∧
      updateTrailing row.data row.data.length stf.hl = some x.hl ∧
      x.hl_open_comment = stf.in_comment ∧ x.data = row.data := by
  have hr : r < file.row.length := getElem?_lt2 hrow
  have hrr : file.row[r] = row := by
    rw [List.getElem?_eq_getElem hr] at hrow
    exact Option.some.inj hrow
  obtain ⟨fuel2, hm2, hl2, heq⟩ := scanLoop_of_steps env s row.data n _ _ st2 hreach
    (scanStart_measure row.data _) (by simp [scanStart])
  obtain ⟨stf, hlf, hscan, hlen, htr, -, hfresh⟩ :=
    freshRow_eq env s row.data (lastOpen (file.row.take r))
  have hloop : scanLoop env s row.data fuel2 st2 = some stf := by
    rw [← heq, ← scanRow_eq]
    exact hscan
  refine ⟨_, _, stf, fuel2, update_spec env file r depth hr hv hd,
    updatedRows_get env file.syntaxDef file.row r hr, hscan, hm2, hl2, hloop, hlen,
    scanLoop_frame env s row.data fuel2 st2 stf hloop hl2, ?_, ?_, ?_⟩
  · rw [hact, hrr]
    simp only [hfresh]
    exact htr
  · rw [hact, hrr]
    simp only [hfresh]
  · rw [hact, hrr]
    simp only [hfresh]

theorem specNumberForm_chars (w : List Nat) (h : SpecNumberForm w) : ∀ d ∈ w, 46 ≤ d := by
  have hhex : ∀ d, isHexChar d = true → 46 ≤ d := by
    intro d hd
    simp only [isHexChar, isdigit, Bool.or_eq_true, Bool.and_eq_true, decide_eq_true_eq] at hd
    omega
  have hoct : ∀ d, isOctChar d = true → 46 ≤ d := by
    intro d hd
    simp only [isOctChar, Bool.and_eq_true, decide_eq_true_eq] at hd
    omega
  have hdig : ∀ d, isdigit d = true → 46 ≤ d := by
    intro d hd
    simp only [isdigit, Bool.and_eq_true, decide_eq_true_eq] at hd
    omega
  have hbody : ∀ b, SpecNumberBody b → ∀ d ∈ b, 46 ≤ d := by
    intro b hb d hmem
    rcases hb with ⟨x, hs, rfl, hx, hall⟩ | ⟨os, rfl, -, hall⟩ | ⟨ds, rfl, hall⟩ | rfl |
      ⟨c, ds, tail, rfl, hc, -, hall, htail⟩ | ⟨ds, rfl, -, hall⟩
    · simp only [List.mem_cons] at hmem
      rcases hmem with h | h | h
      · omega
      · omega
      · exact hhex d (hall d h)
    · simp only [List.mem_cons] at hmem
      rcases hmem with h | h
      · omega
      · exact hoct d (hall d h)
    · simp only [List.mem_cons] at hmem
      rcases hmem with h | h | h
      · omega
      · omega
      · exact hdig d (hall d h)
    · simp only [List.mem_singleton] at hmem
      omega
    · simp only [List.mem_cons, List.mem_append] at hmem
      rcases hmem with h | h | h
      · rw [h]; exact hdig c hc
      · exact hdig d (hall d h)
      · rcases htail with rfl | ⟨es, rfl, hes⟩
        · simp at h
        · simp only [List.mem_cons] at h
          rcases h with h | h
          · omega
          · exact hdig d (hes d h)
    · simp only [List.mem_cons] at hmem
      rcases hmem with h | h
      · omega
      · exact hdig d (hall d h)
  rcases h with hb | ⟨b, f, rfl, hf, hb⟩
  · exact hbody w hb
  · intro d hmem
    simp only [List.mem_append, List.mem_singleton] at hmem
    rcases hmem with h | h
    · exact hbody b hb d h
    · omega

/-- The loop body at a position where the parts before the number part fall through
and the number part fires is the number part. -/
theorem scanBody_number (env : Externals) (s : EditorSyntax) (data : List Nat)
    (st st2 : ScanState) (c : Nat) (hc : data[st.i]? = some c)
    (hline : lineComment s data st = Flow.pass) (hblock : blockComment s data st = Flow.pass)
    (hstr : stringLiteral s data st c = Flow.pass)
    (hnum : numberLiteral env s data st c = Flow.next st2) :
    scanBody env s data st = Flow.next st2 := by
  unfold scanBody
  rw [hc]
  simp only [hline, hblock, hstr, hnum]

end Highlight

namespace Highlight

/-! ## The string part -/

theorem comments_pass_in_string (s : EditorSyntax) (data : List Nat) (st : ScanState)
    (h : st.in_string ≠ 0) :
    lineComment s data st = Flow.pass ∧ blockComment s data st = Flow.pass := by
  refine ⟨?_, ?_⟩
  · unfold lineComment
    rw [if_neg (fun hg => h hg.2.1)]
  · unfold blockComment
    rw [if_neg (fun hg => h hg.2.2)]

/-- The loop body at a position where the comment parts fall through and the string
part fires is the string part. -/
theorem scanBody_string (env : Externals) (s : EditorSyntax) (data : List Nat)
    (st st2 : ScanState) (c : Nat) (hc : data[st.i]? = some c)
    (hline : lineComment s data st = Flow.pass) (hblock : blockComment s data st = Flow.pass)
    (hstr : stringLiteral s data st c = Flow.next st2) :
    scanBody env s data st = Flow.next st2 := by
  unfold scanBody
  rw [hc]
  simp only [hline, hblock, hstr]

/-- The string part at an opening quote. -/
theorem stringLiteral_open (s : EditorSyntax) (data : List Nat) (st : ScanState) (c : Nat)
    (hflag : s.flags &&& HL_HIGHLIGHT_STRINGS ≠ 0) (hin : st.in_string = 0)
    (hq : c = 34 ∨ c = 39) (hi : st.i < st.hl.length) :
    ∃ hl1, stringLiteral s data st c =
        Flow.next { st with in_string := c, hl := hl1, i := st.i + 1 } ∧
      hl1[st.i]? = some HL_STRING := by
  obtain ⟨hl1, hm⟩ : ∃ hl1, memset st.hl st.i HL_STRING 1 = some hl1 :=
    ⟨_, memset_some HL_STRING (by omega)⟩
  refine ⟨hl1, ?_, by rw [memset_getElem? hm, if_pos (by omega)]⟩
  unfold stringLiteral
  rw [if_pos hflag, if_neg (by rw [hin]; simp), if_pos hq, hm]

/-- The string part inside a string at a backslash that has a character after it. -/
theorem stringLiteral_escape (s : EditorSyntax) (data : List Nat) (st : ScanState) (c : Nat)
    (hflag : s.flags &&& HL_HIGHLIGHT_STRINGS ≠ 0) (hin : st.in_string ≠ 0)
    (hc : c = 92) (hi : st.i + 1 < data.length) (hl : st.hl.length = data.length) :
    ∃ hl2, stringLiteral s data st c = Flow.next { st with hl := hl2, i := st.i + 2 } ∧
      hl2[st.i]? = some HL_STRING ∧ hl2[st.i + 1]? = some HL_STRING := by
  obtain ⟨hl1, hm1⟩ : ∃ hl1, memset st.hl st.i HL_STRING 1 = some hl1 :=
    ⟨_, memset_some HL_STRING (by omega)⟩
  obtain ⟨hl2, hm2⟩ : ∃ hl2, memset hl1 (st.i + 1) HL_STRING 1 = some hl2 :=
    ⟨_, memset_some HL_STRING (by rw [memset_length hm1]; omega)⟩
  refine ⟨hl2, ?_, ?_, ?_⟩
  · unfold stringLiteral
    rw [if_pos hflag, if_pos hin, hm1]
    simp only []
    rw [if_pos ⟨hc, hi⟩, hm2]
  · rw [memset_getElem? hm2, if_neg (by omega), memset_getElem? hm1, if_pos (by omega)]
  · rw [memset_getElem? hm2, if_pos (by omega)]

/-- The string part inside a string at a character that does not start an escape. -/
theorem stringLiteral_inside (s : EditorSyntax) (data : List Nat) (st : ScanState) (c : Nat)
    (hflag : s.flags &&& HL_HIGHLIGHT_STRINGS ≠ 0) (hin : st.in_string ≠ 0)
    (hc : ¬ (c = 92 ∧ st.i + 1 < data.length)) (hi : st.i < st.hl.length) :
    ∃ hl1, stringLiteral s data st c =
        Flow.next
          { st with
            hl := hl1
            in_string := if c = st.in_string then 0 else st.in_string
            i := st.i + 1
            prev_sep := true } ∧
      hl1[st.i]? = some HL_STRING := by
  obtain ⟨hl1, hm⟩ : ∃ hl1, memset st.hl st.i HL_STRING 1 = some hl1 :=
    ⟨_, memset_some HL_STRING (by omega)⟩
  refine ⟨hl1, ?_, by rw [memset_getElem? hm, if_pos (by omega)]⟩
  unfold stringLiteral
  rw [if_pos hflag, if_pos hin, hm]
  simp only []
  rw [if_neg hc]

theorem escaping_succ (data : List Nat) (p j : Nat) :
    escaping data p (j + 1) =
      (decide (p ≤ j) && (data[j + 1]? == some 92) && decide (j + 2 < data.length) &&
        !(escaping data p j)) := rfl

theorem stringCloses_lt {data : List Nat} {p q j : Nat} (h : StringCloses data p q j) :
    j < data.length := getElem?_lt h.2.1

end Highlight

namespace Highlight

/-! ## The scan inside a string -/

theorem scanSteps_next (env : Externals) (s : EditorSyntax) (data : List Nat) (m : Nat)
    (a a2 : ScanState) (hlt : a.i < data.length) (hb : scanBody env s data a = Flow.next a2) :
    scanSteps env s data (m + 1) a = scanSteps env s data m a2 := by
  simp only [scanSteps, if_pos hlt, hb]

/-- The scan inside the string opened at the position `p` by the quote character
`q`, from a state at a position that is not escaped: with `lim` the position of the
first quote that can close the string, or the end of the row if there is none, the
scan reaches the position `e` after the span without a `break`, every position from
the state on up to `e` gets the class string, and every state on the way is outside a
block comment. -/
theorem string_walk (env : Externals) (s : EditorSyntax) (data : List Nat)
    (p q e fin lim : Nat) (hflag : s.flags &&& HL_HIGHLIGHT_STRINGS ≠ 0)
    (hq0 : q ≠ 0) (hq92 : q ≠ 92)
    (hcase : (e = lim + 1 ∧ fin = 0 ∧ StringCloses data p q lim ∧
        ∀ j, j < lim → ¬ StringCloses data p q j) ∨
      (e = lim ∧ lim = data.length ∧ fin = q ∧
        ∀ j, j < data.length → ¬ StringCloses data p q j)) :
    ∀ (d : Nat) (a : ScanState), lim + 1 - a.i ≤ d → a.in_string = q →
      a.in_comment = false → a.hl.length = data.length → p < a.i → a.i ≤ lim →
      escaping data p (a.i - 1) = false →
      ∃ m st2, scanSteps env s data m a = some st2 ∧ st2.i = e ∧ st2.in_comment = false ∧
        st2.in_string = fin ∧ st2.hl.length = data.length ∧
        (∀ j, a.i ≤ j → j < e → st2.hl[j]? = some HL_STRING) ∧
        ∀ m2 st3, m2 ≤ m → scanSteps env s data m2 a = some st3 → st3.in_comment = false
  | 0, a, hd, _, _, _, _, hle, _ => by omega
  | d + 1, a, hd, hin, hcom, hl, hp, hle, hinv => by
    have hin0 : a.in_string ≠ 0 := by rw [hin]; exact hq0
    obtain ⟨j0, hj0⟩ : ∃ j0, a.i = j0 + 1 := ⟨a.i - 1, by omega⟩
    have hinv0 : escaping data p j0 = false := by
      rw [hj0] at hinv
      exact hinv
    by_cases hlt : a.i < data.length
    · obtain ⟨c, hc⟩ : ∃ c, data[a.i]? = some c := ⟨_, List.getElem?_eq_getElem hlt⟩
      obtain ⟨hline, hblock⟩ := comments_pass_in_string s data a hin0
      by_cases hesc : c = 92 ∧ a.i + 1 < data.length
      · obtain ⟨hl2, hstr, h1, h2⟩ := stringLiteral_escape s data a c hflag hin0
          hesc.1 hesc.2 hl
        have hbody := scanBody_string env s data a _ c hc hline hblock hstr
        have hsound := (scanBody_sound env s data a hlt hl).1
        rw [hbody] at hsound
        have hlen2 : hl2.length = data.length := by rw [← hl]; exact hsound.1
        have hesc_true : escaping data p a.i = true := by
          have h92 : data[j0 + 1]? = some 92 := by rw [← hj0, hc, hesc.1]
          rw [hj0, escaping_succ, hinv0, h92]
          simp only [Bool.and_eq_true, decide_eq_true_eq, beq_self_eq_true,
            Bool.not_false, and_true]
          exact ⟨by omega, by omega⟩
        have hle2 : a.i + 2 ≤ lim := by
          rcases hcase with ⟨-, -, hcl, -⟩ | ⟨-, hlim, -, -⟩
          · obtain ⟨-, hq, hnesc⟩ := hcl
            have h3 : lim ≠ a.i := by
              intro h
              rw [h, hc] at hq
              exact hq92 (by rw [← Option.some.inj hq, hesc.1])
            have h4 : lim ≠ a.i + 1 := by
              intro h
              rw [h, Nat.add_sub_cancel, hesc_true] at hnesc
              exact absurd hnesc (by simp)
            omega
          · omega
        have hinv2 : escaping data p (a.i + 2 - 1) = false := by
          rw [show a.i + 2 - 1 = a.i + 1 by omega, escaping_succ, hesc_true]
          simp
        obtain ⟨m, st2, hsteps, hi2, hc2, hs2, hlf, hhl, hmid⟩ :=
          string_walk env s data p q e fin lim hflag hq0 hq92 hcase d
            { a with hl := hl2, i := a.i + 2 } (by simp only []; omega) hin hcom hlen2
            (by simp only []; omega) hle2 hinv2
        refine ⟨m + 1, st2, ?_, hi2, hc2, hs2, hlf, ?_, ?_⟩
        · rw [scanSteps_next env s data m a _ hlt hbody]
          exact hsteps
        · intro j hj1 hj2
          by_cases hj3 : j < a.i + 2
          · rw [(scanSteps_frame env s data m _ st2 hsteps hlen2).2.2 j (Or.inl hj3)]
            by_cases hj4 : j = a.i
            · rw [hj4]; exact h1
            · rw [show j = a.i + 1 by omega]; exact h2
          · exact hhl j (by simp only []; omega) hj2
        · intro m2 st3 hm2 hst3
          cases m2 with
          | zero =>
            rw [scanSteps] at hst3
            rw [← Option.some.inj hst3]
            exact hcom
          | succ k =>
            rw [scanSteps_next env s data k a _ hlt hbody] at hst3
            exact hmid k st3 (by omega) hst3
      · obtain ⟨hl1, hstr, h1⟩ := stringLiteral_inside s data a c hflag hin0 hesc
          (by rw [hl]; exact hlt)
        have hbody := scanBody_string env s data a _ c hc hline hblock hstr
        have hsound := (scanBody_sound env s data a hlt hl).1
        rw [hbody] at hsound
        have hlen1 : hl1.length = data.length := by rw [← hl]; exact hsound.1
        by_cases hcq : c = q
        · have hcl : StringCloses data p q a.i := by
            refine ⟨hp, by rw [hc, hcq], ?_⟩
            rw [hj0, Nat.add_sub_cancel]
            exact hinv0
          rcases hcase with ⟨he, hfin, -, hfirst⟩ | ⟨-, -, -, hnone⟩
          · have hlim : lim = a.i := by
              by_contra hne
              exact hfirst a.i (by omega) hcl
            refine ⟨1,
              { a with
                hl := hl1
                in_string := if c = a.in_string then 0 else a.in_string
                i := a.i + 1
                prev_sep := true },
              by rw [scanSteps_next env s data 0 a _ hlt hbody, scanSteps],
              by simp only []; omega, hcom, ?_, hlen1, ?_, ?_⟩
            · simp only []
              rw [if_pos (by rw [hcq, hin]), hfin]
            · intro j hj1 hj2
              rw [show j = a.i by omega]
              exact h1
            · intro m2 st3 hm2 hst3
              cases m2 with
              | zero =>
                rw [scanSteps] at hst3
                rw [← Option.some.inj hst3]
                exact hcom
              | succ k =>
                have hk : k = 0 := by omega
                subst hk
                rw [scanSteps_next env s data 0 a _ hlt hbody, scanSteps] at hst3
                rw [← Option.some.inj hst3]
                exact hcom
          · exact absurd hcl (hnone a.i hlt)
        · have hin2 : (if c = a.in_string then 0 else a.in_string) = q := by
            rw [if_neg (by rw [hin]; exact hcq), hin]
          have hle2 : a.i + 1 ≤ lim := by
            rcases hcase with ⟨-, -, hcl, -⟩ | ⟨-, hlim, -, -⟩
            · obtain ⟨-, hq, -⟩ := hcl
              have h3 : lim ≠ a.i := by
                intro h
                rw [h, hc] at hq
                exact hcq (Option.some.inj hq)
              omega
            · omega
          have hinv2 : escaping data p (a.i + 1 - 1) = false := by
            rw [Nat.add_sub_cancel, hj0, escaping_succ]
            have hc2 : data[j0 + 1]? = some c := by rw [← hj0, hc]
            by_cases h92 : c = 92
            · have hnl : ¬ (j0 + 2 < data.length) := by
                intro hh
                exact hesc ⟨h92, by omega⟩
              simp [hnl]
            · simp [hc2, h92]
          obtain ⟨m, st2, hsteps, hi2, hc2, hs2, hlf, hhl, hmid⟩ :=
            string_walk env s data p q e fin lim hflag hq0 hq92 hcase d
              { a with
                hl := hl1
                in_string := if c = a.in_string then 0 else a.in_string
                i := a.i + 1
                prev_sep := true }
              (by simp only []; omega) hin2 hcom hlen1 (by simp only []; omega) hle2 hinv2
          refine ⟨m + 1, st2, ?_, hi2, hc2, hs2, hlf, ?_, ?_⟩
          · rw [scanSteps_next env s data m a _ hlt hbody]
            exact hsteps
          · intro j hj1 hj2
            by_cases hj3 : j < a.i + 1
            · rw [(scanSteps_frame env s data m _ st2 hsteps hlen1).2.2 j (Or.inl hj3),
                show j = a.i by omega]
              exact h1
            · exact hhl j (by simp only []; omega) hj2
          · intro m2 st3 hm2 hst3
            cases m2 with
            | zero =>
              rw [scanSteps] at hst3
              rw [← Option.some.inj hst3]
              exact hcom
            | succ k =>
              rw [scanSteps_next env s data k a _ hlt hbody] at hst3
              exact hmid k st3 (by omega) hst3
    · rcases hcase with ⟨-, -, hcl, -⟩ | ⟨he, hlim, hfin, -⟩
      · have := stringCloses_lt hcl
        omega
      · refine ⟨0, a, rfl, by omega, hcom, by rw [hin, hfin], hl, ?_, ?_⟩
        · intro j hj1 hj2
          omega
        · intro m2 st3 hm2 hst3
          have hk : m2 = 0 := by omega
          subst hk
          rw [scanSteps] at hst3
          rw [← Option.some.inj hst3]
          exact hcom

end Highlight

namespace Highlight

/-! ## Composition of reached states -/

theorem scanSteps_add (env : Externals) (s : EditorSyntax) (data : List Nat) :
    ∀ (n m : Nat) (a b c : ScanState), scanSteps env s data n a = some b →
      scanSteps env s data m b = some c → scanSteps env s data (n + m) a = some c
  | 0, m, a, b, c, h1, h2 => by
    rw [scanSteps] at h1
    rw [Option.some.inj h1, Nat.zero_add]
    exact h2
  | n + 1, m, a, b, c, h1, h2 => by
    rw [scanSteps] at h1
    split at h1
    · rename_i hlt
      cases ha : scanBody env s data a with
      | next a2 =>
        rw [ha] at h1
        simp only [] at h1
        rw [show n + 1 + m = (n + m) + 1 by omega, scanSteps_next env s data (n + m) a a2 hlt ha]
        exact scanSteps_add env s data n m a2 b c h1 h2
      | stop a2 => rw [ha] at h1; exact absurd h1 (by simp)
      | pass => rw [ha] at h1; exact absurd h1 (by simp)
      | fault => rw [ha] at h1; exact absurd h1 (by simp)
    · exact absurd h1 (by simp)

theorem escaping_self (data : List Nat) (p : Nat) : escaping data p p = false := by
  cases p with
  | zero => rfl
  | succ j =>
    rw [escaping_succ]
    have : ¬ (j + 1 ≤ j) := by omega
    simp [this]

/-- The scan from an opening quote outside comments, with strings enabled: the scan
reaches the position after the span of the string without a `break`, every state on
the way is outside a block comment, every position of the span has the class string,
and no other byte is changed. -/
theorem string_scan (env : Externals) (s : EditorSyntax) (data : List Nat) (st : ScanState)
    (q e fin : Nat) (hl : st.hl.length = data.length)
    (hflag : s.flags &&& HL_HIGHLIGHT_STRINGS ≠ 0)
    (hq : data[st.i]? = some q) (hquote : q = 34 ∨ q = 39)
    (hstr : st.in_string = 0) (hcom : st.in_comment = false)
    (hline : lineComment s data st = Flow.pass) (hblock : blockComment s data st = Flow.pass)
    (hspan : StringSpan data st.i q e fin) :
    ∃ m st2, scanSteps env s data m st = some st2 ∧ st2.i = e ∧ st2.in_string = fin ∧
      st2.in_comment = false ∧ st.i < e ∧ e ≤ data.length ∧
      (∀ m2 st3, m2 ≤ m → scanSteps env s data m2 st = some st3 → st3.in_comment = false) ∧
      (∀ j, st.i ≤ j → j < e → st2.hl[j]? = some HL_STRING) ∧
      ∀ j, j < st.i ∨ e ≤ j → st2.hl[j]? = st.hl[j]? := by
  have hi := getElem?_lt hq
  have hq0 : q ≠ 0 := by omega
  have hq92 : q ≠ 92 := by omega
  obtain ⟨hl1, hopen, h1⟩ := stringLiteral_open s data st q hflag hstr hquote
    (by rw [hl]; exact hi)
  have hbody := scanBody_string env s data st _ q hq hline hblock hopen
  have hsound := (scanBody_sound env s data st hi hl).1
  rw [hbody] at hsound
  have hlen1 : hl1.length = data.length := by rw [← hl]; exact hsound.1
  obtain ⟨lim, hcase, hlim, hle⟩ : ∃ lim,
      ((e = lim + 1 ∧ fin = 0 ∧ StringCloses data st.i q lim ∧
          ∀ j, j < lim → ¬ StringCloses data st.i q j) ∨
        (e = lim ∧ lim = data.length ∧ fin = q ∧
          ∀ j, j < data.length → ¬ StringCloses data st.i q j)) ∧
      st.i + 1 ≤ lim ∧ e ≤ data.length := by
    rcases hspan with ⟨k, hk, hfin, hcl, hfirst⟩ | ⟨he, hfin, hnone⟩
    · have := stringCloses_lt hcl
      exact ⟨k, Or.inl ⟨hk, hfin, hcl, hfirst⟩, hcl.1, by omega⟩
    · exact ⟨data.length, Or.inr ⟨he, rfl, hfin, hnone⟩, by omega, by omega⟩
  obtain ⟨m, st2, hsteps, hi2, hc2, hs2, hlf, hhl, hmid⟩ :=
    string_walk env s data st.i q e fin lim hflag hq0 hq92 hcase (lim + 1 - (st.i + 1))
      { st with in_string := q, hl := hl1, i := st.i + 1 } (Nat.le_refl _) rfl hcom hlen1
      (by simp only []; omega) hlim (by simp only [Nat.add_sub_cancel]; exact escaping_self _ _)
  have hsteps2 : scanSteps env s data (m + 1) st = some st2 := by
    rw [scanSteps_next env s data m st _ hi hbody]
    exact hsteps
  have hlt : st.i < e := by
    rcases hcase with ⟨h, -, -, -⟩ | ⟨h, -, -, -⟩ <;> omega
  refine ⟨m + 1, st2, hsteps2, hi2, hs2, hc2, hlt, hle, ?_, ?_, ?_⟩
  · intro m2 st3 hm2 hst3
    cases m2 with
    | zero =>
      rw [scanSteps] at hst3
      rw [← Option.some.inj hst3]
      exact hcom
    | succ k =>
      rw [scanSteps_next env s data k st _ hi hbody] at hst3
      exact hmid k st3 (by omega) hst3
  · intro j hj1 hj2
    by_cases hj3 : j < st.i + 1
    · rw [(scanSteps_frame env s data m _ st2 hsteps hlen1).2.2 j (Or.inl hj3),
        show j = st.i by omega]
      exact h1
    · exact hhl j (by simp only []; omega) hj2
  · intro j hj
    rw [← hi2] at hj
    exact (scanSteps_frame env s data (m + 1) st st2 hsteps2 hl).2.2 j hj

end Highlight

namespace Highlight

/-! ## The end of a block comment -/

/-- C31: the end of a block comment.  In the row `/*c*/int` under `sampleRule` (block
comment `/*` ... `*/`, keyword 1 `int`), scanned with the incoming state `false`,
the scan is inside the comment at the position 3, where the end token matches.  The
iteration there writes the class comment on the two characters of the token, leaves
the comment state, sets `prev_sep`, and moves to the position 6, which is
3 + 2 + 1, not 3 + 2: the character at the position 5 is never looked at.  The
keyword `int` passes the keyword test at the position 5, but the scan does not try
it there, and the three characters of `int` keep the class normal in the row that
`editorUpdateSyntax` leaves. -/
theorem block_comment_end_skips_one :
    scanSteps sampleEnv sampleRule sampleCommentInt 2 (scanStart sampleCommentInt false) =
      some { i := 3, prev_sep := true, in_string := 0, in_comment := true,
             hl := [1, 1, 1, 0, 0, 0, 0, 0] } ∧
    tokAt sampleCommentInt 3 sampleRule.multiline_comment_end = true ∧
    scanBody sampleEnv sampleRule sampleCommentInt
        { i := 3, prev_sep := true, in_string := 0, in_comment := true,
          hl := [1, 1, 1, 0, 0, 0, 0, 0] } =
      Flow.next { i := 6, prev_sep := true, in_string := 0, in_comment := false,
                  hl := [1, 1, 1, 1, 1, 0, 0, 0] } ∧
    keywordAt sampleEnv sampleCommentInt 5 [105, 110, 116] = some true ∧
    scanRow sampleEnv sampleRule sampleCommentInt false =
      some { i := 8, prev_sep := false, in_string := 0, in_comment := false,
             hl := [1, 1, 1, 1, 1, 0, 0, 0] } ∧
    editorUpdateSyntax sampleEnv 1 sampleCommentIntFile 0 =
      some { sampleCommentIntFile with
        row := [{ data := sampleCommentInt, hl := [1, 1, 1, 1, 1, 0, 0, 0],
                  hl_open_comment := false }] } := by
  refine ⟨by decide!, by decide, by decide!, by decide!, by decide!, by decide!⟩

end Highlight

namespace Highlight

/-! ## Keywords after a block comment -/

/-- C35: a keyword after an identifier character.  In the row `/*c*/xint` under
`sampleRule` (block comment `/*` ... `*/`, keyword 1 `int`), scanned with the
incoming state `false`, the end token of the comment matches at the position 3; the
iteration there sets `prev_sep` and moves to the position 6, past the character `x`
of the position 5, which is an identifier character.  So the keyword test runs at
the position 6 with `prev_sep` set although the character before it is `x`, and the
three characters of `int` get the class keyword 1 in the row that
`editorUpdateSyntax` leaves. -/
theorem keyword_after_identifier :
    sampleEnv.isNonIdentifierChar 120 = false ∧
    sampleCommentXint[5]? = some 120 ∧
    scanSteps sampleEnv sampleRule sampleCommentXint 3 (scanStart sampleCommentXint false) =
      some { i := 6, prev_sep := true, in_string := 0, in_comment := false,
             hl := [1, 1, 1, 1, 1, 0, 0, 0, 0] } ∧
    scanRow sampleEnv sampleRule sampleCommentXint false =
      some { i := 9, prev_sep := false, in_string := 0, in_comment := false,
             hl := [1, 1, 1, 1, 1, 0, 2, 2, 2] } ∧
    editorUpdateSyntax sampleEnv 1 sampleCommentXintFile 0 =
      some { sampleCommentXintFile with
        row := [{ data := sampleCommentXint, hl := [1, 1, 1, 1, 1, 0, 2, 2, 2],
                  hl_open_comment := false }] } := by
  refine ⟨by decide, by decide, by decide!, by decide!, by decide!⟩

end Highlight

/-! ## Appending no action -/

/-- C37: `editorAppendAction` with a null action returns at once and leaves the file
as it is: the node store (so the action sequence and the redo tail), `action_head`,
`action_current` and `dirty` are unchanged, and no node is allocated.  This holds for
every file state, also one whose history is not well formed. -/
theorem append_null_noop {D : Type} (f : EditorFile D) :
    ∃ f2, editorAppendAction f none = some f2 ∧ f2 = f ∧
      f2.mem = f.mem ∧ f2.mem.length = f.mem.length ∧ f2.action_head = f.action_head ∧
      f2.action_current = f.action_current ∧ f2.dirty = f.dirty ∧ f2.row = f.row ∧
      f2.cursor = f.cursor ∧ f2.newline = f.newline :=
  ⟨f, rfl, rfl, rfl, rfl, rfl, rfl, rfl, rfl, rfl, rfl⟩

namespace Highlight

/-! ## Termination -/

/-- C36: termination.  For every rule `s`, every text `data` and every state `st` of
the scan loop (any position, any `prev_sep`, inside or outside a string or a block
comment) on a class array with one byte per character: the loop body at a position
inside the row ends in `break`, or in `continue` with the position moved forward or
with the same position and `prev_sep` cleared; so the scan loop returns with every
fuel that is at least the measure `scanMeasure`, and its result does not depend on
that fuel.  In particular the scan of a row from its start returns, whatever the
incoming state `ic` is.  And `editorUpdateSyntax` on the row `r` of a file returns
whenever the depth allowed for the recursion on the next row is at least the number
of rows after `r`: each recursive call is on the next row index, below the row
count. -/
theorem scan_terminates (env : Externals) (s : EditorSyntax) (data : List Nat)
    (st : ScanState) (fuel : Nat) (ic : Bool) (file : EditorFile) (r depth : Nat)
    (hl : st.hl.length = data.length) (hm : scanMeasure data st ≤ fuel)
    (hr : r < file.row.length) (hv : ∀ x ∈ file.row, x.Valid)
    (hd : file.row.length ≤ r + 1 + depth) :
    (st.i < data.length →
      ∃ st2, scanBody env s data st = Flow.stop st2 ∨
        (scanBody env s data st = Flow.next st2 ∧
          (st.i < st2.i ∨ (st2.i = st.i ∧ st.prev_sep = true ∧ st2.prev_sep = false)))) ∧
    (∃ st2, scanLoop env s data fuel st = some st2 ∧
      ∀ fuel2, scanMeasure data st ≤ fuel2 → scanLoop env s data fuel2 st = some st2) ∧
    (∃ st2, scanRow env s data ic = some st2) ∧
    ∃ f1, editorUpdateSyntax env depth file r = some f1 ∧
      f1.row.length = file.row.length := by
  refine ⟨?_, ?_, ?_, ?_⟩
  · intro hi
    obtain ⟨hs, hnp⟩ := scanBody_sound env s data st hi hl
    cases hb : scanBody env s data st with
    | next st2 => exact ⟨st2, Or.inr ⟨rfl, scanBody_progress env s data st st2 hi hl hb⟩⟩
    | stop st2 => exact ⟨st2, Or.inl rfl⟩
    | pass => exact absurd hb hnp
    | fault => rw [hb] at hs; exact absurd hs (by simp [Flow.Sound])
  · obtain ⟨st2, h1, -, -⟩ := scanLoop_sound env s data fuel st hm hl
    refine ⟨st2, h1, ?_⟩
    intro fuel2 h2
    rw [← h1]
    exact scanLoop_fuel env s data fuel2 fuel st h2 hm hl
  · obtain ⟨st2, h1, -, -⟩ := scanRow_some env s data ic
    exact ⟨st2, h1⟩
  · exact ⟨_, update_spec env file r depth hr hv hd, updatedRows_length env _ _ _⟩

theorem scan_terminates_witness :
    ((scanStart [32, 97] true).i < [32, 97].length →
      ∃ st2, scanBody sampleEnv sampleEmptyRule [32, 97] (scanStart [32, 97] true) =
          Flow.stop st2 ∨
        (scanBody sampleEnv sampleEmptyRule [32, 97] (scanStart [32, 97] true) =
            Flow.next st2 ∧
          ((scanStart [32, 97] true).i < st2.i ∨
            (st2.i = (scanStart [32, 97] true).i ∧
              (scanStart [32, 97] true).prev_sep = true ∧ st2.prev_sep = false)))) ∧
    (∃ st2, scanLoop sampleEnv sampleEmptyRule [32, 97] 5 (scanStart [32, 97] true) =
        some st2 ∧
      ∀ fuel2, scanMeasure [32, 97] (scanStart [32, 97] true) ≤ fuel2 →
        scanLoop sampleEnv sampleEmptyRule [32, 97] fuel2 (scanStart [32, 97] true) =
          some st2) ∧
    (∃ st2, scanRow sampleEnv sampleEmptyRule [32, 97] true = some st2) ∧
    ∃ f1, editorUpdateSyntax sampleEnv 1 sampleEmptyFile 0 = some f1 ∧
      f1.row.length = sampleEmptyFile.row.length :=
  scan_terminates sampleEnv sampleEmptyRule [32, 97] (scanStart [32, 97] true) 5 true
    sampleEmptyFile 0 1 (by decide) (by decide) (by decide) (by decide) (by decide)

end Highlight

namespace Highlight

/-! ## Results on single rows -/

/-- C38: row-local determinism.  Let two file states, with class arrays of one byte
per character, hold at the index `r` rows with the same text, have the same active
rule, and agree on the stored state of the row before `r` (`false` for the first
row).  Then `editorUpdateSyntax` on the row `r` returns in both, and the rows that it
leaves at `r` have the same class array, whatever the old class bytes and the old
stored state of the row and the texts of the other rows were.  With an active rule
`s` the row left is `freshRow`, the scan of the text from the start state (outside
any string) with the trailing whitespace marked, so the stored outgoing states are
the same too; without an active rule no outgoing state is computed, and the stored
state of the row stays as it was. -/
theorem row_local_determinism (env : Externals) (fa fb : EditorFile) (r da db : Nat)
    (rowa rowb : EditorRow)
    (hra : fa.row[r]? = some rowa) (hrb : fb.row[r]? = some rowb)
    (hva : ∀ x ∈ fa.row, x.Valid) (hvb : ∀ x ∈ fb.row, x.Valid)
    (hda : fa.row.length ≤ r + 1 + da) (hdb : fb.row.length ≤ r + 1 + db)
    (htext : rowa.data = rowb.data)
    (hrule : activeRule env fa.syntaxDef = activeRule env fb.syntaxDef)
    (hprev : lastOpen (fa.row.take r) = lastOpen (fb.row.take r)) :
    ∃ ga gb xa xb, editorUpdateSyntax env da fa r = some ga ∧
      editorUpdateSyntax env db fb r = some gb ∧
      ga.row[r]? = some xa ∧ gb.row[r]? = some xb ∧
      xa.data = xb.data ∧ xa.hl = xb.hl ∧
      (∀ s, activeRule env fa.syntaxDef = some s →
        xa = freshRow env s rowa.data (lastOpen (fa.row.take r)) ∧ xb = xa ∧
          xa.hl_open_comment = xb.hl_open_comment) ∧
      (activeRule env fa.syntaxDef = none →
        xa = plainRow rowa ∧ xb = plainRow rowb ∧
          xa.hl_open_comment = rowa.hl_open_comment ∧
          xb.hl_open_comment = rowb.hl_open_comment) := by
  have hr1 : r < fa.row.length := getElem?_lt2 hra
  have hr2 : r < fb.row.length := getElem?_lt2 hrb
  have hea : fa.row[r] = rowa := by
    rw [List.getElem?_eq_getElem hr1] at hra
    exact Option.some.inj hra
  have heb : fb.row[r] = rowb := by
    rw [List.getElem?_eq_getElem hr2] at hrb
    exact Option.some.inj hrb
  refine ⟨_, _, _, _, update_spec env fa r da hr1 hva hda, update_spec env fb r db hr2 hvb hdb,
    updatedRows_get env fa.syntaxDef fa.row r hr1,
    updatedRows_get env fb.syntaxDef fb.row r hr2, ?_, ?_, ?_, ?_⟩
  · rw [← hrule, hea, heb, ← hprev, ← htext]
    cases activeRule env fa.syntaxDef with
    | none => simp only [plainRow, htext]
    | some s => rfl
  · rw [← hrule, hea, heb, ← hprev, ← htext]
    cases activeRule env fa.syntaxDef with
    | none => simp only [plainRow, htext]
    | some s => rfl
  · intro s hs
    rw [← hrule, hs, hea, heb, ← hprev, ← htext]
    exact ⟨rfl, rfl, rfl⟩
  · intro hn
    rw [← hrule, hn, hea, heb]
    exact ⟨rfl, rfl, rfl, rfl⟩

theorem row_local_determinism_witness :
    ∃ ga gb xa xb, editorUpdateSyntax sampleEnv 0 sampleStringFile 1 = some ga ∧
      editorUpdateSyntax sampleEnv 1 samplePlainFile 1 = some gb ∧
      ga.row[1]? = some xa ∧ gb.row[1]? = some xb ∧
      xa.data = xb.data ∧ xa.hl = xb.hl ∧
      (∀ s, activeRule sampleEnv sampleStringFile.syntaxDef = some s →
        xa = freshRow sampleEnv s
            ({ data := [105, 110, 116], hl := [7, 7, 7], hl_open_comment := true } :
              EditorRow).data
            (lastOpen (sampleStringFile.row.take 1)) ∧ xb = xa ∧
          xa.hl_open_comment = xb.hl_open_comment) ∧
      (activeRule sampleEnv sampleStringFile.syntaxDef = none →
        xa = plainRow { data := [105, 110, 116], hl := [7, 7, 7], hl_open_comment := true } ∧
          xb = plainRow { data := [105, 110, 116], hl := [0, 0, 0], hl_open_comment := false } ∧
          xa.hl_open_comment =
            ({ data := [105, 110, 116], hl := [7, 7, 7], hl_open_comment := true } :
              EditorRow).hl_open_comment ∧
          xb.hl_open_comment =
            ({ data := [105, 110, 116], hl := [0, 0, 0], hl_open_comment := false } :
              EditorRow).hl_open_comment) :=
  row_local_determinism sampleEnv sampleStringFile samplePlainFile 1 0 1
    { data := [105, 110, 116], hl := [7, 7, 7], hl_open_comment := true }
    { data := [105, 110, 116], hl := [0, 0, 0], hl_open_comment := false }
    rfl rfl (by decide) (by decide) (by decide) (by decide) rfl rfl (by decide)

/-- C39: the line comment shadows the block comment.  Let the line-comment token of
the rule `s` be non-empty and a prefix of its block-comment start token.  Then every
state that the scan of a row reaches from the incoming state `false` is outside a
block comment, and the scan of the row ends with the outgoing state `false`.  So,
with highlighting enabled, `editorSetSyntaxHighlight` with the rule `s` on a file
with class arrays of one byte per character returns and leaves every row with the
stored state `false`. -/
theorem line_comment_shadows (env : Externals) (file : EditorFile) (s : EditorSyntax)
    (scs mcs : List Nat) (hv : ∀ x ∈ file.row, x.Valid) (hon : env.syntax_convar ≠ 0)
    (h1 : s.singleline_comment_start = some scs)
    (h2 : s.multiline_comment_start = some mcs) (hne : scs ≠ []) (hpre : scs <+: mcs) :
    (∀ (data : List Nat) (n : Nat) (st : ScanState),
      scanSteps env s data n (scanStart data false) = some st → st.in_comment = false) ∧
    (∀ data : List Nat, ∃ st, scanRow env s data false = some st ∧ st.in_comment = false) ∧
    ∃ f1, editorSetSyntaxHighlight env file (some s) = some f1 ∧
      f1.row.length = file.row.length ∧ ∀ x ∈ f1.row, x.hl_open_comment = false := by
  refine ⟨?_, ?_, ?_⟩
  · intro data n st h
    exact scanSteps_shadow env s data scs mcs h1 h2 hne hpre n _ st h (by simp [scanStart]) rfl
  · intro data
    obtain ⟨st, hscan, -, -⟩ := scanRow_some env s data false
    exact ⟨st, hscan,
      scanLoop_shadow env s data scs mcs h1 h2 hne hpre _ _ st hscan (by simp) rfl⟩
  · have hact : activeRule env (some s) = some s := by
      unfold activeRule
      rw [if_neg hon]
    refine ⟨_, set_spec env file (some s) hv, ?_, ?_⟩
    · simp only [fullRows, hact, rescan_length, List.length_map]
    · intro x hx
      simp only [fullRows, hact] at hx
      exact rescan_shadow env s scs mcs h1 h2 hne hpre _ x hx

theorem line_comment_shadows_witness :
    (∀ (data : List Nat) (n : Nat) (st : ScanState),
      scanSteps sampleEnv sampleDashRule data n (scanStart data false) = some st →
        st.in_comment = false) ∧
    (∀ data : List Nat, ∃ st, scanRow sampleEnv sampleDashRule data false = some st ∧
      st.in_comment = false) ∧
    ∃ f1, editorSetSyntaxHighlight sampleEnv sampleDashFile (some sampleDashRule) = some f1 ∧
      f1.row.length = sampleDashFile.row.length ∧ ∀ x ∈ f1.row, x.hl_open_comment = false :=
  line_comment_shadows sampleEnv sampleDashFile sampleDashRule [45, 45] [45, 45, 91, 91]
    (by decide) (by decide) rfl rfl (by decide) (by decide)

end Highlight

namespace Highlight

/-! ## Results on numbers -/

/-- C33, as stated, fails at a `.` that no digit follows.  In the row `.f` under
`sampleRule`, which has numbers enabled, the scan starts at the position 0 with
`prev_sep` set on the character `.`.  The iteration consumes the `.` alone: the scan
goes on at the position 1.  But the text `.` that it consumes has none of the forms
of the specification, and neither has any other prefix of the row. -/
theorem lone_dot_consumed :
    sampleRule.flags &&& HL_HIGHLIGHT_NUMBERS ≠ 0 ∧
    sampleDotF[(scanStart sampleDotF false).i]? = some 46 ∧
    (scanStart sampleDotF false).prev_sep = true ∧
    scanBody sampleEnv sampleRule sampleDotF (scanStart sampleDotF false) =
      Flow.next { i := 1, prev_sep := true, in_string := 0, in_comment := false,
                  hl := [0, 0] } ∧
    ¬ SpecNumberForm ((sampleDotF.drop 0).take (1 - 0)) ∧
    ∀ p, p <+: sampleDotF → ¬ SpecNumberForm p := by
  have hno : ∀ p, p <+: sampleDotF → ¬ SpecNumberForm p :=
    (numberSpan_spec sampleDotF 0 46 rfl (Or.inr rfl)).2.2.2.1 ⟨rfl, by decide⟩
  exact ⟨by decide, by decide, rfl, by decide!, hno _ (List.take_prefix _ _), hno⟩

/-- C33, amended: the grammar of the number scan.  Let the rule have numbers enabled,
and let the scan be at a position with `prev_sep` set whose character `c` is a digit,
or a `.` that a digit follows, where the parts before the number part fall through.
Then the iteration ends in `continue` at a later position inside the row or at its
end; the text between the old and the new position has one of the forms of the
specification (`SpecNumberForm`), and no prefix of the text from the old position
with such a form is longer. -/
theorem number_grammar (env : Externals) (s : EditorSyntax) (data : List Nat)
    (st : ScanState) (c : Nat) (hc : data[st.i]? = some c)
    (hl : st.hl.length = data.length)
    (hline : lineComment s data st = Flow.pass) (hblock : blockComment s data st = Flow.pass)
    (hstr : stringLiteral s data st c = Flow.pass)
    (hflag : s.flags &&& HL_HIGHLIGHT_NUMBERS ≠ 0)
    (hdig : isdigit c = true ∨ (c = 46 ∧ ∃ d, data[st.i + 1]? = some d ∧ isdigit d = true))
    (hp : st.prev_sep = true) :
    ∃ st2, scanBody env s data st = Flow.next st2 ∧ st.i < st2.i ∧ st2.i ≤ data.length ∧
      SpecNumberForm ((data.drop st.i).take (st2.i - st.i)) ∧
      ∀ p, p <+: data.drop st.i → SpecNumberForm p → p.length ≤ st2.i - st.i := by
  have hi := getElem?_lt hc
  have hdig2 : isdigit c = true ∨ c = 46 := by
    rcases hdig with h | h
    · exact Or.inl h
    · exact Or.inr h.1
  obtain ⟨hb1, hs1, hs3, -, hspan⟩ := numberSpan_spec data st.i c hc hdig2
  have heq := numberLiteral_eq env s data st c hi hl hflag hdig2 hp
  have hdot : ¬ (c = 46 ∧ numberEnd data st.i c = st.i + 1) := by
    rintro ⟨h46, hend⟩
    subst h46
    rcases hdig with h | ⟨-, d, hd, hdd⟩
    · exact absurd h (by decide)
    · have := (numberEnd_dot data st.i hc).1 hend d hd
      rw [hdd] at this
      exact absurd this (by simp)
  rw [if_neg hdot] at heq
  by_cases hcm : numberCommits env data (floatSuffix data (numberEnd data st.i c)) = true
  · rw [if_pos hcm] at heq
    exact ⟨_, scanBody_number env s data st _ c hc hline hblock hstr heq,
      by simp only []; omega, by simp only []; omega, hspan hdot⟩
  · rw [if_neg hcm] at heq
    exact ⟨_, scanBody_number env s data st _ c hc hline hblock hstr heq,
      by simp only []; omega, by simp only []; omega, hspan hdot⟩

theorem number_grammar_witness :
    ∃ st2, scanBody sampleEnv sampleRule sampleNumber (scanStart sampleNumber false) =
        Flow.next st2 ∧
      (scanStart sampleNumber false).i < st2.i ∧ st2.i ≤ sampleNumber.length ∧
      SpecNumberForm ((sampleNumber.drop (scanStart sampleNumber false).i).take
        (st2.i - (scanStart sampleNumber false).i)) ∧
      ∀ p, p <+: sampleNumber.drop (scanStart sampleNumber false).i →
        SpecNumberForm p → p.length ≤ st2.i - (scanStart sampleNumber false).i :=
  number_grammar sampleEnv sampleRule sampleNumber (scanStart sampleNumber false) 49
    (by decide) (by decide) (by decide) (by decide) (by decide) (by decide)
    (Or.inl (by decide)) rfl

/-- C34, as stated, fails at a `.` that ends the digits of a number.  In the row `1.`
under `sampleRule`, which has numbers enabled, the character at the position 1 is a
`.` that no digit follows: it is the last character of the row.  The number scan that
starts at the position 0 consumes it with the digit, the span ends at the end of the
row, and both characters get the class number in the row that `editorUpdateSyntax`
leaves. -/
theorem number_dot_in_span :
    sampleOneDot[1]? = some 46 ∧
    (∀ d, sampleOneDot[1 + 1]? = some d → isdigit d = false) ∧
    scanRow sampleEnv sampleRule sampleOneDot false =
      some { i := 2, prev_sep := false, in_string := 0, in_comment := false,
             hl := [6, 6] } ∧
    editorUpdateSyntax sampleEnv 0 sampleOneDotFile 0 =
      some { sampleOneDotFile with
        row := [{ data := sampleOneDot, hl := [6, 6], hl_open_comment := false }] } ∧
    ¬ (∀ j, sampleOneDot[j]? = some 46 →
        (∀ d, sampleOneDot[j + 1]? = some d → isdigit d = false) →
        ∃ f1 x b, editorUpdateSyntax sampleEnv 0 sampleOneDotFile 0 = some f1 ∧
          f1.row[0]? = some x ∧ x.hl[j]? = some b ∧ fgClass b ≠ HL_NUMBER) := by
  have hup : editorUpdateSyntax sampleEnv 0 sampleOneDotFile 0 =
      some { sampleOneDotFile with
        row := [{ data := sampleOneDot, hl := [6, 6], hl_open_comment := false }] } := by
    decide!
  have hnext : ∀ d, sampleOneDot[1 + 1]? = some d → isdigit d = false := by
    intro d hd
    have hnone : sampleOneDot[1 + 1]? = none := by decide
    rw [hnone] at hd
    exact absurd hd (by simp)
  refine ⟨by decide, hnext, by decide!, hup, ?_⟩
  intro h
  obtain ⟨f1, x, b, h1, h2, h3, h4⟩ := h 1 (by decide) hnext
  rw [hup] at h1
  have hf := Option.some.inj h1
  rw [← hf] at h2
  simp only [List.getElem?_cons_zero, Option.some.injEq] at h2
  rw [← h2] at h3
  simp only [List.getElem?_cons_succ, List.getElem?_cons_zero, Option.some.injEq] at h3
  rw [← h3] at h4
  exact h4 (by decide)

/-- C34, amended: the commit rule of the number scan.  Let the scan of the row `r`
under the active rule, which has numbers enabled, reach a state with `prev_sep` set
at a position whose character `c` is a digit or `.`, where the parts before the
number part fall through, so that the number scan starts there.  The iteration keeps
`in_string` and `in_comment` and writes nothing outside the span.  If `c` is a `.`
that no digit follows, whatever follows it, only the position changes, by one, and
the `.` has the class normal in the row that `editorUpdateSyntax` leaves.  Otherwise the position moves to the end `e` of the
span and `prev_sep` is cleared; every character of the span gets the class number if
the character at `e` is absent, a separator or whitespace (`numberCommits`), and
keeps the class normal if not, in the state after the iteration and in the row that
`editorUpdateSyntax` leaves. -/
theorem number_commit (env : Externals) (file : EditorFile) (r depth n : Nat)
    (s : EditorSyntax) (row : EditorRow) (st : ScanState) (c : Nat)
    (hrow : file.row[r]? = some row) (hv : ∀ x ∈ file.row, x.Valid)
    (hd : file.row.length ≤ r + 1 + depth)
    (hact : activeRule env file.syntaxDef = some s)
    (hreach : scanSteps env s row.data n (scanStart row.data (lastOpen (file.row.take r))) =
      some st)
    (hc : row.data[st.i]? = some c)
    (hline : lineComment s row.data st = Flow.pass)
    (hblock : blockComment s row.data st = Flow.pass)
    (hstr : stringLiteral s row.data st c = Flow.pass)
    (hflag : s.flags &&& HL_HIGHLIGHT_NUMBERS ≠ 0)
    (hdig : isdigit c = true ∨ c = 46) (hp : st.prev_sep = true) :
    ∃ st2 f1 x, scanBody env s row.data st = Flow.next st2 ∧
      editorUpdateSyntax env depth file r = some f1 ∧ f1.row[r]? = some x ∧
      st2.in_string = st.in_string ∧ st2.in_comment = st.in_comment ∧
      (∀ j, j < st.i ∨ st2.i ≤ j → st2.hl[j]? = st.hl[j]?) ∧
      ((c = 46 ∧ ∀ d, row.data[st.i + 1]? = some d → isdigit d = false) →
        st2 = { st with i := st.i + 1 } ∧ x.hl[st.i]? = some HL_NORMAL) ∧
      (¬ (c = 46 ∧ ∀ d, row.data[st.i + 1]? = some d → isdigit d = false) →
        st2.i = floatSuffix row.data (numberEnd row.data st.i c) ∧ st2.prev_sep = false ∧
        ∀ j, st.i ≤ j → j < st2.i →
          st2.hl[j]? =
            some (if numberCommits env row.data st2.i = true then HL_NUMBER else HL_NORMAL) ∧
          x.hl[j]? =
            some (if numberCommits env row.data st2.i = true then HL_NUMBER
              else HL_NORMAL)) := by
  have hi := getElem?_lt hc
  obtain ⟨hl, hnormal⟩ := scanSteps_normal env s row.data _ n st hreach
  obtain ⟨hb1, hs1, hs3, -, hspan⟩ := numberSpan_spec row.data st.i c hc hdig
  have heq := numberLiteral_eq env s row.data st c hi hl hflag hdig hp
  have hframe := numberLiteral_frame env s row.data st c hi hl
  have hlone_iff : (c = 46 ∧ numberEnd row.data st.i c = st.i + 1) ↔
      (c = 46 ∧ ∀ d, row.data[st.i + 1]? = some d → isdigit d = false) := by
    constructor
    · rintro ⟨h1, h2⟩
      subst h1
      exact ⟨rfl, (numberEnd_dot row.data st.i hc).1 h2⟩
    · rintro ⟨h1, h2⟩
      subst h1
      exact ⟨rfl, (numberEnd_dot row.data st.i hc).2 h2⟩
  obtain ⟨st2, hnum⟩ : ∃ st2, numberLiteral env s row.data st c = Flow.next st2 := by
    rw [heq]
    split
    · exact ⟨_, rfl⟩
    · split
      · exact ⟨_, rfl⟩
      · exact ⟨_, rfl⟩
  have hbody := scanBody_number env s row.data st st2 c hc hline hblock hstr hnum
  obtain ⟨hic, his, -, -, -⟩ := numberLiteral_next env s row.data st st2 c hnum
  rw [hnum] at hframe
  obtain ⟨f1, x, stf, fuel2, hup, hx, -, -, hl2, -, hlenf, hkeep, htrail, -, -⟩ :=
    reached_row env file r depth (n + 1) s row st2 hrow hv hd hact
      (scanSteps_succ env s row.data n _ st st2 hreach hi hbody)
  have hfinal : ∀ j, j < st2.i → 46 ≤ row.data[j]?.getD 0 → x.hl[j]? = st2.hl[j]? := by
    intro j hj h46
    rw [updateTrailing_keep row.data _ _ _ j htrail
      (by intro h; rw [h] at h46; simp at h46) (by intro h; rw [h] at h46; simp at h46)]
    exact hkeep j hj
  refine ⟨st2, f1, x, hbody, hup, hx, his, hic, hframe.2, ?_, ?_⟩
  · intro hlone
    have hdot := hlone_iff.2 hlone
    rw [heq, if_pos hdot] at hnum
    have hst2 : st2 = { st with i := st.i + 1 } := (Flow.next.inj hnum).symm
    refine ⟨hst2, ?_⟩
    rw [hfinal st.i (by rw [hst2]; simp) (by rw [hc, hdot.1]; simp), hst2]
    exact hnormal st.i (Nat.le_refl _) hi
  · intro hnl
    have hdot : ¬ (c = 46 ∧ numberEnd row.data st.i c = st.i + 1) := fun h => hnl (hlone_iff.1 h)
    obtain ⟨hform, -⟩ := hspan hdot
    have hchars : ∀ j, st.i ≤ j → j < floatSuffix row.data (numberEnd row.data st.i c) →
        46 ≤ row.data[j]?.getD 0 := by
      intro j hj1 hj2
      have hjl : j < row.data.length := by omega
      have hmem : row.data[j] ∈ (row.data.drop st.i).take
          (floatSuffix row.data (numberEnd row.data st.i c) - st.i) := by
        have hget : ((row.data.drop st.i).take
            (floatSuffix row.data (numberEnd row.data st.i c) - st.i))[j - st.i]? =
            some row.data[j] := by
          rw [List.getElem?_take, if_pos (by omega), List.getElem?_drop,
            show st.i + (j - st.i) = j by omega, List.getElem?_eq_getElem hjl]
        exact List.getElem?_mem hget
      rw [List.getElem?_eq_getElem hjl]
      exact specNumberForm_chars _ hform _ hmem
    rw [heq, if_neg hdot] at hnum
    by_cases hcm : numberCommits env row.data
        (floatSuffix row.data (numberEnd row.data st.i c)) = true
    · rw [if_pos hcm] at hnum
      have hst2 := (Flow.next.inj hnum).symm
      have hi2 : st2.i = floatSuffix row.data (numberEnd row.data st.i c) := by rw [hst2]
      refine ⟨hi2, by rw [hst2], ?_⟩
      intro j hj1 hj2
      have hbyte : st2.hl[j]? = some HL_NUMBER := by
        have hm : memset st.hl st.i HL_NUMBER
            (floatSuffix row.data (numberEnd row.data st.i c) - st.i) = some st2.hl := by
          rw [memset_some HL_NUMBER (by omega),
            show st.i + (floatSuffix row.data (numberEnd row.data st.i c) - st.i) =
              floatSuffix row.data (numberEnd row.data st.i c) by omega, hst2]
        rw [memset_getElem? hm j, if_pos (by omega)]
      rw [hi2, if_pos hcm, hfinal j hj2 (hchars j hj1 (by omega))]
      exact ⟨hbyte, hbyte⟩
    · rw [if_neg hcm] at hnum
      have hst2 := (Flow.next.inj hnum).symm
      have hi2 : st2.i = floatSuffix row.data (numberEnd row.data st.i c) := by rw [hst2]
      refine ⟨hi2, by rw [hst2], ?_⟩
      intro j hj1 hj2
      have hbyte : st2.hl[j]? = some HL_NORMAL := by
        rw [hst2]
        exact hnormal j hj1 (by omega)
      rw [hi2, if_neg hcm, hfinal j hj2 (hchars j hj1 (by omega))]
      exact ⟨hbyte, hbyte⟩

theorem number_commit_witness :
    ∃ st2 f1 x, scanBody sampleEnv sampleRule sampleNumber (scanStart sampleNumber false) =
        Flow.next st2 ∧
      editorUpdateSyntax sampleEnv 0 sampleNumberFile 0 = some f1 ∧ f1.row[0]? = some x ∧
      st2.in_string = (scanStart sampleNumber false).in_string ∧
      st2.in_comment = (scanStart sampleNumber false).in_comment ∧
      (∀ j, j < (scanStart sampleNumber false).i ∨ st2.i ≤ j →
        st2.hl[j]? = (scanStart sampleNumber false).hl[j]?) ∧
      (((49 : Nat) = 46 ∧
          ∀ d, sampleNumber[(scanStart sampleNumber false).i + 1]? = some d →
            isdigit d = false) →
        st2 = { scanStart sampleNumber false with i := (scanStart sampleNumber false).i + 1 } ∧
          x.hl[(scanStart sampleNumber false).i]? = some HL_NORMAL) ∧
      (¬ ((49 : Nat) = 46 ∧
          ∀ d, sampleNumber[(scanStart sampleNumber false).i + 1]? = some d →
            isdigit d = false) →
        st2.i = floatSuffix sampleNumber
          (numberEnd sampleNumber (scanStart sampleNumber false).i 49) ∧
        st2.prev_sep = false ∧
        ∀ j, (scanStart sampleNumber false).i ≤ j → j < st2.i →
          st2.hl[j]? =
            some (if numberCommits sampleEnv sampleNumber st2.i = true then HL_NUMBER
              else HL_NORMAL) ∧
          x.hl[j]? =
            some (if numberCommits sampleEnv sampleNumber st2.i = true then HL_NUMBER
              else HL_NORMAL)) :=
  number_commit sampleEnv sampleNumberFile 0 0 0 sampleRule
    { data := sampleNumber, hl := List.replicate 5 HL_NORMAL, hl_open_comment := false }
    (scanStart sampleNumber false) 49
    rfl (by decide) (by decide) (by decide) rfl (by decide) (by decide) (by decide)
    (by decide) (by decide) (Or.inl (by decide)) rfl

end Highlight

namespace Highlight

/-! ## Results on strings -/

/-- C32, as stated, fails on a string that reaches the trailing whitespace.  The row
`sampleOpenString` (a double quote, `a`, a space) under `sampleRule`, which has
strings enabled: the quote at the position 0 opens a string outside comments, no
later quote closes it, so its span is the whole row.  The scan gives the class string
to the three positions, but in the row that `editorUpdateSyntax` leaves the position
2 holds the byte of the trailing whitespace, whose foreground class is normal: not
every character of the span is classified string. -/
theorem trailing_space_in_string :
    sampleRule.flags &&& HL_HIGHLIGHT_STRINGS ≠ 0 ∧
    sampleOpenString[0]? = some 34 ∧
    StringSpan sampleOpenString 0 34 3 34 ∧
    scanRow sampleEnv sampleRule sampleOpenString false =
      some { i := 3, prev_sep := true, in_string := 34, in_comment := false,
             hl := [5, 5, 5] } ∧
    editorUpdateSyntax sampleEnv 0 sampleOpenStringFile 0 =
      some { sampleOpenStringFile with
        row := [{ data := sampleOpenString, hl := [5, 5, 48], hl_open_comment := false }] } ∧
    fgClass 48 = HL_NORMAL ∧
    ¬ (∀ j, j < 3 → ∃ f1 x b, editorUpdateSyntax sampleEnv 0 sampleOpenStringFile 0 = some f1 ∧
        f1.row[0]? = some x ∧ x.hl[j]? = some b ∧ fgClass b = HL_STRING) := by
  have hup : editorUpdateSyntax sampleEnv 0 sampleOpenStringFile 0 =
      some { sampleOpenStringFile with
        row := [{ data := sampleOpenString, hl := [5, 5, 48], hl_open_comment := false }] } := by
    decide!
  refine ⟨by decide, by decide, by decide, by decide!, hup, by decide, ?_⟩
  intro h
  obtain ⟨f1, x, b, h1, h2, h3, h4⟩ := h 2 (by omega)
  rw [hup] at h1
  have hf := Option.some.inj h1
  rw [← hf] at h2
  simp only [List.getElem?_cons_zero, Option.some.injEq] at h2
  rw [← h2] at h3
  simp only [List.getElem?_cons_succ, List.getElem?_cons_zero, Option.some.injEq] at h3
  rw [← h3] at h4
  exact absurd h4 (by decide)

/-- C32, amended: the span of a string.  Let the active rule have strings enabled,
and let the scan of the row `r` reach a state outside any string and any block
comment at a position that holds a quote character `q`, double or single, where the
comment parts fall through.  Let the span of the string be `st.i .. e - 1`
(`StringSpan`): it ends at the first later `q` that is not immediately preceded by an
escaping backslash, or at the end of the row if there is none.  Then the scan reaches
the position `e` without a `break`, every state on the way is outside a block
comment, and every position of the span gets the class string, whatever characters
the span holds; no other byte is changed.  In the row that `editorUpdateSyntax`
leaves, every position of the span holds the class string, the positions from the
start `t` of the trailing whitespace on holding the byte of the trailing whitespace
instead; and when the string is not closed in the row, the outgoing state of the row
is `false`. -/
theorem string_span (env : Externals) (file : EditorFile) (r depth n t : Nat)
    (s : EditorSyntax) (row : EditorRow) (st : ScanState) (q e fin : Nat)
    (hrow : file.row[r]? = some row) (hv : ∀ x ∈ file.row, x.Valid)
    (hd : file.row.length ≤ r + 1 + depth)
    (hact : activeRule env file.syntaxDef = some s)
    (hreach : scanSteps env s row.data n (scanStart row.data (lastOpen (file.row.take r))) =
      some st)
    (hflag : s.flags &&& HL_HIGHLIGHT_STRINGS ≠ 0)
    (hq : row.data[st.i]? = some q) (hquote : q = 34 ∨ q = 39)
    (hstr : st.in_string = 0) (hcom : st.in_comment = false)
    (hline : lineComment s row.data st = Flow.pass)
    (hblock : blockComment s row.data st = Flow.pass)
    (hspan : StringSpan row.data st.i q e fin)
    (ht : t ≤ row.data.length)
    (hblank : ∀ j, t ≤ j → j < row.data.length →
      row.data[j]? = some 32 ∨ row.data[j]? = some 9)
    (hmax : t = 0 ∨ (row.data[t - 1]? ≠ some 32 ∧ row.data[t - 1]? ≠ some 9)) :
    ∃ m st2 f1 x, scanSteps env s row.data m st = some st2 ∧ st2.i = e ∧
      st2.in_string = fin ∧ st2.in_comment = false ∧
      (∀ m2 st3, m2 ≤ m → scanSteps env s row.data m2 st = some st3 →
        st3.in_comment = false) ∧
      (∀ j, st.i ≤ j → j < e → st2.hl[j]? = some HL_STRING) ∧
      (∀ j, j < st.i ∨ e ≤ j → st2.hl[j]? = st.hl[j]?) ∧
      editorUpdateSyntax env depth file r = some f1 ∧ f1.row[r]? = some x ∧
      (∀ j, st.i ≤ j → j < e →
        x.hl[j]? = some (if t ≤ j then HL_BG_TRAILING <<< HL_FG_BITS else HL_STRING)) ∧
      (fin ≠ 0 → x.hl_open_comment = false) := by
  obtain ⟨hl, -⟩ := scanSteps_normal env s row.data _ n st hreach
  obtain ⟨m, st2, hsteps, hi2, hs2, hc2, hlt, hle, hmid, hhl, hframe⟩ :=
    string_scan env s row.data st q e fin hl hflag hq hquote hstr hcom hline hblock hspan
  obtain ⟨f1, x, stf, fuel2, hup, hx, -, -, hl2, hloop, hlenf, hkeep, htrail, hopen, -⟩ :=
    reached_row env file r depth (n + m) s row st2 hrow hv hd hact
      (scanSteps_add env s row.data n m _ st st2 hreach hsteps)
  refine ⟨m, st2, f1, x, hsteps, hi2, hs2, hc2, hmid, hhl, hframe, hup, hx, ?_, ?_⟩
  · intro j hj1 hj2
    have hxe := updateTrailing_eq row.data row.data.length stf.hl t (Nat.le_refl _) hlenf ht
      hblank hmax
    rw [htrail] at hxe
    rw [Option.some.inj hxe, List.drop_eq_nil_of_le (by omega), List.append_nil]
    by_cases htj : t ≤ j
    · rw [if_pos htj, List.getElem?_append_right (by rw [List.length_take]; omega),
        List.getElem?_replicate, if_pos (by rw [List.length_take]; omega)]
    · rw [if_neg htj, List.getElem?_append_left (by rw [List.length_take]; omega),
        List.getElem?_take, if_pos (by omega), hkeep j (by omega)]
      exact hhl j hj1 hj2
  · intro hfin
    have he : e = row.data.length := by
      rcases hspan with ⟨k, -, h0, -, -⟩ | ⟨h, -, -⟩
      · exact absurd h0 hfin
      · exact h
    have hge : ¬ st2.i < row.data.length := by omega
    have hstf : stf = st2 := by
      cases fuel2 with
      | zero =>
        simp only [scanLoop, if_neg hge, Option.some.injEq] at hloop
        exact hloop.symm
      | succ f =>
        simp only [scanLoop, if_neg hge, Option.some.injEq] at hloop
        exact hloop.symm
    rw [hopen, hstf]
    exact hc2

theorem string_span_witness :
    ∃ m st2 f1 x,
      scanSteps sampleEnv sampleRule sampleLongString m (scanStart sampleLongString false) =
        some st2 ∧
      st2.i = 8 ∧ st2.in_string = 34 ∧ st2.in_comment = false ∧
      (∀ m2 st3, m2 ≤ m →
        scanSteps sampleEnv sampleRule sampleLongString m2 (scanStart sampleLongString false) =
          some st3 →
        st3.in_comment = false) ∧
      (∀ j, (scanStart sampleLongString false).i ≤ j → j < 8 →
        st2.hl[j]? = some HL_STRING) ∧
      (∀ j, j < (scanStart sampleLongString false).i ∨ 8 ≤ j →
        st2.hl[j]? = (scanStart sampleLongString false).hl[j]?) ∧
      editorUpdateSyntax sampleEnv 0 sampleLongStringFile 0 = some f1 ∧
      f1.row[0]? = some x ∧
      (∀ j, (scanStart sampleLongString false).i ≤ j → j < 8 →
        x.hl[j]? = some (if 7 ≤ j then HL_BG_TRAILING <<< HL_FG_BITS else HL_STRING)) ∧
      ((34 : Nat) ≠ 0 → x.hl_open_comment = false) :=
  string_span sampleEnv sampleLongStringFile 0 0 0 7 sampleRule
    { data := sampleLongString, hl := List.replicate 8 HL_NORMAL, hl_open_comment := false }
    (scanStart sampleLongString false) 34 8 34
    rfl (by decide) (by decide) (by decide) rfl (by decide) (by decide) (Or.inl rfl) rfl rfl
    (by decide) (by decide) (by decide) (by decide)
    (fun j h1 h2 => by
      have h3 : j < 8 := h2
      have h4 : j = 7 := by omega
      subst h4
      exact Or.inl rfl)
    (Or.inr ⟨by decide, by decide⟩)

end Highlight

end LEX
